import Mathlib

/-!
Verification of the diff-multi engine: an attributed diff/merge engine over
Change sequences (track-changes model).  Text is modelled as the sequence of
UTF-16 code units (JavaScript string semantics), i.e. as List Nat.  The
Change type mirrors src/types.ts; the operations mirror
src/normalizeRangeInDiff.ts, src/mergeDiffs.ts, src/semanticDiff.ts,
src/layerDiffs.ts, src/mergeAndLayerDiffs.ts and the applyAndMergeDiffs
entry point, together with a faithful embedding of the deterministic parts
of the diff-match-patch library they call (diff_main and its cleanup
passes).  The library's wall-clock deadline is modelled as never expiring,
matching its behaviour on all inputs small enough to finish in time.
-/

/-- JavaScript string: a list of UTF-16 code units. -/
abbrev Str := List Nat

/-- Builds a Str from a Lean string literal (ASCII/BMP contents). -/
def strOf (s : String) : Str := s.toList.map Char.toNat

/-- Reserved sentinel code points from src/constants.ts. -/
def RANGE_START : Nat := 0xE000

/-- Reserved range-end sentinel from src/constants.ts. -/
def RANGE_END : Nat := 0xE001

/-- Reserved placeholder sentinel from src/constants.ts. -/
def DELETE_PLACEHOLDER : Nat := 0xE002

/-- The Change type from src/types.ts: equal carries no id, insert and
delete carry the owner id (a string). -/
inductive Change where
  | equal (text : Str)
  | ins (text : Str) (id : Str)
  | del (text : Str) (id : Str)
deriving DecidableEq, Repr

namespace Change

/-- Text of a change. -/
def text : Change → Str
  | .equal t => t
  | .ins t _ => t
  | .del t _ => t

/-- True for equal ops. -/
def isEqual : Change → Bool
  | .equal _ => true
  | _ => false

/-- True for insert ops. -/
def isIns : Change → Bool
  | .ins _ _ => true
  | _ => false

/-- True for delete ops. -/
def isDel : Change → Bool
  | .del _ _ => true
  | _ => false

/-- Owner id of a change; equal ops have none. -/
def idOf : Change → Option Str
  | .equal _ => none
  | .ins _ i => some i
  | .del _ i => some i

end Change

/-- Base text of a sequence: concatenation of equal and delete text, in
order (spec section 3). -/
def reconDel (d : List Change) : Str :=
  d.flatMap fun c => match c with
    | .equal t => t
    | .del t _ => t
    | .ins _ _ => []

/-- Visible text of a sequence: concatenation of equal and insert text, in
order (spec section 3). -/
def reconIns (d : List Change) : Str :=
  d.flatMap fun c => match c with
    | .equal t => t
    | .ins t _ => t
    | .del _ _ => []

/-- Per base position, the owner id when that position is covered by a
delete op, mirroring the diff1Deletes/diff1DeleteOwner arrays of
src/mergeDiffs.ts. -/
def paintSrc (d : List Change) : List (Option Str) :=
  d.flatMap fun c => match c with
    | .equal t => t.map fun _ => none
    | .del t i => t.map fun _ => some i
    | .ins _ _ => []

/-- Removes the two range-marker code points from a string. -/
def stripMarkers (t : Str) : Str :=
  t.filter fun c => c ≠ RANGE_START ∧ c ≠ RANGE_END

/-- Accumulator loop of splitTextByRangeMarkers
(src/normalizeRangeInDiff.ts). -/
def splitTextGo : Str → Str → List Str
  | [], cur => if cur = [] then [] else [cur]
  | c :: rest, cur =>
    if c = RANGE_START ∨ c = RANGE_END then
      (if cur = [] then [] else [cur]) ++ [[c]] ++ splitTextGo rest []
    else
      splitTextGo rest (cur ++ [c])

/-- Splits text by range markers, keeping the markers as separate items
(src/normalizeRangeInDiff.ts splitTextByRangeMarkers). -/
def splitTextByRangeMarkers (t : Str) : List Str :=
  splitTextGo t []

/-- Splits inserts containing range markers into separate insert operations
(src/normalizeRangeInDiff.ts splitRangeMarkers). -/
def splitRangeMarkers (diff : List Change) : List Change :=
  diff.flatMap fun c => match c with
    | .ins t i =>
      if RANGE_START ∈ t ∨ RANGE_END ∈ t then
        ((splitTextByRangeMarkers t).filter fun p => p ≠ []).map fun p => .ins p i
      else [c]
    | _ => [c]

/-- Unique ids of non-equal ops, in first-occurrence order (JS Set
iteration order), mirroring getUniqueIds. -/
def uniqueIds (diff : List Change) : List Str :=
  diff.foldl (fun acc c => match c.idOf with
    | none => acc
    | some i => if i ∈ acc then acc else acc ++ [i]) []

/-- Checks if a change is a range marker insert
(src/normalizeRangeInDiff.ts isRangeMarker). -/
def isRangeMarker (c : Change) : Bool :=
  match c with
  | .ins t _ => t = [RANGE_START] ∨ t = [RANGE_END]
  | _ => false

/-- Index scan of normalizeRangeForId: indices of the (last-seen) range
markers and first/last content edits for the target id. -/
structure MarkerScan where
  rs : Option Nat
  re : Option Nat
  fc : Option Nat
  lc : Option Nat
deriving Repr

/-- One update of the index scan at the top of normalizeRangeForId. -/
def scanUpd (targetId : Str) (st : MarkerScan) (c : Change) (i : Nat) : MarkerScan :=
  match c with
  | .equal _ => st
  | .ins t j =>
    if j ≠ targetId then st
    else if t = [RANGE_START] then { st with rs := some i }
    else if t = [RANGE_END] then { st with re := some i }
    else { st with fc := st.fc.orElse fun _ => some i, lc := some i }
  | .del _ j =>
    if j ≠ targetId then st
    else { st with fc := st.fc.orElse fun _ => some i, lc := some i }

/-- Recursion of the index scan, carrying the current index. -/
def scanGo (targetId : Str) : List Change → Nat → MarkerScan → MarkerScan
  | [], _, st => st
  | c :: rest, i, st => scanGo targetId rest (i + 1) (scanUpd targetId st c i)

/-- Scans a diff for the marker/content indices of one id, following the
loop at the top of normalizeRangeForId (later marker occurrences overwrite
earlier ones). -/
def scanForId (diff : List Change) (targetId : Str) : MarkerScan :=
  scanGo targetId diff 0 ⟨none, none, none, none⟩

/-- Recursion of findRangeEndIdx, carrying the current index. -/
def findReGo (targetId : Str) : List Change → Nat → Option Nat
  | [], _ => none
  | c :: rest, i =>
    match c with
    | .ins t j =>
      if j = targetId ∧ t = [RANGE_END] then some i else findReGo targetId rest (i + 1)
    | _ => findReGo targetId rest (i + 1)

/-- Finds the index of the first RANGE_END insert for a given id
(src/normalizeRangeInDiff.ts findRangeEndIdx). -/
def findRangeEndIdx (diff : List Change) (targetId : Str) : Option Nat :=
  findReGo targetId diff 0

/-- Recursion of findLastContentEditIdx, carrying the current index. -/
def findLcGo (targetId : Str) : List Change → Nat → Option Nat → Option Nat
  | [], _, acc => acc
  | c :: rest, i, acc =>
    if c.isEqual then findLcGo targetId rest (i + 1) acc
    else if c.idOf = some targetId ∧ ¬ isRangeMarker c then
      findLcGo targetId rest (i + 1) (some i)
    else findLcGo targetId rest (i + 1) acc

/-- Finds the index of the last non-marker content edit for a given id
(src/normalizeRangeInDiff.ts findLastContentEditIdx). -/
def findLastContentEditIdx (diff : List Change) (targetId : Str) : Option Nat :=
  findLcGo targetId diff 0 none

/-- Removes the element at index i and reinserts it at index j (the two
splice calls of normalizeRangeForId). -/
def spliceMove (l : List Change) (i j : Nat) : List Change :=
  match l.get? i with
  | none => l
  | some x => (l.eraseIdx i).insertIdx j x

/-- Normalizes range markers for a specific id
(src/normalizeRangeInDiff.ts normalizeRangeForId). -/
def normalizeRangeForId (diff : List Change) (targetId : Str) : List Change :=
  let s := scanForId diff targetId
  match s.fc, s.lc with
  | some fc, some lc =>
    let step1 :=
      match s.rs with
      | some rs => if fc < rs then spliceMove diff rs fc else diff
      | none => diff
    let re2 :=
      match s.rs with
      | some rs => if fc < rs then findRangeEndIdx step1 targetId else s.re
      | none => s.re
    let lc2 :=
      match s.rs with
      | some rs => if fc < rs then findLastContentEditIdx step1 targetId else some lc
      | none => some lc
    match re2, lc2 with
    | some re, some l2 =>
      if re < l2 then
        match step1.get? re with
        | none => step1
        | some x => (step1.eraseIdx re).insertIdx (l2 - 1 + 1) x
      else step1
    | _, _ => step1
  | _, _ => diff

/-- Normalizes range markers in a diff
(src/normalizeRangeInDiff.ts normalizeRangeInDiff). -/
def normalizeRangeInDiff (diff : List Change) : List Change :=
  let r := splitRangeMarkers diff
  (uniqueIds r).foldl (fun acc i => normalizeRangeForId acc i) r

/-- Substring base.slice(i, i+n) as in JS String.prototype.slice with
in-range arguments. -/
def sliceStr (base : Str) (i n : Nat) : Str :=
  (base.drop i).take n

/-- Nonempty delete intervals of a diff over its base offsets starting at
o, mirroring diff1DeleteIntervals of src/mergeDiffs.ts. -/
def delIntervalsO (o : Nat) : List Change → List (Nat × Nat)
  | [] => []
  | .ins _ _ :: rest => delIntervalsO o rest
  | .equal t :: rest => delIntervalsO (o + t.length) rest
  | .del t _ :: rest =>
    (if t ≠ [] then [(o, o + t.length)] else []) ++ delIntervalsO (o + t.length) rest

/-- Nonempty delete intervals of a diff over its base offsets. -/
def delIntervals (d : List Change) : List (Nat × Nat) :=
  delIntervalsO 0 d

/-- Nonempty insert entries of a diff, each with the base offset (starting
at o) at which it is anchored, in walk order (the diff1Inserts buckets of
src/mergeDiffs.ts, flattened). -/
def insertEntriesO (o : Nat) : List Change → List (Nat × Str × Str)
  | [] => []
  | .ins t i :: rest =>
    (if t ≠ [] then [(o, t, i)] else []) ++ insertEntriesO o rest
  | .equal t :: rest => insertEntriesO (o + t.length) rest
  | .del t _ :: rest => insertEntriesO (o + t.length) rest

/-- Nonempty insert entries of a diff with their base offsets. -/
def insertEntries (d : List Change) : List (Nat × Str × Str) :=
  insertEntriesO 0 d

/-- Interval-cursor advance loop inside isInsideDiff1Delete: skips
intervals whose end is at or before the queried index. -/
def advIntGo : Nat → List (Nat × Nat) → Nat → Nat → Nat
  | 0, _, intIdx, _ => intIdx
  | fuel + 1, intervals, intIdx, idx =>
    match intervals.get? intIdx with
    | none => intIdx
    | some iv => if idx < iv.2 then intIdx else advIntGo fuel intervals (intIdx + 1) idx

/-- The stateful isInsideDiff1Delete check of src/mergeDiffs.ts: returns
whether idx falls strictly inside the current delete interval, along with
the advanced interval cursor. -/
def isInsideDiff1Delete (intervals : List (Nat × Nat)) (intIdx idx : Nat) :
    Bool × Nat :=
  let j := advIntGo intervals.length intervals intIdx idx
  match intervals.get? j with
  | none => (false, j)
  | some iv => (decide (iv.1 < idx ∧ idx < iv.2), j)

/-- State of the diff2 walk in mergeTwoDiffs. -/
structure Walk2State where
  idx : Nat
  intIdx : Nat
  ins2 : List (Nat × Str × Str)
  del2 : List (Nat × Str)
  pieces2 : List Str
deriving Repr

/-- One step of the diff2 walk of mergeTwoDiffs: validates the op against
the shared base and records diff2's insert and delete facts; returns none
exactly where the source returns null. -/
def walk2Step (base : Str) (paint1 : Nat → Option Str)
    (intervals : List (Nat × Nat)) (st : Walk2State) (c : Change) :
    Option Walk2State :=
  match c with
  | .ins t i =>
    let r := isInsideDiff1Delete intervals st.intIdx st.idx
    if r.1 then none
    else some { st with
      intIdx := r.2
      ins2 := if t ≠ [] then st.ins2 ++ [(st.idx, t, i)] else st.ins2 }
  | .equal t =>
    if sliceStr base st.idx t.length = t then
      some { st with
        idx := st.idx + t.length
        pieces2 := if t ≠ [] then st.pieces2 ++ [t] else st.pieces2 }
    else none
  | .del t i =>
    if sliceStr base st.idx t.length = t then
      if (List.range t.length).any (fun k => (paint1 (st.idx + k)).isSome) then none
      else
        some { st with
          idx := st.idx + t.length
          pieces2 := if t ≠ [] then st.pieces2 ++ [t] else st.pieces2
          del2 := st.del2 ++ (List.range t.length).map fun k => (st.idx + k, i) }
    else none

/-- The whole diff2 walk, followed by the final base-length and
base-reconstruction checks of mergeTwoDiffs. -/
def walk2 (base : Str) (paint1 : Nat → Option Str)
    (intervals : List (Nat × Nat)) (diff2 : List Change) : Option Walk2State := do
  let st ← diff2.foldlM (walk2Step base paint1 intervals)
    ⟨0, 0, [], [], []⟩
  if st.idx = base.length ∧ st.pieces2.flatten = base then some st else none

/-- The id fallback chain owner-or-first-op-id-or-literal used when
emitting a delete in mergeTwoDiffs (JS falsy chaining on empty strings). -/
def fallbackId (d : List Change) (lit : Str) : Str :=
  let g := match d.head? with
    | some c => (c.idOf).getD []
    | none => []
  if g = [] then lit else g

/-- The pushChange helper of mergeTwoDiffs: drops empty text, coalesces
with the last op of the same kind (and id), and throws when a non-equal op
is pushed with an empty id. -/
def pushChange (res : List Change) (c : Change) : Except Unit (List Change) :=
  match c with
  | .equal t =>
    if t = [] then .ok res
    else match res.getLast? with
      | some (.equal t0) => .ok (res.dropLast ++ [.equal (t0 ++ t)])
      | _ => .ok (res ++ [.equal t])
  | .ins t i =>
    if t = [] then .ok res
    else if i = [] then .error ()
    else match res.getLast? with
      | some (.ins t0 i0) =>
        if i0 = i then .ok (res.dropLast ++ [.ins (t0 ++ t) i]) else .ok (res ++ [.ins t i])
      | _ => .ok (res ++ [.ins t i])
  | .del t i =>
    if t = [] then .ok res
    else if i = [] then .error ()
    else match res.getLast? with
      | some (.del t0 i0) =>
        if i0 = i then .ok (res.dropLast ++ [.del (t0 ++ t) i]) else .ok (res ++ [.del t i])
      | _ => .ok (res ++ [.del t i])

/-- Emission at one base offset of mergeTwoDiffs: first diff1's inserts
anchored there, then diff2's, then (below the base length) the base
character as delete or equal. -/
def emitAt (base : Str) (ins1 ins2 : Nat → List (Str × Str))
    (pnt1 pnt2 : Nat → Option Str) (fb1 fb2 : Str) (res : List Change)
    (i : Nat) : Except Unit (List Change) := do
  let res ← (ins1 i).foldlM (fun r e => pushChange r (.ins e.1 e.2)) res
  let res ← (ins2 i).foldlM (fun r e => pushChange r (.ins e.1 e.2)) res
  if i < base.length then
    let ch := [(base.get? i).getD 0]
    match pnt1 i with
    | some o => pushChange res (.del ch (if o = [] then fb1 else o))
    | none =>
      match pnt2 i with
      | some o => pushChange res (.del ch (if o = [] then fb2 else o))
      | none => pushChange res (.equal ch)
  else
    pure res

/-- Pairwise merge of two diffs sharing a base (src/mergeDiffs.ts
mergeTwoDiffs).  Returns ok none for the null conflict signal and error
for the exception thrown on an empty insert id. -/
def mergeTwoDiffs (diff1 diff2 : List Change) : Except Unit (Option (List Change)) := do
  let base := reconDel diff1
  let paint1 : Nat → Option Str := fun p => ((paintSrc diff1).get? p).join
  let intervals := delIntervals diff1
  match walk2 base paint1 intervals diff2 with
  | none => return none
  | some st =>
    let ins1 : Nat → List (Str × Str) := fun i =>
      ((insertEntries diff1).filter fun e => e.1 = i).map fun e => e.2
    let ins2f : Nat → List (Str × Str) := fun i =>
      (st.ins2.filter fun e => e.1 = i).map fun e => e.2
    let pnt2 : Nat → Option Str := fun p =>
      (st.del2.reverse.find? fun a => a.1 = p).map fun a => a.2
    let fb1 := fallbackId diff1 (strOf "diff1")
    let fb2 := fallbackId diff2 (strOf "diff2")
    let r ← (List.range (base.length + 1)).foldlM
      (emitAt base ins1 ins2f paint1 pnt2 fb1 fb2) []
    return some r

/-- N-way merge (src/mergeDiffs.ts mergeDiffs): left fold of mergeTwoDiffs
followed by range canonicalization; the empty input yields the empty
sequence. -/
def mergeDiffs (diffs : List (List Change)) : Except Unit (Option (List Change)) :=
  match diffs with
  | [] => .ok (some [])
  | first :: rest => do
    let folded ← rest.foldlM (fun acc cur =>
      match acc with
      | none => pure (none : Option (List Change))
      | some c => mergeTwoDiffs c cur) (some first)
    match folded with
    | none => return none
    | some r => return some (normalizeRangeInDiff r)

deriving instance DecidableEq for Except

/-- Edit A of the spec section 8 merge scenario: deletes quick from the
shared base. -/
def scenarioA : List Change :=
  [Change.equal (strOf "The "), Change.del (strOf "quick ") (strOf "A"),
   Change.equal (strOf "brown fox")]

/-- Edit B of the spec section 8 merge scenario: deletes brown from the
shared base. -/
def scenarioB : List Change :=
  [Change.equal (strOf "The quick "), Change.del (strOf "brown ") (strOf "B"),
   Change.equal (strOf "fox")]

/-- Base offset of the k-th op of a sequence: the length of the
equal-plus-delete text preceding it. -/
def offAt (d : List Change) (k : Nat) : Nat :=
  (reconDel (d.take k)).length

/-- Claim-side condition (spec section 4.4 step 2): the second sequence
deletes a base position the first also deletes. -/
def overlapDel (a b : List Change) : Prop :=
  ∃ p, (((paintSrc a).get? p).join).isSome ∧ (((paintSrc b).get? p).join).isSome

/-- Claim-side condition (spec section 4.4 step 2): the second sequence
has an insert op whose offset falls strictly inside one of the first
sequence's deleted intervals, at neither edge. -/
def insideIns (a b : List Change) : Prop :=
  ∃ k, (∃ t i, b.get? k = some (.ins t i)) ∧
    ∃ iv ∈ delIntervals a, iv.1 < offAt b k ∧ offAt b k < iv.2

/-- Claim-side condition (spec section 4.4 steps 2 and 3): the
equal-plus-delete text of the two sequences does not reconstruct the same
base string. -/
def baseMismatch (a b : List Change) : Prop :=
  reconDel b ≠ reconDel a

/-- All delete-covered base positions (starting at offset o) of a sequence
with their owners, in walk order (what the diff2Deletes/diff2DeleteOwner
arrays hold after a successful walk). -/
def delAssignO (o : Nat) : List Change → List (Nat × Str)
  | [] => []
  | .ins _ _ :: rest => delAssignO o rest
  | .equal t :: rest => delAssignO (o + t.length) rest
  | .del t i :: rest =>
    (List.range t.length).map (fun k => (o + k, i)) ++ delAssignO (o + t.length) rest

/-- A sequence has no insert op with nonempty text and an empty owner id
(the inputs on which mergeTwoDiffs cannot throw). -/
def insertIdsOk (d : List Change) : Prop :=
  ∀ c ∈ d, ∀ t i, c = Change.ins t i → t ≠ [] → i = [] → False

/-- Stateless specification of the per-op checks of the diff2 walk of
mergeTwoDiffs: succeeds iff the walk with the interval cursor reaches the
end (proved below), checking each op against the base at its running
offset. -/
def specGo (base : Str) (paint1 : Nat → Option Str)
    (intervals : List (Nat × Nat)) : List Change → Nat → Bool
  | [], _ => true
  | c :: rest, idx =>
    match c with
    | .ins _ _ =>
      (!(intervals.any fun iv => decide (iv.1 < idx ∧ idx < iv.2))) &&
        specGo base paint1 intervals rest idx
    | .equal t =>
      (decide (sliceStr base idx t.length = t)) &&
        specGo base paint1 intervals rest (idx + t.length)
    | .del t _ =>
      (decide (sliceStr base idx t.length = t)) &&
        (!((List.range t.length).any fun k => (paint1 (idx + k)).isSome)) &&
        specGo base paint1 intervals rest (idx + t.length)

/-- Invariant of the interval cursor of isInsideDiff1Delete: every
interval strictly before the cursor ends at or before the current walk
offset. -/
def cursorWF (intervals : List (Nat × Nat)) (intIdx idx : Nat) : Prop :=
  ∀ j, j < intIdx → ∀ iv, intervals.get? j = some iv → iv.2 ≤ idx

/-- Per base position, whether the sequence classifies it as deleted
(true) or kept (false). -/
def paintB (d : List Change) : List Bool :=
  (paintSrc d).map Option.isSome

/-- Concatenated insert text anchored at base offset k of a sequence: the
text of all insert ops occurring when exactly k base characters
(equal or delete) have been passed. -/
def insConcatAt : List Change → Nat → Str
  | [], _ => []
  | .ins t _ :: rest, k => (if k = 0 then t else []) ++ insConcatAt rest k
  | .equal t :: rest, k =>
    if k < t.length then [] else insConcatAt rest (k - t.length)
  | .del t _ :: rest, k =>
    if k < t.length then [] else insConcatAt rest (k - t.length)

/-- Extraction equivalence of two Change sequences: same base text, same
paint, same visible text and same anchored insert runs.  Coalescing
adjacent ops preserves it. -/
def ExtEq (x y : List Change) : Prop :=
  reconDel x = reconDel y ∧ paintSrc x = paintSrc y ∧ reconIns x = reconIns y ∧
  ∀ k, insConcatAt x k = insConcatAt y k

/-- The ops pushed by one offset step of the mergeTwoDiffs emission, in
push order. -/
def emitChunk (base : Str) (ins1 ins2 : Nat → List (Str × Str))
    (pnt1 pnt2 : Nat → Option Str) (fb1 fb2 : Str) (i : Nat) : List Change :=
  ((ins1 i).map fun e => Change.ins e.1 e.2) ++
  ((ins2 i).map fun e => Change.ins e.1 e.2) ++
  (if i < base.length then
    [match pnt1 i with
     | some o => Change.del [(base.get? i).getD 0] (if o = [] then fb1 else o)
     | none =>
       match pnt2 i with
       | some o => Change.del [(base.get? i).getD 0] (if o = [] then fb2 else o)
       | none => Change.equal [(base.get? i).getD 0]]
   else [])

/-- Owner option painted for the base character emitted at offset i: the
first side's delete owner wins, then the second side's, with the empty-id
fallback applied. -/
def chunkOwner (pnt1 pnt2 : Nat → Option Str) (fb1 fb2 : Str) (i : Nat) : Option Str :=
  match pnt1 i with
  | some o => some (if o = [] then fb1 else o)
  | none =>
    match pnt2 i with
    | some o => some (if o = [] then fb2 else o)
    | none => none

/-- Concatenated texts of one side's insert bucket at offset k. -/
def bucketText (insf : Nat → List (Str × Str)) (k : Nat) : Str :=
  ((insf k).map fun e => e.1).flatten

/-- Ownership test of normalizeRangeForId's scan: non-equal op carrying
exactly this id (equal ops carry none). -/
def relOf (id : Str) (c : Change) : Bool :=
  c.idOf = some id

/-- Content op of an id in the sense of normalizeRangeForId: owned by the
id and not a bare range-marker insert. -/
def contentOf (id : Str) (c : Change) : Bool :=
  relOf id c && !(isRangeMarker c)

/-- Bare RANGE_START insert op of an id. -/
def isRSOf (id : Str) (c : Change) : Bool :=
  c = .ins [RANGE_START] id

/-- Bare RANGE_END insert op of an id. -/
def isREOf (id : Str) (c : Change) : Bool :=
  c = .ins [RANGE_END] id

/-- A sequence carries at most one bare RANGE_START insert and at most one
bare RANGE_END insert for the id (the inputs on which the last-seen marker
of the scan is the only one). -/
def uniqueMarkers (d : List Change) (id : Str) : Prop :=
  d.count (Change.ins [RANGE_START] id) ≤ 1 ∧
  d.count (Change.ins [RANGE_END] id) ≤ 1

/-- Marker placement for one id: every bare RANGE_START insert of the id
precedes every content op of the id, and every bare RANGE_END insert of
the id follows every content op of the id. -/
def placedOk (d : List Change) (id : Str) : Prop :=
  (∀ i j ci cj, d.get? i = some ci → d.get? j = some cj →
    isRSOf id ci = true → contentOf id cj = true → i < j) ∧
  (∀ i j ci cj, d.get? i = some ci → d.get? j = some cj →
    isREOf id ci = true → contentOf id cj = true → j < i)

/-- Every insert op whose text touches a range marker is a bare
single-marker insert (the state splitRangeMarkers establishes). -/
def markersIsolated (d : List Change) : Prop :=
  ∀ t i, Change.ins t i ∈ d → RANGE_START ∈ t ∨ RANGE_END ∈ t →
    t = [RANGE_START] ∨ t = [RANGE_END]

/-- Index (from a running offset) of the first op matching a predicate. -/
def firstIdxFrom (p : Change → Bool) : List Change → Nat → Option Nat
  | [], _ => none
  | c :: rest, i => if p c then some i else firstIdxFrom p rest (i + 1)

/-- Index (from a running offset) of the last op matching a predicate,
carrying the best match so far. -/
def lastIdxFrom (p : Change → Bool) : List Change → Nat → Option Nat → Option Nat
  | [], _, acc => acc
  | c :: rest, i, acc => lastIdxFrom p rest (i + 1) (if p c then some i else acc)

/-- Op tag of a diff-match-patch tuple: -1 (delete), 1 (insert), 0 (equal)
in the JavaScript library. -/
inductive DTag where
  | delT
  | insT
  | eqT
deriving DecidableEq, Repr

/-- One diff-match-patch diff tuple (op, text). -/
abbrev DmpDiff := DTag × Str

/-- Base-side reconstruction of a dmp diff list: concatenation of equal
and delete texts. -/
def dmpDel (diffs : List DmpDiff) : Str :=
  diffs.flatMap fun d => if d.1 = DTag.insT then [] else d.2

/-- New-side reconstruction of a dmp diff list: concatenation of equal
and insert texts. -/
def dmpIns (diffs : List DmpDiff) : Str :=
  diffs.flatMap fun d => if d.1 = DTag.delT then [] else d.2

/-- Length of the longest common prefix of two strings (the value computed
by the binary-search loop of diff_commonPrefix in diff-match-patch). -/
def diff_commonPrefix : Str → Str → Nat
  | a :: r1, b :: r2 => if a = b then diff_commonPrefix r1 r2 + 1 else 0
  | _, _ => 0

/-- Length of the longest common suffix of two strings (the value computed
by the binary-search loop of diff_commonSuffix in diff-match-patch). -/
def diff_commonSuffix (t1 t2 : Str) : Nat :=
  diff_commonPrefix t1.reverse t2.reverse

/-- Largest k with the last k characters of the first string equal to the
first k characters of the second (the value computed by the indexOf loop
of diff_commonOverlap in diff-match-patch). -/
def overlapGo (t1 t2 : Str) : Nat → Nat
  | 0 => 0
  | k + 1 =>
    if t1.drop (t1.length - (k + 1)) = t2.take (k + 1) then k + 1
    else overlapGo t1 t2 k

/-- Overlap between the suffix of the first and the prefix of the second
string (diff_commonOverlap of diff-match-patch). -/
def diff_commonOverlap (t1 t2 : Str) : Nat :=
  overlapGo t1 t2 (min t1.length t2.length)

/-- First index at or after start where the needle occurs in the haystack
(JavaScript String.indexOf with a fromIndex), none when absent. -/
def indexOfGo (hay needle : Str) : Nat → Nat → Option Nat
  | _, 0 => none
  | i, fuel + 1 =>
    if i + needle.length ≤ hay.length ∧ (hay.drop i).take needle.length = needle
    then some i
    else if i < hay.length then indexOfGo hay needle (i + 1) fuel
    else none

/-- JavaScript String.indexOf(needle, start) on code-unit lists. -/
def indexOfFrom (hay needle : Str) (start : Nat) : Option Nat :=
  if needle = [] then some (min start hay.length)
  else indexOfGo hay needle start (hay.length + 1)

/-- JavaScript String.indexOf(needle). -/
def indexOfStr (hay needle : Str) : Option Nat :=
  indexOfFrom hay needle 0

/-- Accumulator of the first pointer loop of diff_cleanupMerge: committed
ops, pending insert/delete op counts and concatenated texts. -/
structure CMState where
  out : List DmpDiff
  cd : Nat
  ci : Nat
  td : Str
  ti : Str

/-- One step of the first diff_cleanupMerge loop: accumulate edit runs,
flush at each equality, factoring common prefixes and suffixes of a mixed
run into the neighbouring equalities. -/
def cm1Step (st : CMState) (d : DmpDiff) : CMState :=
  match d.1 with
  | .insT => { st with ci := st.ci + 1, ti := st.ti ++ d.2 }
  | .delT => { st with cd := st.cd + 1, td := st.td ++ d.2 }
  | .eqT =>
    let t := d.2
    if st.cd + st.ci > 1 then
      let s1 :=
        if st.cd ≠ 0 ∧ st.ci ≠ 0 then
          let p := diff_commonPrefix st.ti st.td
          let s0 :=
            if p ≠ 0 then
              (match st.out.getLast? with
               | some (DTag.eqT, t0) =>
                 st.out.dropLast ++ [((DTag.eqT, t0 ++ st.ti.take p) : DmpDiff)]
               | _ => ((DTag.eqT, st.ti.take p) : DmpDiff) :: st.out,
               st.td.drop p, st.ti.drop p)
            else (st.out, st.td, st.ti)
          let s := diff_commonSuffix s0.2.2 s0.2.1
          if s ≠ 0 then
            (s0.1, s0.2.1.take (s0.2.1.length - s), s0.2.2.take (s0.2.2.length - s),
             s0.2.2.drop (s0.2.2.length - s) ++ t)
          else (s0.1, s0.2.1, s0.2.2, t)
        else (st.out, st.td, st.ti, t)
      { out := s1.1 ++
          (if s1.2.1 ≠ [] then [((DTag.delT, s1.2.1) : DmpDiff)] else []) ++
          (if s1.2.2.1 ≠ [] then [((DTag.insT, s1.2.2.1) : DmpDiff)] else []) ++
          [(DTag.eqT, s1.2.2.2)],
        cd := 0, ci := 0, td := [], ti := [] }
    else if st.cd + st.ci = 1 then
      { out := st.out ++
          (if st.cd = 1 then [((DTag.delT, st.td) : DmpDiff)]
           else [((DTag.insT, st.ti) : DmpDiff)]) ++ [(DTag.eqT, t)],
        cd := 0, ci := 0, td := [], ti := [] }
    else
      { out :=
          match st.out.getLast? with
          | some (DTag.eqT, t0) => st.out.dropLast ++ [(DTag.eqT, t0 ++ t)]
          | _ => st.out ++ [(DTag.eqT, t)],
        cd := 0, ci := 0, td := [], ti := [] }

/-- First loop of diff_cleanupMerge: append the empty-equality sentinel,
fold the merge step, pop a trailing empty op. -/
def diff_cleanupMerge1 (diffs : List DmpDiff) : List DmpDiff :=
  let st := (diffs ++ [(DTag.eqT, [])]).foldl cm1Step ⟨[], 0, 0, [], []⟩
  match st.out.getLast? with
  | some d => if d.2 = [] then st.out.dropLast else st.out
  | none => st.out

/-- Second loop of diff_cleanupMerge: slide single edits sandwiched
between equalities over an equality they begin or end with. -/
def shiftGo : Nat → List DmpDiff → List DmpDiff → Bool → List DmpDiff × Bool
  | 0, out, l, ch => (out ++ l, ch)
  | fuel + 1, out, l, ch =>
    match l with
    | a :: x :: b :: rest =>
      if a.1 = DTag.eqT ∧ b.1 = DTag.eqT then
        if x.2.drop (x.2.length - a.2.length) = a.2 then
          shiftGo fuel (out ++ [(x.1, a.2 ++ x.2.take (x.2.length - a.2.length))])
            ((DTag.eqT, a.2 ++ b.2) :: rest) true
        else if x.2.take b.2.length = b.2 then
          shiftGo fuel (out ++ [(DTag.eqT, a.2 ++ b.2)])
            ((x.1, x.2.drop b.2.length ++ b.2) :: rest) true
        else shiftGo fuel (out ++ [a]) (x :: b :: rest) ch
      else shiftGo fuel (out ++ [a]) (x :: b :: rest) ch
    | _ => (out ++ l, ch)

/-- Fuel-indexed diff_cleanupMerge of diff-match-patch: repeat the merge
and shift loops until the shift loop reports no change (the JS function
recurses on itself in that case; exhausted fuel returns the current
state). -/
def cleanupMergeF : Nat → List DmpDiff → List DmpDiff
  | 0, diffs => diffs
  | fuel + 1, diffs =>
    let d1 := diff_cleanupMerge1 diffs
    let r := shiftGo d1.length [] d1 false
    if r.2 then cleanupMergeF fuel r.1 else r.1

/-- diff_cleanupMerge with enough fuel for the library's recursion on the
inputs arising here. -/
def diff_cleanupMerge (diffs : List DmpDiff) : List DmpDiff :=
  cleanupMergeF ((dmpDel diffs).length + (dmpIns diffs).length + diffs.length + 8)
    diffs

/-- Alphanumeric ASCII character (the complement of the nonAlphaNumericRegex_
class of diff-match-patch). -/
def isAlphaNum (c : Nat) : Bool :=
  (48 ≤ c && c ≤ 57) || (65 ≤ c && c ≤ 90) || (97 ≤ c && c ≤ 122)

/-- JavaScript whitespace class (the whitespaceRegex_ of diff-match-patch). -/
def isSpaceCh (c : Nat) : Bool :=
  c = 9 || c = 10 || c = 11 || c = 12 || c = 13 || c = 32 || c = 0xA0 ||
  c = 0x1680 || (0x2000 ≤ c && c ≤ 0x200A) || c = 0x2028 || c = 0x2029 ||
  c = 0x202F || c = 0x205F || c = 0x3000 || c = 0xFEFF

/-- Line break class (the linebreakRegex_ of diff-match-patch). -/
def isLinebreakCh (c : Nat) : Bool :=
  c = 13 || c = 10

/-- Text matching the blanklineEndRegex_ of diff-match-patch. -/
def blanklineEnd (s : Str) : Bool :=
  List.isSuffixOf [10, 10] s || List.isSuffixOf [10, 13, 10] s

/-- Text matching the blanklineStartRegex_ of diff-match-patch. -/
def blanklineStart (s : Str) : Bool :=
  List.isPrefixOf [10, 10] s || List.isPrefixOf [10, 13, 10] s ||
  List.isPrefixOf [13, 10, 10] s || List.isPrefixOf [13, 10, 13, 10] s

/-- diff_cleanupSemanticScore_ of diff-match-patch: score for a split point
between two strings (6 at an edge, then blank lines, line breaks, sentence
ends, whitespace, non-alphanumeric). -/
def semScore (one two : Str) : Nat :=
  if one = [] ∨ two = [] then 6
  else
    match one.getLast?, two.head? with
    | some c1, some c2 =>
      let na1 := !(isAlphaNum c1)
      let na2 := !(isAlphaNum c2)
      let ws1 := na1 && isSpaceCh c1
      let ws2 := na2 && isSpaceCh c2
      let lb1 := ws1 && isLinebreakCh c1
      let lb2 := ws2 && isLinebreakCh c2
      let bl1 := lb1 && blanklineEnd one
      let bl2 := lb2 && blanklineStart two
      if bl1 || bl2 then 5
      else if lb1 || lb2 then 4
      else if na1 && !ws1 && ws2 then 3
      else if ws1 || ws2 then 2
      else if na1 || na2 then 1
      else 0
    | _, _ => 6

/-- The character-stepping loop of diff_cleanupSemanticLossless: slide the
edit right one character at a time while its first character equals the
first character of the following equality, keeping the best-scoring split
(ties prefer the later split).  The JavaScript loop would spin forever when
the edit and the trailing equality are both empty; its body is then a
no-op, so stopping returns the same best split. -/
def slideGo (e1 ed : Str) : Str → Nat → Str × Str × Str → Str × Str × Str
  | [], _, best => best
  | q0 :: e2rest, bestScore, best =>
    if ed.head? = some q0 then
      let e1' := e1 ++ [q0]
      let ed' := ed.drop 1 ++ [q0]
      let sc := semScore e1' ed' + semScore ed' e2rest
      if bestScore ≤ sc then slideGo e1' ed' e2rest sc (e1', ed', e2rest)
      else slideGo e1' ed' e2rest bestScore best
    else best

/-- Best split of a single edit sandwiched between two equalities, as
computed by diff_cleanupSemanticLossless: first shift the edit fully left
by its common suffix with the preceding equality, then step right keeping
the highest semantic score. -/
def slideBest (eq1 edit eq2 : Str) : Str × Str × Str :=
  let co := diff_commonSuffix eq1 edit
  let st :=
    if co ≠ 0 then
      (eq1.take (eq1.length - co),
       edit.drop (edit.length - co) ++ edit.take (edit.length - co),
       edit.drop (edit.length - co) ++ eq2)
    else (eq1, edit, eq2)
  let sc0 := semScore st.1 st.2.1 + semScore st.2.1 st.2.2
  slideGo st.1 st.2.1 st.2.2 sc0 (st.1, st.2.1, st.2.2)

/-- Pointer loop of diff_cleanupSemanticLossless over committed ops and the
remaining list: each window (equality, edit, equality) is replaced by its
best-scoring equivalent split; emptied equalities are spliced out, re-examining
the neighbouring window exactly as the JavaScript pointer arithmetic does. -/
def losslessGo : Nat → List DmpDiff → List DmpDiff → List DmpDiff
  | 0, acc, l => acc ++ l
  | fuel + 1, acc, l =>
    match l with
    | a :: x :: b :: rest =>
      if a.1 = DTag.eqT ∧ b.1 = DTag.eqT then
        let best := slideBest a.2 x.2 b.2
        if a.2 = best.1 then losslessGo fuel (acc ++ [a]) (x :: b :: rest)
        else
          if best.1 ≠ [] then
            if best.2.2 ≠ [] then
              losslessGo fuel (acc ++ [(DTag.eqT, best.1)])
                ((x.1, best.2.1) :: (DTag.eqT, best.2.2) :: rest)
            else
              losslessGo fuel acc
                ((DTag.eqT, best.1) :: (x.1, best.2.1) :: rest)
          else
            if best.2.2 ≠ [] then
              losslessGo fuel acc
                ((x.1, best.2.1) :: (DTag.eqT, best.2.2) :: rest)
            else
              match acc.getLast? with
              | some a0 => losslessGo fuel acc.dropLast (a0 :: (x.1, best.2.1) :: rest)
              | none => losslessGo fuel [] ((x.1, best.2.1) :: rest)
      else losslessGo fuel (acc ++ [a]) (x :: b :: rest)
    | _ => acc ++ l

/-- diff_cleanupSemanticLossless of diff-match-patch. -/
def diff_cleanupSemanticLossless (diffs : List DmpDiff) : List DmpDiff :=
  losslessGo (diffs.length + 1) [] diffs

/-- State of the first diff_cleanupSemantic loop: the working diff list,
the equalities array with its (possibly negative) logical length exactly as
the JavaScript index arithmetic maintains them, the last equality seen, the
edit-size counters on both sides of it, and the changes flag. -/
structure CS1 where
  diffs : List DmpDiff
  eqArr : List (Int × Nat)
  depth : Int
  lastEq : Option Str
  li1 : Nat
  ld1 : Nat
  li2 : Nat
  ld2 : Nat
  changes : Bool

/-- Read of equalities[depth - 1]: the latest write at that array position. -/
def eqTop (eqArr : List (Int × Nat)) (depth : Int) : Option Nat :=
  (eqArr.find? (fun p => p.1 = depth - 1)).map Prod.snd

/-- First loop of diff_cleanupSemantic: scan for equalities smaller than the
edits on both sides, split each such equality into a delete plus an insert
of the same text, and backtrack the pointer to the previous equality. -/
def cs1Go : Nat → CS1 → Nat → CS1
  | 0, st, _ => st
  | fuel + 1, st, ptr =>
    if st.diffs.length ≤ ptr then st
    else
      let d := st.diffs.getD ptr (DTag.eqT, [])
      if d.1 = DTag.eqT then
        cs1Go fuel
          { st with
            eqArr := (st.depth, ptr) :: st.eqArr,
            depth := st.depth + 1,
            li1 := st.li2, ld1 := st.ld2, li2 := 0, ld2 := 0,
            lastEq := some d.2 } (ptr + 1)
      else
        let st2 :=
          if d.1 = DTag.insT then { st with li2 := st.li2 + d.2.length }
          else { st with ld2 := st.ld2 + d.2.length }
        match st2.lastEq with
        | some le =>
          if le ≠ [] ∧ le.length ≤ max st2.li1 st2.ld1 ∧
              le.length ≤ max st2.li2 st2.ld2 then
            let idx := (eqTop st2.eqArr st2.depth).getD 0
            let nd1 := st2.diffs.insertIdx idx (DTag.delT, le)
            let nd2 :=
              match nd1.get? (idx + 1) with
              | some d2 => nd1.set (idx + 1) (DTag.insT, d2.2)
              | none => nd1
            let depth' := st2.depth - 2
            let nptr : Nat :=
              if 0 < depth' then (eqTop st2.eqArr depth').getD 0 + 1 else 0
            cs1Go fuel
              { diffs := nd2, eqArr := st2.eqArr, depth := depth',
                lastEq := none, li1 := 0, ld1 := 0, li2 := 0, ld2 := 0,
                changes := true } nptr
          else cs1Go fuel st2 (ptr + 1)
        | none => cs1Go fuel st2 (ptr + 1)

/-- Overlap loop of diff_cleanupSemantic: a delete directly followed by an
insert whose texts overlap by at least half of either text is split around
an equality holding the overlap (in either direction). -/
def semOverlapGo : Nat → List DmpDiff → List DmpDiff → List DmpDiff
  | 0, acc, l => acc ++ l
  | fuel + 1, acc, l =>
    match l with
    | d1 :: d2 :: rest =>
      if d1.1 = DTag.delT ∧ d2.1 = DTag.insT then
        let deletion := d1.2
        let insertion := d2.2
        let ol1 := diff_commonOverlap deletion insertion
        let ol2 := diff_commonOverlap insertion deletion
        if ol2 ≤ ol1 then
          if deletion.length ≤ 2 * ol1 ∨ insertion.length ≤ 2 * ol1 then
            semOverlapGo fuel (acc ++
              [(DTag.delT, deletion.take (deletion.length - ol1)),
               (DTag.eqT, insertion.take ol1),
               (DTag.insT, insertion.drop ol1)]) rest
          else semOverlapGo fuel (acc ++ [d1, d2]) rest
        else
          if deletion.length ≤ 2 * ol2 ∨ insertion.length ≤ 2 * ol2 then
            semOverlapGo fuel (acc ++
              [(DTag.insT, insertion.take (insertion.length - ol2)),
               (DTag.eqT, deletion.take ol2),
               (DTag.delT, deletion.drop ol2)]) rest
          else semOverlapGo fuel (acc ++ [d1, d2]) rest
      else semOverlapGo fuel (acc ++ [d1]) (d2 :: rest)
    | _ => acc ++ l

/-- diff_cleanupSemantic of diff-match-patch: the equality-elimination loop,
a merge pass when it changed anything, the lossless pass, and the overlap
pass. -/
def diff_cleanupSemantic (diffs : List DmpDiff) : List DmpDiff :=
  let st := cs1Go ((diffs.length + 2) * (diffs.length + 2))
    ⟨diffs, [], 0, none, 0, 0, 0, 0, false⟩ 0
  let d1 := if st.changes then diff_cleanupMerge st.diffs else st.diffs
  let d2 := diff_cleanupSemanticLossless d1
  semOverlapGo (d2.length + 1) [] d2

/-- Result of diff_halfMatchI_: the two outer parts of each text and the
common middle. -/
structure HalfMatch where
  lta : Str
  ltb : Str
  sta : Str
  stb : Str
  mid : Str
deriving Repr

/-- Seed-search loop of diff_halfMatchI_: find each occurrence of the seed
in the short text and keep the longest common substring found around it. -/
def halfMatchIGo (lt st_ : Str) (i : Nat) (seed : Str) :
    Nat → Nat → Option HalfMatch → Option HalfMatch
  | 0, _, best => best
  | fuel + 1, start, best =>
    match indexOfFrom st_ seed start with
    | none => best
    | some j =>
      let pre := diff_commonPrefix (lt.drop i) (st_.drop j)
      let suf := diff_commonSuffix (lt.take i) (st_.take j)
      let bl := match best with | some b => b.mid.length | none => 0
      let best' :=
        if bl < suf + pre then
          some { lta := lt.take (i - suf), ltb := lt.drop (i + pre),
                 sta := st_.take (j - suf), stb := st_.drop (j + pre),
                 mid := (st_.drop (j - suf)).take suf ++ (st_.drop j).take pre }
        else best
      halfMatchIGo lt st_ i seed fuel (j + 1) best'

/-- diff_halfMatchI_ of diff-match-patch: does a quarter-length seed at
offset i give a common substring of at least half the long text? -/
def diff_halfMatchI (lt st_ : Str) (i : Nat) : Option HalfMatch :=
  let seed := (lt.drop i).take (lt.length / 4)
  match halfMatchIGo lt st_ i seed (st_.length + 2) 0 none with
  | some b => if lt.length ≤ 2 * b.mid.length then some b else none
  | none => none

/-- diff_halfMatch_ of diff-match-patch (with the default Diff_Timeout of 1,
so the speedup is enabled): a split text1 = a + mid + b, text2 = c + mid + d
with mid at least half the longer text, or none. -/
def diff_halfMatch (t1 t2 : Str) : Option (Str × Str × Str × Str × Str) :=
  let lt := if t2.length < t1.length then t1 else t2
  let st_ := if t2.length < t1.length then t2 else t1
  if lt.length < 4 ∨ st_.length * 2 < lt.length then none
  else
    let hm1 := diff_halfMatchI lt st_ ((lt.length + 3) / 4)
    let hm2 := diff_halfMatchI lt st_ ((lt.length + 1) / 2)
    let hm :=
      match hm1, hm2 with
      | none, none => none
      | some h1, none => some h1
      | none, some h2 => some h2
      | some h1, some h2 =>
        if h2.mid.length < h1.mid.length then some h1 else some h2
    match hm with
    | none => none
    | some h =>
      if t2.length < t1.length then some (h.lta, h.ltb, h.sta, h.stb, h.mid)
      else some (h.sta, h.stb, h.lta, h.ltb, h.mid)

/-- First index of a string in a list of strings (this models the lineHash
lookup of diff_linesToChars_: every stored line decodes to itself through
the line array, so the first index is an equivalent key). -/
def lineIdxGo : List Str → Str → Nat → Option Nat
  | [], _, _ => none
  | l :: rest, x, i => if l = x then some i else lineIdxGo rest x (i + 1)

/-- Lookup of a line in the line array. -/
def lineIdxOf (la : List Str) (x : Str) : Option Nat :=
  lineIdxGo la x 0

/-- diff_linesToCharsMunge_ of diff-match-patch: split the text into lines
(each including its trailing newline), encode each line as one code unit
indexing the shared line array, and bail out into a single long line at
maxLines. -/
def mungeGo (maxLines : Nat) : Nat → Str → Nat → List Str → Str → List Str × Str
  | 0, _, _, la, chars => (la, chars)
  | fuel + 1, text, lineStart, la, chars =>
    if lineStart < text.length then
      let lineEnd :=
        match indexOfFrom text [10] lineStart with
        | some e => e
        | none => text.length - 1
      let line := (text.drop lineStart).take (lineEnd + 1 - lineStart)
      match lineIdxOf la line with
      | some code => mungeGo maxLines fuel text (lineEnd + 1) la (chars ++ [code])
      | none =>
        if la.length = maxLines then
          (la ++ [text.drop lineStart], chars ++ [la.length])
        else
          mungeGo maxLines fuel text (lineEnd + 1) (la ++ [line]) (chars ++ [la.length])
    else (la, chars)

/-- diff_linesToChars_ of diff-match-patch: encode both texts line by line
over a shared line array starting with the empty string, with maxLines
40000 for the first text and 65535 for the second. -/
def diff_linesToChars (t1 t2 : Str) : Str × Str × List Str :=
  let r1 := mungeGo 40000 (t1.length + 1) t1 0 [[]] []
  let r2 := mungeGo 65535 (t2.length + 1) t2 0 r1.1 []
  (r1.2, r2.2, r2.1)

/-- Decode a line-encoded string through the line array (out-of-range
codes, which never occur in real runs, decode to nothing). -/
def decodeStr (la : List Str) (s : Str) : Str :=
  s.flatMap fun c => (la.get? c).getD []

/-- diff_charsToLines_ of diff-match-patch. -/
def diff_charsToLines (diffs : List DmpDiff) (la : List Str) : List DmpDiff :=
  diffs.map fun d => (d.1, decodeStr la d.2)

/-- Accumulator of the line-mode rediff loop: committed ops, the pending
uncommitted edit ops and their counts and concatenated texts. -/
structure LMState where
  out : List DmpDiff
  pend : List DmpDiff
  cd : Nat
  ci : Nat
  td : Str
  ti : Str

/-- One step of the line-mode rediff loop of diff_lineMode_: accumulate edit
runs and, at each equality, replace any mixed run by a character-level
rediff of its texts. -/
def lmStep (rediff : Str → Str → List DmpDiff) (st : LMState) (d : DmpDiff) :
    LMState :=
  match d.1 with
  | .insT => { st with ci := st.ci + 1, ti := st.ti ++ d.2, pend := st.pend ++ [d] }
  | .delT => { st with cd := st.cd + 1, td := st.td ++ d.2, pend := st.pend ++ [d] }
  | .eqT =>
    if 1 ≤ st.cd ∧ 1 ≤ st.ci then
      { out := st.out ++ rediff st.td st.ti ++ [d],
        pend := [], cd := 0, ci := 0, td := [], ti := [] }
    else
      { out := st.out ++ st.pend ++ [d],
        pend := [], cd := 0, ci := 0, td := [], ti := [] }

/-- The rediff loop of diff_lineMode_: append the dummy equality, fold the
step, pop the dummy. -/
def lmRediff (rediff : Str → Str → List DmpDiff) (diffs : List DmpDiff) :
    List DmpDiff :=
  ((diffs ++ [(DTag.eqT, [])]).foldl (lmStep rediff)
    ⟨[], [], 0, 0, [], []⟩).out.dropLast

/-- Forward diagonal walk of diff_bisect_: advance while the current
characters of both texts match. -/
def walkDiag (t1 t2 : Str) : Nat → Int → Int → Int × Int
  | 0, x1, y1 => (x1, y1)
  | fuel + 1, x1, y1 =>
    if x1 < (t1.length : Int) ∧ y1 < (t2.length : Int) ∧
        t1.get? x1.toNat = t2.get? y1.toNat
    then walkDiag t1 t2 fuel (x1 + 1) (y1 + 1)
    else (x1, y1)

/-- Reverse diagonal walk of diff_bisect_: advance while the characters at
the mirrored positions of both texts match (out-of-range reads on both
sides compare equal, exactly as the empty charAt results do). -/
def walkDiagRev (t1 t2 : Str) : Nat → Int → Int → Int × Int
  | 0, x2, y2 => (x2, y2)
  | fuel + 1, x2, y2 =>
    if x2 < (t1.length : Int) ∧ y2 < (t2.length : Int) ∧
        t1.get? ((t1.length : Int) - x2 - 1).toNat =
          t2.get? ((t2.length : Int) - y2 - 1).toNat
    then walkDiagRev t1 t2 fuel (x2 + 1) (y2 + 1)
    else (x2, y2)

/-- State of the Myers bisection: both diagonal arrays (as functions on
offsets, initialised to -1 except offset v_offset+1 which holds 0) and the
four range-trimming counters. -/
structure BisectSt where
  v1 : Int → Int
  v2 : Int → Int
  k1start : Int
  k1end : Int
  k2start : Int
  k2end : Int

/-- One forward step of diff_bisect_ on diagonal k1: extend the furthest
path, record it, trim the range on overrun, and in front mode report a
split when the forward and reverse paths overlap. -/
def frontK (t1 t2 : Str) (delta voff : Int) (front : Bool) (d : Int)
    (st : BisectSt) (k1 : Int) : Except (Int × Int) BisectSt :=
  let ko := voff + k1
  let x1 :=
    if k1 = -d ∨ (k1 ≠ d ∧ st.v1 (ko - 1) < st.v1 (ko + 1))
    then st.v1 (ko + 1) else st.v1 (ko - 1) + 1
  let p := walkDiag t1 t2 (t1.length + t2.length + 1) x1 (x1 - k1)
  let st' := { st with v1 := fun j => if j = ko then p.1 else st.v1 j }
  if (t1.length : Int) < p.1 then .ok { st' with k1end := st'.k1end + 2 }
  else if (t2.length : Int) < p.2 then .ok { st' with k1start := st'.k1start + 2 }
  else if front then
    let k2o := voff + delta - k1
    if 0 ≤ k2o ∧ k2o < 2 * voff ∧ st'.v2 k2o ≠ -1 then
      if (t1.length : Int) - st'.v2 k2o ≤ p.1 then .error (p.1, p.2) else .ok st'
    else .ok st'
  else .ok st'

/-- One reverse step of diff_bisect_ on diagonal k2 (symmetric to frontK;
in reverse mode the overlap check mirrors the reverse x onto the forward
coordinates). -/
def revK (t1 t2 : Str) (delta voff : Int) (front : Bool) (d : Int)
    (st : BisectSt) (k2 : Int) : Except (Int × Int) BisectSt :=
  let ko := voff + k2
  let x2 :=
    if k2 = -d ∨ (k2 ≠ d ∧ st.v2 (ko - 1) < st.v2 (ko + 1))
    then st.v2 (ko + 1) else st.v2 (ko - 1) + 1
  let p := walkDiagRev t1 t2 (t1.length + t2.length + 1) x2 (x2 - k2)
  let st' := { st with v2 := fun j => if j = ko then p.1 else st.v2 j }
  if (t1.length : Int) < p.1 then .ok { st' with k2end := st'.k2end + 2 }
  else if (t2.length : Int) < p.2 then .ok { st' with k2start := st'.k2start + 2 }
  else if front then .ok st'
  else
    let k1o := voff + delta - k2
    if 0 ≤ k1o ∧ k1o < 2 * voff ∧ st'.v1 k1o ≠ -1 then
      let x1 := st'.v1 k1o
      let y1 := voff + x1 - k1o
      if (t1.length : Int) - p.1 ≤ x1 then .error (x1, y1) else .ok st'
    else .ok st'

/-- Forward k-loop of diff_bisect_ for one edit distance d. -/
def frontLoop (t1 t2 : Str) (delta voff : Int) (front : Bool) (d : Int) :
    Nat → Int → BisectSt → Except (Int × Int) BisectSt
  | 0, _, st => .ok st
  | fuel + 1, k1, st =>
    if d - st.k1end < k1 then .ok st
    else
      match frontK t1 t2 delta voff front d st k1 with
      | .error r => .error r
      | .ok st' => frontLoop t1 t2 delta voff front d fuel (k1 + 2) st'

/-- Reverse k-loop of diff_bisect_ for one edit distance d. -/
def revLoop (t1 t2 : Str) (delta voff : Int) (front : Bool) (d : Int) :
    Nat → Int → BisectSt → Except (Int × Int) BisectSt
  | 0, _, st => .ok st
  | fuel + 1, k2, st =>
    if d - st.k2end < k2 then .ok st
    else
      match revK t1 t2 delta voff front d st k2 with
      | .error r => .error r
      | .ok st' => revLoop t1 t2 delta voff front d fuel (k2 + 2) st'

/-- Outer d-loop of diff_bisect_ (the deadline never expires in this
model, matching a run with ample time budget). -/
def bisectDLoop (t1 t2 : Str) (delta voff : Int) (front : Bool) :
    Nat → Int → BisectSt → Option (Int × Int)
  | 0, _, _ => none
  | fuel + 1, d, st =>
    if voff ≤ d then none
    else
      match frontLoop t1 t2 delta voff front d (d.toNat + 1) (-d + st.k1start) st with
      | .error r => some r
      | .ok st1 =>
        match revLoop t1 t2 delta voff front d (d.toNat + 1) (-d + st1.k2start) st1 with
        | .error r => some r
        | .ok st2 => bisectDLoop t1 t2 delta voff front fuel (d + 1) st2

/-- Split point found by the Myers search of diff_bisect_, or none when the
texts share nothing at all. -/
def diff_bisectFind (t1 t2 : Str) : Option (Int × Int) :=
  let maxD := (t1.length + t2.length + 1) / 2
  let voff : Int := maxD
  let delta : Int := (t1.length : Int) - (t2.length : Int)
  let v0 : Int → Int := fun j => if j = voff + 1 then 0 else -1
  bisectDLoop t1 t2 delta voff (delta % 2 ≠ 0) (maxD + 1) 0
    ⟨v0, v0, 0, 0, 0, 0⟩

/-- An equal op when the text is nonempty, nothing otherwise (the truthy
unshift and push of diff_main). -/
def optEq (t : Str) : List DmpDiff :=
  if t = [] then [] else [(DTag.eqT, t)]

mutual

/-- diff_main of diff-match-patch (fuel-indexed; the deadline is modelled
as never expiring, and exhausted fuel, which no actual run reaches, falls
back to the trivial delete-then-insert diff): equality fast path, common
prefix and suffix trimming, the compute core, and a final merge cleanup. -/
def diff_mainF : Nat → Str → Str → Bool → List DmpDiff
  | 0, t1, t2, _ => [(DTag.delT, t1), (DTag.insT, t2)]
  | fuel + 1, t1, t2, cl =>
    if t1 = t2 then (if t1 = [] then [] else [(DTag.eqT, t1)])
    else
      let cp := diff_commonPrefix t1 t2
      let t1a := t1.drop cp
      let t2a := t2.drop cp
      let cs := diff_commonSuffix t1a t2a
      diff_cleanupMerge
        (optEq (t1.take cp) ++
          diff_computeF fuel (t1a.take (t1a.length - cs))
            (t2a.take (t2a.length - cs)) cl ++
          optEq (t1a.drop (t1a.length - cs)))

/-- diff_compute_ of diff-match-patch (fuel-indexed): empty-side fast
paths, the contained-substring speedup, the single-character case, the
half-match divide and conquer, and line mode or bisection. -/
def diff_computeF : Nat → Str → Str → Bool → List DmpDiff
  | 0, t1, t2, _ => [(DTag.delT, t1), (DTag.insT, t2)]
  | fuel + 1, t1, t2, cl =>
    if t1 = [] then [(DTag.insT, t2)]
    else if t2 = [] then [(DTag.delT, t1)]
    else
      let lt := if t2.length < t1.length then t1 else t2
      let st_ := if t2.length < t1.length then t2 else t1
      match indexOfStr lt st_ with
      | some i =>
        let op := if t2.length < t1.length then DTag.delT else DTag.insT
        [(op, lt.take i), (DTag.eqT, st_), (op, lt.drop (i + st_.length))]
      | none =>
        if st_.length = 1 then [(DTag.delT, t1), (DTag.insT, t2)]
        else
          match diff_halfMatch t1 t2 with
          | some (t1a, t1b, t2a, t2b, mid) =>
            diff_mainF fuel t1a t2a cl ++ [(DTag.eqT, mid)] ++
              diff_mainF fuel t1b t2b cl
          | none =>
            if cl ∧ 100 < t1.length ∧ 100 < t2.length then
              diff_lineModeF fuel t1 t2
            else diff_bisectF fuel t1 t2

/-- diff_lineMode_ of diff-match-patch (fuel-indexed): encode lines as
characters, diff at line level, decode, run the semantic cleanup, and
rediff every mixed edit run character by character. -/
def diff_lineModeF : Nat → Str → Str → List DmpDiff
  | 0, t1, t2 => [(DTag.delT, t1), (DTag.insT, t2)]
  | fuel + 1, t1, t2 =>
    let m := diff_linesToChars t1 t2
    let diffs1 := diff_charsToLines (diff_mainF fuel m.1 m.2.1 false) m.2.2
    lmRediff (fun a b => diff_mainF fuel a b false) (diff_cleanupSemantic diffs1)

/-- diff_bisect_ of diff-match-patch (fuel-indexed): find the middle of the
optimal path and recurse on both halves; with no overlap found the texts
share nothing and the trivial diff is returned. -/
def diff_bisectF : Nat → Str → Str → List DmpDiff
  | 0, t1, t2 => [(DTag.delT, t1), (DTag.insT, t2)]
  | fuel + 1, t1, t2 =>
    match diff_bisectFind t1 t2 with
    | some (x, y) =>
      diff_mainF fuel (t1.take x.toNat) (t2.take y.toNat) false ++
        diff_mainF fuel (t1.drop x.toNat) (t2.drop y.toNat) false
    | none => [(DTag.delT, t1), (DTag.insT, t2)]

end

/-- diff_main with the default checklines=true and a fuel budget ample for
every recursion the library performs on these inputs. -/
def diff_main (t1 t2 : Str) : List DmpDiff :=
  diff_mainF (2 * (t1.length + t2.length) + 16) t1 t2 true

/-- diffsToChanges of src/src/types.ts: converts library diff tuples into
the Change sequence, tagging every insert and delete fragment with the
ownerId. -/
def diffsToChanges (diffs : List DmpDiff) (id : Str) : List Change :=
  diffs.map fun d =>
    match d.1 with
    | DTag.eqT => Change.equal d.2
    | DTag.insT => Change.ins d.2 id
    | DTag.delT => Change.del d.2 id

/-- semanticDiff of src/semanticDiff.ts: library diff, semantic cleanup,
conversion to Changes with the ownerId, range canonicalization. -/
def semanticDiff (oldText newText id : Str) : List Change :=
  normalizeRangeInDiff
    (diffsToChanges (diff_cleanupSemantic (diff_main oldText newText)) id)

/-- Full document text of a sequence: concatenation of every op's text, in
order (the paragraph with tracked deletions still present). -/
def fullText (d : List Change) : Str :=
  d.flatMap Change.text

/-- Per character of the full document text, whether it sits in a Delete
op of the sequence. -/
def fullMask (d : List Change) : List Bool :=
  d.flatMap fun c => c.text.map fun _ => c.isDel

/-- Step 1 of layerDiffs: the skeleton string (delete text replaced by one
placeholder per delete op) and the deleted texts in order. -/
def layerSkel : List Change → Str × List Str
  | [] => ([], [])
  | c :: rest =>
    let r := layerSkel rest
    match c with
    | Change.del t _ => ([DELETE_PLACEHOLDER] ++ r.1, t :: r.2)
    | c => (c.text ++ r.1, r.2)

/-- One Change from a diff tuple tag and text (the per-op push of the
layerDiffs placeholder walk). -/
def pushOp (id : Str) (op : DTag) (t : Str) : Change :=
  match op with
  | DTag.insT => Change.ins t id
  | DTag.delT => Change.del t id
  | DTag.eqT => Change.equal t

/-- Inner loop of layerDiffs step 3 for one diff tuple: split the text at
each placeholder, emit the surrounding text with the tuple's op, and
restore the next recorded deleted text as an Equal (skipping empty ones),
tracking the indices of those restored Equals. -/
def phSplitGo (id : Str) (deletedTexts : List Str) (op : DTag) :
    Nat → Str → List Change × Nat × List Nat → List Change × Nat × List Nat
  | 0, _, st => st
  | fuel + 1, remaining, (result, dIdx, phIdxs) =>
    if remaining.length = 0 then (result, dIdx, phIdxs)
    else
      match indexOfStr remaining [DELETE_PLACEHOLDER] with
      | none => (result ++ [pushOp id op remaining], dIdx, phIdxs)
      | some pi =>
        let r1 := if 0 < pi then result ++ [pushOp id op (remaining.take pi)]
          else result
        let dt := deletedTexts.getD dIdx []
        let r2 := if dt ≠ [] then r1 ++ [Change.equal dt] else r1
        let ph2 := if dt ≠ [] then phIdxs ++ [r1.length] else phIdxs
        phSplitGo id deletedTexts op fuel (remaining.drop (pi + 1))
          (r2, dIdx + 1, ph2)

/-- Step 3 of layerDiffs: walk the raw diff, restoring placeholder runs
from the recorded deleted texts. -/
def phWalk (id : Str) (deletedTexts : List Str) (rawDiffs : List DmpDiff) :
    List Change × Nat × List Nat :=
  rawDiffs.foldl
    (fun st d => phSplitGo id deletedTexts d.1 (d.2.length + 1) d.2 st)
    ([], 0, [])

/-- Step 4 of layerDiffs: split every insert containing a range marker
into single-marker and plain-text inserts, re-tracking the
placeholder-derived indices in the new list. -/
def step4Go (phIdxs : List Nat) :
    List Change → Nat → List Change × List Nat → List Change × List Nat
  | [], _, st => st
  | c :: rest, i, (sr, up) =>
    match c with
    | Change.ins t cid =>
      if RANGE_START ∈ t ∨ RANGE_END ∈ t then
        step4Go phIdxs rest (i + 1)
          (sr ++ ((splitTextByRangeMarkers t).filter
            (fun p => p ≠ [])).map (fun p => Change.ins p cid), up)
      else
        step4Go phIdxs rest (i + 1)
          (sr ++ [Change.ins t cid],
           if i ∈ phIdxs then up ++ [sr.length] else up)
    | c =>
      step4Go phIdxs rest (i + 1)
        (sr ++ [c], if i ∈ phIdxs then up ++ [sr.length] else up)

/-- Modelled from the spec: isRangeStart of src/diff-utils (not present in
the source tree) recognizes an insert op whose text is exactly the
RANGE_START marker (spec section 3: markers surface as single-character
Insert ops). -/
def isRangeStart (c : Change) : Bool :=
  match c with
  | Change.ins t _ => t = [RANGE_START]
  | _ => false

/-- Modelled from the spec: isRangeEnd of src/diff-utils (not present in
the source tree) recognizes an insert op whose text is exactly the
RANGE_END marker. -/
def isRangeEnd (c : Change) : Bool :=
  match c with
  | Change.ins t _ => t = [RANGE_END]
  | _ => false

/-- Step 5 of layerDiffs: scanning right to left, an empty range (a
RANGE_START insert directly followed by a RANGE_END insert) whose left
neighbour is a placeholder-derived Equal is swapped before that Equal,
unless the op before it is a RANGE_END. -/
def step5Go : Nat → List Change → List Nat → List Change × List Nat
  | 0, sr, up => (sr, up)
  | i + 1, sr, up =>
    match sr.get? (i + 1), sr.get? i with
    | some change, some prev =>
      if isRangeStart change then
        match sr.get? (i + 2) with
        | some nextChange =>
          if isRangeEnd nextChange then
            if i ∈ up then
              if 0 < i then
                match sr.get? (i - 1) with
                | some beforePrev =>
                  if isRangeEnd beforePrev then step5Go i sr up
                  else step5Go i ((sr.set i change).set (i + 1) prev)
                    ((up.filter fun j => j ≠ i) ++ [i + 1])
                | none => step5Go i ((sr.set i change).set (i + 1) prev)
                    ((up.filter fun j => j ≠ i) ++ [i + 1])
              else step5Go i ((sr.set i change).set (i + 1) prev)
                ((up.filter fun j => j ≠ i) ++ [i + 1])
            else step5Go i sr up
          else step5Go i sr up
        | none => step5Go i sr up
      else step5Go i sr up
    | _, _ => step5Go i sr up

/-- Modelled from the spec: mergeAdjacentSegments of src/diff-utils (not
present in the source tree) coalesces adjacent ops of the same kind and,
for inserts and deletes, the same ownerId (spec sections 3 and 4.3 step
6). -/
def mergeAdjacentSegments : List Change → List Change
  | [] => []
  | c :: rest =>
    match c, mergeAdjacentSegments rest with
    | Change.equal t1, Change.equal t2 :: tail =>
      Change.equal (t1 ++ t2) :: tail
    | Change.ins t1 i1, Change.ins t2 i2 :: tail =>
      if i1 = i2 then Change.ins (t1 ++ t2) i1 :: tail
      else Change.ins t1 i1 :: Change.ins t2 i2 :: tail
    | Change.del t1 i1, Change.del t2 i2 :: tail =>
      if i1 = i2 then Change.del (t1 ++ t2) i1 :: tail
      else Change.del t1 i1 :: Change.del t2 i2 :: tail
    | c, merged => c :: merged

/-- changesToDiffs of src/src/types.ts: converts a Change sequence back to
library diff tuples, dropping owner ids. -/
def changesToDiffs (changes : List Change) : List DmpDiff :=
  changes.map fun c =>
    match c with
    | Change.equal t => (DTag.eqT, t)
    | Change.ins t _ => (DTag.insT, t)
    | Change.del t _ => (DTag.delT, t)

/-- applySemanticCleanup of src/layerDiffs.ts: round-trip through the
library format with a semantic cleanup, retagging with the id. -/
def applySemanticCleanup (changes : List Change) (id : Str) : List Change :=
  diffsToChanges (diff_cleanupSemantic (changesToDiffs changes)) id

/-- Steps 1 to 6 of layerDiffs: skeleton, raw diff, placeholder
restoration, marker isolation, empty-range expansion, coalescing. -/
def layerPre (existingDiff : List Change) (targetText id : Str) : List Change :=
  let sk := layerSkel existingDiff
  let st3 := phWalk id sk.2 (diff_main sk.1 targetText)
  let st4 := step4Go st3.2.2 st3.1 0 ([], [])
  let st5 := step5Go (st4.1.length - 1) st4.1 st4.2
  mergeAdjacentSegments st5.1

/-- layerDiffs of src/layerDiffs.ts: the pre pass followed by the final
semantic cleanup. -/
def layerDiffs (existingDiff : List Change) (targetText id : Str) : List Change :=
  applySemanticCleanup (layerPre existingDiff targetText id) id

/-- Placeholder substitution: each DELETE_PLACEHOLDER character of a
string replaced by the next recorded deleted text. -/
def substGo : Str → List Str → Str
  | [], _ => []
  | c :: rest, dts =>
    if c = DELETE_PLACEHOLDER then dts.headD [] ++ substGo rest (dts.drop 1)
    else c :: substGo rest dts

/-- Base-position to owner map of the deleted characters of a sequence
(the deletedPositions map of restoreOriginalDeletions). -/
def delPosGo : List Change → Nat → List (Nat × Str)
  | [], _ => []
  | c :: rest, pos =>
    match c with
    | Change.del t i =>
      (List.range t.length).map (fun k => (pos + k, i)) ++
        delPosGo rest (pos + t.length)
    | Change.equal t => delPosGo rest (pos + t.length)
    | Change.ins _ _ => delPosGo rest pos

/-- Lookup of a document position in the deleted-positions map. -/
def lookupDel (m : List (Nat × Str)) (p : Nat) : Option Str :=
  (m.find? fun e => e.1 = p).map Prod.snd

/-- Character loop of restoreOriginalDeletions over one equal or delete
op: split the text into segments at every change of the per-character
target op (delete when the op was a delete or the position was deleted in
the original diff, equal otherwise). -/
def rodGo (isDelC : Bool) (cid : Str) (dels : List (Nat × Str))
    (docPos : Nat) (text : Str) :
    Nat → Nat → Nat → Bool → Str → List Change → List Change
  | 0, _, _, _, _, acc => acc
  | fuel + 1, i, currentStart, curDel, curId, acc =>
    if i < text.length then
      let cinfo :=
        if isDelC then (true, cid)
        else
          match lookupDel dels (docPos + i) with
          | some did => (true, did)
          | none => (false, ([] : Str))
      if cinfo.1 ≠ curDel ∨ (cinfo.1 = true ∧ cinfo.2 ≠ curId) then
        let acc2 :=
          if currentStart < i then
            acc ++ [if curDel then
                Change.del ((text.drop currentStart).take (i - currentStart)) curId
              else Change.equal ((text.drop currentStart).take (i - currentStart))]
          else acc
        rodGo isDelC cid dels docPos text fuel (i + 1) i cinfo.1 cinfo.2 acc2
      else rodGo isDelC cid dels docPos text fuel (i + 1) currentStart curDel
        curId acc
    else
      if currentStart < text.length then
        acc ++ [if curDel then Change.del (text.drop currentStart) curId
          else Change.equal (text.drop currentStart)]
      else acc

/-- Walk of restoreOriginalDeletions over the merged diff: inserts pass
through, equal and delete ops are re-segmented against the original
deleted positions. -/
def rodWalk (dels : List (Nat × Str)) : List Change → Nat → List Change
  | [], _ => []
  | c :: rest, docPos =>
    match c with
    | Change.ins t i => Change.ins t i :: rodWalk dels rest docPos
    | Change.equal t =>
      rodGo false [] dels docPos t (t.length + 1) 0 0 false [] [] ++
        rodWalk dels rest (docPos + t.length)
    | Change.del t i =>
      rodGo true i dels docPos t (t.length + 1) 0 0 true i [] ++
        rodWalk dels rest (docPos + t.length)

/-- Final coalescing loop of restoreOriginalDeletions: adjacent ops of the
same kind (same owner for inserts and deletes) are merged left to
right. -/
def rodMerge (l : List Change) : List Change :=
  l.foldl (fun merged change =>
    match merged.getLast?, change with
    | some (Change.equal t1), Change.equal t2 =>
      merged.dropLast ++ [Change.equal (t1 ++ t2)]
    | some (Change.ins t1 i1), Change.ins t2 i2 =>
      if i1 = i2 then merged.dropLast ++ [Change.ins (t1 ++ t2) i1]
      else merged ++ [Change.ins t2 i2]
    | some (Change.del t1 i1), Change.del t2 i2 =>
      if i1 = i2 then merged.dropLast ++ [Change.del (t1 ++ t2) i1]
      else merged ++ [Change.del t2 i2]
    | _, _ => merged ++ [change]) []

/-- restoreOriginalDeletions of the orchestration module: re-mark the
characters deleted in the original diff (restored as Equal by layering)
as Delete in the merged result. -/
def restoreOriginalDeletions (mergedDiff existingDiff : List Change) :
    List Change :=
  rodMerge (rodWalk (delPosGo existingDiff 0) mergedDiff 0)

/-- mergeAndLayerDiffs of src/mergeAndLayerDiffs.ts: an empty edit list
returns the existing diff; otherwise each edit is layered and normalized,
the layered diffs are merged, and the merged result is normalized; a
failed merge yields the null signal. -/
def mergeAndLayerDiffs (existingDiff : List Change) (edits : List (Str × Str)) :
    Except Unit (Option (List Change)) :=
  if edits = [] then .ok (some existingDiff)
  else
    match mergeDiffs (edits.map fun e =>
        normalizeRangeInDiff (layerDiffs existingDiff e.1 e.2)) with
    | .error u => .error u
    | .ok none => .ok none
    | .ok (some merged) => .ok (some (normalizeRangeInDiff merged))

/-- applyAndMergeDiffs of the orchestration module: as mergeAndLayerDiffs
but restoring the original deletions before the final normalization. -/
def applyAndMergeDiffs (existingDiff : List Change) (edits : List (Str × Str)) :
    Except Unit (Option (List Change)) :=
  if edits = [] then .ok (some existingDiff)
  else
    match mergeDiffs (edits.map fun e =>
        normalizeRangeInDiff (layerDiffs existingDiff e.1 e.2)) with
    | .error u => .error u
    | .ok none => .ok none
    | .ok (some merged) =>
      .ok (some (normalizeRangeInDiff
        (restoreOriginalDeletions merged existingDiff)))

/-- Base-side characters of a Change list with their layer-delete flag:
equal text flagged false, delete text flagged true, inserts skipped. -/
def delPairs (l : List Change) : List (Nat × Bool) :=
  l.flatMap fun c =>
    match c with
    | Change.equal t => t.map fun ch => (ch, false)
    | Change.del t _ => t.map fun ch => (ch, true)
    | Change.ins _ _ => []

/-- Placeholder substitution on flagged characters: each placeholder is
replaced by the next recorded deleted text, flagged false (restored as
Equal); other characters keep their flag. -/
def substPairs : List (Nat × Bool) → List Str → List (Nat × Bool)
  | [], _ => []
  | p :: rest, dts =>
    if p.1 = DELETE_PLACEHOLDER then
      (dts.headD []).map (fun ch => (ch, false)) ++ substPairs rest (dts.drop 1)
    else p :: substPairs rest dts

/-- Base-side characters of a library diff with their delete flag. -/
def dmpBase (diffs : List DmpDiff) : List (Nat × Bool) :=
  diffs.flatMap fun d =>
    if d.1 = DTag.insT then [] else d.2.map fun c => (c, d.1 = DTag.delT)

/-- Flagged base characters contributed by one diff tuple: none for an
insert, the text flagged with the delete bit otherwise. -/
def tupleBase (op : DTag) (t : Str) : List (Nat × Bool) :=
  match op with
  | DTag.insT => []
  | DTag.delT => t.map fun c => (c, true)
  | DTag.eqT => t.map fun c => (c, false)

/-- Number of delete placeholders in a string. -/
def countPH : Str → Nat
  | [] => 0
  | c :: rest => (if c = DELETE_PLACEHOLDER then 1 else 0) + countPH rest

/-- Flagged base characters of a single op (the one-op case of
delPairs). -/
def dp1 (c : Change) : List (Nat × Bool) :=
  match c with
  | Change.equal t => t.map fun ch => (ch, false)
  | Change.del t _ => t.map fun ch => (ch, true)
  | Change.ins _ _ => []

-- ===== Theorems =====

/-- C7: for base "The quick brown fox" with A deleting "quick " and B
deleting "brown ", mergeDiffs(A, B) succeeds and equals the maximally
coalesced four-op sequence Equal "The ", Delete "quick " (A's id),
Delete "brown " (B's id), Equal "fox". -/
theorem C7_merge_concrete_scenario :
    mergeDiffs [scenarioA, scenarioB] =
      .ok (some [Change.equal (strOf "The "),
        Change.del (strOf "quick ") (strOf "A"),
        Change.del (strOf "brown ") (strOf "B"),
        Change.equal (strOf "fox")]) := by
  decide

/-- C10: mergeDiffs with zero input sequences returns the empty sequence
as a success (not the failure signal), and with exactly one input sequence
returns that sequence with only range-marker canonicalization applied,
never failure. -/
theorem C10_mergeDiffs_zero_and_one :
    mergeDiffs [] = .ok (some []) ∧
    ∀ d : List Change, mergeDiffs [d] = .ok (some (normalizeRangeInDiff d)) :=
  ⟨rfl, fun _ => rfl⟩

theorem reconDel_cons (c : Change) (d : List Change) :
    reconDel (c :: d) = (match c with
      | .equal t => t
      | .del t _ => t
      | .ins _ _ => []) ++ reconDel d := by
  cases c <;> simp [reconDel]

theorem paintSrc_cons (c : Change) (d : List Change) :
    paintSrc (c :: d) = (match c with
      | .equal t => t.map fun _ => none
      | .del t i => t.map fun _ => some i
      | .ins _ _ => []) ++ paintSrc d := by
  cases c <;> simp [paintSrc]

theorem paintSrc_length (d : List Change) :
    (paintSrc d).length = (reconDel d).length := by
  induction d with
  | nil => rfl
  | cons c rest ih => cases c <;> simp [paintSrc_cons, reconDel_cons, ih]

/-- Delete intervals are nonempty, start at or after the offset, and are
chained left to right. -/
theorem delIntervalsO_wf (d : List Change) : ∀ o : Nat,
    (∀ iv ∈ delIntervalsO o d, o ≤ iv.1 ∧ iv.1 < iv.2) ∧
    (delIntervalsO o d).Chain' (fun a b => a.2 ≤ b.1) := by
  induction d with
  | nil => intro o; simp [delIntervalsO]
  | cons c rest ih =>
    intro o
    cases c with
    | ins t i => simpa [delIntervalsO] using ih o
    | equal t =>
      have h := ih (o + t.length)
      refine ⟨fun iv hiv => ?_, by simpa [delIntervalsO] using h.2⟩
      have := h.1 iv (by simpa [delIntervalsO] using hiv)
      omega
    | del t i =>
      have h := ih (o + t.length)
      by_cases ht : t = []
      · subst ht
        refine ⟨fun iv hiv => ?_, by simpa [delIntervalsO] using h.2⟩
        have := h.1 iv (by simpa [delIntervalsO] using hiv)
        omega
      · have hlen : 0 < t.length := List.length_pos.mpr ht
        constructor
        · intro iv hiv
          simp only [delIntervalsO, if_pos ht, List.singleton_append, List.mem_cons] at hiv
          rcases hiv with h1 | h2
          · subst h1
            omega
          · have := h.1 iv h2
            omega
        · simp only [delIntervalsO, if_pos ht, List.singleton_append]
          rw [List.chain'_cons']
          refine ⟨?_, h.2⟩
          intro y hy
          have hy2 := (h.1 y (List.mem_of_mem_head? hy)).1
          simpa using Nat.le_trans (Nat.le_refl _) hy2

/-- Members of delIntervalsO start at or after the running offset. -/
theorem delIntervalsO_lb (o : Nat) (d : List Change) :
    ∀ iv ∈ delIntervalsO o d, o ≤ iv.1 := by
  intro iv hiv
  exact ((delIntervalsO_wf d o).1 iv hiv).1

theorem chain_head_le {x : Nat × Nat} {rest : List (Nat × Nat)}
    (hstrict : ∀ iv ∈ (x :: rest), iv.1 < iv.2)
    (hchain : (x :: rest).Chain' (fun a b => a.2 ≤ b.1)) :
    ∀ b ∈ rest, x.2 ≤ b.1 := by
  induction rest generalizing x with
  | nil => simp
  | cons y rest2 ih =>
    intro b hb
    rw [List.chain'_cons] at hchain
    rcases List.mem_cons.mp hb with h | h
    · subst h; exact hchain.1
    · have hy : x.2 ≤ y.1 := hchain.1
      have hyy : y.1 < y.2 := hstrict y (by simp)
      have := @ih y (fun iv hiv => hstrict iv (by
        rcases List.mem_cons.mp hiv with h2 | h2
        · subst h2; simp
        · simp [h2])) hchain.2 b h
      omega

theorem interval_sep {l : List (Nat × Nat)}
    (hstrict : ∀ iv ∈ l, iv.1 < iv.2)
    (hchain : l.Chain' (fun a b => a.2 ≤ b.1)) :
    ∀ j k a b, j < k → l.get? j = some a → l.get? k = some b → a.2 ≤ b.1 := by
  induction l with
  | nil => intro j k a b _ ha; simp at ha
  | cons x rest ih =>
    intro j k a b hjk ha hb
    cases j with
    | zero =>
      simp at ha
      subst ha
      cases k with
      | zero => omega
      | succ k2 =>
        have hbmem : b ∈ rest := List.get?_mem (by simpa using hb)
        exact chain_head_le hstrict hchain b hbmem
    | succ j2 =>
      cases k with
      | zero => omega
      | succ k2 =>
        rw [List.chain'_cons'] at hchain
        exact ih (fun iv hiv => hstrict iv (by simp [hiv])) hchain.2
          j2 k2 a b (by omega) (by simpa using ha) (by simpa using hb)

theorem advIntGo_wf (intervals : List (Nat × Nat)) (idx : Nat) :
    ∀ fuel intIdx, cursorWF intervals intIdx idx →
    intervals.length ≤ fuel + intIdx →
    cursorWF intervals (advIntGo fuel intervals intIdx idx) idx ∧
    intIdx ≤ advIntGo fuel intervals intIdx idx ∧
    (intervals.get? (advIntGo fuel intervals intIdx idx) = none ∨
      ∃ iv, intervals.get? (advIntGo fuel intervals intIdx idx) = some iv ∧
        idx < iv.2) := by
  intro fuel
  induction fuel with
  | zero =>
    intro intIdx hwf hlen
    refine ⟨hwf, Nat.le_refl _, Or.inl ?_⟩
    simp only [advIntGo]
    exact List.get?_eq_none.mpr (by omega)
  | succ fuel2 ih =>
    intro intIdx hwf hlen
    simp only [advIntGo]
    cases hg : intervals.get? intIdx with
    | none => exact ⟨hwf, Nat.le_refl _, Or.inl hg⟩
    | some iv =>
      by_cases hlt : idx < iv.2
      · simp only [if_pos hlt]
        exact ⟨hwf, Nat.le_refl _, Or.inr ⟨iv, hg, hlt⟩⟩
      · simp only [if_neg hlt]
        have hwf2 : cursorWF intervals (intIdx + 1) idx := by
          intro j hj iv2 hiv2
          by_cases hje : j = intIdx
          · subst hje
            rw [hg] at hiv2
            cases hiv2
            omega
          · exact hwf j (by omega) iv2 hiv2
        have := ih (intIdx + 1) hwf2 (by omega)
        exact ⟨this.1, by omega, this.2.2⟩

theorem isInside_spec (intervals : List (Nat × Nat)) (intIdx idx : Nat)
    (hstrict : ∀ iv ∈ intervals, iv.1 < iv.2)
    (hchain : intervals.Chain' (fun a b => a.2 ≤ b.1))
    (hwf : cursorWF intervals intIdx idx) :
    (isInsideDiff1Delete intervals intIdx idx).1 =
      (intervals.any fun iv => decide (iv.1 < idx ∧ idx < iv.2)) ∧
    cursorWF intervals (isInsideDiff1Delete intervals intIdx idx).2 idx := by
  have hadv := advIntGo_wf intervals idx intervals.length intIdx hwf (by omega)
  rcases hadv.2.2 with hnone | ⟨iv, hsome, hlt⟩
  · simp only [isInsideDiff1Delete, hnone]
    refine ⟨?_, hadv.1⟩
    symm
    rw [List.any_eq_false]
    intro b hb
    simp only [decide_eq_true_eq]
    intro hcont
    obtain ⟨k, hk⟩ := List.get_of_mem hb
    have hbk : intervals.get? k = some b := by
      rw [List.get?_eq_get k.isLt]
      exact congrArg some hk
    have hjlen : intervals.length ≤ advIntGo intervals.length intervals intIdx idx :=
      List.get?_eq_none.mp hnone
    have hkj : (k : Nat) < advIntGo intervals.length intervals intIdx idx := by
      have := k.isLt
      omega
    have := hadv.1 k hkj b hbk
    omega
  · simp only [isInsideDiff1Delete, hsome]
    refine ⟨?_, hadv.1⟩
    by_cases hin : iv.1 < idx ∧ idx < iv.2
    · rw [decide_eq_true hin]
      symm
      rw [List.any_eq_true]
      exact ⟨iv, List.get?_mem hsome, decide_eq_true hin⟩
    · rw [decide_eq_false hin]
      symm
      rw [List.any_eq_false]
      intro b hb
      simp only [decide_eq_true_eq]
      intro hcont
      obtain ⟨k, hk⟩ := List.get_of_mem hb
      have hbk : intervals.get? k = some b := by
        rw [List.get?_eq_get k.isLt]
        exact congrArg some hk
      by_cases hkj : (k : Nat) < advIntGo intervals.length intervals intIdx idx
      · have := hadv.1 k hkj b hbk
        omega
      · by_cases hke : (k : Nat) = advIntGo intervals.length intervals intIdx idx
        · rw [hke, hsome] at hbk
          cases hbk
          exact hin hcont
        · have hsep := interval_sep hstrict hchain
            (advIntGo intervals.length intervals intIdx idx) k iv b (by omega) hsome hbk
          omega

theorem cursorWF_mono {intervals : List (Nat × Nat)} {k idx idx2 : Nat}
    (h : cursorWF intervals k idx) (hle : idx ≤ idx2) :
    cursorWF intervals k idx2 := by
  intro j hj iv hiv
  have := h j hj iv hiv
  omega

theorem walk2_go (base : Str) (paint1 : Nat → Option Str)
    (intervals : List (Nat × Nat))
    (hstrict : ∀ iv ∈ intervals, iv.1 < iv.2)
    (hchain : intervals.Chain' (fun a b => a.2 ≤ b.1)) :
    ∀ (B : List Change) (st : Walk2State),
    cursorWF intervals st.intIdx st.idx →
    (match List.foldlM (walk2Step base paint1 intervals) st B with
     | none => specGo base paint1 intervals B st.idx = false
     | some st2 =>
        specGo base paint1 intervals B st.idx = true ∧
        st2.idx = st.idx + (reconDel B).length ∧
        st2.ins2 = st.ins2 ++ insertEntriesO st.idx B ∧
        st2.del2 = st.del2 ++ delAssignO st.idx B ∧
        st2.pieces2.flatten = st.pieces2.flatten ++ reconDel B ∧
        cursorWF intervals st2.intIdx st2.idx) := by
  intro B
  induction B with
  | nil =>
    intro st hwf
    simp [List.foldlM_nil, specGo, reconDel, insertEntriesO, delAssignO, hwf]
  | cons c rest ih =>
    intro st hwf
    cases c with
    | ins t i =>
      have hspec := isInside_spec intervals st.intIdx st.idx hstrict hchain hwf
      by_cases hbad : (isInsideDiff1Delete intervals st.intIdx st.idx).1 = true
      · have h1 : walk2Step base paint1 intervals st (Change.ins t i) = none := by
          simp [walk2Step, hbad]
        have hstep : List.foldlM (walk2Step base paint1 intervals) st
            (Change.ins t i :: rest) = none := by
          rw [List.foldlM_cons, h1]
          rfl
        rw [hstep]
        simp only [specGo, ← hspec.1, hbad]
        simp
      · rw [Bool.not_eq_true] at hbad
        have h1 : walk2Step base paint1 intervals st (Change.ins t i) =
            some { st with
              intIdx := (isInsideDiff1Delete intervals st.intIdx st.idx).2
              ins2 := if t ≠ [] then st.ins2 ++ [(st.idx, t, i)] else st.ins2 } := by
          simp only [walk2Step, hbad]
          simp
        have hstep : List.foldlM (walk2Step base paint1 intervals) st
            (Change.ins t i :: rest) =
            List.foldlM (walk2Step base paint1 intervals)
              { st with
                intIdx := (isInsideDiff1Delete intervals st.intIdx st.idx).2
                ins2 := if t ≠ [] then st.ins2 ++ [(st.idx, t, i)] else st.ins2 } rest := by
          rw [List.foldlM_cons, h1]
          rfl
        rw [hstep]
        have hih := ih { st with
          intIdx := (isInsideDiff1Delete intervals st.intIdx st.idx).2
          ins2 := if t ≠ [] then st.ins2 ++ [(st.idx, t, i)] else st.ins2 } hspec.2
        cases hfold : List.foldlM (walk2Step base paint1 intervals)
            { st with
              intIdx := (isInsideDiff1Delete intervals st.intIdx st.idx).2
              ins2 := if t ≠ [] then st.ins2 ++ [(st.idx, t, i)] else st.ins2 } rest with
        | none =>
          rw [hfold] at hih
          simp only [specGo, ← hspec.1, hbad]
          simpa using hih
        | some st2 =>
          rw [hfold] at hih
          refine ⟨?_, ?_, ?_, ?_, ?_, hih.2.2.2.2.2⟩
          · simp only [specGo, ← hspec.1, hbad]
            simpa using hih.1
          · simpa [reconDel_cons] using hih.2.1
          · have h3 := hih.2.2.1
            simp only [insertEntriesO]
            by_cases ht : t = []
            · simpa [ht] using h3
            · simp only [ht, ne_eq, not_false_eq_true, if_true] at h3
              simpa [ht, List.append_assoc] using h3
          · simpa [delAssignO] using hih.2.2.2.1
          · simpa [reconDel_cons] using hih.2.2.2.2.1
    | equal t =>
      by_cases hm : sliceStr base st.idx t.length = t
      · have h1 : walk2Step base paint1 intervals st (Change.equal t) =
            some { st with
              idx := st.idx + t.length
              pieces2 := if t ≠ [] then st.pieces2 ++ [t] else st.pieces2 } := by
          simp [walk2Step, hm]
        have hstep : List.foldlM (walk2Step base paint1 intervals) st
            (Change.equal t :: rest) =
            List.foldlM (walk2Step base paint1 intervals)
              { st with
                idx := st.idx + t.length
                pieces2 := if t ≠ [] then st.pieces2 ++ [t] else st.pieces2 } rest := by
          rw [List.foldlM_cons, h1]
          rfl
        rw [hstep]
        have hwf2 : cursorWF intervals st.intIdx (st.idx + t.length) :=
          cursorWF_mono hwf (by omega)
        have hih := ih { st with
          idx := st.idx + t.length
          pieces2 := if t ≠ [] then st.pieces2 ++ [t] else st.pieces2 } hwf2
        cases hfold : List.foldlM (walk2Step base paint1 intervals)
            { st with
              idx := st.idx + t.length
              pieces2 := if t ≠ [] then st.pieces2 ++ [t] else st.pieces2 } rest with
        | none =>
          rw [hfold] at hih
          simp only [specGo, decide_eq_true hm]
          simpa using hih
        | some st2 =>
          rw [hfold] at hih
          refine ⟨?_, ?_, ?_, ?_, ?_, hih.2.2.2.2.2⟩
          · simp only [specGo, decide_eq_true hm]
            simpa using hih.1
          · simp only [reconDel_cons, List.length_append]
            have h2 := hih.2.1
            simp only at h2
            omega
          · simpa [insertEntriesO] using hih.2.2.1
          · simpa [delAssignO] using hih.2.2.2.1
          · have h5 := hih.2.2.2.2.1
            simp only [reconDel_cons]
            by_cases ht : t = []
            · simpa [ht] using h5
            · simp only [ht, ne_eq, not_false_eq_true, if_true] at h5
              simpa [List.append_assoc] using h5
      · have h1 : walk2Step base paint1 intervals st (Change.equal t) = none := by
          simp [walk2Step, hm]
        have hstep : List.foldlM (walk2Step base paint1 intervals) st
            (Change.equal t :: rest) = none := by
          rw [List.foldlM_cons, h1]
          rfl
        rw [hstep]
        simp [specGo, hm]
    | del t i =>
      by_cases hm : sliceStr base st.idx t.length = t
      · by_cases hov : (List.range t.length).any
            (fun k => (paint1 (st.idx + k)).isSome) = true
        · have h1 : walk2Step base paint1 intervals st (Change.del t i) = none := by
            simp [walk2Step, hm, hov]
          have hstep : List.foldlM (walk2Step base paint1 intervals) st
              (Change.del t i :: rest) = none := by
            rw [List.foldlM_cons, h1]
            rfl
          rw [hstep]
          simp [specGo, hm, hov]
        · rw [Bool.not_eq_true] at hov
          have h1 : walk2Step base paint1 intervals st (Change.del t i) =
              some { st with
                idx := st.idx + t.length
                pieces2 := if t ≠ [] then st.pieces2 ++ [t] else st.pieces2
                del2 := st.del2 ++ (List.range t.length).map fun k => (st.idx + k, i) } := by
            simp [walk2Step, hm, hov]
          have hstep : List.foldlM (walk2Step base paint1 intervals) st
              (Change.del t i :: rest) =
              List.foldlM (walk2Step base paint1 intervals)
                { st with
                  idx := st.idx + t.length
                  pieces2 := if t ≠ [] then st.pieces2 ++ [t] else st.pieces2
                  del2 := st.del2 ++ (List.range t.length).map fun k => (st.idx + k, i) }
                rest := by
            rw [List.foldlM_cons, h1]
            rfl
          rw [hstep]
          have hwf2 : cursorWF intervals st.intIdx (st.idx + t.length) :=
            cursorWF_mono hwf (by omega)
          have hih := ih { st with
            idx := st.idx + t.length
            pieces2 := if t ≠ [] then st.pieces2 ++ [t] else st.pieces2
            del2 := st.del2 ++ (List.range t.length).map fun k => (st.idx + k, i) } hwf2
          cases hfold : List.foldlM (walk2Step base paint1 intervals)
              { st with
                idx := st.idx + t.length
                pieces2 := if t ≠ [] then st.pieces2 ++ [t] else st.pieces2
                del2 := st.del2 ++ (List.range t.length).map fun k => (st.idx + k, i) }
              rest with
          | none =>
            rw [hfold] at hih
            simp only [specGo, decide_eq_true hm, hov]
            simpa using hih
          | some st2 =>
            rw [hfold] at hih
            refine ⟨?_, ?_, ?_, ?_, ?_, hih.2.2.2.2.2⟩
            · simp only [specGo, decide_eq_true hm, hov]
              simpa using hih.1
            · simp only [reconDel_cons, List.length_append]
              have h2 := hih.2.1
              simp only at h2
              omega
            · simpa [insertEntriesO] using hih.2.2.1
            · have h4 := hih.2.2.2.1
              simp only [delAssignO]
              simpa [List.append_assoc] using h4
            · have h5 := hih.2.2.2.2.1
              simp only [reconDel_cons]
              by_cases ht : t = []
              · simpa [ht] using h5
              · simp only [ht, ne_eq, not_false_eq_true, if_true] at h5
                simpa [List.append_assoc] using h5
      · have h1 : walk2Step base paint1 intervals st (Change.del t i) = none := by
          simp [walk2Step, hm]
        have hstep : List.foldlM (walk2Step base paint1 intervals) st
            (Change.del t i :: rest) = none := by
          rw [List.foldlM_cons, h1]
          rfl
        rw [hstep]
        simp [specGo, hm]

theorem sliceStr_split (base u v : Str) (idx : Nat) :
    sliceStr base idx (u.length + v.length) = u ++ v ↔
    (sliceStr base idx u.length = u ∧ sliceStr base (idx + u.length) v.length = v) := by
  have hsplit : sliceStr base idx (u.length + v.length) =
      sliceStr base idx u.length ++ sliceStr base (idx + u.length) v.length := by
    simp only [sliceStr, List.take_add, List.drop_drop]
  constructor
  · intro h
    rw [hsplit] at h
    have hlu : (sliceStr base idx u.length).length ≤ u.length := by
      simp [sliceStr]
    have hlv : (sliceStr base (idx + u.length) v.length).length ≤ v.length := by
      simp [sliceStr]
    have hlen : (sliceStr base idx u.length).length +
        (sliceStr base (idx + u.length) v.length).length = u.length + v.length := by
      have := congrArg List.length h
      simpa using this
    have hlu2 : (sliceStr base idx u.length).length = u.length := by omega
    exact List.append_inj h hlu2
  · intro ⟨h1, h2⟩
    rw [hsplit, h1, h2]

theorem reconDel_eq_iff_slice (base : Str) (B : List Change) :
    reconDel B = base ↔
    (sliceStr base 0 (reconDel B).length = reconDel B ∧
      (reconDel B).length = base.length) := by
  constructor
  · intro h
    subst h
    simp [sliceStr]
  · intro ⟨h1, h2⟩
    have : sliceStr base 0 (reconDel B).length = base := by
      simp [sliceStr, h2]
    rw [h1] at this
    exact this

theorem offAt_zero (B : List Change) : offAt B 0 = 0 := by
  simp [offAt, reconDel]

theorem offAt_succ (c : Change) (rest : List Change) (k : Nat) :
    offAt (c :: rest) (k + 1) = (reconDel [c]).length + offAt rest k := by
  simp only [offAt, List.take_succ_cons, reconDel_cons]
  cases c <;> simp [reconDel]

theorem specGo_iff (base : Str) (paint1 : Nat → Option Str)
    (intervals : List (Nat × Nat)) :
    ∀ (B : List Change) (idx : Nat),
    specGo base paint1 intervals B idx = true ↔
    (sliceStr base idx (reconDel B).length = reconDel B ∧
     (∀ q j, (paintSrc B).get? q = some (some j) → paint1 (idx + q) = none) ∧
     (∀ k t j, B.get? k = some (.ins t j) →
        ∀ iv ∈ intervals, ¬(iv.1 < idx + offAt B k ∧ idx + offAt B k < iv.2))) := by
  intro B
  induction B with
  | nil =>
    intro idx
    simp [specGo, reconDel, paintSrc, sliceStr]
  | cons c rest ih =>
    intro idx
    cases c with
    | ins t i =>
      rw [show specGo base paint1 intervals (Change.ins t i :: rest) idx =
        ((!(intervals.any fun iv => decide (iv.1 < idx ∧ idx < iv.2))) &&
          specGo base paint1 intervals rest idx) from rfl]
      rw [Bool.and_eq_true, ih idx]
      constructor
      · intro ⟨hany, h1, h2, h3⟩
        rw [Bool.not_eq_eq_eq_not, Bool.not_true, List.any_eq_false] at hany
        refine ⟨by simpa [reconDel_cons] using h1, ?_, ?_⟩
        · intro q j hq
          exact h2 q j (by simpa [paintSrc_cons] using hq)
        · intro k t2 j hk iv hiv
          cases k with
          | zero =>
            simp only [List.get?_cons_zero] at hk
            rw [offAt_zero]
            have := hany iv hiv
            simpa using this
          | succ k2 =>
            simp only [List.get?_cons_succ] at hk
            rw [offAt_succ]
            have := h3 k2 t2 j hk iv hiv
            simpa [reconDel] using this
      · intro ⟨h1, h2, h3⟩
        refine ⟨?_, by simpa [reconDel_cons] using h1, ?_, ?_⟩
        · rw [Bool.not_eq_eq_eq_not, Bool.not_true, List.any_eq_false]
          intro iv hiv
          have := h3 0 t i (by simp) iv hiv
          rw [offAt_zero] at this
          simpa using this
        · intro q j hq
          exact h2 q j (by simpa [paintSrc_cons] using hq)
        · intro k t2 j hk iv hiv
          have := h3 (k + 1) t2 j (by simpa using hk) iv hiv
          rw [offAt_succ] at this
          simpa [reconDel] using this
    | equal t =>
      rw [show specGo base paint1 intervals (Change.equal t :: rest) idx =
        ((decide (sliceStr base idx t.length = t)) &&
          specGo base paint1 intervals rest (idx + t.length)) from rfl]
      rw [Bool.and_eq_true, ih (idx + t.length), decide_eq_true_eq]
      have hslice : sliceStr base idx (reconDel (Change.equal t :: rest)).length =
          reconDel (Change.equal t :: rest) ↔
          (sliceStr base idx t.length = t ∧
            sliceStr base (idx + t.length) (reconDel rest).length = reconDel rest) := by
        rw [reconDel_cons]
        simpa using sliceStr_split base t (reconDel rest) idx
      constructor
      · intro ⟨hm, h1, h2, h3⟩
        refine ⟨hslice.mpr ⟨hm, h1⟩, ?_, ?_⟩
        · intro q j hq
          rw [paintSrc_cons] at hq
          simp only at hq
          by_cases hql : q < t.length
          · rw [List.get?_append (by simpa using hql)] at hq
            simp only [List.get?_map] at hq
            cases hg : (t.get? q) with
            | none => rw [hg] at hq; simp at hq
            | some a => rw [hg] at hq; simp at hq
          · rw [List.get?_append_right (by simpa using Nat.le_of_not_lt hql)] at hq
            have := h2 (q - t.length) j (by simpa using hq)
            have hq2 : idx + t.length + (q - t.length) = idx + q := by omega
            rwa [hq2] at this
        · intro k t2 j hk iv hiv
          cases k with
          | zero => simp at hk
          | succ k2 =>
            simp only [List.get?_cons_succ] at hk
            have := h3 k2 t2 j hk iv hiv
            rw [offAt_succ]
            simp only [reconDel, List.flatMap_cons, List.flatMap_nil, List.append_nil]
            have harith : idx + t.length + offAt rest k2 = idx + (t.length + offAt rest k2) := by
              omega
            rwa [← harith]
      · intro ⟨h1, h2, h3⟩
        have hs := hslice.mp h1
        refine ⟨hs.1, hs.2, ?_, ?_⟩
        · intro q j hq
          have := h2 (t.length + q) j (by
            rw [paintSrc_cons]
            simp only
            rw [List.get?_append_right (by simp)]
            simpa using hq)
          have harith : idx + (t.length + q) = idx + t.length + q := by omega
          rwa [harith] at this
        · intro k t2 j hk iv hiv
          have := h3 (k + 1) t2 j (by simpa using hk) iv hiv
          rw [offAt_succ] at this
          simp only [reconDel, List.flatMap_cons, List.flatMap_nil, List.append_nil] at this
          have harith : idx + (t.length + offAt rest k) = idx + t.length + offAt rest k := by
            omega
          rwa [harith] at this
    | del t i =>
      rw [show specGo base paint1 intervals (Change.del t i :: rest) idx =
        (((decide (sliceStr base idx t.length = t)) &&
          (!((List.range t.length).any fun k => (paint1 (idx + k)).isSome))) &&
            specGo base paint1 intervals rest (idx + t.length)) from rfl]
      rw [Bool.and_eq_true, Bool.and_eq_true, ih (idx + t.length), decide_eq_true_eq]
      have hslice : sliceStr base idx (reconDel (Change.del t i :: rest)).length =
          reconDel (Change.del t i :: rest) ↔
          (sliceStr base idx t.length = t ∧
            sliceStr base (idx + t.length) (reconDel rest).length = reconDel rest) := by
        rw [reconDel_cons]
        simpa using sliceStr_split base t (reconDel rest) idx
      constructor
      · intro ⟨⟨hm, hov⟩, h1, h2, h3⟩
        rw [Bool.not_eq_eq_eq_not, Bool.not_true, List.any_eq_false] at hov
        refine ⟨hslice.mpr ⟨hm, h1⟩, ?_, ?_⟩
        · intro q j hq
          rw [paintSrc_cons] at hq
          simp only at hq
          by_cases hql : q < t.length
          · have h6 := hov q (by simpa using hql)
            cases hp : paint1 (idx + q) with
            | none => rfl
            | some a => rw [hp] at h6; simp at h6
          · rw [List.get?_append_right (by simpa using Nat.le_of_not_lt hql)] at hq
            have := h2 (q - t.length) j (by simpa using hq)
            have hq2 : idx + t.length + (q - t.length) = idx + q := by omega
            rwa [hq2] at this
        · intro k t2 j hk iv hiv
          cases k with
          | zero => simp at hk
          | succ k2 =>
            simp only [List.get?_cons_succ] at hk
            have := h3 k2 t2 j hk iv hiv
            rw [offAt_succ]
            simp only [reconDel, List.flatMap_cons, List.flatMap_nil, List.append_nil]
            have harith : idx + t.length + offAt rest k2 = idx + (t.length + offAt rest k2) := by
              omega
            rwa [← harith]
      · intro ⟨h1, h2, h3⟩
        have hs := hslice.mp h1
        refine ⟨⟨hs.1, ?_⟩, hs.2, ?_, ?_⟩
        · rw [Bool.not_eq_eq_eq_not, Bool.not_true, List.any_eq_false]
          intro q hq
          simp only [List.mem_range] at hq
          have := h2 q i (by
            rw [paintSrc_cons]
            simp only
            rw [List.get?_append (by simpa using hq)]
            simp [List.getElem?_replicate, hq])
          simp [this]
        · intro q j hq
          have := h2 (t.length + q) j (by
            rw [paintSrc_cons]
            simp only
            rw [List.get?_append_right (by simp)]
            simpa using hq)
          have harith : idx + (t.length + q) = idx + t.length + q := by omega
          rwa [harith] at this
        · intro k t2 j hk iv hiv
          have := h3 (k + 1) t2 j (by simpa using hk) iv hiv
          rw [offAt_succ] at this
          simp only [reconDel, List.flatMap_cons, List.flatMap_nil, List.append_nil] at this
          have harith : idx + (t.length + offAt rest k) = idx + t.length + offAt rest k := by
            omega
          rwa [harith] at this

theorem insertEntriesO_mem {d : List Change} :
    ∀ {o e}, e ∈ insertEntriesO o d → ∃ t i, e.2 = (t, i) ∧ Change.ins t i ∈ d ∧ t ≠ [] := by
  induction d with
  | nil => intro o e h; simp [insertEntriesO] at h
  | cons c rest ih =>
    intro o e h
    cases c with
    | ins t i =>
      simp only [insertEntriesO] at h
      by_cases ht : t = []
      · subst ht
        simp only [ne_eq, not_true_eq_false, if_false, List.nil_append] at h
        obtain ⟨t2, i2, he, hm, hne⟩ := ih h
        exact ⟨t2, i2, he, by simp [hm], hne⟩
      · simp only [ne_eq, ht, not_false_eq_true, if_true, List.singleton_append,
          List.mem_cons] at h
        rcases h with h | h
        · subst h
          exact ⟨t, i, rfl, by simp, ht⟩
        · obtain ⟨t2, i2, he, hm, hne⟩ := ih h
          exact ⟨t2, i2, he, by simp [hm], hne⟩
    | equal t =>
      simp only [insertEntriesO] at h
      obtain ⟨t2, i2, he, hm, hne⟩ := ih h
      exact ⟨t2, i2, he, by simp [hm], hne⟩
    | del t i =>
      simp only [insertEntriesO] at h
      obtain ⟨t2, i2, he, hm, hne⟩ := ih h
      exact ⟨t2, i2, he, by simp [hm], hne⟩

theorem fallbackId_ne (d : List Change) (lit : Str) (h : lit ≠ []) :
    fallbackId d lit ≠ [] := by
  unfold fallbackId
  by_cases hg : (match d.head? with
    | some c => (c.idOf).getD []
    | none => []) = []
  · simp [hg, h]
  · simp [hg]

theorem pushChange_ok (res : List Change) (c : Change)
    (h : ∀ t i, (c = .ins t i ∨ c = .del t i) → t ≠ [] → i ≠ []) :
    ∃ r2, pushChange res c = .ok r2 := by
  cases c with
  | equal t =>
    unfold pushChange
    by_cases ht : t = []
    · exact ⟨res, by simp [ht]⟩
    · simp only [if_neg ht]
      cases res.getLast? with
      | none => exact ⟨_, rfl⟩
      | some c2 => cases c2 <;> exact ⟨_, rfl⟩
  | ins t i =>
    unfold pushChange
    by_cases ht : t = []
    · exact ⟨res, by simp [ht]⟩
    · have hi : i ≠ [] := h t i (Or.inl rfl) ht
      simp only [if_neg ht, if_neg hi]
      cases res.getLast? with
      | none => exact ⟨_, rfl⟩
      | some c2 =>
        cases c2 with
        | ins t0 i0 =>
          by_cases hii : i0 = i
          · simp only [if_pos hii]
            exact ⟨_, rfl⟩
          · simp only [if_neg hii]
            exact ⟨_, rfl⟩
        | equal t0 => exact ⟨_, rfl⟩
        | del t0 i0 => exact ⟨_, rfl⟩
  | del t i =>
    unfold pushChange
    by_cases ht : t = []
    · exact ⟨res, by simp [ht]⟩
    · have hi : i ≠ [] := h t i (Or.inr rfl) ht
      simp only [if_neg ht, if_neg hi]
      cases res.getLast? with
      | none => exact ⟨_, rfl⟩
      | some c2 =>
        cases c2 with
        | del t0 i0 =>
          by_cases hii : i0 = i
          · simp only [if_pos hii]
            exact ⟨_, rfl⟩
          · simp only [if_neg hii]
            exact ⟨_, rfl⟩
        | equal t0 => exact ⟨_, rfl⟩
        | ins t0 i0 => exact ⟨_, rfl⟩

theorem foldlM_ok {α β : Type} (f : β → α → Except Unit β) (l : List α)
    (h : ∀ b a, a ∈ l → ∃ r, f b a = .ok r) :
    ∀ b, ∃ r, l.foldlM f b = .ok r := by
  induction l with
  | nil => intro b; exact ⟨b, rfl⟩
  | cons a rest ih =>
    intro b
    obtain ⟨r1, hr1⟩ := h b a (by simp)
    obtain ⟨r2, hr2⟩ := ih (fun b2 a2 ha2 => h b2 a2 (by simp [ha2])) r1
    refine ⟨r2, ?_⟩
    rw [List.foldlM_cons, hr1]
    simpa using hr2

theorem join_isSome_iff (o : Option (Option Str)) :
    (o.join).isSome = true ↔ ∃ j, o = some (some j) := by
  cases o with
  | none => simp
  | some a => cases a <;> simp

theorem exbind_ok {a : Type} {b : Type} (x : a) (f : a → Except Unit b) :
    (Except.ok x >>= f) = f x := rfl

theorem emitAt_ok (base : Str) (ins1 ins2 : Nat → List (Str × Str))
    (pnt1 pnt2 : Nat → Option Str) (fb1 fb2 : Str)
    (hfb1 : fb1 ≠ []) (hfb2 : fb2 ≠ [])
    (h1 : ∀ i e, e ∈ ins1 i → e.1 ≠ [] → e.2 ≠ [])
    (h2 : ∀ i e, e ∈ ins2 i → e.1 ≠ [] → e.2 ≠ []) :
    ∀ res i, ∃ r, emitAt base ins1 ins2 pnt1 pnt2 fb1 fb2 res i = .ok r := by
  intro res i
  obtain ⟨r1, hr1⟩ := foldlM_ok (fun r e => pushChange r (.ins e.1 e.2)) (ins1 i)
    (fun b a ha => pushChange_ok b (.ins a.1 a.2) (by
      intro t j hc ht
      rcases hc with hc | hc
      · cases hc
        exact h1 i a ha ht
      · cases hc)) res
  obtain ⟨r2, hr2⟩ := foldlM_ok (fun r e => pushChange r (.ins e.1 e.2)) (ins2 i)
    (fun b a ha => pushChange_ok b (.ins a.1 a.2) (by
      intro t j hc ht
      rcases hc with hc | hc
      · cases hc
        exact h2 i a ha ht
      · cases hc)) r1
  by_cases hlt : i < base.length
  · set ch : Str := [(base.get? i).getD 0] with hch
    have hch_ne : ch ≠ [] := by simp [hch]
    cases hp1 : pnt1 i with
    | some o =>
      obtain ⟨r3, hr3⟩ := pushChange_ok r2 (.del ch (if o = [] then fb1 else o)) (by
        intro t j hc ht
        rcases hc with hc | hc
        · cases hc
        · cases hc
          by_cases ho : o = [] <;> simp [ho, hfb1])
      refine ⟨r3, ?_⟩
      simp only [emitAt, hr1, exbind_ok, hr2, exbind_ok, if_pos hlt, hp1]
      exact hr3
    | none =>
      cases hp2 : pnt2 i with
      | some o =>
        obtain ⟨r3, hr3⟩ := pushChange_ok r2 (.del ch (if o = [] then fb2 else o)) (by
          intro t j hc ht
          rcases hc with hc | hc
          · cases hc
          · cases hc
            by_cases ho : o = [] <;> simp [ho, hfb2])
        refine ⟨r3, ?_⟩
        simp only [emitAt, hr1, exbind_ok, hr2, exbind_ok, if_pos hlt, hp1, hp2]
        exact hr3
      | none =>
        obtain ⟨r3, hr3⟩ := pushChange_ok r2 (.equal ch) (by intro t j hc; rcases hc with hc | hc <;> cases hc)
        refine ⟨r3, ?_⟩
        simp only [emitAt, hr1, exbind_ok, hr2, exbind_ok, if_pos hlt, hp1, hp2]
        exact hr3
  · refine ⟨r2, ?_⟩
    simp only [emitAt, hr1, exbind_ok, hr2, exbind_ok, if_neg hlt]
    rfl

theorem walk2_result (A B : List Change) :
    (walk2 (reconDel A) (fun p => ((paintSrc A).get? p).join) (delIntervals A) B = none ↔
      ¬(specGo (reconDel A) (fun p => ((paintSrc A).get? p).join) (delIntervals A) B 0 = true ∧
        reconDel B = reconDel A)) ∧
    (∀ st, walk2 (reconDel A) (fun p => ((paintSrc A).get? p).join) (delIntervals A) B = some st →
      st.ins2 = insertEntriesO 0 B ∧ st.del2 = delAssignO 0 B) := by
  have hwfi := delIntervalsO_wf A 0
  have hstrict : ∀ iv ∈ delIntervals A, iv.1 < iv.2 := fun iv h => (hwfi.1 iv h).2
  have hchain := hwfi.2
  have hwf0 : cursorWF (delIntervals A) (0 : Nat) (0 : Nat) := by
    intro j hj iv hiv
    omega
  have hgo := walk2_go (reconDel A) (fun p => ((paintSrc A).get? p).join)
    (delIntervals A) hstrict hchain B ⟨0, 0, [], [], []⟩ hwf0
  cases hfold : List.foldlM
      (walk2Step (reconDel A) (fun p => ((paintSrc A).get? p).join) (delIntervals A))
      (⟨0, 0, [], [], []⟩ : Walk2State) B with
  | none =>
    rw [hfold] at hgo
    have hw : walk2 (reconDel A) (fun p => ((paintSrc A).get? p).join)
        (delIntervals A) B = none := by
      unfold walk2
      rw [hfold]
      rfl
    refine ⟨?_, ?_⟩
    · rw [hw]
      constructor
      · intro _ hcon
        obtain ⟨hgood, _⟩ := hcon
        rw [hgo] at hgood
        cases hgood
      · intro _
        rfl
    · intro st hst
      rw [hw] at hst
      cases hst
  | some st2 =>
    rw [hfold] at hgo
    obtain ⟨hspec, hidx, hins, hdel, hflat, _⟩ := hgo
    simp only at hidx hins hdel hflat
    rw [List.flatten_nil, List.nil_append] at hflat
    by_cases hfin : st2.idx = (reconDel A).length ∧ st2.pieces2.flatten = reconDel A
    · have hw : walk2 (reconDel A) (fun p => ((paintSrc A).get? p).join)
          (delIntervals A) B = some st2 := by
        unfold walk2
        rw [hfold]
        simp [hfin.1, hfin.2]
      refine ⟨?_, ?_⟩
      · rw [hw]
        constructor
        · intro h
          cases h
        · intro hcon
          exfalso
          refine hcon ⟨hspec, ?_⟩
          rw [← hflat]
          exact hfin.2
      · intro st hst
        rw [hw] at hst
        cases hst
        exact ⟨by simpa using hins, by simpa using hdel⟩
    · have hw : walk2 (reconDel A) (fun p => ((paintSrc A).get? p).join)
          (delIntervals A) B = none := by
        unfold walk2
        rw [hfold]
        simp only [Option.bind_eq_bind, Option.some_bind]
        rw [if_neg hfin]
      refine ⟨?_, ?_⟩
      · rw [hw]
        constructor
        · intro _ hcon
          obtain ⟨hgood, heq⟩ := hcon
          apply hfin
          constructor
          · rw [hidx, heq]
            omega
          · rw [hflat, heq]
        · intro _
          rfl
      · intro st hst
        rw [hw] at hst
        cases hst

theorem good_iff_not_disj (A B : List Change) :
    (specGo (reconDel A) (fun p => ((paintSrc A).get? p).join) (delIntervals A) B 0 = true ∧
      reconDel B = reconDel A) ↔
    ¬(overlapDel A B ∨ insideIns A B ∨ baseMismatch A B) := by
  rw [specGo_iff]
  constructor
  · intro ⟨⟨hslice, hnoov, hnoins⟩, heq⟩ hdisj
    rcases hdisj with h | h | h
    · obtain ⟨p, h1, h2⟩ := h
      obtain ⟨j, hj⟩ := (join_isSome_iff _).mp h2
      have hnone := hnoov p j hj
      rw [Nat.zero_add] at hnone
      rw [hnone] at h1
      simp at h1
    · obtain ⟨k, ⟨t, i, hk⟩, iv, hiv, hlt1, hlt2⟩ := h
      have := hnoins k t i hk iv hiv
      rw [Nat.zero_add] at this
      exact this ⟨hlt1, hlt2⟩
    · exact h heq
  · intro hnd
    have heq : reconDel B = reconDel A := by
      by_contra hne
      exact hnd (Or.inr (Or.inr hne))
    refine ⟨⟨?_, ?_, ?_⟩, heq⟩
    · rw [heq]
      simp [sliceStr]
    · intro q j hq
      by_contra hne
      rw [Nat.zero_add] at hne
      apply hnd
      refine Or.inl ⟨q, ?_, ?_⟩
      · cases hp : ((paintSrc A).get? q).join with
        | none => exact absurd hp hne
        | some a => simp [hp]
      · rw [hq]
        simp
    · intro k t j hk iv hiv hcon
      rw [Nat.zero_add] at hcon
      exact hnd (Or.inr (Or.inl ⟨k, ⟨t, j, hk⟩, iv, hiv, hcon.1, hcon.2⟩))

/-- C2 (amended): the pairwise merge returns the null conflict signal
exactly on double delete, insert strictly inside the other side's deleted
interval, or base mismatch; and, provided no insert op carries an empty
owner id, in every other case it returns a merged sequence (with an empty
insert owner id the code instead throws an exception). -/
theorem C2_pairwise_failure_iff (A B : List Change)
    (hA : insertIdsOk A) (hB : insertIdsOk B) :
    (mergeTwoDiffs A B = .ok none ↔
      (overlapDel A B ∨ insideIns A B ∨ baseMismatch A B)) ∧
    (¬(overlapDel A B ∨ insideIns A B ∨ baseMismatch A B) →
      ∃ r, mergeTwoDiffs A B = .ok (some r)) := by
  have hw := walk2_result A B
  cases hwalk : walk2 (reconDel A) (fun p => ((paintSrc A).get? p).join)
      (delIntervals A) B with
  | none =>
    have hngood := hw.1.mp hwalk
    have hdisj : overlapDel A B ∨ insideIns A B ∨ baseMismatch A B := by
      by_contra hnd
      exact hngood ((good_iff_not_disj A B).mpr hnd)
    have hm : mergeTwoDiffs A B = .ok none := by
      unfold mergeTwoDiffs
      dsimp only
      rw [hwalk]
      rfl
    refine ⟨?_, ?_⟩
    · rw [hm]
      exact ⟨fun _ => hdisj, fun _ => rfl⟩
    · intro hnd
      exact absurd hdisj hnd
  | some st =>
    have hgood : specGo (reconDel A) (fun p => ((paintSrc A).get? p).join)
        (delIntervals A) B 0 = true ∧ reconDel B = reconDel A := by
      by_contra hngood
      rw [← hw.1] at hngood
      rw [hwalk] at hngood
      cases hngood
    have hnd : ¬(overlapDel A B ∨ insideIns A B ∨ baseMismatch A B) :=
      (good_iff_not_disj A B).mp hgood
    have hins2 := (hw.2 st hwalk).1
    have hfb1 : strOf "diff1" ≠ [] := by decide
    have hfb2 : strOf "diff2" ≠ [] := by decide
    have h1 : ∀ i e, e ∈ (fun i =>
        ((insertEntries A).filter fun en => en.1 = i).map fun en => en.2) i →
        e.1 ≠ [] → e.2 ≠ [] := by
      intro i e he ht
      simp only [List.mem_map, List.mem_filter] at he
      obtain ⟨en, ⟨hen, _⟩, he2⟩ := he
      obtain ⟨t2, i2, hpair, hmem, hne⟩ := insertEntriesO_mem hen
      intro hie
      apply hA (Change.ins t2 i2) hmem t2 i2 rfl hne
      rw [← he2] at hie
      rw [hpair] at hie
      exact hie
    have h2 : ∀ i e, e ∈ (fun i =>
        (st.ins2.filter fun en => en.1 = i).map fun en => en.2) i →
        e.1 ≠ [] → e.2 ≠ [] := by
      intro i e he ht
      simp only [List.mem_map, List.mem_filter] at he
      obtain ⟨en, ⟨hen, _⟩, he2⟩ := he
      rw [hins2] at hen
      obtain ⟨t2, i2, hpair, hmem, hne⟩ := insertEntriesO_mem hen
      intro hie
      apply hB (Change.ins t2 i2) hmem t2 i2 rfl hne
      rw [← he2] at hie
      rw [hpair] at hie
      exact hie
    obtain ⟨r, hr⟩ := foldlM_ok
      (emitAt (reconDel A)
        (fun i => ((insertEntries A).filter fun en => en.1 = i).map fun en => en.2)
        (fun i => (st.ins2.filter fun en => en.1 = i).map fun en => en.2)
        (fun p => ((paintSrc A).get? p).join)
        (fun p => (st.del2.reverse.find? fun a => a.1 = p).map fun a => a.2)
        (fallbackId A (strOf "diff1")) (fallbackId B (strOf "diff2")))
      (List.range ((reconDel A).length + 1))
      (fun b a _ => emitAt_ok (reconDel A) _ _ _ _ _ _
        (fallbackId_ne A _ hfb1) (fallbackId_ne B _ hfb2) h1 h2 b a) []
    have hm : mergeTwoDiffs A B = .ok (some r) := by
      unfold mergeTwoDiffs
      dsimp only
      rw [hwalk]
      dsimp only
      rw [hr]
      rfl
    refine ⟨?_, fun _ => ⟨r, hm⟩⟩
    rw [hm]
    constructor
    · intro h
      cases h
    · intro h
      exact absurd h hnd

/-- C2 counterexample: with an insert op carrying an empty owner id, none
of the three failure conditions holds, yet the pairwise merge neither
returns the null signal nor a merged sequence (it throws). -/
theorem C2_counterexample :
    ¬(overlapDel [Change.ins (strOf "x") []] [] ∨
      insideIns [Change.ins (strOf "x") []] [] ∨
      baseMismatch [Change.ins (strOf "x") []] []) ∧
    mergeTwoDiffs [Change.ins (strOf "x") []] [] ≠ .ok none ∧
    (∀ r, mergeTwoDiffs [Change.ins (strOf "x") []] [] ≠ .ok (some r)) := by
  have hme : mergeTwoDiffs [Change.ins (strOf "x") []] [] = .error () := by decide
  refine ⟨?_, ?_, ?_⟩
  · intro h
    rcases h with h | h | h
    · obtain ⟨p, _, h2⟩ := h
      simp [paintSrc] at h2
    · obtain ⟨k, ⟨t, i, hk⟩, _⟩ := h
      simp at hk
    · exact h (by decide)
  · rw [hme]
    intro h
    cases h
  · intro r
    rw [hme]
    intro h
    cases h

/-- C2 witness: a concrete double delete, where the amended
characterization applies and reports the null conflict signal. -/
theorem C2_pairwise_failure_iff_witness :
    mergeTwoDiffs [Change.del (strOf "a") (strOf "u")]
      [Change.del (strOf "a") (strOf "v")] = .ok none := by
  have hA1 : insertIdsOk [Change.del (strOf "a") (strOf "u")] := by
    intro c hc t i hci
    rw [List.mem_singleton] at hc
    subst hc
    cases hci
  have hB1 : insertIdsOk [Change.del (strOf "a") (strOf "v")] := by
    intro c hc t i hci
    rw [List.mem_singleton] at hc
    subst hc
    cases hci
  have h := C2_pairwise_failure_iff [Change.del (strOf "a") (strOf "u")]
    [Change.del (strOf "a") (strOf "v")] hA1 hB1
  exact h.1.mpr (Or.inl ⟨0, by decide, by decide⟩)

theorem splitTextGo_flatten : ∀ (t cur : Str), (splitTextGo t cur).flatten = cur ++ t := by
  intro t
  induction t with
  | nil =>
    intro cur
    by_cases h : cur = [] <;> simp [splitTextGo, h]
  | cons c rest ih =>
    intro cur
    by_cases hm : c = RANGE_START ∨ c = RANGE_END
    · by_cases hcur : cur = [] <;>
        simp [splitTextGo, hm, hcur, ih []]
    · simp [splitTextGo, hm, ih (cur ++ [c])]

theorem flatMap_filter_ne_nil (l : List Str) :
    ((l.filter fun p => p ≠ []).flatMap fun p => p) = l.flatten := by
  induction l with
  | nil => rfl
  | cons x rest ih =>
    by_cases hx : x = []
    · subst hx
      simpa using ih
    · rw [List.filter_cons_of_pos (by simpa using hx)]
      simpa [hx] using ih

theorem reconDel_append (a b : List Change) :
    reconDel (a ++ b) = reconDel a ++ reconDel b := by
  simp [reconDel]

theorem reconIns_append (a b : List Change) :
    reconIns (a ++ b) = reconIns a ++ reconIns b := by
  simp [reconIns]

theorem paintSrc_append (a b : List Change) :
    paintSrc (a ++ b) = paintSrc a ++ paintSrc b := by
  simp [paintSrc]

theorem stripMarkers_append (a b : Str) :
    stripMarkers (a ++ b) = stripMarkers a ++ stripMarkers b := by
  simp [stripMarkers]

theorem splitRangeMarkers_cons (c : Change) (rest : List Change) :
    splitRangeMarkers (c :: rest) =
    (match c with
     | .ins t i =>
       if RANGE_START ∈ t ∨ RANGE_END ∈ t then
         ((splitTextByRangeMarkers t).filter fun p => p ≠ []).map fun p => .ins p i
       else [c]
     | _ => [c]) ++ splitRangeMarkers rest := by
  cases c <;> simp [splitRangeMarkers]

theorem split_reconDel (d : List Change) :
    reconDel (splitRangeMarkers d) = reconDel d := by
  induction d with
  | nil => rfl
  | cons c rest ih =>
    rw [splitRangeMarkers_cons, reconDel_append, ih]
    cases c with
    | ins t i =>
      by_cases hm : RANGE_START ∈ t ∨ RANGE_END ∈ t
      · simp only [if_pos hm]
        have : reconDel (((splitTextByRangeMarkers t).filter fun p => p ≠ []).map
            fun p => Change.ins p i) = [] := by
          simp [reconDel, List.flatMap_map]
        rw [this]
        simp [reconDel_cons]
      · simp only [if_neg hm]
        simp [reconDel_cons, reconDel]
    | equal t => simp [reconDel_cons, reconDel]
    | del t i => simp [reconDel_cons, reconDel]

theorem split_paintSrc (d : List Change) :
    paintSrc (splitRangeMarkers d) = paintSrc d := by
  induction d with
  | nil => rfl
  | cons c rest ih =>
    rw [splitRangeMarkers_cons, paintSrc_append, ih]
    cases c with
    | ins t i =>
      by_cases hm : RANGE_START ∈ t ∨ RANGE_END ∈ t
      · simp only [if_pos hm]
        have : paintSrc (((splitTextByRangeMarkers t).filter fun p => p ≠ []).map
            fun p => Change.ins p i) = [] := by
          simp [paintSrc, List.flatMap_map]
        rw [this]
        simp [paintSrc_cons]
      · simp only [if_neg hm]
        simp [paintSrc_cons, paintSrc]
    | equal t => simp [paintSrc_cons, paintSrc]
    | del t i => simp [paintSrc_cons, paintSrc]

theorem split_reconIns (d : List Change) :
    reconIns (splitRangeMarkers d) = reconIns d := by
  induction d with
  | nil => rfl
  | cons c rest ih =>
    rw [splitRangeMarkers_cons, reconIns_append, ih]
    cases c with
    | ins t i =>
      by_cases hm : RANGE_START ∈ t ∨ RANGE_END ∈ t
      · simp only [if_pos hm]
        have hparts : reconIns (((splitTextByRangeMarkers t).filter fun p => p ≠ []).map
            fun p => Change.ins p i) = t := by
          simp only [reconIns, List.flatMap_map]
          rw [show ((((splitTextByRangeMarkers t).filter fun p => p ≠ []).flatMap
              fun p => (fun x => match x with
                | Change.equal t2 => t2
                | Change.ins t2 _ => t2
                | Change.del _ _ => []) (Change.ins p i))) =
              (((splitTextByRangeMarkers t).filter fun p => p ≠ []).flatMap
                fun p => p) from rfl]
          rw [flatMap_filter_ne_nil]
          simpa [splitTextByRangeMarkers] using splitTextGo_flatten t []
        rw [hparts]
        simp [reconIns]
      · simp only [if_neg hm]
        simp [reconIns]
    | equal t => simp [reconIns]
    | del t i => simp [reconIns]

theorem insertIdx_decomp (x : Change) :
    ∀ (j : Nat) (l : List Change), j ≤ l.length →
    l.insertIdx j x = l.take j ++ x :: l.drop j := by
  intro j
  induction j with
  | zero => intro l _; simp [List.insertIdx]
  | succ j2 ih =>
    intro l hl
    cases l with
    | nil => simp at hl
    | cons a rest =>
      simp only [List.insertIdx_succ_cons, List.take_succ_cons, List.drop_succ_cons,
        List.cons_append]
      rw [ih rest (by simpa using hl)]

theorem insertIdx_oob (x : Change) :
    ∀ (j : Nat) (l : List Change), l.length < j → l.insertIdx j x = l := by
  intro j
  induction j with
  | zero => intro l hl; simp at hl
  | succ j2 ih =>
    intro l hl
    cases l with
    | nil => rfl
    | cons a rest =>
      simp only [List.insertIdx_succ_cons]
      rw [ih rest (by simpa using hl)]

theorem eraseIdx_decomp (l : List Change) (i : Nat) (x : Change)
    (h : l.get? i = some x) :
    l = l.take i ++ x :: l.drop (i + 1) ∧
    l.eraseIdx i = l.take i ++ l.drop (i + 1) := by
  induction l generalizing i with
  | nil => simp at h
  | cons a rest ih =>
    cases i with
    | zero =>
      simp only [List.get?_cons_zero] at h
      cases h
      simp
    | succ i2 =>
      simp only [List.get?_cons_succ] at h
      obtain ⟨h1, h2⟩ := ih i2 h
      constructor
      · simp only [List.take_succ_cons, List.drop_succ_cons, List.cons_append]
        exact congrArg (a :: ·) h1
      · simp only [List.eraseIdx_cons_succ, List.take_succ_cons, List.cons_append]
        exact congrArg (a :: ·) h2

theorem flatMap_insert_erase {β : Type} (f : Change → List β) (x : Change)
    (hf : f x = []) (l : List Change) (i j : Nat) (hx : l.get? i = some x) :
    ((l.eraseIdx i).insertIdx j x).flatMap f = l.flatMap f := by
  obtain ⟨hl, he⟩ := eraseIdx_decomp l i x hx
  by_cases hj : j ≤ (l.eraseIdx i).length
  · rw [insertIdx_decomp x j _ hj, he]
    conv_rhs => rw [hl]
    simp only [List.flatMap_append, List.flatMap_cons, hf, List.nil_append,
      List.append_nil]
    rw [← List.flatMap_append, List.take_append_drop, List.flatMap_append]
  · rw [insertIdx_oob x j _ (by omega), he]
    conv_rhs => rw [hl]
    simp only [List.flatMap_append, List.flatMap_cons, hf, List.nil_append,
      List.append_nil]

theorem strip_reconIns_flatMap (m : List Change) :
    stripMarkers (reconIns m) = m.flatMap fun c =>
      stripMarkers (match c with
        | .equal t => t
        | .ins t _ => t
        | .del _ _ => []) := by
  induction m with
  | nil => rfl
  | cons c rest ih =>
    rw [show reconIns (c :: rest) = (match c with
      | Change.equal t => t
      | Change.ins t _ => t
      | Change.del _ _ => []) ++ reconIns rest from by cases c <;> simp [reconIns]]
    rw [stripMarkers_append, ih, List.flatMap_cons]

theorem move_preserves (l : List Change) (i j : Nat) (u xid : Str)
    (hx : l.get? i = some (.ins u xid)) (hu : stripMarkers u = []) :
    reconDel ((l.eraseIdx i).insertIdx j (.ins u xid)) = reconDel l ∧
    paintSrc ((l.eraseIdx i).insertIdx j (.ins u xid)) = paintSrc l ∧
    stripMarkers (reconIns ((l.eraseIdx i).insertIdx j (.ins u xid))) =
      stripMarkers (reconIns l) := by
  refine ⟨?_, ?_, ?_⟩
  · exact flatMap_insert_erase _ _ rfl l i j hx
  · exact flatMap_insert_erase _ _ rfl l i j hx
  · rw [strip_reconIns_flatMap, strip_reconIns_flatMap]
    exact flatMap_insert_erase _ _ (by simpa using hu) l i j hx

theorem scanUpd_rs (tid : Str) (st : MarkerScan) (c : Change) (i : Nat) :
    (scanUpd tid st c i).rs = st.rs ∨
    ((scanUpd tid st c i).rs = some i ∧ c = .ins [RANGE_START] tid) := by
  have hne : ¬(([RANGE_END] : Str) = [RANGE_START]) := by decide
  cases c with
  | equal t => exact Or.inl rfl
  | ins t j =>
    by_cases hj : j ≠ tid
    · left
      simp [scanUpd, hj]
    · rw [not_not] at hj
      subst hj
      by_cases ht : t = [RANGE_START]
      · subst ht
        right
        exact ⟨by simp [scanUpd], rfl⟩
      · left
        by_cases ht2 : t = [RANGE_END]
        · subst ht2
          simp [scanUpd, hne]
        · simp [scanUpd, ht, ht2]
  | del t j =>
    left
    by_cases hj : j ≠ tid <;> simp [scanUpd, hj]

theorem scanUpd_re (tid : Str) (st : MarkerScan) (c : Change) (i : Nat) :
    (scanUpd tid st c i).re = st.re ∨
    ((scanUpd tid st c i).re = some i ∧ c = .ins [RANGE_END] tid) := by
  have hne : ¬(([RANGE_END] : Str) = [RANGE_START]) := by decide
  cases c with
  | equal t => exact Or.inl rfl
  | ins t j =>
    by_cases hj : j ≠ tid
    · left
      simp [scanUpd, hj]
    · rw [not_not] at hj
      subst hj
      by_cases ht : t = [RANGE_START]
      · subst ht
        left
        simp [scanUpd]
      · by_cases ht2 : t = [RANGE_END]
        · subst ht2
          right
          exact ⟨by simp [scanUpd, hne], rfl⟩
        · left
          simp [scanUpd, ht, ht2]
  | del t j =>
    left
    by_cases hj : j ≠ tid <;> simp [scanUpd, hj]

theorem scanGo_rs (tid : Str) :
    ∀ (rest : List Change) (i : Nat) (st : MarkerScan) (r : Nat),
    (scanGo tid rest i st).rs = some r →
    st.rs = some r ∨ ∃ k, rest.get? k = some (.ins [RANGE_START] tid) ∧ r = i + k := by
  intro rest
  induction rest with
  | nil =>
    intro i st r h
    exact Or.inl h
  | cons c rest2 ih =>
    intro i st r h
    rw [scanGo] at h
    rcases ih (i + 1) (scanUpd tid st c i) r h with h2 | ⟨k, hk, hr⟩
    · rcases scanUpd_rs tid st c i with h3 | ⟨h3, hc⟩
      · rw [h3] at h2
        exact Or.inl h2
      · rw [h3] at h2
        cases h2
        exact Or.inr ⟨0, by simp [hc], by omega⟩
    · exact Or.inr ⟨k + 1, by simpa using hk, by omega⟩

theorem scanGo_re (tid : Str) :
    ∀ (rest : List Change) (i : Nat) (st : MarkerScan) (r : Nat),
    (scanGo tid rest i st).re = some r →
    st.re = some r ∨ ∃ k, rest.get? k = some (.ins [RANGE_END] tid) ∧ r = i + k := by
  intro rest
  induction rest with
  | nil =>
    intro i st r h
    exact Or.inl h
  | cons c rest2 ih =>
    intro i st r h
    rw [scanGo] at h
    rcases ih (i + 1) (scanUpd tid st c i) r h with h2 | ⟨k, hk, hr⟩
    · rcases scanUpd_re tid st c i with h3 | ⟨h3, hc⟩
      · rw [h3] at h2
        exact Or.inl h2
      · rw [h3] at h2
        cases h2
        exact Or.inr ⟨0, by simp [hc], by omega⟩
    · exact Or.inr ⟨k + 1, by simpa using hk, by omega⟩

theorem scan_rs_prop (d : List Change) (tid : Str) (r : Nat)
    (h : (scanForId d tid).rs = some r) :
    d.get? r = some (.ins [RANGE_START] tid) := by
  rcases scanGo_rs tid d 0 ⟨none, none, none, none⟩ r h with h2 | ⟨k, hk, hr⟩
  · cases h2
  · rw [hr]
    simpa using hk

theorem scan_re_prop (d : List Change) (tid : Str) (r : Nat)
    (h : (scanForId d tid).re = some r) :
    d.get? r = some (.ins [RANGE_END] tid) := by
  rcases scanGo_re tid d 0 ⟨none, none, none, none⟩ r h with h2 | ⟨k, hk, hr⟩
  · cases h2
  · rw [hr]
    simpa using hk

theorem findReGo_prop (tid : Str) :
    ∀ (rest : List Change) (i r : Nat),
    findReGo tid rest i = some r →
    ∃ k, rest.get? k = some (.ins [RANGE_END] tid) ∧ r = i + k := by
  intro rest
  induction rest with
  | nil => intro i r h; cases h
  | cons c rest2 ih =>
    intro i r h
    cases c with
    | ins t j =>
      simp only [findReGo] at h
      by_cases hcond : j = tid ∧ t = [RANGE_END]
      · rw [if_pos (by exact_mod_cast hcond)] at h
        cases h
        exact ⟨0, by simp [hcond.1, hcond.2], by omega⟩
      · rw [if_neg (by exact_mod_cast hcond)] at h
        obtain ⟨k, hk, hr⟩ := ih (i + 1) r h
        exact ⟨k + 1, by simpa using hk, by omega⟩
    | equal t =>
      simp only [findReGo] at h
      obtain ⟨k, hk, hr⟩ := ih (i + 1) r h
      exact ⟨k + 1, by simpa using hk, by omega⟩
    | del t j =>
      simp only [findReGo] at h
      obtain ⟨k, hk, hr⟩ := ih (i + 1) r h
      exact ⟨k + 1, by simpa using hk, by omega⟩

theorem findRangeEndIdx_prop (d : List Change) (tid : Str) (r : Nat)
    (h : findRangeEndIdx d tid = some r) :
    d.get? r = some (.ins [RANGE_END] tid) := by
  obtain ⟨k, hk, hr⟩ := findReGo_prop tid d 0 r h
  rw [hr]
  simpa using hk

theorem spliceMove_preserves (l : List Change) (i j : Nat) (u xid : Str)
    (hx : l.get? i = some (.ins u xid)) (hu : stripMarkers u = []) :
    reconDel (spliceMove l i j) = reconDel l ∧
    paintSrc (spliceMove l i j) = paintSrc l ∧
    stripMarkers (reconIns (spliceMove l i j)) = stripMarkers (reconIns l) := by
  unfold spliceMove
  rw [hx]
  exact move_preserves l i j u xid hx hu

theorem normForId_preserves (d : List Change) (tid : Str) :
    reconDel (normalizeRangeForId d tid) = reconDel d ∧
    paintSrc (normalizeRangeForId d tid) = paintSrc d ∧
    stripMarkers (reconIns (normalizeRangeForId d tid)) =
      stripMarkers (reconIns d) := by
  have hrs : stripMarkers [RANGE_START] = [] := by decide
  have hre : stripMarkers [RANGE_END] = [] := by decide
  unfold normalizeRangeForId
  dsimp only
  cases hfc : (scanForId d tid).fc with
  | none => exact ⟨rfl, rfl, rfl⟩
  | some fc =>
    cases hlc : (scanForId d tid).lc with
    | none => exact ⟨rfl, rfl, rfl⟩
    | some lc =>
      simp only
      have hstep1 : ∀ step1 : List Change,
          (step1 = match (scanForId d tid).rs with
            | some rs => if fc < rs then spliceMove d rs fc else d
            | none => d) →
          reconDel step1 = reconDel d ∧ paintSrc step1 = paintSrc d ∧
          stripMarkers (reconIns step1) = stripMarkers (reconIns d) := by
        intro step1 hdef
        cases hrs2 : (scanForId d tid).rs with
        | none =>
          rw [hrs2] at hdef
          dsimp only at hdef
          subst hdef
          exact ⟨rfl, rfl, rfl⟩
        | some rs =>
          rw [hrs2] at hdef
          dsimp only at hdef
          by_cases hlt : fc < rs
          · rw [if_pos hlt] at hdef
            subst hdef
            exact spliceMove_preserves d rs fc [RANGE_START] tid
              (scan_rs_prop d tid rs hrs2) hrs
          · rw [if_neg hlt] at hdef
            subst hdef
            exact ⟨rfl, rfl, rfl⟩
      have hmove2 : ∀ (step1 : List Change) (re l2 : Nat),
          step1.get? re = some (.ins [RANGE_END] tid) →
          reconDel ((step1.eraseIdx re).insertIdx (l2 - 1 + 1) (.ins [RANGE_END] tid)) =
            reconDel step1 ∧
          paintSrc ((step1.eraseIdx re).insertIdx (l2 - 1 + 1) (.ins [RANGE_END] tid)) =
            paintSrc step1 ∧
          stripMarkers (reconIns ((step1.eraseIdx re).insertIdx (l2 - 1 + 1)
            (.ins [RANGE_END] tid))) = stripMarkers (reconIns step1) :=
        fun step1 re l2 hget =>
          move_preserves step1 re (l2 - 1 + 1) [RANGE_END] tid hget hre
      cases hrs2 : (scanForId d tid).rs with
      | none =>
        dsimp only
        cases hres : (scanForId d tid).re with
        | none => exact ⟨rfl, rfl, rfl⟩
        | some re =>
          dsimp only
          by_cases hlt : re < lc
          · rw [if_pos hlt]
            have hget := scan_re_prop d tid re hres
            rw [hget]
            exact hmove2 d re lc hget
          · rw [if_neg hlt]
            exact ⟨rfl, rfl, rfl⟩
      | some rs =>
        dsimp only
        by_cases hlt : fc < rs
        · simp only [if_pos hlt]
          have hs1 := hstep1 (spliceMove d rs fc) (by
            rw [hrs2]
            dsimp only
            rw [if_pos hlt])
          cases hre2 : findRangeEndIdx (spliceMove d rs fc) tid with
          | none =>
            dsimp only
            exact hs1
          | some re =>
            cases hlc2 : findLastContentEditIdx (spliceMove d rs fc) tid with
            | none =>
              dsimp only
              exact hs1
            | some l2 =>
              dsimp only
              by_cases hlt3 : re < l2
              · rw [if_pos hlt3]
                have hget := findRangeEndIdx_prop (spliceMove d rs fc) tid re hre2
                rw [hget]
                have hm := hmove2 (spliceMove d rs fc) re l2 hget
                exact ⟨hm.1.trans hs1.1, hm.2.1.trans hs1.2.1, hm.2.2.trans hs1.2.2⟩
              · rw [if_neg hlt3]
                exact hs1
        · simp only [if_neg hlt]
          cases hres : (scanForId d tid).re with
          | none => exact ⟨rfl, rfl, rfl⟩
          | some re =>
            dsimp only
            by_cases hlt2 : re < lc
            · rw [if_pos hlt2]
              have hget := scan_re_prop d tid re hres
              rw [hget]
              exact hmove2 d re lc hget
            · rw [if_neg hlt2]
              exact ⟨rfl, rfl, rfl⟩

theorem normalizeRangeInDiff_preserves (d : List Change) :
    reconDel (normalizeRangeInDiff d) = reconDel d ∧
    paintSrc (normalizeRangeInDiff d) = paintSrc d ∧
    stripMarkers (reconIns (normalizeRangeInDiff d)) =
      stripMarkers (reconIns d) := by
  unfold normalizeRangeInDiff
  have hfold : ∀ (ids : List Str) (acc : List Change),
      reconDel (ids.foldl (fun a i => normalizeRangeForId a i) acc) = reconDel acc ∧
      paintSrc (ids.foldl (fun a i => normalizeRangeForId a i) acc) = paintSrc acc ∧
      stripMarkers (reconIns (ids.foldl (fun a i => normalizeRangeForId a i) acc)) =
        stripMarkers (reconIns acc) := by
    intro ids
    induction ids with
    | nil => intro acc; exact ⟨rfl, rfl, rfl⟩
    | cons i rest ih =>
      intro acc
      have h1 := normForId_preserves acc i
      have h2 := ih (normalizeRangeForId acc i)
      exact ⟨h2.1.trans h1.1, h2.2.1.trans h1.2.1, h2.2.2.trans h1.2.2⟩
  have h := hfold (uniqueIds (splitRangeMarkers d)) (splitRangeMarkers d)
  refine ⟨?_, ?_, ?_⟩
  · rw [h.1, split_reconDel]
  · rw [h.2.1, split_paintSrc]
  · rw [h.2.2, split_reconIns]

theorem insConcatAt_cons_ins (t i : Str) (rest : List Change) (k : Nat) :
    insConcatAt (Change.ins t i :: rest) k =
      (if k = 0 then t else []) ++ insConcatAt rest k := rfl

theorem insConcatAt_cons_equal (t : Str) (rest : List Change) (k : Nat) :
    insConcatAt (Change.equal t :: rest) k =
      if k < t.length then [] else insConcatAt rest (k - t.length) := rfl

theorem insConcatAt_cons_del (t i : Str) (rest : List Change) (k : Nat) :
    insConcatAt (Change.del t i :: rest) k =
      if k < t.length then [] else insConcatAt rest (k - t.length) := rfl

theorem insConcatAt_append (a b : List Change) :
    ∀ k, insConcatAt (a ++ b) k =
      insConcatAt a k ++
        (if (reconDel a).length ≤ k then insConcatAt b (k - (reconDel a).length)
         else []) := by
  induction a with
  | nil =>
    intro k
    simp [insConcatAt, reconDel]
  | cons c rest ih =>
    intro k
    cases c with
    | ins t i =>
      rw [List.cons_append, insConcatAt_cons_ins, insConcatAt_cons_ins, ih k]
      rw [show reconDel (Change.ins t i :: rest) = reconDel rest from by
        simp [reconDel]]
      rw [List.append_assoc]
    | equal t =>
      rw [List.cons_append, insConcatAt_cons_equal, insConcatAt_cons_equal]
      rw [show reconDel (Change.equal t :: rest) = t ++ reconDel rest from by
        simp [reconDel]]
      by_cases hk : k < t.length
      · rw [if_pos hk, if_pos hk]
        have : ¬((t ++ reconDel rest).length ≤ k) := by
          simp only [List.length_append]
          omega
        rw [if_neg this]
        rfl
      · rw [if_neg hk, if_neg hk, ih (k - t.length)]
        have harith : ((t ++ reconDel rest).length ≤ k) ↔
            ((reconDel rest).length ≤ k - t.length) := by
          simp only [List.length_append]
          omega
        by_cases h2 : (reconDel rest).length ≤ k - t.length
        · rw [if_pos h2, if_pos (harith.mpr h2)]
          have : k - t.length - (reconDel rest).length =
              k - (t ++ reconDel rest).length := by
            simp only [List.length_append]
            omega
          rw [this]
        · rw [if_neg h2, if_neg (fun hc => h2 (harith.mp hc))]
    | del t i =>
      rw [List.cons_append, insConcatAt_cons_del, insConcatAt_cons_del]
      rw [show reconDel (Change.del t i :: rest) = t ++ reconDel rest from by
        simp [reconDel]]
      by_cases hk : k < t.length
      · rw [if_pos hk, if_pos hk]
        have : ¬((t ++ reconDel rest).length ≤ k) := by
          simp only [List.length_append]
          omega
        rw [if_neg this]
        rfl
      · rw [if_neg hk, if_neg hk, ih (k - t.length)]
        have harith : ((t ++ reconDel rest).length ≤ k) ↔
            ((reconDel rest).length ≤ k - t.length) := by
          simp only [List.length_append]
          omega
        by_cases h2 : (reconDel rest).length ≤ k - t.length
        · rw [if_pos h2, if_pos (harith.mpr h2)]
          have : k - t.length - (reconDel rest).length =
              k - (t ++ reconDel rest).length := by
            simp only [List.length_append]
            omega
          rw [this]
        · rw [if_neg h2, if_neg (fun hc => h2 (harith.mp hc))]

theorem ExtEq.refl (x : List Change) : ExtEq x x :=
  ⟨rfl, rfl, rfl, fun _ => rfl⟩

theorem ExtEq.trans {x y z : List Change} (h1 : ExtEq x y) (h2 : ExtEq y z) :
    ExtEq x z :=
  ⟨h1.1.trans h2.1, h1.2.1.trans h2.2.1, h1.2.2.1.trans h2.2.2.1,
   fun k => (h1.2.2.2 k).trans (h2.2.2.2 k)⟩

theorem ExtEq.append_right {x y : List Change} (z : List Change)
    (h : ExtEq x y) : ExtEq (x ++ z) (y ++ z) := by
  refine ⟨?_, ?_, ?_, ?_⟩
  · rw [reconDel_append, reconDel_append, h.1]
  · rw [paintSrc_append, paintSrc_append, h.2.1]
  · rw [reconIns_append, reconIns_append, h.2.2.1]
  · intro k
    rw [insConcatAt_append, insConcatAt_append, h.2.2.2 k, h.1]

theorem getLast?_decomp {l : List Change} {c : Change}
    (h : l.getLast? = some c) : l = l.dropLast ++ [c] := by
  have hne : l ≠ [] := by
    intro he
    subst he
    cases h
  have := List.dropLast_append_getLast hne
  rw [List.getLast?_eq_getLast l hne] at h
  cases h
  exact this.symm

theorem ExtEq_merge_equal (l0 : List Change) (t0 t : Str) :
    ExtEq (l0 ++ [Change.equal (t0 ++ t)]) (l0 ++ [Change.equal t0] ++ [Change.equal t]) := by
  refine ⟨?_, ?_, ?_, ?_⟩
  · simp [reconDel_append, reconDel, reconDel_cons]
  · simp [paintSrc_append, paintSrc, paintSrc_cons]
  · simp [reconIns_append, reconIns]
  · intro k
    rw [List.append_assoc l0]
    rw [insConcatAt_append l0, insConcatAt_append l0]
    congr 1
    by_cases hb : (reconDel l0).length ≤ k
    · rw [if_pos hb, if_pos hb]
      rw [insConcatAt_cons_equal, List.singleton_append, insConcatAt_cons_equal,
        insConcatAt_cons_equal]
      split_ifs <;> rfl
    · rw [if_neg hb, if_neg hb]

theorem ExtEq_merge_del (l0 : List Change) (t0 t i : Str) :
    ExtEq (l0 ++ [Change.del (t0 ++ t) i])
      (l0 ++ [Change.del t0 i] ++ [Change.del t i]) := by
  refine ⟨?_, ?_, ?_, ?_⟩
  · simp [reconDel_append, reconDel, reconDel_cons]
  · simp [paintSrc_append, paintSrc, paintSrc_cons]
  · simp [reconIns_append, reconIns]
  · intro k
    rw [List.append_assoc l0]
    rw [insConcatAt_append l0, insConcatAt_append l0]
    congr 1
    by_cases hb : (reconDel l0).length ≤ k
    · rw [if_pos hb, if_pos hb]
      rw [insConcatAt_cons_del, List.singleton_append, insConcatAt_cons_del,
        insConcatAt_cons_del]
      split_ifs <;> rfl
    · rw [if_neg hb, if_neg hb]

theorem ExtEq_merge_ins (l0 : List Change) (t0 t i : Str) :
    ExtEq (l0 ++ [Change.ins (t0 ++ t) i])
      (l0 ++ [Change.ins t0 i] ++ [Change.ins t i]) := by
  refine ⟨?_, ?_, ?_, ?_⟩
  · simp [reconDel_append, reconDel, reconDel_cons]
  · simp [paintSrc_append, paintSrc, paintSrc_cons]
  · simp [reconIns_append, reconIns]
  · intro k
    rw [List.append_assoc l0]
    rw [insConcatAt_append l0, insConcatAt_append l0]
    congr 1
    by_cases hb : (reconDel l0).length ≤ k
    · rw [if_pos hb, if_pos hb]
      rw [insConcatAt_cons_ins, List.singleton_append, insConcatAt_cons_ins,
        insConcatAt_cons_ins]
      split_ifs with h1 <;> simp [insConcatAt]
    · rw [if_neg hb, if_neg hb]

theorem ExtEq_empty_op (l : List Change) (c : Change) (hc : c.text = []) :
    ExtEq l (l ++ [c]) := by
  refine ⟨?_, ?_, ?_, ?_⟩
  · cases c <;> simp_all [Change.text, reconDel_append, reconDel]
  · cases c <;> simp_all [Change.text, paintSrc_append, paintSrc]
  · cases c <;> simp_all [Change.text, reconIns_append, reconIns]
  · intro k
    rw [insConcatAt_append]
    cases c with
    | equal t =>
      simp only [Change.text] at hc
      subst hc
      rw [insConcatAt_cons_equal]
      simp [insConcatAt]
    | ins t i =>
      simp only [Change.text] at hc
      subst hc
      rw [insConcatAt_cons_ins]
      simp [insConcatAt]
    | del t i =>
      simp only [Change.text] at hc
      subst hc
      rw [insConcatAt_cons_del]
      simp [insConcatAt]

theorem pushChange_ext {l : List Change} {c : Change} {r : List Change}
    (h : pushChange l c = .ok r) : ExtEq r (l ++ [c]) := by
  cases c with
  | equal t =>
    unfold pushChange at h
    dsimp only at h
    by_cases ht : t = []
    · rw [if_pos ht] at h
      cases h
      subst ht
      exact ExtEq_empty_op l (Change.equal []) rfl
    · rw [if_neg ht] at h
      cases hlast : l.getLast? with
      | none =>
        rw [hlast] at h
        dsimp only at h
        cases h
        exact ExtEq.refl _
      | some c0 =>
        rw [hlast] at h
        cases c0 with
        | equal t0 =>
          dsimp only at h
          cases h
          have hdec := getLast?_decomp hlast
          conv_rhs => rw [hdec]
          exact ExtEq_merge_equal l.dropLast t0 t
        | ins t0 i0 =>
          dsimp only at h
          cases h
          exact ExtEq.refl _
        | del t0 i0 =>
          dsimp only at h
          cases h
          exact ExtEq.refl _
  | ins t i =>
    unfold pushChange at h
    dsimp only at h
    by_cases ht : t = []
    · rw [if_pos ht] at h
      cases h
      subst ht
      exact ExtEq_empty_op l (Change.ins [] i) rfl
    · rw [if_neg ht] at h
      by_cases hi : i = []
      · rw [if_pos hi] at h
        cases h
      · rw [if_neg hi] at h
        cases hlast : l.getLast? with
        | none =>
          rw [hlast] at h
          dsimp only at h
          cases h
          exact ExtEq.refl _
        | some c0 =>
          rw [hlast] at h
          cases c0 with
          | ins t0 i0 =>
            dsimp only at h
            by_cases hii : i0 = i
            · rw [if_pos hii] at h
              cases h
              subst hii
              have hdec := getLast?_decomp hlast
              conv_rhs => rw [hdec]
              exact ExtEq_merge_ins l.dropLast t0 t i0
            · rw [if_neg hii] at h
              cases h
              exact ExtEq.refl _
          | equal t0 =>
            dsimp only at h
            cases h
            exact ExtEq.refl _
          | del t0 i0 =>
            dsimp only at h
            cases h
            exact ExtEq.refl _
  | del t i =>
    unfold pushChange at h
    dsimp only at h
    by_cases ht : t = []
    · rw [if_pos ht] at h
      cases h
      subst ht
      exact ExtEq_empty_op l (Change.del [] i) rfl
    · rw [if_neg ht] at h
      by_cases hi : i = []
      · rw [if_pos hi] at h
        cases h
      · rw [if_neg hi] at h
        cases hlast : l.getLast? with
        | none =>
          rw [hlast] at h
          dsimp only at h
          cases h
          exact ExtEq.refl _
        | some c0 =>
          rw [hlast] at h
          cases c0 with
          | del t0 i0 =>
            dsimp only at h
            by_cases hii : i0 = i
            · rw [if_pos hii] at h
              cases h
              subst hii
              have hdec := getLast?_decomp hlast
              conv_rhs => rw [hdec]
              exact ExtEq_merge_del l.dropLast t0 t i0
            · rw [if_neg hii] at h
              cases h
              exact ExtEq.refl _
          | equal t0 =>
            dsimp only at h
            cases h
            exact ExtEq.refl _
          | ins t0 i0 =>
            dsimp only at h
            cases h
            exact ExtEq.refl _

theorem pushFold_ext {α : Type} (f : α → Change) :
    ∀ (cs : List α) (res r : List Change),
    cs.foldlM (fun acc e => pushChange acc (f e)) res = .ok r →
    ExtEq r (res ++ cs.map f) := by
  intro cs
  induction cs with
  | nil =>
    intro res r h
    rw [List.foldlM_nil] at h
    have hr : res = r := by
      have h2 : (Except.ok res : Except Unit (List Change)) = Except.ok r := h
      injection h2
    subst hr
    simpa using ExtEq.refl res
  | cons e rest ih =>
    intro res r h
    rw [List.foldlM_cons] at h
    cases hp : pushChange res (f e) with
    | error u =>
      rw [hp] at h
      cases h
    | ok r1 =>
      rw [hp] at h
      have h2 : rest.foldlM (fun acc e => pushChange acc (f e)) r1 = .ok r := h
      have hext1 := pushChange_ext hp
      have hext2 := ih r1 r h2
      have := hext2.trans (ExtEq.append_right (rest.map f) hext1)
      rw [List.append_assoc] at this
      simpa using this

theorem emitAt_ext (base : Str) (ins1 ins2 : Nat → List (Str × Str))
    (pnt1 pnt2 : Nat → Option Str) (fb1 fb2 : Str) (res : List Change)
    (i : Nat) (r : List Change)
    (h : emitAt base ins1 ins2 pnt1 pnt2 fb1 fb2 res i = .ok r) :
    ExtEq r (res ++ emitChunk base ins1 ins2 pnt1 pnt2 fb1 fb2 i) := by
  unfold emitAt at h
  cases hf1 : (ins1 i).foldlM (fun acc e => pushChange acc (.ins e.1 e.2)) res with
  | error u =>
    rw [show ((ins1 i).foldlM (fun r e => pushChange r (Change.ins e.1 e.2)) res) =
      .error u from hf1] at h
    cases h
  | ok r1 =>
    rw [show ((ins1 i).foldlM (fun r e => pushChange r (Change.ins e.1 e.2)) res) =
      .ok r1 from hf1, exbind_ok] at h
    cases hf2 : (ins2 i).foldlM (fun acc e => pushChange acc (.ins e.1 e.2)) r1 with
    | error u =>
      rw [show ((ins2 i).foldlM (fun r e => pushChange r (Change.ins e.1 e.2)) r1) =
        .error u from hf2] at h
      cases h
    | ok r2 =>
      rw [show ((ins2 i).foldlM (fun r e => pushChange r (Change.ins e.1 e.2)) r1) =
        .ok r2 from hf2, exbind_ok] at h
      have he1 := pushFold_ext (fun e : Str × Str => Change.ins e.1 e.2) (ins1 i) res r1 hf1
      have he2 := pushFold_ext (fun e : Str × Str => Change.ins e.1 e.2) (ins2 i) r1 r2 hf2
      by_cases hlt : i < base.length
      · rw [if_pos hlt] at h
        have hfinal : ExtEq r (r2 ++
            [match pnt1 i with
             | some o => Change.del [(base.get? i).getD 0] (if o = [] then fb1 else o)
             | none =>
               match pnt2 i with
               | some o => Change.del [(base.get? i).getD 0] (if o = [] then fb2 else o)
               | none => Change.equal [(base.get? i).getD 0]]) := by
          cases hp1 : pnt1 i with
          | some o =>
            rw [hp1] at h
            exact pushChange_ext h
          | none =>
            rw [hp1] at h
            cases hp2 : pnt2 i with
            | some o =>
              rw [hp2] at h
              exact pushChange_ext h
            | none =>
              rw [hp2] at h
              exact pushChange_ext h
        have hh := hfinal.trans (ExtEq.append_right _ (he2.trans
          (ExtEq.append_right _ he1)))
        unfold emitChunk
        rw [if_pos hlt]
        simp only [List.append_assoc] at hh ⊢
        exact hh
      · rw [if_neg hlt] at h
        cases h
        have hh := he2.trans (ExtEq.append_right _ he1)
        unfold emitChunk
        rw [if_neg hlt]
        simp only [List.append_assoc, List.append_nil] at hh ⊢
        exact hh

theorem emitFold_ext (base : Str) (ins1 ins2 : Nat → List (Str × Str))
    (pnt1 pnt2 : Nat → Option Str) (fb1 fb2 : Str) :
    ∀ (n : Nat) (r : List Change),
    (List.range n).foldlM (emitAt base ins1 ins2 pnt1 pnt2 fb1 fb2) [] = .ok r →
    ExtEq r ((List.range n).flatMap (emitChunk base ins1 ins2 pnt1 pnt2 fb1 fb2)) := by
  intro n
  induction n with
  | zero =>
    intro r h
    cases h
    exact ExtEq.refl _
  | succ n2 ih =>
    intro r h
    rw [List.range_succ, List.foldlM_append] at h
    cases hf : (List.range n2).foldlM (emitAt base ins1 ins2 pnt1 pnt2 fb1 fb2) [] with
    | error u =>
      rw [hf] at h
      cases h
    | ok r1 =>
      rw [hf, exbind_ok] at h
      rw [List.foldlM_cons] at h
      cases he : emitAt base ins1 ins2 pnt1 pnt2 fb1 fb2 r1 n2 with
      | error u =>
        rw [he] at h
        cases h
      | ok r2 =>
        rw [he, exbind_ok] at h
        rw [List.foldlM_nil] at h
        have hr : r2 = r := by
          have h3 : (Except.ok r2 : Except Unit (List Change)) = Except.ok r := h
          injection h3
        subst hr
        have h1 := ih r1 hf
        have h2 := emitAt_ext base ins1 ins2 pnt1 pnt2 fb1 fb2 r1 n2 r2 he
        have := h2.trans (ExtEq.append_right _ h1)
        rw [List.range_succ, List.flatMap_append]
        simpa using this

theorem emitChunk_reconDel (base : Str) (ins1 ins2 : Nat → List (Str × Str))
    (pnt1 pnt2 : Nat → Option Str) (fb1 fb2 : Str) (i : Nat) :
    reconDel (emitChunk base ins1 ins2 pnt1 pnt2 fb1 fb2 i) =
      if i < base.length then [(base.get? i).getD 0] else [] := by
  unfold emitChunk
  rw [reconDel_append, reconDel_append]
  rw [show reconDel ((ins1 i).map fun e => Change.ins e.1 e.2) = [] from by
    simp [reconDel, List.flatMap_map]]
  rw [show reconDel ((ins2 i).map fun e => Change.ins e.1 e.2) = [] from by
    simp [reconDel, List.flatMap_map]]
  by_cases hlt : i < base.length
  · rw [if_pos hlt, if_pos hlt]
    cases hp1 : pnt1 i with
    | some o => simp [reconDel]
    | none =>
      cases hp2 : pnt2 i with
      | some o => simp [reconDel]
      | none => simp [reconDel]
  · rw [if_neg hlt, if_neg hlt]
    rfl

theorem emitChunk_paintSrc (base : Str) (ins1 ins2 : Nat → List (Str × Str))
    (pnt1 pnt2 : Nat → Option Str) (fb1 fb2 : Str) (i : Nat) :
    paintSrc (emitChunk base ins1 ins2 pnt1 pnt2 fb1 fb2 i) =
      if i < base.length then [chunkOwner pnt1 pnt2 fb1 fb2 i] else [] := by
  unfold emitChunk chunkOwner
  rw [paintSrc_append, paintSrc_append]
  rw [show paintSrc ((ins1 i).map fun e => Change.ins e.1 e.2) = [] from by
    simp [paintSrc, List.flatMap_map]]
  rw [show paintSrc ((ins2 i).map fun e => Change.ins e.1 e.2) = [] from by
    simp [paintSrc, List.flatMap_map]]
  by_cases hlt : i < base.length
  · rw [if_pos hlt, if_pos hlt]
    cases hp1 : pnt1 i with
    | some o => simp [paintSrc]
    | none =>
      cases hp2 : pnt2 i with
      | some o => simp [paintSrc]
      | none => simp [paintSrc]
  · rw [if_neg hlt, if_neg hlt]
    rfl

theorem emitChunk_reconIns (base : Str) (ins1 ins2 : Nat → List (Str × Str))
    (pnt1 pnt2 : Nat → Option Str) (fb1 fb2 : Str) (i : Nat) :
    reconIns (emitChunk base ins1 ins2 pnt1 pnt2 fb1 fb2 i) =
      bucketText ins1 i ++ bucketText ins2 i ++
      (if i < base.length ∧ chunkOwner pnt1 pnt2 fb1 fb2 i = none then
        [(base.get? i).getD 0] else []) := by
  unfold emitChunk chunkOwner bucketText
  rw [reconIns_append, reconIns_append]
  rw [show reconIns ((ins1 i).map fun e => Change.ins e.1 e.2) =
      ((ins1 i).map fun e => e.1).flatten from by
    simp [reconIns, List.flatMap_map]
    rfl]
  rw [show reconIns ((ins2 i).map fun e => Change.ins e.1 e.2) =
      ((ins2 i).map fun e => e.1).flatten from by
    simp [reconIns, List.flatMap_map]
    rfl]
  by_cases hlt : i < base.length
  · rw [if_pos hlt]
    cases hp1 : pnt1 i with
    | some o => simp [reconIns, hlt]
    | none =>
      cases hp2 : pnt2 i with
      | some o => simp [reconIns, hlt]
      | none => simp [reconIns, hlt]
  · rw [if_neg hlt]
    simp [reconIns, hlt]

theorem insConcatAt_insMap (l : List (Str × Str)) :
    ∀ j, insConcatAt (l.map fun e => Change.ins e.1 e.2) j =
      if j = 0 then (l.map fun e => e.1).flatten else [] := by
  induction l with
  | nil => intro j; simp [insConcatAt]
  | cons e rest ih =>
    intro j
    rw [List.map_cons, insConcatAt_cons_ins, ih j]
    by_cases hj : j = 0
    · simp [hj]
    · simp [hj]

theorem emitChunk_insConcatAt (base : Str) (ins1 ins2 : Nat → List (Str × Str))
    (pnt1 pnt2 : Nat → Option Str) (fb1 fb2 : Str) (i : Nat) :
    ∀ j, insConcatAt (emitChunk base ins1 ins2 pnt1 pnt2 fb1 fb2 i) j =
      if j = 0 then bucketText ins1 i ++ bucketText ins2 i else [] := by
  intro j
  have hback : ∀ j2, insConcatAt
      (if i < base.length then
        [match pnt1 i with
         | some o => Change.del [(base.get? i).getD 0] (if o = [] then fb1 else o)
         | none =>
           match pnt2 i with
           | some o => Change.del [(base.get? i).getD 0] (if o = [] then fb2 else o)
           | none => Change.equal [(base.get? i).getD 0]]
       else []) j2 = [] := by
    intro j2
    by_cases hlt : i < base.length
    · rw [if_pos hlt]
      cases hp1 : pnt1 i with
      | some o =>
        rw [insConcatAt_cons_del]
        split_ifs <;> rfl
      | none =>
        cases hp2 : pnt2 i with
        | some o =>
          rw [insConcatAt_cons_del]
          split_ifs <;> rfl
        | none =>
          rw [insConcatAt_cons_equal]
          split_ifs <;> rfl
    · rw [if_neg hlt]
      rfl
  unfold emitChunk bucketText
  rw [insConcatAt_append, insConcatAt_append]
  rw [insConcatAt_insMap, insConcatAt_insMap]
  rw [hback]
  rw [reconDel_append]
  rw [show reconDel ((ins1 i).map fun e => Change.ins e.1 e.2) = [] from by
    simp [reconDel, List.flatMap_map]]
  rw [show reconDel ((ins2 i).map fun e => Change.ins e.1 e.2) = [] from by
    simp [reconDel, List.flatMap_map]]
  by_cases hj : j = 0
  · simp [hj]
  · simp [hj]

theorem emitFlat_reconDel (base : Str) (ins1 ins2 : Nat → List (Str × Str))
    (pnt1 pnt2 : Nat → Option Str) (fb1 fb2 : Str) :
    ∀ n, reconDel ((List.range n).flatMap
      (emitChunk base ins1 ins2 pnt1 pnt2 fb1 fb2)) = base.take n := by
  intro n
  induction n with
  | zero => simp [reconDel]
  | succ n2 ih =>
    rw [List.range_succ, List.flatMap_append, reconDel_append, ih]
    rw [show ([n2].flatMap (emitChunk base ins1 ins2 pnt1 pnt2 fb1 fb2)) =
      emitChunk base ins1 ins2 pnt1 pnt2 fb1 fb2 n2 from by simp]
    rw [emitChunk_reconDel, List.take_succ]
    by_cases hlt : n2 < base.length
    · rw [if_pos hlt]
      congr 1
      rw [List.get?_eq_get hlt]
      rw [show base[n2]? = some base[n2] from List.getElem?_eq_getElem hlt]
      simp
    · rw [if_neg hlt]
      rw [show base[n2]? = none from List.getElem?_eq_none (by omega)]
      simp

theorem emitFlat_paintSrc (base : Str) (ins1 ins2 : Nat → List (Str × Str))
    (pnt1 pnt2 : Nat → Option Str) (fb1 fb2 : Str) :
    ∀ n, n ≤ base.length →
    paintSrc ((List.range n).flatMap
      (emitChunk base ins1 ins2 pnt1 pnt2 fb1 fb2)) =
      (List.range n).map (chunkOwner pnt1 pnt2 fb1 fb2) := by
  intro n
  induction n with
  | zero => intro _; simp [paintSrc]
  | succ n2 ih =>
    intro hn
    rw [List.range_succ, List.flatMap_append, paintSrc_append, ih (by omega)]
    rw [show ([n2].flatMap (emitChunk base ins1 ins2 pnt1 pnt2 fb1 fb2)) =
      emitChunk base ins1 ins2 pnt1 pnt2 fb1 fb2 n2 from by simp]
    rw [emitChunk_paintSrc, if_pos (by omega)]
    rw [List.map_append]
    rfl

theorem emitFlat_paintSrc_full (base : Str) (ins1 ins2 : Nat → List (Str × Str))
    (pnt1 pnt2 : Nat → Option Str) (fb1 fb2 : Str) :
    paintSrc ((List.range (base.length + 1)).flatMap
      (emitChunk base ins1 ins2 pnt1 pnt2 fb1 fb2)) =
      (List.range base.length).map (chunkOwner pnt1 pnt2 fb1 fb2) := by
  rw [List.range_succ, List.flatMap_append, paintSrc_append,
    emitFlat_paintSrc base ins1 ins2 pnt1 pnt2 fb1 fb2 base.length (by omega)]
  rw [show ([base.length].flatMap (emitChunk base ins1 ins2 pnt1 pnt2 fb1 fb2)) =
    emitChunk base ins1 ins2 pnt1 pnt2 fb1 fb2 base.length from by simp]
  rw [emitChunk_paintSrc, if_neg (by omega)]
  simp

theorem emitFlat_reconIns (base : Str) (ins1 ins2 : Nat → List (Str × Str))
    (pnt1 pnt2 : Nat → Option Str) (fb1 fb2 : Str) :
    ∀ n, reconIns ((List.range n).flatMap
      (emitChunk base ins1 ins2 pnt1 pnt2 fb1 fb2)) =
      (List.range n).flatMap (fun i =>
        bucketText ins1 i ++ bucketText ins2 i ++
        (if i < base.length ∧ chunkOwner pnt1 pnt2 fb1 fb2 i = none then
          [(base.get? i).getD 0] else [])) := by
  intro n
  induction n with
  | zero => simp [reconIns]
  | succ n2 ih =>
    rw [List.range_succ, List.flatMap_append, reconIns_append, ih]
    conv_rhs => rw [List.flatMap_append]
    congr 1
    rw [show ([n2].flatMap (emitChunk base ins1 ins2 pnt1 pnt2 fb1 fb2)) =
      emitChunk base ins1 ins2 pnt1 pnt2 fb1 fb2 n2 from by simp]
    rw [emitChunk_reconIns]
    simp

theorem emitFlat_insConcatAt (base : Str) (ins1 ins2 : Nat → List (Str × Str))
    (pnt1 pnt2 : Nat → Option Str) (fb1 fb2 : Str) :
    ∀ n, n ≤ base.length →
    ∀ k, insConcatAt ((List.range n).flatMap
      (emitChunk base ins1 ins2 pnt1 pnt2 fb1 fb2)) k =
      if k < n then bucketText ins1 k ++ bucketText ins2 k else [] := by
  intro n
  induction n with
  | zero =>
    intro _ k
    simp [insConcatAt]
  | succ n2 ih =>
    intro hn k
    rw [List.range_succ, List.flatMap_append, insConcatAt_append]
    rw [ih (by omega) k]
    rw [emitFlat_reconDel]
    rw [show ([n2].flatMap (emitChunk base ins1 ins2 pnt1 pnt2 fb1 fb2)) =
      emitChunk base ins1 ins2 pnt1 pnt2 fb1 fb2 n2 from by simp]
    have hlen : (base.take n2).length = n2 := by
      rw [List.length_take]
      omega
    rw [hlen, emitChunk_insConcatAt]
    by_cases hk : k < n2
    · have h1 : ¬(n2 ≤ k) := by omega
      have h2 : k < n2 + 1 := by omega
      rw [if_pos hk, if_neg h1, if_pos h2]
      simp
    · rw [if_neg hk]
      by_cases hk2 : k = n2
      · have h1 : n2 ≤ k := by omega
        have h2 : k - n2 = 0 := by omega
        have h3 : k < n2 + 1 := by omega
        rw [if_pos h1, if_pos h2, if_pos h3]
        simp [hk2]
      · have h3 : ¬(k < n2 + 1) := by omega
        rw [if_neg h3]
        by_cases hk3 : n2 ≤ k
        · have h2 : ¬(k - n2 = 0) := by omega
          rw [if_pos hk3, if_neg h2]
          simp
        · rw [if_neg hk3]
          simp

theorem emitFlat_insConcatAt_full (base : Str) (ins1 ins2 : Nat → List (Str × Str))
    (pnt1 pnt2 : Nat → Option Str) (fb1 fb2 : Str) :
    ∀ k, insConcatAt ((List.range (base.length + 1)).flatMap
      (emitChunk base ins1 ins2 pnt1 pnt2 fb1 fb2)) k =
      if k ≤ base.length then bucketText ins1 k ++ bucketText ins2 k else [] := by
  intro k
  rw [List.range_succ, List.flatMap_append, insConcatAt_append]
  rw [emitFlat_insConcatAt base ins1 ins2 pnt1 pnt2 fb1 fb2 base.length (by omega) k]
  rw [emitFlat_reconDel]
  have hlen : (base.take base.length).length = base.length := by
    rw [List.length_take]
    omega
  rw [show ([base.length].flatMap (emitChunk base ins1 ins2 pnt1 pnt2 fb1 fb2)) =
    emitChunk base ins1 ins2 pnt1 pnt2 fb1 fb2 base.length from by simp]
  rw [hlen, emitChunk_insConcatAt]
  by_cases hk : k < base.length
  · have h1 : ¬(base.length ≤ k) := by omega
    have h2 : k ≤ base.length := by omega
    rw [if_pos hk, if_neg h1, if_pos h2]
    simp
  · rw [if_neg hk]
    by_cases hk2 : k = base.length
    · have h1 : base.length ≤ k := by omega
      have h2 : k - base.length = 0 := by omega
      have h3 : k ≤ base.length := by omega
      rw [if_pos h1, if_pos h2, if_pos h3]
      simp [hk2]
    · have h1 : base.length ≤ k := by omega
      have h2 : ¬(k - base.length = 0) := by omega
      have h3 : ¬(k ≤ base.length) := by omega
      rw [if_pos h1, if_neg h2, if_neg h3]
      simp

theorem delAssignO_lb : ∀ (B : List Change) (o : Nat),
    ∀ e ∈ delAssignO o B, o ≤ e.1 := by
  intro B
  induction B with
  | nil => intro o e he; simp [delAssignO] at he
  | cons c rest ih =>
    intro o e he
    cases c with
    | ins t i =>
      exact ih o e (by simpa [delAssignO] using he)
    | equal t =>
      have := ih (o + t.length) e (by simpa [delAssignO] using he)
      omega
    | del t i =>
      simp only [delAssignO, List.mem_append] at he
      rcases he with h | h
      · simp only [List.mem_map, List.mem_range] at h
        obtain ⟨k, _, hk⟩ := h
        subst hk
        simp
      · have := ih (o + t.length) e h
        omega

theorem chunk_find (i : Str) (p : Nat) :
    ∀ (n o : Nat),
    ((((List.range n).map fun k => (o + k, i)).reverse).find? fun a =>
      decide (a.1 = p)) =
    if o ≤ p ∧ p < o + n then some (p, i) else none := by
  intro n
  induction n with
  | zero =>
    intro o
    rw [if_neg (by omega)]
    simp
  | succ n2 ih =>
    intro o
    rw [List.range_succ, List.map_append, List.reverse_append]
    simp only [List.map_cons, List.map_nil, List.reverse_cons, List.reverse_nil,
      List.nil_append, List.cons_append, List.find?_cons]
    by_cases hp : o + n2 = p
    · rw [if_pos (by omega)]
      simp [hp]
    · rw [show (decide (o + n2 = p)) = false from by simp [hp]]
      rw [ih o]
      by_cases hin : o ≤ p ∧ p < o + n2
      · rw [if_pos hin, if_pos (by omega)]
      · rw [if_neg hin, if_neg (by omega)]

theorem delAssignO_lookup : ∀ (B : List Change) (o p : Nat),
    ((((delAssignO o B).reverse).find? fun a => decide (a.1 = p)).map fun a => a.2) =
    (if o ≤ p then ((paintSrc B).get? (p - o)).join else none) := by
  intro B
  induction B with
  | nil =>
    intro o p
    simp only [delAssignO, List.reverse_nil, List.find?_nil, Option.map_none']
    rw [show paintSrc [] = [] from rfl]
    split_ifs <;> simp
  | cons c rest ih =>
    intro o p
    cases c with
    | ins t i =>
      rw [show delAssignO o (Change.ins t i :: rest) = delAssignO o rest from rfl]
      rw [ih o p]
      rw [paintSrc_cons]
      simp
    | equal t =>
      rw [show delAssignO o (Change.equal t :: rest) =
        delAssignO (o + t.length) rest from rfl]
      rw [ih (o + t.length) p]
      rw [paintSrc_cons]
      simp only
      by_cases h1 : o + t.length ≤ p
      · rw [if_pos h1, if_pos (by omega)]
        rw [List.get?_append_right (by simp; omega)]
        congr 1
        congr 1
        simp only [List.length_map]
        omega
      · rw [if_neg h1]
        by_cases h2 : o ≤ p
        · rw [if_pos h2]
          rw [List.get?_append (by simp; omega)]
          rw [List.get?_map]
          rw [List.get?_eq_get (show p - o < t.length from by omega)]
          simp
        · rw [if_neg h2]
    | del t i =>
      rw [show delAssignO o (Change.del t i :: rest) =
        ((List.range t.length).map fun k => (o + k, i)) ++
          delAssignO (o + t.length) rest from rfl]
      rw [List.reverse_append, List.find?_append]
      rw [paintSrc_cons]
      simp only
      by_cases h1 : o + t.length ≤ p
      · have hchunk : ((((List.range t.length).map fun k => (o + k, i)).reverse).find?
            fun a => decide (a.1 = p)) = none := by
          rw [chunk_find]
          rw [if_neg (by omega)]
        rw [hchunk]
        have hrest := ih (o + t.length) p
        rw [if_pos (by omega)] at hrest
        cases hfr : (((delAssignO (o + t.length) rest).reverse).find?
            fun a => decide (a.1 = p)) with
        | none =>
          rw [hfr] at hrest
          simp only [Option.map_none'] at hrest
          simp only [Option.none_or]
          rw [if_pos (by omega)]
          rw [List.get?_append_right (by simp; omega)]
          simp only [Option.map_none']
          rw [hrest]
          congr 2
          simp only [List.length_map]
          omega
        | some e =>
          rw [hfr] at hrest
          simp only [Option.map_some'] at hrest
          simp only [Option.or_some]
          rw [if_pos (by omega)]
          rw [List.get?_append_right (by simp; omega)]
          simp only [Option.map_some']
          rw [hrest]
          congr 2
          simp only [List.length_map]
          omega
      · have hrestnone : (((delAssignO (o + t.length) rest).reverse).find?
            fun a => decide (a.1 = p)) = none := by
          rw [List.find?_eq_none]
          intro e he
          have := delAssignO_lb rest (o + t.length) e (by
            simpa using he)
          simp only [decide_eq_true_eq]
          omega
        rw [hrestnone]
        simp only [Option.none_or]
        rw [chunk_find]
        by_cases h2 : o ≤ p
        · rw [if_pos (by exact ⟨h2, by omega⟩), if_pos h2]
          rw [List.get?_append (by simp; omega)]
          rw [List.get?_map]
          rw [List.get?_eq_get (show p - o < t.length from by omega)]
          simp
        · rw [if_neg (by omega), if_neg h2]
          rfl

theorem exbind_err {a : Type} {b : Type} (u : Unit) (f : a → Except Unit b) :
    ((Except.error u : Except Unit a) >>= f) = Except.error u := rfl

theorem mergeTwoDiffs_ok_elim {A B r : List Change}
    (h : mergeTwoDiffs A B = .ok (some r)) :
    ∃ st, walk2 (reconDel A) (fun p => ((paintSrc A).get? p).join)
        (delIntervals A) B = some st ∧
      (List.range ((reconDel A).length + 1)).foldlM
        (emitAt (reconDel A)
          (fun i => ((insertEntries A).filter fun en => en.1 = i).map fun en => en.2)
          (fun i => (st.ins2.filter fun en => en.1 = i).map fun en => en.2)
          (fun p => ((paintSrc A).get? p).join)
          (fun p => (st.del2.reverse.find? fun a => a.1 = p).map fun a => a.2)
          (fallbackId A (strOf "diff1")) (fallbackId B (strOf "diff2"))) []
        = .ok r := by
  unfold mergeTwoDiffs at h
  dsimp only at h
  cases hwalk : walk2 (reconDel A) (fun p => ((paintSrc A).get? p).join)
      (delIntervals A) B with
  | none =>
    rw [hwalk] at h
    dsimp only at h
    have h3 : (Except.ok (none : Option (List Change)) :
        Except Unit (Option (List Change))) = Except.ok (some r) := h
    injection h3 with h4
    cases h4
  | some st =>
    rw [hwalk] at h
    dsimp only at h
    refine ⟨st, rfl, ?_⟩
    cases hf : (List.range ((reconDel A).length + 1)).foldlM
        (emitAt (reconDel A)
          (fun i => ((insertEntries A).filter fun en => en.1 = i).map fun en => en.2)
          (fun i => (st.ins2.filter fun en => en.1 = i).map fun en => en.2)
          (fun p => ((paintSrc A).get? p).join)
          (fun p => (st.del2.reverse.find? fun a => a.1 = p).map fun a => a.2)
          (fallbackId A (strOf "diff1")) (fallbackId B (strOf "diff2"))) [] with
    | error u =>
      rw [hf, exbind_err] at h
      cases h
    | ok r0 =>
      rw [hf, exbind_ok] at h
      have h3 : (Except.ok (some r0) : Except Unit (Option (List Change))) =
        Except.ok (some r) := h
      injection h3 with h4
      injection h4 with h5
      rw [h5]

theorem chunkOwner_isSome_eq (pnt1 pnt2 : Nat → Option Str) (fb1 fb2 : Str)
    (i : Nat) :
    (chunkOwner pnt1 pnt2 fb1 fb2 i).isSome =
      ((pnt1 i).isSome || (pnt2 i).isSome) := by
  unfold chunkOwner
  cases h1 : pnt1 i with
  | some o => simp
  | none =>
    cases h2 : pnt2 i with
    | some o => simp
    | none => simp

theorem chunkOwner_none_iff (pnt1 pnt2 : Nat → Option Str) (fb1 fb2 : Str)
    (i : Nat) :
    chunkOwner pnt1 pnt2 fb1 fb2 i = none ↔ pnt1 i = none ∧ pnt2 i = none := by
  unfold chunkOwner
  cases h1 : pnt1 i with
  | some o => simp
  | none =>
    cases h2 : pnt2 i with
    | some o => simp
    | none => simp

theorem flatMap_perm_congr {α β : Type} (f g : α → List β) :
    ∀ l : List α, (∀ a ∈ l, (f a).Perm (g a)) →
      (l.flatMap f).Perm (l.flatMap g) := by
  intro l
  induction l with
  | nil => intro _; exact List.Perm.refl _
  | cons a rest ih =>
    intro h
    rw [List.flatMap_cons, List.flatMap_cons]
    exact List.Perm.append (h a (List.mem_cons_self a rest))
      (ih fun b hb => h b (List.mem_cons_of_mem a hb))

/-- C3 (amended): failure of the pairwise merge is not symmetric in
general (counterexample below), but whenever both argument orders
succeed, the two results reconstruct the same base text, classify every
base character the same way (deleted versus kept), and their anchored
insert runs and visible text agree up to reordering of insertions
anchored at the same base offset. -/
theorem C3_merge_order_agreement (A B r1 r2 : List Change)
    (h1 : mergeTwoDiffs A B = .ok (some r1))
    (h2 : mergeTwoDiffs B A = .ok (some r2)) :
    reconDel r1 = reconDel r2 ∧ paintB r1 = paintB r2 ∧
    (∀ k, (insConcatAt r1 k).Perm (insConcatAt r2 k)) ∧
    (reconIns r1).Perm (reconIns r2) := by
  obtain ⟨st1, hw1, hf1⟩ := mergeTwoDiffs_ok_elim h1
  obtain ⟨st2, hw2, hf2⟩ := mergeTwoDiffs_ok_elim h2
  have hBA : reconDel B = reconDel A := by
    have hgood : specGo (reconDel A) (fun p => ((paintSrc A).get? p).join)
        (delIntervals A) B 0 = true ∧ reconDel B = reconDel A := by
      by_contra hngood
      rw [← (walk2_result A B).1] at hngood
      rw [hw1] at hngood
      cases hngood
    exact hgood.2
  obtain ⟨hins1, hdel1⟩ := (walk2_result A B).2 st1 hw1
  obtain ⟨hins2, hdel2⟩ := (walk2_result B A).2 st2 hw2
  have he1 := emitFold_ext (reconDel A)
    (fun i => ((insertEntries A).filter fun en => en.1 = i).map fun en => en.2)
    (fun i => (st1.ins2.filter fun en => en.1 = i).map fun en => en.2)
    (fun p => ((paintSrc A).get? p).join)
    (fun p => (st1.del2.reverse.find? fun a => a.1 = p).map fun a => a.2)
    (fallbackId A (strOf "diff1")) (fallbackId B (strOf "diff2"))
    ((reconDel A).length + 1) r1 hf1
  have he2 := emitFold_ext (reconDel B)
    (fun i => ((insertEntries B).filter fun en => en.1 = i).map fun en => en.2)
    (fun i => (st2.ins2.filter fun en => en.1 = i).map fun en => en.2)
    (fun p => ((paintSrc B).get? p).join)
    (fun p => (st2.del2.reverse.find? fun a => a.1 = p).map fun a => a.2)
    (fallbackId B (strOf "diff1")) (fallbackId A (strOf "diff2"))
    ((reconDel B).length + 1) r2 hf2
  rw [hins1, hdel1, show insertEntriesO 0 B = insertEntries B from rfl] at he1
  rw [hins2, hdel2, show insertEntriesO 0 A = insertEntries A from rfl] at he2
  have hpB : (fun p => (((delAssignO 0 B).reverse).find? fun a => a.1 = p).map
      fun a => a.2) = (fun p => ((paintSrc B).get? p).join) := by
    funext p
    rw [delAssignO_lookup B 0 p]
    simp
  have hpA : (fun p => (((delAssignO 0 A).reverse).find? fun a => a.1 = p).map
      fun a => a.2) = (fun p => ((paintSrc A).get? p).join) := by
    funext p
    rw [delAssignO_lookup A 0 p]
    simp
  rw [hpB] at he1
  rw [hpA] at he2
  rw [hBA] at he2
  obtain ⟨hd1, hp1, hi1, hc1⟩ := he1
  obtain ⟨hd2, hp2, hi2, hc2⟩ := he2
  have hd1' : reconDel r1 = reconDel A := by
    rw [hd1, emitFlat_reconDel]
    exact List.take_of_length_le (by omega)
  have hd2' : reconDel r2 = reconDel A := by
    rw [hd2, emitFlat_reconDel]
    exact List.take_of_length_le (by omega)
  have hp1' : paintSrc r1 = (List.range (reconDel A).length).map
      (chunkOwner (fun p => ((paintSrc A).get? p).join)
        (fun p => ((paintSrc B).get? p).join)
        (fallbackId A (strOf "diff1")) (fallbackId B (strOf "diff2"))) := by
    rw [hp1, emitFlat_paintSrc_full]
  have hp2' : paintSrc r2 = (List.range (reconDel A).length).map
      (chunkOwner (fun p => ((paintSrc B).get? p).join)
        (fun p => ((paintSrc A).get? p).join)
        (fallbackId B (strOf "diff1")) (fallbackId A (strOf "diff2"))) := by
    rw [hp2, emitFlat_paintSrc_full]
  refine ⟨hd1'.trans hd2'.symm, ?_, ?_, ?_⟩
  · unfold paintB
    rw [hp1', hp2', List.map_map, List.map_map]
    apply List.map_congr_left
    intro i _
    simp only [Function.comp]
    rw [chunkOwner_isSome_eq, chunkOwner_isSome_eq, Bool.or_comm]
  · intro k
    rw [hc1 k, hc2 k, emitFlat_insConcatAt_full, emitFlat_insConcatAt_full]
    by_cases hk : k ≤ (reconDel A).length
    · rw [if_pos hk, if_pos hk]
      exact List.perm_append_comm
    · rw [if_neg hk, if_neg hk]
  · rw [hi1, hi2, emitFlat_reconIns, emitFlat_reconIns]
    apply flatMap_perm_congr
    intro i _
    have hcond : (i < (reconDel A).length ∧
        chunkOwner (fun p => ((paintSrc A).get? p).join)
          (fun p => ((paintSrc B).get? p).join)
          (fallbackId A (strOf "diff1")) (fallbackId B (strOf "diff2")) i = none) ↔
        (i < (reconDel A).length ∧
        chunkOwner (fun p => ((paintSrc B).get? p).join)
          (fun p => ((paintSrc A).get? p).join)
          (fallbackId B (strOf "diff1")) (fallbackId A (strOf "diff2")) i = none) := by
      rw [chunkOwner_none_iff, chunkOwner_none_iff]
      constructor
      · intro ⟨hl, ha, hb⟩
        exact ⟨hl, hb, ha⟩
      · intro ⟨hl, hb, ha⟩
        exact ⟨hl, ha, hb⟩
    rw [if_congr hcond rfl rfl]
    exact List.Perm.append_right _ List.perm_append_comm

/-- C3 counterexample: two sequences over the shared base "ab" (the first
deletes both characters, the second inserts "X" between them) for which
merging in one order returns the null conflict signal while the opposite
order succeeds — so pairwise-merge failure is not symmetric. -/
theorem C3_counterexample :
    reconDel [Change.del (strOf "ab") (strOf "a")] =
      reconDel [Change.equal (strOf "a"), Change.ins (strOf "X") (strOf "b"),
        Change.equal (strOf "b")] ∧
    mergeTwoDiffs [Change.del (strOf "ab") (strOf "a")]
      [Change.equal (strOf "a"), Change.ins (strOf "X") (strOf "b"),
       Change.equal (strOf "b")] = .ok none ∧
    mergeTwoDiffs [Change.equal (strOf "a"), Change.ins (strOf "X") (strOf "b"),
       Change.equal (strOf "b")]
      [Change.del (strOf "ab") (strOf "a")] =
      .ok (some [Change.del (strOf "a") (strOf "a"),
        Change.ins (strOf "X") (strOf "b"),
        Change.del (strOf "b") (strOf "a")]) :=
  ⟨by decide, by decide, by decide⟩

/-- C3 witness: both orders of merging two pure inserts over the empty
base succeed, and the amended agreement theorem applies to the two
concrete results. -/
theorem C3_merge_order_agreement_witness :
    reconDel [Change.ins (strOf "X") (strOf "a"),
        Change.ins (strOf "Y") (strOf "b")] =
      reconDel [Change.ins (strOf "Y") (strOf "b"),
        Change.ins (strOf "X") (strOf "a")] ∧
    paintB [Change.ins (strOf "X") (strOf "a"),
        Change.ins (strOf "Y") (strOf "b")] =
      paintB [Change.ins (strOf "Y") (strOf "b"),
        Change.ins (strOf "X") (strOf "a")] ∧
    (insConcatAt [Change.ins (strOf "X") (strOf "a"),
        Change.ins (strOf "Y") (strOf "b")] 0).Perm
      (insConcatAt [Change.ins (strOf "Y") (strOf "b"),
        Change.ins (strOf "X") (strOf "a")] 0) ∧
    (reconIns [Change.ins (strOf "X") (strOf "a"),
        Change.ins (strOf "Y") (strOf "b")]).Perm
      (reconIns [Change.ins (strOf "Y") (strOf "b"),
        Change.ins (strOf "X") (strOf "a")]) := by
  have h := C3_merge_order_agreement
    [Change.ins (strOf "X") (strOf "a")] [Change.ins (strOf "Y") (strOf "b")]
    [Change.ins (strOf "X") (strOf "a"), Change.ins (strOf "Y") (strOf "b")]
    [Change.ins (strOf "Y") (strOf "b"), Change.ins (strOf "X") (strOf "a")]
    (by decide) (by decide)
  exact ⟨h.1, h.2.1, h.2.2.1 0, h.2.2.2⟩

theorem get?_moveLeft (l : List Change) (i j : Nat) (x : Change)
    (hx : l.get? i = some x) (hj : j ≤ i) :
    ∀ k, ((l.eraseIdx i).insertIdx j x).get? k =
      if k < j then l.get? k else if k = j then some x
      else if k ≤ i then l.get? (k - 1) else l.get? k := by
  have hi : i < l.length := by
    by_contra hcon
    rw [List.get?_eq_none.mpr (by omega)] at hx
    cases hx
  obtain ⟨hl, he⟩ := eraseIdx_decomp l i x hx
  have hlen : (l.eraseIdx i).length = l.length - 1 := by
    rw [he]
    simp only [List.length_append, List.length_take, List.length_drop]
    omega
  have hform : (l.eraseIdx i).insertIdx j x =
      l.take j ++ x :: ((l.take i).drop j ++ l.drop (i + 1)) := by
    rw [insertIdx_decomp x j _ (by omega), he]
    congr 1
    · rw [List.take_append_eq_append_take]
      rw [show j - (l.take i).length = 0 from by
        simp only [List.length_take]
        omega]
      rw [List.take_take, Nat.min_eq_left hj]
      simp
    · congr 1
      rw [List.drop_append_eq_append_drop]
      rw [show j - (l.take i).length = 0 from by
        simp only [List.length_take]
        omega]
      simp
  intro k
  rw [hform]
  by_cases h1 : k < j
  · rw [if_pos h1]
    rw [List.get?_append (by simp only [List.length_take]; omega)]
    exact List.get?_take h1
  · rw [if_neg h1]
    by_cases h2 : k = j
    · rw [if_pos h2]
      subst h2
      rw [List.get?_append_right (by simp only [List.length_take]; omega)]
      rw [show k - (l.take k).length = 0 from by
        simp only [List.length_take]
        omega]
      rfl
    · rw [if_neg h2]
      rw [List.get?_append_right (by simp only [List.length_take]; omega)]
      have hkt : (l.take j).length = j := by
        simp only [List.length_take]
        omega
      rw [hkt]
      rw [show k - j = (k - j - 1) + 1 from by omega]
      rw [List.get?_cons_succ]
      by_cases h3 : k ≤ i
      · rw [if_pos h3]
        rw [List.get?_append (by
          simp only [List.length_drop, List.length_take]
          omega)]
        rw [List.get?_drop]
        rw [show j + (k - j - 1) = k - 1 from by omega]
        exact List.get?_take (by omega)
      · rw [if_neg h3]
        rw [List.get?_append_right (by
          simp only [List.length_drop, List.length_take]
          omega)]
        rw [List.get?_drop]
        congr 1
        simp only [List.length_drop, List.length_take]
        omega

theorem get?_moveRight (l : List Change) (i j : Nat) (x : Change)
    (hx : l.get? i = some x) (hij : i ≤ j) (hjl : j < l.length) :
    ∀ k, ((l.eraseIdx i).insertIdx j x).get? k =
      if k < i then l.get? k else if k < j then l.get? (k + 1)
      else if k = j then some x else l.get? k := by
  have hi : i < l.length := by omega
  obtain ⟨hl, he⟩ := eraseIdx_decomp l i x hx
  have hlen : (l.eraseIdx i).length = l.length - 1 := by
    rw [he]
    simp only [List.length_append, List.length_take, List.length_drop]
    omega
  have hform : (l.eraseIdx i).insertIdx j x =
      l.take i ++ ((l.drop (i + 1)).take (j - i) ++ x :: l.drop (j + 1)) := by
    rw [insertIdx_decomp x j _ (by omega), he]
    rw [List.take_append_eq_append_take, List.drop_append_eq_append_drop]
    rw [List.take_take, Nat.min_eq_right (by omega)]
    rw [show (l.take i).length = i from by
      simp only [List.length_take]
      omega]
    rw [show (l.take i).drop j = [] from List.drop_eq_nil_of_le (by
      simp only [List.length_take]
      omega)]
    rw [List.drop_drop]
    rw [show i + 1 + (j - i) = j + 1 from by omega]
    rw [List.nil_append, List.append_assoc]
  have hmidlen : ((l.drop (i + 1)).take (j - i)).length = j - i := by
    simp only [List.length_take, List.length_drop]
    omega
  intro k
  rw [hform]
  by_cases h1 : k < i
  · rw [if_pos h1]
    rw [List.get?_append (by simp only [List.length_take]; omega)]
    exact List.get?_take h1
  · rw [if_neg h1]
    rw [List.get?_append_right (by simp only [List.length_take]; omega)]
    rw [show (l.take i).length = i from by
      simp only [List.length_take]
      omega]
    by_cases h2 : k < j
    · rw [if_pos h2]
      rw [List.get?_append (by omega)]
      rw [List.get?_take (by omega), List.get?_drop]
      congr 1
      omega
    · rw [if_neg h2]
      rw [List.get?_append_right (by omega), hmidlen]
      by_cases h3 : k = j
      · rw [if_pos h3]
        rw [show k - i - (j - i) = 0 from by omega]
        rfl
      · rw [if_neg h3]
        rw [show k - i - (j - i) = (k - j - 1) + 1 from by omega]
        rw [List.get?_cons_succ, List.get?_drop]
        congr 1
        omega

theorem erase_insert_perm (l : List Change) (i j : Nat) (x : Change)
    (hx : l.get? i = some x) (hj : j ≤ (l.eraseIdx i).length) :
    ((l.eraseIdx i).insertIdx j x).Perm l := by
  obtain ⟨hl, he⟩ := eraseIdx_decomp l i x hx
  rw [insertIdx_decomp x j _ hj]
  have h2 : ((l.eraseIdx i).take j ++ x :: (l.eraseIdx i).drop j).Perm
      (x :: l.eraseIdx i) := by
    have hmid : List.Perm ((l.eraseIdx i).take j ++ x :: (l.eraseIdx i).drop j)
        (x :: ((l.eraseIdx i).take j ++ (l.eraseIdx i).drop j)) :=
      List.perm_middle
    rw [List.take_append_drop] at hmid
    exact hmid
  refine h2.trans ?_
  rw [he]
  conv_rhs => rw [hl]
  exact List.perm_middle.symm

theorem count_unique_pos : ∀ (l : List Change) (a : Change), l.count a ≤ 1 →
    ∀ k1 k2, l.get? k1 = some a → l.get? k2 = some a → k1 = k2 := by
  intro l
  induction l with
  | nil =>
    intro a _ k1 k2 h1
    simp at h1
  | cons c rest ih =>
    intro a hcnt k1 k2 h1 h2
    by_cases hc : c = a
    · subst hc
      have h0 : rest.count c = 0 := by
        rw [List.count_cons_self] at hcnt
        omega
      have hnm : c ∉ rest := by
        intro hmem
        have := List.count_pos_iff_mem.mpr hmem
        omega
      cases k1 with
      | zero =>
        cases k2 with
        | zero => rfl
        | succ k2b =>
          exfalso
          apply hnm
          simp only [List.get?_cons_succ] at h2
          exact List.get?_mem h2
      | succ k1b =>
        exfalso
        apply hnm
        simp only [List.get?_cons_succ] at h1
        exact List.get?_mem h1
    · cases k1 with
      | zero =>
        simp only [List.get?_cons_zero] at h1
        cases h1
        exact absurd rfl hc
      | succ k1b =>
        cases k2 with
        | zero =>
          simp only [List.get?_cons_zero] at h2
          cases h2
          exact absurd rfl hc
        | succ k2b =>
          simp only [List.get?_cons_succ] at h1 h2
          have hr : rest.count a ≤ 1 := by
            rw [List.count_cons_of_ne (Ne.symm hc)] at hcnt
            exact hcnt
          have := ih a hr k1b k2b h1 h2
          omega

theorem scanUpd_rs_eq (tid : Str) (st : MarkerScan) (c : Change) (i : Nat) :
    (scanUpd tid st c i).rs = if isRSOf tid c then some i else st.rs := by
  have hne : ¬(([RANGE_END] : Str) = [RANGE_START]) := by decide
  cases c with
  | equal t => simp [scanUpd, isRSOf]
  | ins t j =>
    by_cases hj : j = tid
    · subst hj
      by_cases ht : t = [RANGE_START]
      · subst ht
        simp [scanUpd, isRSOf]
      · by_cases ht2 : t = [RANGE_END]
        · subst ht2
          simp [scanUpd, isRSOf, hne]
        · simp [scanUpd, isRSOf, ht, ht2]
    · simp [scanUpd, isRSOf, hj]
  | del t j =>
    by_cases hj : j = tid
    · subst hj
      simp [scanUpd, isRSOf]
    · simp [scanUpd, isRSOf, hj]

theorem scanUpd_re_eq (tid : Str) (st : MarkerScan) (c : Change) (i : Nat) :
    (scanUpd tid st c i).re = if isREOf tid c then some i else st.re := by
  have hne : ¬(([RANGE_START] : Str) = [RANGE_END]) := by decide
  have hne2 : ¬(RANGE_END = RANGE_START) := by decide
  cases c with
  | equal t => simp [scanUpd, isREOf]
  | ins t j =>
    by_cases hj : j = tid
    · subst hj
      by_cases ht : t = [RANGE_START]
      · subst ht
        simp [scanUpd, isREOf, hne]
      · by_cases ht2 : t = [RANGE_END]
        · subst ht2
          simp [scanUpd, isREOf, hne2]
        · simp [scanUpd, isREOf, ht, ht2]
    · simp [scanUpd, isREOf, hj]
  | del t j =>
    by_cases hj : j = tid
    · subst hj
      simp [scanUpd, isREOf]
    · simp [scanUpd, isREOf, hj]

theorem scanUpd_lc_eq (tid : Str) (st : MarkerScan) (c : Change) (i : Nat) :
    (scanUpd tid st c i).lc = if contentOf tid c then some i else st.lc := by
  have hne2 : ¬(RANGE_END = RANGE_START) := by decide
  cases c with
  | equal t => simp [scanUpd, contentOf, relOf, Change.idOf]
  | ins t j =>
    by_cases hj : j = tid
    · subst hj
      by_cases ht : t = [RANGE_START]
      · subst ht
        simp [scanUpd, contentOf, relOf, Change.idOf, isRangeMarker]
      · by_cases ht2 : t = [RANGE_END]
        · subst ht2
          simp [scanUpd, contentOf, relOf, Change.idOf, isRangeMarker, hne2]
        · simp [scanUpd, contentOf, relOf, Change.idOf, isRangeMarker, ht, ht2]
    · simp [scanUpd, contentOf, relOf, Change.idOf, hj]
  | del t j =>
    by_cases hj : j = tid
    · subst hj
      simp [scanUpd, contentOf, relOf, Change.idOf, isRangeMarker]
    · simp [scanUpd, contentOf, relOf, Change.idOf, hj]

theorem scanUpd_fc_eq (tid : Str) (st : MarkerScan) (c : Change) (i : Nat) :
    (scanUpd tid st c i).fc =
      if contentOf tid c then (st.fc.orElse fun _ => some i) else st.fc := by
  have hne2 : ¬(RANGE_END = RANGE_START) := by decide
  cases c with
  | equal t => simp [scanUpd, contentOf, relOf, Change.idOf]
  | ins t j =>
    by_cases hj : j = tid
    · subst hj
      by_cases ht : t = [RANGE_START]
      · subst ht
        simp [scanUpd, contentOf, relOf, Change.idOf, isRangeMarker]
      · by_cases ht2 : t = [RANGE_END]
        · subst ht2
          simp [scanUpd, contentOf, relOf, Change.idOf, isRangeMarker, hne2]
        · simp [scanUpd, contentOf, relOf, Change.idOf, isRangeMarker, ht, ht2]
    · simp [scanUpd, contentOf, relOf, Change.idOf, hj]
  | del t j =>
    by_cases hj : j = tid
    · subst hj
      simp [scanUpd, contentOf, relOf, Change.idOf, isRangeMarker]
    · simp [scanUpd, contentOf, relOf, Change.idOf, hj]

theorem scanGo_rs_char (tid : Str) : ∀ (d : List Change) (i : Nat) (st : MarkerScan),
    (scanGo tid d i st).rs = lastIdxFrom (isRSOf tid) d i st.rs := by
  intro d
  induction d with
  | nil => intro i st; rfl
  | cons c rest ih =>
    intro i st
    rw [scanGo, ih, lastIdxFrom, scanUpd_rs_eq]

theorem scanGo_re_char (tid : Str) : ∀ (d : List Change) (i : Nat) (st : MarkerScan),
    (scanGo tid d i st).re = lastIdxFrom (isREOf tid) d i st.re := by
  intro d
  induction d with
  | nil => intro i st; rfl
  | cons c rest ih =>
    intro i st
    rw [scanGo, ih, lastIdxFrom, scanUpd_re_eq]

theorem scanGo_lc_char (tid : Str) : ∀ (d : List Change) (i : Nat) (st : MarkerScan),
    (scanGo tid d i st).lc = lastIdxFrom (contentOf tid) d i st.lc := by
  intro d
  induction d with
  | nil => intro i st; rfl
  | cons c rest ih =>
    intro i st
    rw [scanGo, ih, lastIdxFrom, scanUpd_lc_eq]

theorem scanGo_fc_char (tid : Str) : ∀ (d : List Change) (i : Nat) (st : MarkerScan),
    (scanGo tid d i st).fc = match st.fc with
      | some f => some f
      | none => firstIdxFrom (contentOf tid) d i := by
  intro d
  induction d with
  | nil =>
    intro i st
    cases hfc : st.fc with
    | none =>
      rw [show scanGo tid [] i st = st from rfl, hfc]
      rfl
    | some f =>
      rw [show scanGo tid [] i st = st from rfl, hfc]
  | cons c rest ih =>
    intro i st
    rw [scanGo, ih, scanUpd_fc_eq]
    cases hfc : st.fc with
    | some f =>
      by_cases hc : contentOf tid c = true
      · rw [if_pos hc]
        rfl
      · rw [if_neg hc]
    | none =>
      by_cases hc : contentOf tid c = true
      · rw [if_pos hc]
        rw [show firstIdxFrom (contentOf tid) (c :: rest) i =
          if contentOf tid c then some i
          else firstIdxFrom (contentOf tid) rest (i + 1) from rfl]
        rw [if_pos hc]
        rfl
      · rw [if_neg hc]
        rw [show firstIdxFrom (contentOf tid) (c :: rest) i =
          if contentOf tid c then some i
          else firstIdxFrom (contentOf tid) rest (i + 1) from rfl]
        rw [if_neg hc]

theorem scanForId_rs (d : List Change) (tid : Str) :
    (scanForId d tid).rs = lastIdxFrom (isRSOf tid) d 0 none :=
  scanGo_rs_char tid d 0 ⟨none, none, none, none⟩

theorem scanForId_re (d : List Change) (tid : Str) :
    (scanForId d tid).re = lastIdxFrom (isREOf tid) d 0 none :=
  scanGo_re_char tid d 0 ⟨none, none, none, none⟩

theorem scanForId_lc (d : List Change) (tid : Str) :
    (scanForId d tid).lc = lastIdxFrom (contentOf tid) d 0 none :=
  scanGo_lc_char tid d 0 ⟨none, none, none, none⟩

theorem scanForId_fc (d : List Change) (tid : Str) :
    (scanForId d tid).fc = firstIdxFrom (contentOf tid) d 0 :=
  scanGo_fc_char tid d 0 ⟨none, none, none, none⟩

theorem findReGo_char (tid : Str) : ∀ (d : List Change) (i : Nat),
    findReGo tid d i = firstIdxFrom (isREOf tid) d i := by
  intro d
  induction d with
  | nil => intro i; rfl
  | cons c rest ih =>
    intro i
    cases c with
    | ins t j =>
      rw [show findReGo tid (Change.ins t j :: rest) i =
        if j = tid ∧ t = [RANGE_END] then some i
        else findReGo tid rest (i + 1) from rfl]
      rw [show firstIdxFrom (isREOf tid) (Change.ins t j :: rest) i =
        if isREOf tid (Change.ins t j) then some i
        else firstIdxFrom (isREOf tid) rest (i + 1) from rfl]
      by_cases hcond : j = tid ∧ t = [RANGE_END]
      · rw [if_pos hcond, if_pos (by
          simp [isREOf, hcond.1, hcond.2])]
      · rw [if_neg hcond, if_neg (by
          simp only [isREOf, decide_eq_true_eq, Change.ins.injEq]
          intro ⟨h1, h2⟩
          exact hcond ⟨h2, h1⟩), ih]
    | equal t =>
      rw [show findReGo tid (Change.equal t :: rest) i =
        findReGo tid rest (i + 1) from rfl]
      rw [show firstIdxFrom (isREOf tid) (Change.equal t :: rest) i =
        if isREOf tid (Change.equal t) then some i
        else firstIdxFrom (isREOf tid) rest (i + 1) from rfl]
      rw [if_neg (by simp [isREOf]), ih]
    | del t j =>
      rw [show findReGo tid (Change.del t j :: rest) i =
        findReGo tid rest (i + 1) from rfl]
      rw [show firstIdxFrom (isREOf tid) (Change.del t j :: rest) i =
        if isREOf tid (Change.del t j) then some i
        else firstIdxFrom (isREOf tid) rest (i + 1) from rfl]
      rw [if_neg (by simp [isREOf]), ih]

theorem findLcGo_cons (tid : Str) (c : Change) (rest : List Change) (i : Nat)
    (acc : Option Nat) :
    findLcGo tid (c :: rest) i acc =
      if c.isEqual then findLcGo tid rest (i + 1) acc
      else if c.idOf = some tid ∧ ¬ isRangeMarker c then
        findLcGo tid rest (i + 1) (some i)
      else findLcGo tid rest (i + 1) acc := rfl

theorem findLcGo_char (tid : Str) : ∀ (d : List Change) (i : Nat) (acc : Option Nat),
    findLcGo tid d i acc = lastIdxFrom (contentOf tid) d i acc := by
  intro d
  induction d with
  | nil => intro i acc; rfl
  | cons c rest ih =>
    intro i acc
    rw [show lastIdxFrom (contentOf tid) (c :: rest) i acc =
      lastIdxFrom (contentOf tid) rest (i + 1)
        (if contentOf tid c then some i else acc) from rfl]
    rw [findLcGo_cons]
    by_cases he : c.isEqual = true
    · rw [if_pos he, ih]
      congr 1
      rw [if_neg (by
        cases c with
        | equal t => simp [contentOf, relOf, Change.idOf]
        | ins t j => simp [Change.isEqual] at he
        | del t j => simp [Change.isEqual] at he)]
    · rw [if_neg he]
      by_cases hc : c.idOf = some tid ∧ ¬ isRangeMarker c
      · rw [if_pos hc, ih]
        congr 1
        rw [if_pos (by
          simp only [contentOf, relOf, Bool.and_eq_true, decide_eq_true_eq,
            Bool.not_eq_true']
          exact ⟨hc.1, by simpa using hc.2⟩)]
      · rw [if_neg hc, ih]
        congr 1
        rw [if_neg (by
          simp only [contentOf, relOf, Bool.and_eq_true, decide_eq_true_eq,
            Bool.not_eq_true']
          intro ⟨h1, h2⟩
          exact hc ⟨h1, by simpa using h2⟩)]

theorem firstIdxFrom_some (p : Change → Bool) : ∀ (d : List Change) (i r : Nat),
    firstIdxFrom p d i = some r →
    ∃ k, r = i + k ∧ (∃ c, d.get? k = some c ∧ p c = true) ∧
      ∀ k2, k2 < k → ∀ c2, d.get? k2 = some c2 → p c2 = false := by
  intro d
  induction d with
  | nil => intro i r h; cases h
  | cons c rest ih =>
    intro i r h
    rw [show firstIdxFrom p (c :: rest) i =
      if p c then some i else firstIdxFrom p rest (i + 1) from rfl] at h
    by_cases hc : p c = true
    · rw [if_pos hc] at h
      cases h
      exact ⟨0, by omega, ⟨c, rfl, hc⟩, fun k2 hk2 => by omega⟩
    · rw [if_neg hc] at h
      obtain ⟨k, hr, ⟨c2, hg, hp⟩, hmin⟩ := ih (i + 1) r h
      refine ⟨k + 1, by omega, ⟨c2, by simpa using hg, hp⟩, ?_⟩
      intro k2 hk2 c3 hg3
      cases k2 with
      | zero =>
        simp only [List.get?_cons_zero] at hg3
        cases hg3
        simpa using hc
      | succ k2b =>
        simp only [List.get?_cons_succ] at hg3
        exact hmin k2b (by omega) c3 hg3

theorem firstIdxFrom_none (p : Change → Bool) : ∀ (d : List Change) (i : Nat),
    firstIdxFrom p d i = none →
    ∀ k c, d.get? k = some c → p c = false := by
  intro d
  induction d with
  | nil => intro i _ k c hg; simp at hg
  | cons c0 rest ih =>
    intro i h k c hg
    rw [show firstIdxFrom p (c0 :: rest) i =
      if p c0 then some i else firstIdxFrom p rest (i + 1) from rfl] at h
    by_cases hc : p c0 = true
    · rw [if_pos hc] at h
      cases h
    · rw [if_neg hc] at h
      cases k with
      | zero =>
        simp only [List.get?_cons_zero] at hg
        cases hg
        simpa using hc
      | succ kb =>
        simp only [List.get?_cons_succ] at hg
        exact ih (i + 1) h kb c hg

theorem lastIdxFrom_acc (p : Change → Bool) : ∀ (d : List Change) (i : Nat)
    (acc : Option Nat),
    lastIdxFrom p d i acc = match lastIdxFrom p d i none with
      | some r => some r
      | none => acc := by
  intro d
  induction d with
  | nil =>
    intro i acc
    rfl
  | cons c rest ih =>
    intro i acc
    rw [show lastIdxFrom p (c :: rest) i acc =
      lastIdxFrom p rest (i + 1) (if p c then some i else acc) from rfl]
    rw [show lastIdxFrom p (c :: rest) i none =
      lastIdxFrom p rest (i + 1) (if p c then some i else none) from rfl]
    rw [ih, ih (i + 1) (if p c then some i else none)]
    cases hinner : lastIdxFrom p rest (i + 1) none with
    | some r => rfl
    | none =>
      by_cases hc : p c = true
      · rw [if_pos hc, if_pos hc]
      · rw [if_neg hc, if_neg hc]

theorem lastIdxFrom_none (p : Change → Bool) : ∀ (d : List Change) (i : Nat),
    lastIdxFrom p d i none = none →
    ∀ k c, d.get? k = some c → p c = false := by
  intro d
  induction d with
  | nil => intro i _ k c hg; simp at hg
  | cons c0 rest ih =>
    intro i h k c hg
    rw [show lastIdxFrom p (c0 :: rest) i none =
      lastIdxFrom p rest (i + 1) (if p c0 then some i else none) from rfl] at h
    rw [lastIdxFrom_acc] at h
    cases hinner : lastIdxFrom p rest (i + 1) none with
    | some r =>
      rw [hinner] at h
      cases h
    | none =>
      rw [hinner] at h
      dsimp only at h
      by_cases hc : p c0 = true
      · rw [if_pos hc] at h
        cases h
      · cases k with
        | zero =>
          simp only [List.get?_cons_zero] at hg
          cases hg
          simpa using hc
        | succ kb =>
          simp only [List.get?_cons_succ] at hg
          exact ih (i + 1) hinner kb c hg

theorem lastIdxFrom_some (p : Change → Bool) : ∀ (d : List Change) (i r : Nat),
    lastIdxFrom p d i none = some r →
    ∃ k, r = i + k ∧ (∃ c, d.get? k = some c ∧ p c = true) ∧
      ∀ k2, k < k2 → ∀ c2, d.get? k2 = some c2 → p c2 = false := by
  intro d
  induction d with
  | nil => intro i r h; cases h
  | cons c rest ih =>
    intro i r h
    rw [show lastIdxFrom p (c :: rest) i none =
      lastIdxFrom p rest (i + 1) (if p c then some i else none) from rfl] at h
    rw [lastIdxFrom_acc] at h
    cases hinner : lastIdxFrom p rest (i + 1) none with
    | some r2 =>
      rw [hinner] at h
      dsimp only at h
      cases h
      obtain ⟨k, hr, ⟨c2, hg, hp⟩, hmax⟩ := ih (i + 1) r hinner
      refine ⟨k + 1, by omega, ⟨c2, by simpa using hg, hp⟩, ?_⟩
      intro k2 hk2 c3 hg3
      cases k2 with
      | zero => omega
      | succ k2b =>
        simp only [List.get?_cons_succ] at hg3
        exact hmax k2b (by omega) c3 hg3
    | none =>
      rw [hinner] at h
      dsimp only at h
      by_cases hc : p c = true
      · rw [if_pos hc] at h
        cases h
        refine ⟨0, by omega, ⟨c, rfl, hc⟩, ?_⟩
        intro k2 hk2 c3 hg3
        cases k2 with
        | zero => omega
        | succ k2b =>
          simp only [List.get?_cons_succ] at hg3
          exact lastIdxFrom_none p rest (i + 1) hinner k2b c3 hg3
      · rw [if_neg hc] at h
        cases h

theorem isRSOf_not_content (id : Str) (c : Change) (h : isRSOf id c = true) :
    contentOf id c = false := by
  simp only [isRSOf, decide_eq_true_eq] at h
  subst h
  simp [contentOf, isRangeMarker]

theorem isREOf_not_content (id : Str) (c : Change) (h : isREOf id c = true) :
    contentOf id c = false := by
  simp only [isREOf, decide_eq_true_eq] at h
  subst h
  simp [contentOf, isRangeMarker]

theorem spliceMove_eq (l : List Change) (i j : Nat) (x : Change)
    (hx : l.get? i = some x) :
    spliceMove l i j = (l.eraseIdx i).insertIdx j x := by
  unfold spliceMove
  rw [hx]

theorem move_pair_lt (l : List Change) (i j : Nat) (x : Change)
    (hx : l.get? i = some x) (hb : j ≤ i ∨ (i ≤ j ∧ j < l.length)) :
    ∀ k1 k2 c1 c2, ((l.eraseIdx i).insertIdx j x).get? k1 = some c1 →
      ((l.eraseIdx i).insertIdx j x).get? k2 = some c2 →
      k1 ≠ j → k2 ≠ j →
      ∃ k01 k02, l.get? k01 = some c1 ∧ l.get? k02 = some c2 ∧
        (k01 < k02 ↔ k1 < k2) := by
  intro k1 k2 c1 c2 hg1 hg2 hk1 hk2
  rcases hb with hle | ⟨hge, hlt⟩
  · have hsrc : ∀ k c, ((l.eraseIdx i).insertIdx j x).get? k = some c → k ≠ j →
        ∃ k0, l.get? k0 = some c ∧
          ((k < j ∧ k0 = k) ∨ (j < k ∧ k ≤ i ∧ k0 = k - 1) ∨ (i < k ∧ k0 = k)) := by
      intro k c hgk hkj
      rw [get?_moveLeft l i j x hx hle k] at hgk
      by_cases ha : k < j
      · rw [if_pos ha] at hgk
        exact ⟨k, hgk, Or.inl ⟨ha, rfl⟩⟩
      · rw [if_neg ha, if_neg hkj] at hgk
        by_cases hbb : k ≤ i
        · rw [if_pos hbb] at hgk
          exact ⟨k - 1, hgk, Or.inr (Or.inl ⟨by omega, hbb, rfl⟩)⟩
        · rw [if_neg hbb] at hgk
          exact ⟨k, hgk, Or.inr (Or.inr ⟨by omega, rfl⟩)⟩
    obtain ⟨k01, hh1, hc1⟩ := hsrc k1 c1 hg1 hk1
    obtain ⟨k02, hh2, hc2⟩ := hsrc k2 c2 hg2 hk2
    refine ⟨k01, k02, hh1, hh2, ?_⟩
    rcases hc1 with ⟨h, h'⟩ | ⟨h, h', h''⟩ | ⟨h, h'⟩ <;>
      rcases hc2 with ⟨g, g'⟩ | ⟨g, g', g''⟩ | ⟨g, g'⟩ <;> omega
  · have hsrc : ∀ k c, ((l.eraseIdx i).insertIdx j x).get? k = some c → k ≠ j →
        ∃ k0, l.get? k0 = some c ∧
          ((k < i ∧ k0 = k) ∨ (i ≤ k ∧ k < j ∧ k0 = k + 1) ∨ (j < k ∧ k0 = k)) := by
      intro k c hgk hkj
      rw [get?_moveRight l i j x hx hge hlt k] at hgk
      by_cases ha : k < i
      · rw [if_pos ha] at hgk
        exact ⟨k, hgk, Or.inl ⟨ha, rfl⟩⟩
      · rw [if_neg ha] at hgk
        by_cases hbb : k < j
        · rw [if_pos hbb] at hgk
          exact ⟨k + 1, hgk, Or.inr (Or.inl ⟨by omega, hbb, rfl⟩)⟩
        · rw [if_neg hbb, if_neg hkj] at hgk
          exact ⟨k, hgk, Or.inr (Or.inr ⟨by omega, rfl⟩)⟩
    obtain ⟨k01, hh1, hc1⟩ := hsrc k1 c1 hg1 hk1
    obtain ⟨k02, hh2, hc2⟩ := hsrc k2 c2 hg2 hk2
    refine ⟨k01, k02, hh1, hh2, ?_⟩
    rcases hc1 with ⟨h, h'⟩ | ⟨h, h', h''⟩ | ⟨h, h'⟩ <;>
      rcases hc2 with ⟨g, g'⟩ | ⟨g, g', g''⟩ | ⟨g, g'⟩ <;> omega

theorem placed_move_inv (l : List Change) (i j : Nat) (x : Change) (id : Str)
    (hx : l.get? i = some x)
    (hirr : isRSOf id x = false ∧ isREOf id x = false ∧ contentOf id x = false)
    (hb : j ≤ i ∨ (i ≤ j ∧ j < l.length))
    (hp : placedOk l id) :
    placedOk ((l.eraseIdx i).insertIdx j x) id := by
  have hxj : ((l.eraseIdx i).insertIdx j x).get? j = some x := by
    rcases hb with hle | ⟨hge, hlt⟩
    · rw [get?_moveLeft l i j x hx hle j]
      rw [if_neg (by omega), if_pos rfl]
    · rw [get?_moveRight l i j x hx hge hlt j]
      rw [if_neg (by omega), if_neg (by omega), if_pos rfl]
  constructor
  · intro k1 k2 c1 c2 hg1 hg2 hpc1 hpc2
    have hk1 : k1 ≠ j := by
      intro h
      subst h
      rw [hxj] at hg1
      cases hg1
      rw [hirr.1] at hpc1
      cases hpc1
    have hk2 : k2 ≠ j := by
      intro h
      subst h
      rw [hxj] at hg2
      cases hg2
      rw [hirr.2.2] at hpc2
      cases hpc2
    obtain ⟨k01, k02, hh1, hh2, hiff⟩ :=
      move_pair_lt l i j x hx hb k1 k2 c1 c2 hg1 hg2 hk1 hk2
    exact hiff.mp (hp.1 k01 k02 c1 c2 hh1 hh2 hpc1 hpc2)
  · intro k1 k2 c1 c2 hg1 hg2 hpc1 hpc2
    have hk1 : k1 ≠ j := by
      intro h
      subst h
      rw [hxj] at hg1
      cases hg1
      rw [hirr.2.1] at hpc1
      cases hpc1
    have hk2 : k2 ≠ j := by
      intro h
      subst h
      rw [hxj] at hg2
      cases hg2
      rw [hirr.2.2] at hpc2
      cases hpc2
    obtain ⟨k02, k01, hh2, hh1, hiff⟩ :=
      move_pair_lt l i j x hx hb k2 k1 c2 c1 hg2 hg1 hk2 hk1
    exact hiff.mp (hp.2 k01 k02 c1 c2 hh1 hh2 hpc1 hpc2)

theorem moveRS_facts (l : List Change) (id : Str) (rs fc : Nat)
    (hrs : l.get? rs = some (.ins [RANGE_START] id))
    (hcnt : l.count (Change.ins [RANGE_START] id) ≤ 1)
    (hmin : ∀ k2, k2 < fc → ∀ c2, l.get? k2 = some c2 → contentOf id c2 = false)
    (hlt : fc < rs) :
    (∀ k c, ((l.eraseIdx rs).insertIdx fc (Change.ins [RANGE_START] id)).get? k =
        some c → isRSOf id c = true → k = fc) ∧
    (∀ k c, ((l.eraseIdx rs).insertIdx fc (Change.ins [RANGE_START] id)).get? k =
        some c → contentOf id c = true → fc < k) := by
  have hm := get?_moveLeft l rs fc (Change.ins [RANGE_START] id) hrs (by omega)
  constructor
  · intro k c hgk hrsk
    by_cases hk : k = fc
    · exact hk
    · exfalso
      have hc : c = Change.ins [RANGE_START] id := by
        simpa [isRSOf] using hrsk
      subst hc
      rw [hm k] at hgk
      by_cases ha : k < fc
      · rw [if_pos ha] at hgk
        have := count_unique_pos l (Change.ins [RANGE_START] id) hcnt k rs hgk hrs
        omega
      · rw [if_neg ha, if_neg hk] at hgk
        by_cases hbb : k ≤ rs
        · rw [if_pos hbb] at hgk
          have := count_unique_pos l (Change.ins [RANGE_START] id) hcnt (k - 1) rs hgk hrs
          omega
        · rw [if_neg hbb] at hgk
          have := count_unique_pos l (Change.ins [RANGE_START] id) hcnt k rs hgk hrs
          omega
  · intro k c hgk hck
    by_cases hk : k = fc
    · exfalso
      subst hk
      rw [hm k] at hgk
      rw [if_neg (by omega), if_pos rfl] at hgk
      cases hgk
      rw [isRSOf_not_content id _ (by simp [isRSOf])] at hck
      cases hck
    · by_cases ha : k < fc
      · exfalso
        rw [hm k] at hgk
        rw [if_pos ha] at hgk
        rw [hmin k ha c hgk] at hck
        cases hck
      · omega

theorem moveRE_final (l : List Change) (id : Str) (re l2 : Nat)
    (hre : l.get? re = some (.ins [RANGE_END] id))
    (hcntRE : l.count (Change.ins [RANGE_END] id) ≤ 1)
    (hl2c : ∃ c, l.get? l2 = some c ∧ contentOf id c = true)
    (hmax : ∀ k2, l2 < k2 → ∀ c2, l.get? k2 = some c2 → contentOf id c2 = false)
    (hRS : ∀ i j ci cj, l.get? i = some ci → l.get? j = some cj →
      isRSOf id ci = true → contentOf id cj = true → i < j)
    (hlt : re < l2) :
    placedOk ((l.eraseIdx re).insertIdx (l2 - 1 + 1) (Change.ins [RANGE_END] id))
      id := by
  obtain ⟨cl2, hgl2, hcl2⟩ := hl2c
  have hlen : l2 < l.length := by
    by_contra hcon
    rw [List.get?_eq_none.mpr (by omega)] at hgl2
    cases hgl2
  have hj : l2 - 1 + 1 = l2 := by omega
  rw [hj]
  have hm := get?_moveRight l re l2 (Change.ins [RANGE_END] id) hre (by omega) hlen
  have hxj : ((l.eraseIdx re).insertIdx l2 (Change.ins [RANGE_END] id)).get? l2 =
      some (Change.ins [RANGE_END] id) := by
    rw [hm l2]
    rw [if_neg (by omega), if_neg (by omega), if_pos rfl]
  have hne : isRSOf id (Change.ins [RANGE_END] id) = false := by
    simp [isRSOf]
    decide
  constructor
  · intro k1 k2 c1 c2 hg1 hg2 hpc1 hpc2
    have hk1 : k1 ≠ l2 := by
      intro h
      subst h
      rw [hxj] at hg1
      cases hg1
      rw [hne] at hpc1
      cases hpc1
    have hk2 : k2 ≠ l2 := by
      intro h
      subst h
      rw [hxj] at hg2
      cases hg2
      rw [isREOf_not_content id _ (by simp [isREOf])] at hpc2
      cases hpc2
    obtain ⟨k01, k02, hh1, hh2, hiff⟩ :=
      move_pair_lt l re l2 (Change.ins [RANGE_END] id) hre
        (Or.inr ⟨by omega, hlen⟩) k1 k2 c1 c2 hg1 hg2 hk1 hk2
    exact hiff.mp (hRS k01 k02 c1 c2 hh1 hh2 hpc1 hpc2)
  · intro k1 k2 c1 c2 hg1 hg2 hpc1 hpc2
    have hc1 : c1 = Change.ins [RANGE_END] id := by
      simpa [isREOf] using hpc1
    subst hc1
    have hk2 : k2 ≠ l2 := by
      intro h
      subst h
      rw [hxj] at hg2
      cases hg2
      rw [isREOf_not_content id _ (by simp [isREOf])] at hpc2
      cases hpc2
    have hk1 : k1 = l2 := by
      by_contra hk1
      rw [hm k1] at hg1
      by_cases ha : k1 < re
      · rw [if_pos ha] at hg1
        have := count_unique_pos l (Change.ins [RANGE_END] id) hcntRE k1 re hg1 hre
        omega
      · rw [if_neg ha] at hg1
        by_cases hbb : k1 < l2
        · rw [if_pos hbb] at hg1
          have := count_unique_pos l (Change.ins [RANGE_END] id) hcntRE (k1 + 1) re hg1 hre
          omega
        · rw [if_neg hbb, if_neg hk1] at hg1
          have := count_unique_pos l (Change.ins [RANGE_END] id) hcntRE k1 re hg1 hre
          omega
    rw [hk1]
    by_cases hb2 : k2 < re
    · omega
    · rw [hm k2] at hg2
      rw [if_neg hb2] at hg2
      by_cases hb3 : k2 < l2
      · omega
      · exfalso
        rw [if_neg hb3, if_neg hk2] at hg2
        have hgt : l2 < k2 := by omega
        rw [hmax k2 hgt c2 hg2] at hpc2
        cases hpc2

theorem placed_no_content (d : List Change) (id : Str)
    (h : ∀ k c, d.get? k = some c → contentOf id c = false) : placedOk d id := by
  constructor <;>
    (intro k1 k2 c1 c2 hg1 hg2 hpc1 hpc2
     rw [h k2 c2 hg2] at hpc2
     cases hpc2)

theorem normForId_placed (d : List Change) (tid : Str)
    (hcs : d.count (Change.ins [RANGE_START] tid) ≤ 1)
    (hce : d.count (Change.ins [RANGE_END] tid) ≤ 1) :
    placedOk (normalizeRangeForId d tid) tid := by
  unfold normalizeRangeForId
  dsimp only
  cases hfc : (scanForId d tid).fc with
  | none =>
    apply placed_no_content
    intro k c hg
    exact firstIdxFrom_none (contentOf tid) d 0
      (by rw [← scanForId_fc d tid, hfc]) k c hg
  | some fc =>
    cases hlc : (scanForId d tid).lc with
    | none =>
      exfalso
      obtain ⟨kf, hkf, ⟨cf, hgf, hpf⟩, hminf⟩ :=
        firstIdxFrom_some (contentOf tid) d 0 fc
          (by rw [← scanForId_fc d tid, hfc])
      rw [lastIdxFrom_none (contentOf tid) d 0
        (by rw [← scanForId_lc d tid, hlc]) kf cf hgf] at hpf
      cases hpf
    | some lc =>
      simp only
      obtain ⟨kf, hkf, ⟨cf, hgf, hpf⟩, hminf⟩ :=
        firstIdxFrom_some (contentOf tid) d 0 fc
          (by rw [← scanForId_fc d tid, hfc])
      have hkf0 : kf = fc := by omega
      rw [hkf0] at hgf hminf
      obtain ⟨kl, hkl, ⟨cl, hgl, hpl⟩, hmaxl⟩ :=
        lastIdxFrom_some (contentOf tid) d 0 lc
          (by rw [← scanForId_lc d tid, hlc])
      have hkl0 : kl = lc := by omega
      rw [hkl0] at hgl hmaxl
      cases hrs2 : (scanForId d tid).rs with
      | none =>
        dsimp only
        have hRSclause : ∀ i j ci cj, d.get? i = some ci → d.get? j = some cj →
            isRSOf tid ci = true → contentOf tid cj = true → i < j := by
          intro i j ci cj hgi hgj hci hcj
          rw [lastIdxFrom_none (isRSOf tid) d 0
            (by rw [← scanForId_rs d tid, hrs2]) i ci hgi] at hci
          cases hci
        cases hres : (scanForId d tid).re with
        | none =>
          refine ⟨hRSclause, ?_⟩
          intro k1 k2 c1 c2 hg1 hg2 hpc1 hpc2
          rw [lastIdxFrom_none (isREOf tid) d 0
            (by rw [← scanForId_re d tid, hres]) k1 c1 hg1] at hpc1
          cases hpc1
        | some re =>
          dsimp only
          have hgre : d.get? re = some (.ins [RANGE_END] tid) :=
            scan_re_prop d tid re hres
          by_cases hlt : re < lc
          · rw [if_pos hlt]
            rw [hgre]
            exact moveRE_final d tid re lc hgre hce ⟨cl, hgl, hpl⟩
              (fun k2 hk2 c2 hg2 => hmaxl k2 (by omega) c2 hg2) hRSclause hlt
          · rw [if_neg hlt]
            refine ⟨hRSclause, ?_⟩
            intro k1 k2 c1 c2 hg1 hg2 hpc1 hpc2
            have hc1 : c1 = Change.ins [RANGE_END] tid := by
              simpa [isREOf] using hpc1
            subst hc1
            have hk1 : k1 = re := count_unique_pos d _ hce k1 re hg1 hgre
            have hk2 : k2 ≤ lc := by
              by_contra hcon
              rw [hmaxl k2 (by omega) c2 hg2] at hpc2
              cases hpc2
            have hnel : re ≠ lc := by
              intro he
              rw [he] at hgre
              rw [hgre] at hgl
              cases hgl
              rw [isREOf_not_content tid _ (by simp [isREOf])] at hpl
              cases hpl
            omega
      | some rs =>
        dsimp only
        have hgrs : d.get? rs = some (.ins [RANGE_START] tid) :=
          scan_rs_prop d tid rs hrs2
        by_cases hlt : fc < rs
        · simp only [if_pos hlt]
          rw [spliceMove_eq d rs fc _ hgrs]
          have hfacts := moveRS_facts d tid rs fc hgrs hcs hminf hlt
          have hRS1 : ∀ i j ci cj,
              ((d.eraseIdx rs).insertIdx fc (Change.ins [RANGE_START] tid)).get? i =
                some ci →
              ((d.eraseIdx rs).insertIdx fc (Change.ins [RANGE_START] tid)).get? j =
                some cj →
              isRSOf tid ci = true → contentOf tid cj = true → i < j := by
            intro i j ci cj hgi hgj hci hcj
            have h1 := hfacts.1 i ci hgi hci
            have h2 := hfacts.2 j cj hgj hcj
            omega
          have hperm : ((d.eraseIdx rs).insertIdx fc
              (Change.ins [RANGE_START] tid)).Perm d := by
            apply erase_insert_perm d rs fc _ hgrs
            obtain ⟨hl1, he1⟩ := eraseIdx_decomp d rs _ hgrs
            rw [he1]
            simp only [List.length_append, List.length_take, List.length_drop]
            have hrl : rs < d.length := by
              by_contra hcon
              rw [List.get?_eq_none.mpr (by omega)] at hgrs
              cases hgrs
            omega
          have hce1 : ((d.eraseIdx rs).insertIdx fc
              (Change.ins [RANGE_START] tid)).count (Change.ins [RANGE_END] tid) ≤ 1 := by
            rw [hperm.count_eq]
            exact hce
          cases hre2 : findRangeEndIdx ((d.eraseIdx rs).insertIdx fc
              (Change.ins [RANGE_START] tid)) tid with
          | none =>
            dsimp only
            refine ⟨hRS1, ?_⟩
            intro k1 k2 c1 c2 hg1 hg2 hpc1 hpc2
            rw [firstIdxFrom_none (isREOf tid) _ 0
              (by rw [← findReGo_char]; exact hre2) k1 c1 hg1] at hpc1
            cases hpc1
          | some re2v =>
            have hgre2 : ((d.eraseIdx rs).insertIdx fc
                (Change.ins [RANGE_START] tid)).get? re2v =
                some (.ins [RANGE_END] tid) :=
              findRangeEndIdx_prop _ tid re2v hre2
            cases hlc2 : findLastContentEditIdx ((d.eraseIdx rs).insertIdx fc
                (Change.ins [RANGE_START] tid)) tid with
            | none =>
              exfalso
              have hgc : ((d.eraseIdx rs).insertIdx fc
                  (Change.ins [RANGE_START] tid)).get? (fc + 1) = some cf := by
                rw [get?_moveLeft d rs fc _ hgrs (by omega) (fc + 1)]
                rw [if_neg (by omega), if_neg (by omega), if_pos (by omega)]
                simpa using hgf
              rw [lastIdxFrom_none (contentOf tid) _ 0
                (by rw [← findLcGo_char]; exact hlc2) (fc + 1) cf hgc] at hpf
              cases hpf
            | some l2 =>
              dsimp only
              obtain ⟨kl2, hkl2, ⟨cl2, hgl2, hpl2⟩, hmaxl2⟩ :=
                lastIdxFrom_some (contentOf tid) _ 0 l2
                  (by rw [← findLcGo_char]; exact hlc2)
              have hkl20 : kl2 = l2 := by omega
              rw [hkl20] at hgl2 hmaxl2
              by_cases hlt3 : re2v < l2
              · rw [if_pos hlt3]
                rw [hgre2]
                exact moveRE_final _ tid re2v l2 hgre2 hce1 ⟨cl2, hgl2, hpl2⟩
                  (fun k2 hk2 c2 hg2 => hmaxl2 k2 (by omega) c2 hg2) hRS1 hlt3
              · rw [if_neg hlt3]
                refine ⟨hRS1, ?_⟩
                intro k1 k2 c1 c2 hg1 hg2 hpc1 hpc2
                have hc1 : c1 = Change.ins [RANGE_END] tid := by
                  simpa [isREOf] using hpc1
                subst hc1
                have hk1 : k1 = re2v := count_unique_pos _ _ hce1 k1 re2v hg1 hgre2
                have hk2 : k2 ≤ l2 := by
                  by_contra hcon
                  rw [hmaxl2 k2 (by omega) c2 hg2] at hpc2
                  cases hpc2
                have hnel : re2v ≠ l2 := by
                  intro he
                  rw [he] at hgre2
                  rw [hgre2] at hgl2
                  cases hgl2
                  rw [isREOf_not_content tid _ (by simp [isREOf])] at hpl2
                  cases hpl2
                omega
        · simp only [if_neg hlt]
          have hlt2 : rs < fc := by
            have hne : rs ≠ fc := by
              intro he
              rw [he] at hgrs
              rw [hgrs] at hgf
              cases hgf
              rw [isRSOf_not_content tid _ (by simp [isRSOf])] at hpf
              cases hpf
            omega
          have hRSclause : ∀ i j ci cj, d.get? i = some ci → d.get? j = some cj →
              isRSOf tid ci = true → contentOf tid cj = true → i < j := by
            intro i j ci cj hgi hgj hci hcj
            have hceq : ci = Change.ins [RANGE_START] tid := by
              simpa [isRSOf] using hci
            subst hceq
            have hieq : i = rs := count_unique_pos d _ hcs i rs hgi hgrs
            have hj2 : fc ≤ j := by
              by_contra hcon
              rw [hminf j (by omega) cj hgj] at hcj
              cases hcj
            omega
          cases hres : (scanForId d tid).re with
          | none =>
            dsimp only
            refine ⟨hRSclause, ?_⟩
            intro k1 k2 c1 c2 hg1 hg2 hpc1 hpc2
            rw [lastIdxFrom_none (isREOf tid) d 0
              (by rw [← scanForId_re d tid, hres]) k1 c1 hg1] at hpc1
            cases hpc1
          | some re =>
            dsimp only
            have hgre : d.get? re = some (.ins [RANGE_END] tid) :=
              scan_re_prop d tid re hres
            by_cases hlt4 : re < lc
            · rw [if_pos hlt4]
              rw [hgre]
              exact moveRE_final d tid re lc hgre hce ⟨cl, hgl, hpl⟩
                (fun k2 hk2 c2 hg2 => hmaxl k2 (by omega) c2 hg2) hRSclause hlt4
            · rw [if_neg hlt4]
              refine ⟨hRSclause, ?_⟩
              intro k1 k2 c1 c2 hg1 hg2 hpc1 hpc2
              have hc1 : c1 = Change.ins [RANGE_END] tid := by
                simpa [isREOf] using hpc1
              subst hc1
              have hk1 : k1 = re := count_unique_pos d _ hce k1 re hg1 hgre
              have hk2 : k2 ≤ lc := by
                by_contra hcon
                rw [hmaxl k2 (by omega) c2 hg2] at hpc2
                cases hpc2
              have hnel : re ≠ lc := by
                intro he
                rw [he] at hgre
                rw [hgre] at hgl
                cases hgl
                rw [isREOf_not_content tid _ (by simp [isREOf])] at hpl
                cases hpl
              omega

theorem move_perm_inv (l : List Change) (i j : Nat) (x : Change) (tid : Str)
    (hx : l.get? i = some x)
    (hxid : x = Change.ins [RANGE_START] tid ∨ x = Change.ins [RANGE_END] tid)
    (hb : j ≤ i ∨ (i ≤ j ∧ j < l.length)) :
    ((l.eraseIdx i).insertIdx j x).Perm l ∧
    ∀ id, tid ≠ id → placedOk l id →
      placedOk ((l.eraseIdx i).insertIdx j x) id := by
  have hil : i < l.length := by
    by_contra hcon
    rw [List.get?_eq_none.mpr (by omega)] at hx
    cases hx
  constructor
  · apply erase_insert_perm l i j x hx
    obtain ⟨hl1, he1⟩ := eraseIdx_decomp l i x hx
    rw [he1]
    simp only [List.length_append, List.length_take, List.length_drop]
    rcases hb with h | ⟨h1, h2⟩ <;> omega
  · intro id hne hp
    have hse : ¬((RANGE_START : Nat) = RANGE_END) := by decide
    have hes : ¬((RANGE_END : Nat) = RANGE_START) := by decide
    apply placed_move_inv l i j x id hx ?_ hb hp
    rcases hxid with h | h <;> subst h
    · refine ⟨?_, ?_, ?_⟩
      · simp [isRSOf, hne]
      · simp [isREOf, hse]
      · simp [contentOf, relOf, Change.idOf, hne]
    · refine ⟨?_, ?_, ?_⟩
      · simp [isRSOf, hes]
      · simp [isREOf, hne]
      · simp [contentOf, relOf, Change.idOf, hne]

theorem normForId_perm_inv (d : List Change) (tid : Str) :
    (normalizeRangeForId d tid).Perm d ∧
    ∀ id, tid ≠ id → placedOk d id →
      placedOk (normalizeRangeForId d tid) id := by
  unfold normalizeRangeForId
  dsimp only
  cases hfc : (scanForId d tid).fc with
  | none => exact ⟨List.Perm.refl d, fun id _ hp => hp⟩
  | some fc =>
    cases hlc : (scanForId d tid).lc with
    | none => exact ⟨List.Perm.refl d, fun id _ hp => hp⟩
    | some lc =>
      simp only
      obtain ⟨kl, hkl, ⟨cl, hgl, hpl⟩, hmaxl⟩ :=
        lastIdxFrom_some (contentOf tid) d 0 lc
          (by rw [← scanForId_lc d tid, hlc])
      have hkl0 : kl = lc := by omega
      rw [hkl0] at hgl hmaxl
      have hlcl : lc < d.length := by
        by_contra hcon
        rw [List.get?_eq_none.mpr (by omega)] at hgl
        cases hgl
      cases hrs2 : (scanForId d tid).rs with
      | none =>
        dsimp only
        cases hres : (scanForId d tid).re with
        | none => exact ⟨List.Perm.refl d, fun id _ hp => hp⟩
        | some re =>
          dsimp only
          have hgre : d.get? re = some (.ins [RANGE_END] tid) :=
            scan_re_prop d tid re hres
          by_cases hlt : re < lc
          · rw [if_pos hlt]
            rw [hgre]
            have hm := move_perm_inv d re (lc - 1 + 1) (Change.ins [RANGE_END] tid)
              tid hgre (Or.inr rfl) (Or.inr ⟨by omega, by omega⟩)
            exact hm
          · rw [if_neg hlt]
            exact ⟨List.Perm.refl d, fun id _ hp => hp⟩
      | some rs =>
        dsimp only
        have hgrs : d.get? rs = some (.ins [RANGE_START] tid) :=
          scan_rs_prop d tid rs hrs2
        by_cases hlt : fc < rs
        · simp only [if_pos hlt]
          rw [spliceMove_eq d rs fc _ hgrs]
          have hm1 := move_perm_inv d rs fc (Change.ins [RANGE_START] tid)
            tid hgrs (Or.inl rfl) (Or.inl (by omega))
          cases hre2 : findRangeEndIdx ((d.eraseIdx rs).insertIdx fc
              (Change.ins [RANGE_START] tid)) tid with
          | none =>
            dsimp only
            exact hm1
          | some re2v =>
            have hgre2 : ((d.eraseIdx rs).insertIdx fc
                (Change.ins [RANGE_START] tid)).get? re2v =
                some (.ins [RANGE_END] tid) :=
              findRangeEndIdx_prop _ tid re2v hre2
            cases hlc2 : findLastContentEditIdx ((d.eraseIdx rs).insertIdx fc
                (Change.ins [RANGE_START] tid)) tid with
            | none =>
              dsimp only
              exact hm1
            | some l2 =>
              dsimp only
              obtain ⟨kl2, hkl2, ⟨cl2, hgl2, hpl2⟩, hmaxl2⟩ :=
                lastIdxFrom_some (contentOf tid) _ 0 l2
                  (by rw [← findLcGo_char]; exact hlc2)
              have hkl20 : kl2 = l2 := by omega
              rw [hkl20] at hgl2 hmaxl2
              have hl2l : l2 < ((d.eraseIdx rs).insertIdx fc
                  (Change.ins [RANGE_START] tid)).length := by
                by_contra hcon
                rw [List.get?_eq_none.mpr (by omega)] at hgl2
                cases hgl2
              by_cases hlt3 : re2v < l2
              · rw [if_pos hlt3]
                rw [hgre2]
                have hm2 := move_perm_inv _ re2v (l2 - 1 + 1)
                  (Change.ins [RANGE_END] tid) tid hgre2 (Or.inr rfl)
                  (Or.inr ⟨by omega, by omega⟩)
                exact ⟨hm2.1.trans hm1.1, fun id hne hp =>
                  hm2.2 id hne (hm1.2 id hne hp)⟩
              · rw [if_neg hlt3]
                exact hm1
        · simp only [if_neg hlt]
          cases hres : (scanForId d tid).re with
          | none =>
            dsimp only
            exact ⟨List.Perm.refl d, fun id _ hp => hp⟩
          | some re =>
            dsimp only
            have hgre : d.get? re = some (.ins [RANGE_END] tid) :=
              scan_re_prop d tid re hres
            by_cases hlt4 : re < lc
            · rw [if_pos hlt4]
              rw [hgre]
              exact move_perm_inv d re (lc - 1 + 1) (Change.ins [RANGE_END] tid)
                tid hgre (Or.inr rfl) (Or.inr ⟨by omega, by omega⟩)
            · rw [if_neg hlt4]
              exact ⟨List.Perm.refl d, fun id _ hp => hp⟩

theorem normForId_id_of_placed (d : List Change) (tid : Str)
    (hp : placedOk d tid) : normalizeRangeForId d tid = d := by
  unfold normalizeRangeForId
  dsimp only
  cases hfc : (scanForId d tid).fc with
  | none => rfl
  | some fc =>
    cases hlc : (scanForId d tid).lc with
    | none => rfl
    | some lc =>
      simp only
      obtain ⟨kf, hkf, ⟨cf, hgf, hpf⟩, hminf⟩ :=
        firstIdxFrom_some (contentOf tid) d 0 fc
          (by rw [← scanForId_fc d tid, hfc])
      have hkf0 : kf = fc := by omega
      rw [hkf0] at hgf
      obtain ⟨kl, hkl, ⟨cl, hgl, hpl⟩, hmaxl⟩ :=
        lastIdxFrom_some (contentOf tid) d 0 lc
          (by rw [← scanForId_lc d tid, hlc])
      have hkl0 : kl = lc := by omega
      rw [hkl0] at hgl
      cases hrs2 : (scanForId d tid).rs with
      | none =>
        dsimp only
        cases hres : (scanForId d tid).re with
        | none => rfl
        | some re =>
          dsimp only
          have hgre : d.get? re = some (.ins [RANGE_END] tid) :=
            scan_re_prop d tid re hres
          have hlt : ¬(re < lc) := by
            have := hp.2 re lc _ _ hgre hgl (by simp [isREOf]) hpl
            omega
          rw [if_neg hlt]
      | some rs =>
        dsimp only
        have hgrs : d.get? rs = some (.ins [RANGE_START] tid) :=
          scan_rs_prop d tid rs hrs2
        have hlt : ¬(fc < rs) := by
          have := hp.1 rs fc _ _ hgrs hgf (by simp [isRSOf]) hpf
          omega
        simp only [if_neg hlt]
        cases hres : (scanForId d tid).re with
        | none => rfl
        | some re =>
          dsimp only
          have hgre : d.get? re = some (.ins [RANGE_END] tid) :=
            scan_re_prop d tid re hres
          have hlt2 : ¬(re < lc) := by
            have := hp.2 re lc _ _ hgre hgl (by simp [isREOf]) hpl
            omega
          rw [if_neg hlt2]

theorem placed_of_absent (d : List Change) (id : Str)
    (h : ∀ c ∈ d, c.idOf ≠ some id) : placedOk d id := by
  apply placed_no_content
  intro k c hg
  have h2 := h c (List.get?_mem hg)
  simp [contentOf, relOf, h2]

theorem markersIsolated_perm {a b : List Change} (h : a.Perm b)
    (hi : markersIsolated b) : markersIsolated a :=
  fun t i hm hmk => hi t i (h.subset hm) hmk

theorem uniqueIds_foldl_mono : ∀ (d : List Change) (acc : List Str) (j : Str),
    j ∈ acc → j ∈ d.foldl (fun acc c => match c.idOf with
      | none => acc
      | some i => if i ∈ acc then acc else acc ++ [i]) acc := by
  intro d
  induction d with
  | nil => intro acc j hj; exact hj
  | cons c rest ih =>
    intro acc j hj
    rw [List.foldl_cons]
    apply ih
    cases hio : c.idOf with
    | none => exact hj
    | some i =>
      dsimp only
      by_cases hmem : i ∈ acc
      · rw [if_pos hmem]
        exact hj
      · rw [if_neg hmem]
        exact List.mem_append_left _ hj

theorem uniqueIds_complete : ∀ (d : List Change) (acc : List Str) (c : Change),
    c ∈ d → ∀ i, c.idOf = some i →
    i ∈ d.foldl (fun acc c => match c.idOf with
      | none => acc
      | some i => if i ∈ acc then acc else acc ++ [i]) acc := by
  intro d
  induction d with
  | nil => intro acc c hc; simp at hc
  | cons c0 rest ih =>
    intro acc c hc i hi
    rw [List.foldl_cons]
    rcases List.mem_cons.mp hc with he | hm
    · subst he
      rw [hi]
      dsimp only
      by_cases hmem : i ∈ acc
      · rw [if_pos hmem]
        exact uniqueIds_foldl_mono rest acc i hmem
      · rw [if_neg hmem]
        exact uniqueIds_foldl_mono rest _ i (List.mem_append_right _ (by simp))
    · exact ih _ c hm i hi

theorem splitTextGo_parts : ∀ (t cur : Str),
    RANGE_START ∉ cur → RANGE_END ∉ cur →
    ∀ p ∈ splitTextGo t cur,
      p = [RANGE_START] ∨ p = [RANGE_END] ∨ (RANGE_START ∉ p ∧ RANGE_END ∉ p) := by
  intro t
  induction t with
  | nil =>
    intro cur h1 h2 p hp
    rw [show splitTextGo [] cur = if cur = [] then [] else [cur] from rfl] at hp
    by_cases hc : cur = []
    · rw [if_pos hc] at hp
      simp at hp
    · rw [if_neg hc] at hp
      rw [List.mem_singleton] at hp
      subst hp
      exact Or.inr (Or.inr ⟨h1, h2⟩)
  | cons c rest ih =>
    intro cur h1 h2 p hp
    rw [show splitTextGo (c :: rest) cur =
      if c = RANGE_START ∨ c = RANGE_END then
        (if cur = [] then [] else [cur]) ++ [[c]] ++ splitTextGo rest []
      else splitTextGo rest (cur ++ [c]) from rfl] at hp
    by_cases hm : c = RANGE_START ∨ c = RANGE_END
    · rw [if_pos hm] at hp
      rw [List.mem_append, List.mem_append] at hp
      rcases hp with (hp | hp) | hp
      · by_cases hc : cur = []
        · rw [if_pos hc] at hp
          simp at hp
        · rw [if_neg hc] at hp
          rw [List.mem_singleton] at hp
          subst hp
          exact Or.inr (Or.inr ⟨h1, h2⟩)
      · rw [List.mem_singleton] at hp
        subst hp
        rcases hm with hm | hm
        · exact Or.inl (by rw [hm])
        · exact Or.inr (Or.inl (by rw [hm]))
      · exact ih [] (by simp) (by simp) p hp
    · rw [if_neg hm] at hp
      push_neg at hm
      refine ih (cur ++ [c]) ?_ ?_ p hp
      · rw [List.mem_append]
        intro hcon
        rcases hcon with hcon | hcon
        · exact h1 hcon
        · rw [List.mem_singleton] at hcon
          exact hm.1 hcon.symm
      · rw [List.mem_append]
        intro hcon
        rcases hcon with hcon | hcon
        · exact h2 hcon
        · rw [List.mem_singleton] at hcon
          exact hm.2 hcon.symm

theorem split_isolated (d : List Change) : markersIsolated (splitRangeMarkers d) := by
  intro t i hm hmk
  unfold splitRangeMarkers at hm
  rw [List.mem_flatMap] at hm
  obtain ⟨c, hcd, hcm⟩ := hm
  cases c with
  | equal t0 =>
    rw [List.mem_singleton] at hcm
    cases hcm
  | del t0 i0 =>
    rw [List.mem_singleton] at hcm
    cases hcm
  | ins t0 i0 =>
    dsimp only at hcm
    by_cases hmk0 : RANGE_START ∈ t0 ∨ RANGE_END ∈ t0
    · rw [if_pos hmk0] at hcm
      rw [List.mem_map] at hcm
      obtain ⟨p, hpf, hpe⟩ := hcm
      rw [List.mem_filter] at hpf
      have hps := splitTextGo_parts t0 [] (by simp) (by simp) p hpf.1
      have hte : p = t := by
        injection hpe with h1 h2
      rw [hte] at hps
      rcases hps with h | h | h
      · exact Or.inl h
      · exact Or.inr h
      · exfalso
        rcases hmk with hx | hx
        · exact h.1 hx
        · exact h.2 hx
    · rw [if_neg hmk0] at hcm
      rw [List.mem_singleton] at hcm
      injection hcm with h1 h2
      rw [← h1] at hmk0
      exact absurd hmk hmk0

theorem split_id_of_isolated (d : List Change) (h : markersIsolated d) :
    splitRangeMarkers d = d := by
  unfold splitRangeMarkers
  induction d with
  | nil => rfl
  | cons c rest ih =>
    rw [List.flatMap_cons]
    have hrest : markersIsolated rest :=
      fun t i hm hmk => h t i (List.mem_cons_of_mem c hm) hmk
    rw [ih hrest]
    cases c with
    | equal t0 => rfl
    | del t0 i0 => rfl
    | ins t0 i0 =>
      show (if RANGE_START ∈ t0 ∨ RANGE_END ∈ t0 then
          ((splitTextByRangeMarkers t0).filter fun p => p ≠ []).map
            fun p => Change.ins p i0
        else [Change.ins t0 i0]) ++ rest = Change.ins t0 i0 :: rest
      by_cases hmk0 : RANGE_START ∈ t0 ∨ RANGE_END ∈ t0
      · rw [if_pos hmk0]
        have ht0 := h t0 i0 (List.mem_cons_self _ _) hmk0
        rcases ht0 with ht | ht <;> subst ht <;> rfl
      · rw [if_neg hmk0]
        rfl

theorem fold_norm_props (r0 : List Change)
    (hcs : ∀ id, r0.count (Change.ins [RANGE_START] id) ≤ 1)
    (hce : ∀ id, r0.count (Change.ins [RANGE_END] id) ≤ 1) :
    ∀ (ids : List Str) (acc : List Change), acc.Perm r0 →
      (∀ id, id ∉ ids → placedOk acc id) →
      (ids.foldl (fun a i => normalizeRangeForId a i) acc).Perm r0 ∧
      ∀ id, placedOk (ids.foldl (fun a i => normalizeRangeForId a i) acc) id := by
  intro ids
  induction ids with
  | nil =>
    intro acc hperm hplaced
    exact ⟨hperm, fun id => hplaced id (by simp)⟩
  | cons tid rest ih =>
    intro acc hperm hplaced
    rw [List.foldl_cons]
    have hpi := normForId_perm_inv acc tid
    apply ih (normalizeRangeForId acc tid) (hpi.1.trans hperm)
    intro id hid
    by_cases he : tid = id
    · subst he
      exact normForId_placed acc tid (by rw [hperm.count_eq]; exact hcs tid)
        (by rw [hperm.count_eq]; exact hce tid)
    · apply hpi.2 id he
      apply hplaced id
      intro hcon
      rcases List.mem_cons.mp hcon with h | h
      · exact he h.symm
      · exact hid h

theorem norm_props_final (d : List Change)
    (hu : ∀ id, uniqueMarkers (splitRangeMarkers d) id) :
    (normalizeRangeInDiff d).Perm (splitRangeMarkers d) ∧
    ∀ id, placedOk (normalizeRangeInDiff d) id := by
  unfold normalizeRangeInDiff
  dsimp only
  apply fold_norm_props (splitRangeMarkers d)
    (fun id => (hu id).1) (fun id => (hu id).2)
    (uniqueIds (splitRangeMarkers d)) (splitRangeMarkers d) (List.Perm.refl _)
  intro id hid
  apply placed_of_absent
  intro c hc hcon
  exact hid (uniqueIds_complete (splitRangeMarkers d) [] c hc id hcon)

theorem fold_norm_id (l : List Change) (hp : ∀ id, placedOk l id) :
    ∀ ids : List Str, ids.foldl (fun a i => normalizeRangeForId a i) l = l := by
  intro ids
  induction ids with
  | nil => rfl
  | cons tid rest ih =>
    rw [List.foldl_cons, normForId_id_of_placed l tid (hp tid), ih]

theorem normId_of_canonical (l : List Change) (hiso : markersIsolated l)
    (hp : ∀ id, placedOk l id) : normalizeRangeInDiff l = l := by
  unfold normalizeRangeInDiff
  dsimp only
  rw [split_id_of_isolated l hiso]
  exact fold_norm_id l hp _

/-- C4 (amended): when every owner id carries at most one bare RANGE_START
insert and at most one bare RANGE_END insert after marker isolation, the
range canonicalizer is idempotent; and any sequence whose markers are
isolated and already placed correctly for every id is returned unchanged.
Without the uniqueness precondition idempotence fails (counterexample
below). -/
theorem C4_normalize_idempotent (d : List Change)
    (hu : ∀ id, uniqueMarkers (splitRangeMarkers d) id) :
    normalizeRangeInDiff (normalizeRangeInDiff d) = normalizeRangeInDiff d ∧
    ∀ l, markersIsolated l → (∀ id, placedOk l id) →
      normalizeRangeInDiff l = l := by
  have hprops := norm_props_final d hu
  refine ⟨?_, fun l hiso hp => normId_of_canonical l hiso hp⟩
  exact normId_of_canonical (normalizeRangeInDiff d)
    (markersIsolated_perm hprops.1 (split_isolated d)) hprops.2

/-- C4 counterexample: with two bare RANGE_START inserts for the same id,
canonicalizing twice differs from canonicalizing once. -/
theorem C4_counterexample :
    normalizeRangeInDiff (normalizeRangeInDiff
      [Change.ins (strOf "a") (strOf "u"), Change.ins [RANGE_START] (strOf "u"),
       Change.ins [RANGE_START] (strOf "u")]) ≠
    normalizeRangeInDiff
      [Change.ins (strOf "a") (strOf "u"), Change.ins [RANGE_START] (strOf "u"),
       Change.ins [RANGE_START] (strOf "u")] := by
  decide

/-- C4 witness: a marker-free single-insert diff satisfies the uniqueness
precondition, and the amended theorem applies to it. -/
theorem C4_normalize_idempotent_witness :
    normalizeRangeInDiff (normalizeRangeInDiff [Change.ins (strOf "a") (strOf "u")]) =
      normalizeRangeInDiff [Change.ins (strOf "a") (strOf "u")] := by
  have hu : ∀ id, uniqueMarkers
      (splitRangeMarkers [Change.ins (strOf "a") (strOf "u")]) id := by
    intro id
    constructor
    · rw [show splitRangeMarkers [Change.ins (strOf "a") (strOf "u")] =
        [Change.ins (strOf "a") (strOf "u")] from by decide]
      rw [List.count_cons_of_ne (by
        intro hcon
        cases hcon)]
      simp
    · rw [show splitRangeMarkers [Change.ins (strOf "a") (strOf "u")] =
        [Change.ins (strOf "a") (strOf "u")] from by decide]
      rw [List.count_cons_of_ne (by
        intro hcon
        cases hcon)]
      simp
  exact (C4_normalize_idempotent [Change.ins (strOf "a") (strOf "u")] hu).1

/-- C5 (amended): when every owner id carries at most one bare RANGE_START
insert and at most one bare RANGE_END insert after marker isolation, the
canonicalizer's output has every marker-bearing insert op isolated to a
single bare marker, every RANGE_START insert of an id before all of that
id's content ops, every RANGE_END insert after all of them, and (for ids
with content) every RANGE_START before every RANGE_END.  Marker characters
sitting in Equal or Delete ops are not isolated (counterexample below). -/
theorem C5_normalize_invariant (d : List Change)
    (hu : ∀ id, uniqueMarkers (splitRangeMarkers d) id) :
    markersIsolated (normalizeRangeInDiff d) ∧
    (∀ id, placedOk (normalizeRangeInDiff d) id) ∧
    (∀ id i j ci cj, (normalizeRangeInDiff d).get? i = some ci →
      (normalizeRangeInDiff d).get? j = some cj →
      isRSOf id ci = true → isREOf id cj = true →
      (∃ k c, (normalizeRangeInDiff d).get? k = some c ∧
        contentOf id c = true) →
      i < j) := by
  have hprops := norm_props_final d hu
  refine ⟨markersIsolated_perm hprops.1 (split_isolated d), hprops.2, ?_⟩
  intro id i j ci cj hgi hgj hci hcj hex
  obtain ⟨k, c, hgk, hck⟩ := hex
  have h1 := (hprops.2 id).1 i k ci c hgi hgk hci hck
  have h2 := (hprops.2 id).2 j k cj c hgj hgk hcj hck
  omega

/-- C5 counterexample: a RANGE_START character inside an Equal op is left
in place by the canonicalizer, so not every marker character ends up in
its own single-character Insert op. -/
theorem C5_counterexample :
    normalizeRangeInDiff [Change.equal [RANGE_START]] =
      [Change.equal [RANGE_START]] ∧
    RANGE_START ∈ (Change.equal [RANGE_START]).text ∧
    (Change.equal [RANGE_START]).isIns = false := by
  decide

/-- C5 witness: a marker-free single-delete diff satisfies the uniqueness
precondition, and the amended invariant holds for its canonicalization. -/
theorem C5_normalize_invariant_witness :
    markersIsolated (normalizeRangeInDiff [Change.del (strOf "a") (strOf "u")]) ∧
    placedOk (normalizeRangeInDiff [Change.del (strOf "a") (strOf "u")])
      (strOf "u") := by
  have h := C5_normalize_invariant [Change.del (strOf "a") (strOf "u")] (by
    intro id
    constructor
    · rw [show splitRangeMarkers [Change.del (strOf "a") (strOf "u")] =
        [Change.del (strOf "a") (strOf "u")] from by decide]
      rw [List.count_cons_of_ne (by
        intro hcon
        cases hcon)]
      simp
    · rw [show splitRangeMarkers [Change.del (strOf "a") (strOf "u")] =
        [Change.del (strOf "a") (strOf "u")] from by decide]
      rw [List.count_cons_of_ne (by
        intro hcon
        cases hcon)]
      simp)
  exact ⟨h.1, h.2.1 (strOf "u")⟩

theorem commonPrefix_take : ∀ t1 t2 : Str,
    t1.take (diff_commonPrefix t1 t2) = t2.take (diff_commonPrefix t1 t2) := by
  intro t1
  induction t1 with
  | nil => intro t2; cases t2 <;> rfl
  | cons a r1 ih =>
    intro t2
    cases t2 with
    | nil => rfl
    | cons b r2 =>
      rw [show diff_commonPrefix (a :: r1) (b :: r2) =
        if a = b then diff_commonPrefix r1 r2 + 1 else 0 from rfl]
      by_cases hab : a = b
      · rw [if_pos hab]
        subst hab
        simp only [List.take_succ_cons]
        rw [ih r2]
      · rw [if_neg hab]
        rfl

theorem commonPrefix_le : ∀ t1 t2 : Str,
    diff_commonPrefix t1 t2 ≤ t1.length ∧ diff_commonPrefix t1 t2 ≤ t2.length := by
  intro t1
  induction t1 with
  | nil => intro t2; cases t2 <;> simp [diff_commonPrefix]
  | cons a r1 ih =>
    intro t2
    cases t2 with
    | nil => simp [diff_commonPrefix]
    | cons b r2 =>
      rw [show diff_commonPrefix (a :: r1) (b :: r2) =
        if a = b then diff_commonPrefix r1 r2 + 1 else 0 from rfl]
      by_cases hab : a = b
      · rw [if_pos hab]
        have := ih r2
        constructor <;> simp <;> omega
      · rw [if_neg hab]
        constructor <;> simp

theorem drop_sub_reverse (t : Str) (k : Nat) :
    t.drop (t.length - k) = (t.reverse.take k).reverse := by
  rw [List.reverse_take, List.reverse_reverse, List.length_reverse]

theorem commonSuffix_drop (t1 t2 : Str) :
    t1.drop (t1.length - diff_commonSuffix t1 t2) =
    t2.drop (t2.length - diff_commonSuffix t1 t2) := by
  unfold diff_commonSuffix
  rw [drop_sub_reverse, drop_sub_reverse]
  rw [commonPrefix_take t1.reverse t2.reverse]

theorem dmpDel_append (a b : List DmpDiff) :
    dmpDel (a ++ b) = dmpDel a ++ dmpDel b := by
  unfold dmpDel
  rw [List.flatMap_append]

theorem dmpIns_append (a b : List DmpDiff) :
    dmpIns (a ++ b) = dmpIns a ++ dmpIns b := by
  unfold dmpIns
  rw [List.flatMap_append]

theorem dmpDel_cons (d : DmpDiff) (l : List DmpDiff) :
    dmpDel (d :: l) = (if d.1 = DTag.insT then [] else d.2) ++ dmpDel l := rfl

theorem dmpIns_cons (d : DmpDiff) (l : List DmpDiff) :
    dmpIns (d :: l) = (if d.1 = DTag.delT then [] else d.2) ++ dmpIns l := rfl

theorem dmpDel_optDel (t : Str) :
    dmpDel (if t ≠ [] then [((DTag.delT, t) : DmpDiff)] else []) = t := by
  by_cases h : t = []
  · simp [h, dmpDel]
  · simp [h, dmpDel]

theorem dmpDel_optIns (t : Str) :
    dmpDel (if t ≠ [] then [((DTag.insT, t) : DmpDiff)] else []) = [] := by
  by_cases h : t = []
  · simp [h, dmpDel]
  · simp [h, dmpDel]

theorem dmpIns_optIns (t : Str) :
    dmpIns (if t ≠ [] then [((DTag.insT, t) : DmpDiff)] else []) = t := by
  by_cases h : t = []
  · simp [h, dmpIns]
  · simp [h, dmpIns]

theorem dmpIns_optDel (t : Str) :
    dmpIns (if t ≠ [] then [((DTag.delT, t) : DmpDiff)] else []) = [] := by
  by_cases h : t = []
  · simp [h, dmpIns]
  · simp [h, dmpIns]

theorem getLast?_decomp2 {l : List DmpDiff} {d : DmpDiff}
    (h : l.getLast? = some d) : l = l.dropLast ++ [d] := by
  cases hl : l.getLast? with
  | none => rw [hl] at h; cases h
  | some d2 =>
    rw [hl] at h
    cases h
    exact (List.dropLast_append_getLast? d hl).symm

theorem dmpDel_snoc_eq {out : List DmpDiff} {t0 : Str}
    (h : out.getLast? = some (DTag.eqT, t0)) (add : Str) :
    dmpDel (out.dropLast ++ [((DTag.eqT, t0 ++ add) : DmpDiff)]) =
      dmpDel out ++ add ∧
    dmpIns (out.dropLast ++ [((DTag.eqT, t0 ++ add) : DmpDiff)]) =
      dmpIns out ++ add := by
  have hdec := getLast?_decomp2 h
  constructor
  · conv_rhs => rw [hdec]
    rw [dmpDel_append, dmpDel_append]
    simp [dmpDel]
  · conv_rhs => rw [hdec]
    rw [dmpIns_append, dmpIns_append]
    simp [dmpIns]

theorem cm1Step_eq_resets (st : CMState) (t : Str) :
    (cm1Step st (DTag.eqT, t)).td = [] ∧ (cm1Step st (DTag.eqT, t)).ti = [] ∧
    (cm1Step st (DTag.eqT, t)).cd = 0 ∧ (cm1Step st (DTag.eqT, t)).ci = 0 := by
  unfold cm1Step
  dsimp only
  split_ifs <;> exact ⟨rfl, rfl, rfl, rfl⟩

theorem getLast?_last_app3 (z A B : List DmpDiff) (e : DmpDiff) :
    (z ++ A ++ B ++ [e]).getLast? = some e := by
  rw [show z ++ A ++ B ++ [e] = (z ++ A ++ B) ++ [e] from by
    simp [List.append_assoc]]
  rw [List.getLast?_concat]

theorem getLast?_last_app2 (z A : List DmpDiff) (e : DmpDiff) :
    (z ++ A ++ [e]).getLast? = some e := by
  rw [show z ++ A ++ [e] = (z ++ A) ++ [e] from by simp [List.append_assoc]]
  rw [List.getLast?_concat]

theorem cm1Step_ends_eq (st : CMState) (d : DmpDiff)
    (h : st.out = [] ∨ ∃ t0, st.out.getLast? = some (DTag.eqT, t0)) :
    (cm1Step st d).out = [] ∨
    ∃ t0, (cm1Step st d).out.getLast? = some (DTag.eqT, t0) := by
  obtain ⟨tag, txt⟩ := d
  cases tag with
  | insT => exact h
  | delT => exact h
  | eqT =>
    right
    unfold cm1Step
    dsimp only
    by_cases h1 : st.cd + st.ci > 1
    · rw [if_pos h1]
      exact ⟨_, getLast?_last_app3 _ _ _ _⟩
    · rw [if_neg h1]
      by_cases h2 : st.cd + st.ci = 1
      · rw [if_pos h2]
        exact ⟨_, getLast?_last_app2 _ _ _⟩
      · rw [if_neg h2]
        cases hlast : st.out.getLast? with
        | some d0 =>
          obtain ⟨t0g, tx0⟩ := d0
          cases t0g with
          | eqT => exact ⟨_, by rw [List.getLast?_concat]⟩
          | insT =>
            rcases h with h | ⟨t0, h⟩
            · rw [h] at hlast
              cases hlast
            · rw [h] at hlast
              cases hlast
          | delT =>
            rcases h with h | ⟨t0, h⟩
            · rw [h] at hlast
              cases hlast
            · rw [h] at hlast
              cases hlast
        | none => exact ⟨_, by rw [List.getLast?_concat]⟩

theorem suffix_split_del (td1 ti1 t : Str) :
    (if diff_commonSuffix ti1 td1 ≠ 0 then
      td1.take (td1.length - diff_commonSuffix ti1 td1) else td1) ++
    (if diff_commonSuffix ti1 td1 ≠ 0 then
      ti1.drop (ti1.length - diff_commonSuffix ti1 td1) ++ t else t) =
    td1 ++ t := by
  by_cases hs : diff_commonSuffix ti1 td1 ≠ 0
  · rw [if_pos hs, if_pos hs]
    rw [commonSuffix_drop ti1 td1]
    rw [← List.append_assoc, List.take_append_drop]
  · rw [if_neg hs, if_neg hs]

theorem suffix_split_ins (td1 ti1 t : Str) :
    (if diff_commonSuffix ti1 td1 ≠ 0 then
      ti1.take (ti1.length - diff_commonSuffix ti1 td1) else ti1) ++
    (if diff_commonSuffix ti1 td1 ≠ 0 then
      ti1.drop (ti1.length - diff_commonSuffix ti1 td1) ++ t else t) =
    ti1 ++ t := by
  by_cases hs : diff_commonSuffix ti1 td1 ≠ 0
  · rw [if_pos hs, if_pos hs]
    rw [← List.append_assoc, List.take_append_drop]
  · rw [if_neg hs, if_neg hs]

theorem prefix_out1_del (st : CMState)
    (hend : st.out = [] ∨ ∃ t0, st.out.getLast? = some (DTag.eqT, t0)) :
    dmpDel (match st.out.getLast? with
      | some (DTag.eqT, t0) =>
        st.out.dropLast ++
          [((DTag.eqT, t0 ++ st.ti.take (diff_commonPrefix st.ti st.td)) : DmpDiff)]
      | _ => ((DTag.eqT, st.ti.take (diff_commonPrefix st.ti st.td)) : DmpDiff)
          :: st.out) =
    dmpDel st.out ++ st.td.take (diff_commonPrefix st.ti st.td) := by
  rcases hend with hout | ⟨t0, hlast⟩
  · rw [hout]
    simp only [List.getLast?_nil]
    rw [show dmpDel [((DTag.eqT, st.ti.take (diff_commonPrefix st.ti st.td)) : DmpDiff)] =
      st.ti.take (diff_commonPrefix st.ti st.td) from by simp [dmpDel]]
    rw [commonPrefix_take st.ti st.td]
    simp [dmpDel]
  · rw [hlast]
    exact ((dmpDel_snoc_eq hlast _).1).trans
      (by rw [commonPrefix_take st.ti st.td])

theorem prefix_out1_ins (st : CMState)
    (hend : st.out = [] ∨ ∃ t0, st.out.getLast? = some (DTag.eqT, t0)) :
    dmpIns (match st.out.getLast? with
      | some (DTag.eqT, t0) =>
        st.out.dropLast ++
          [((DTag.eqT, t0 ++ st.ti.take (diff_commonPrefix st.ti st.td)) : DmpDiff)]
      | _ => ((DTag.eqT, st.ti.take (diff_commonPrefix st.ti st.td)) : DmpDiff)
          :: st.out) =
    dmpIns st.out ++ st.ti.take (diff_commonPrefix st.ti st.td) := by
  rcases hend with hout | ⟨t0, hlast⟩
  · rw [hout]
    simp only [List.getLast?_nil]
    simp [dmpIns]
  · rw [hlast]
    exact (dmpDel_snoc_eq hlast _).2

theorem dmpDel_single_eq (t : Str) :
    dmpDel [((DTag.eqT, t) : DmpDiff)] = t := by
  simp [dmpDel]

theorem dmpIns_single_eq (t : Str) :
    dmpIns [((DTag.eqT, t) : DmpDiff)] = t := by
  simp [dmpIns]

theorem take_drop_mid (a b : Str) (n : Nat) :
    a.take n ++ (a.drop n ++ b) = a ++ b := by
  rw [← List.append_assoc, List.take_append_drop]

theorem cm1Step_measureD (st : CMState) (d : DmpDiff)
    (hend : st.out = [] ∨ ∃ t0, st.out.getLast? = some (DTag.eqT, t0))
    (hci : st.ci = 0 → st.ti = []) (hcd : st.cd = 0 → st.td = []) :
    dmpDel (cm1Step st d).out ++ (cm1Step st d).td =
      (dmpDel st.out ++ st.td) ++ (if d.1 = DTag.insT then [] else d.2) := by
  obtain ⟨tag, txt⟩ := d
  cases tag with
  | insT =>
    show dmpDel st.out ++ st.td = (dmpDel st.out ++ st.td) ++
      (if DTag.insT = DTag.insT then [] else txt)
    simp
  | delT =>
    show dmpDel st.out ++ (st.td ++ txt) = (dmpDel st.out ++ st.td) ++
      (if DTag.delT = DTag.insT then [] else txt)
    rw [if_neg (by intro h; cases h), List.append_assoc]
  | eqT =>
    rw [show (if ((DTag.eqT, txt) : DmpDiff).1 = DTag.insT then ([] : Str) else
      ((DTag.eqT, txt) : DmpDiff).2) = txt from by
        rw [if_neg (by intro h; cases h)]]
    unfold cm1Step
    dsimp only
    by_cases h1 : st.cd + st.ci > 1
    · rw [if_pos h1]
      by_cases h2 : st.cd ≠ 0 ∧ st.ci ≠ 0
      · rw [if_pos h2]
        by_cases hp : diff_commonPrefix st.ti st.td ≠ 0
        · rw [if_pos hp]
          dsimp only
          by_cases hs : diff_commonSuffix
              (st.ti.drop (diff_commonPrefix st.ti st.td))
              (st.td.drop (diff_commonPrefix st.ti st.td)) ≠ 0
          · rw [if_pos hs]
            dsimp only
            rw [dmpDel_append, dmpDel_append, dmpDel_append]
            rw [prefix_out1_del st hend, dmpDel_optDel, dmpDel_optIns,
              dmpDel_single_eq]
            rw [commonSuffix_drop (st.ti.drop (diff_commonPrefix st.ti st.td))
              (st.td.drop (diff_commonPrefix st.ti st.td))]
            simp only [List.append_nil, List.nil_append, List.append_assoc]
            congr 1
            rw [take_drop_mid]
            rw [take_drop_mid]
          · rw [if_neg hs]
            dsimp only
            rw [dmpDel_append, dmpDel_append, dmpDel_append]
            rw [prefix_out1_del st hend, dmpDel_optDel, dmpDel_optIns,
              dmpDel_single_eq]
            simp only [List.append_nil, List.nil_append, List.append_assoc]
            congr 1
            rw [take_drop_mid]
        · rw [if_neg hp]
          dsimp only
          by_cases hs : diff_commonSuffix st.ti st.td ≠ 0
          · rw [if_pos hs]
            dsimp only
            rw [dmpDel_append, dmpDel_append, dmpDel_append]
            rw [dmpDel_optDel, dmpDel_optIns, dmpDel_single_eq]
            rw [commonSuffix_drop st.ti st.td]
            simp only [List.append_nil, List.nil_append, List.append_assoc]
            congr 1
            rw [take_drop_mid]
          · rw [if_neg hs]
            dsimp only
            rw [dmpDel_append, dmpDel_append, dmpDel_append]
            rw [dmpDel_optDel, dmpDel_optIns, dmpDel_single_eq]
            simp only [List.append_nil, List.nil_append, List.append_assoc]
      · rw [if_neg h2]
        dsimp only
        rw [dmpDel_append, dmpDel_append, dmpDel_append]
        rw [dmpDel_optDel, dmpDel_optIns, dmpDel_single_eq]
        simp only [List.append_nil, List.nil_append, List.append_assoc]
    · rw [if_neg h1]
      by_cases h2 : st.cd + st.ci = 1
      · rw [if_pos h2]
        dsimp only
        by_cases hcd1 : st.cd = 1
        · rw [if_pos hcd1]
          rw [dmpDel_append, dmpDel_append]
          rw [show dmpDel [((DTag.delT, st.td) : DmpDiff)] = st.td from by
            simp [dmpDel]]
          rw [dmpDel_single_eq]
          simp [List.append_assoc]
        · rw [if_neg hcd1]
          have hcd0 : st.cd = 0 := by omega
          rw [hcd hcd0]
          rw [dmpDel_append, dmpDel_append]
          rw [show dmpDel [((DTag.insT, st.ti) : DmpDiff)] = [] from by
            simp [dmpDel]]
          rw [dmpDel_single_eq]
          simp [List.append_assoc]
      · rw [if_neg h2]
        have hcd0 : st.cd = 0 := by omega
        have hci0 : st.ci = 0 := by omega
        rw [hcd hcd0]
        cases hlast : st.out.getLast? with
        | some d0 =>
          obtain ⟨t0g, tx0⟩ := d0
          cases t0g with
          | eqT =>
            rw [(dmpDel_snoc_eq hlast txt).1]
            simp
          | insT =>
            rw [dmpDel_append, dmpDel_single_eq]
            simp
          | delT =>
            rw [dmpDel_append, dmpDel_single_eq]
            simp
        | none =>
          rw [dmpDel_append, dmpDel_single_eq]
          simp

theorem cm1Step_measureI (st : CMState) (d : DmpDiff)
    (hend : st.out = [] ∨ ∃ t0, st.out.getLast? = some (DTag.eqT, t0))
    (hci : st.ci = 0 → st.ti = []) (hcd : st.cd = 0 → st.td = []) :
    dmpIns (cm1Step st d).out ++ (cm1Step st d).ti =
      (dmpIns st.out ++ st.ti) ++ (if d.1 = DTag.delT then [] else d.2) := by
  obtain ⟨tag, txt⟩ := d
  cases tag with
  | delT =>
    show dmpIns st.out ++ st.ti = (dmpIns st.out ++ st.ti) ++
      (if DTag.delT = DTag.delT then [] else txt)
    simp
  | insT =>
    show dmpIns st.out ++ (st.ti ++ txt) = (dmpIns st.out ++ st.ti) ++
      (if DTag.insT = DTag.delT then [] else txt)
    rw [if_neg (by intro h; cases h), List.append_assoc]
  | eqT =>
    rw [show (if ((DTag.eqT, txt) : DmpDiff).1 = DTag.delT then ([] : Str) else
      ((DTag.eqT, txt) : DmpDiff).2) = txt from by
        rw [if_neg (by intro h; cases h)]]
    unfold cm1Step
    dsimp only
    by_cases h1 : st.cd + st.ci > 1
    · rw [if_pos h1]
      by_cases h2 : st.cd ≠ 0 ∧ st.ci ≠ 0
      · rw [if_pos h2]
        by_cases hp : diff_commonPrefix st.ti st.td ≠ 0
        · rw [if_pos hp]
          dsimp only
          by_cases hs : diff_commonSuffix
              (st.ti.drop (diff_commonPrefix st.ti st.td))
              (st.td.drop (diff_commonPrefix st.ti st.td)) ≠ 0
          · rw [if_pos hs]
            dsimp only
            rw [dmpIns_append, dmpIns_append, dmpIns_append]
            rw [prefix_out1_ins st hend, dmpIns_optDel, dmpIns_optIns,
              dmpIns_single_eq]
            simp only [List.append_nil, List.nil_append, List.append_assoc]
            congr 1
            rw [take_drop_mid]
            rw [take_drop_mid]
          · rw [if_neg hs]
            dsimp only
            rw [dmpIns_append, dmpIns_append, dmpIns_append]
            rw [prefix_out1_ins st hend, dmpIns_optDel, dmpIns_optIns,
              dmpIns_single_eq]
            simp only [List.append_nil, List.nil_append, List.append_assoc]
            congr 1
            rw [take_drop_mid]
        · rw [if_neg hp]
          dsimp only
          by_cases hs : diff_commonSuffix st.ti st.td ≠ 0
          · rw [if_pos hs]
            dsimp only
            rw [dmpIns_append, dmpIns_append, dmpIns_append]
            rw [dmpIns_optDel, dmpIns_optIns, dmpIns_single_eq]
            simp only [List.append_nil, List.nil_append, List.append_assoc]
            congr 1
            rw [take_drop_mid]
          · rw [if_neg hs]
            dsimp only
            rw [dmpIns_append, dmpIns_append, dmpIns_append]
            rw [dmpIns_optDel, dmpIns_optIns, dmpIns_single_eq]
            simp only [List.append_nil, List.nil_append, List.append_assoc]
      · rw [if_neg h2]
        dsimp only
        rw [dmpIns_append, dmpIns_append, dmpIns_append]
        rw [dmpIns_optDel, dmpIns_optIns, dmpIns_single_eq]
        simp only [List.append_nil, List.nil_append, List.append_assoc]
    · rw [if_neg h1]
      by_cases h2 : st.cd + st.ci = 1
      · rw [if_pos h2]
        dsimp only
        by_cases hcd1 : st.cd = 1
        · rw [if_pos hcd1]
          have hci0 : st.ci = 0 := by omega
          rw [hci hci0]
          rw [dmpIns_append, dmpIns_append]
          rw [show dmpIns [((DTag.delT, st.td) : DmpDiff)] = [] from by
            simp [dmpIns]]
          rw [dmpIns_single_eq]
          simp [List.append_assoc]
        · rw [if_neg hcd1]
          rw [dmpIns_append, dmpIns_append]
          rw [show dmpIns [((DTag.insT, st.ti) : DmpDiff)] = st.ti from by
            simp [dmpIns]]
          rw [dmpIns_single_eq]
          simp [List.append_assoc]
      · rw [if_neg h2]
        have hci0 : st.ci = 0 := by omega
        rw [hci hci0]
        cases hlast : st.out.getLast? with
        | some d0 =>
          obtain ⟨t0g, tx0⟩ := d0
          cases t0g with
          | eqT =>
            rw [(dmpDel_snoc_eq hlast txt).2]
            simp
          | insT =>
            rw [dmpIns_append, dmpIns_single_eq]
            simp
          | delT =>
            rw [dmpIns_append, dmpIns_single_eq]
            simp
        | none =>
          rw [dmpIns_append, dmpIns_single_eq]
          simp

theorem cm1Step_counts (st : CMState) (d : DmpDiff)
    (hci : st.ci = 0 → st.ti = []) (hcd : st.cd = 0 → st.td = []) :
    ((cm1Step st d).ci = 0 → (cm1Step st d).ti = []) ∧
    ((cm1Step st d).cd = 0 → (cm1Step st d).td = []) := by
  obtain ⟨tag, txt⟩ := d
  cases tag with
  | insT =>
    refine ⟨?_, ?_⟩
    · show st.ci + 1 = 0 → _
      intro h
      omega
    · exact hcd
  | delT =>
    refine ⟨?_, ?_⟩
    · exact hci
    · show st.cd + 1 = 0 → _
      intro h
      omega
  | eqT =>
    obtain ⟨h1, h2, h3, h4⟩ := cm1Step_eq_resets st txt
    exact ⟨fun _ => h2, fun _ => h1⟩

theorem cm1_fold_inv : ∀ (l : List DmpDiff) (st : CMState),
    (st.out = [] ∨ ∃ t0, st.out.getLast? = some (DTag.eqT, t0)) →
    (st.ci = 0 → st.ti = []) → (st.cd = 0 → st.td = []) →
    dmpDel (l.foldl cm1Step st).out ++ (l.foldl cm1Step st).td =
      (dmpDel st.out ++ st.td) ++ dmpDel l ∧
    dmpIns (l.foldl cm1Step st).out ++ (l.foldl cm1Step st).ti =
      (dmpIns st.out ++ st.ti) ++ dmpIns l := by
  intro l
  induction l with
  | nil =>
    intro st _ _ _
    simp [dmpDel, dmpIns]
  | cons d rest ih =>
    intro st hend hci hcd
    rw [List.foldl_cons]
    have hstep := ih (cm1Step st d) (cm1Step_ends_eq st d hend)
      (cm1Step_counts st d hci hcd).1 (cm1Step_counts st d hci hcd).2
    obtain ⟨hD, hI⟩ := hstep
    constructor
    · rw [hD, cm1Step_measureD st d hend hci hcd, dmpDel_cons]
      simp [List.append_assoc]
    · rw [hI, cm1Step_measureI st d hend hci hcd, dmpIns_cons]
      simp [List.append_assoc]

theorem cm1_pres (diffs : List DmpDiff) :
    dmpDel (diff_cleanupMerge1 diffs) = dmpDel diffs ∧
    dmpIns (diff_cleanupMerge1 diffs) = dmpIns diffs := by
  unfold diff_cleanupMerge1
  dsimp only
  have hfold := cm1_fold_inv (diffs ++ [(DTag.eqT, [])]) ⟨[], 0, 0, [], []⟩
    (Or.inl rfl) (fun _ => rfl) (fun _ => rfl)
  have hres := cm1Step_eq_resets ((diffs).foldl cm1Step ⟨[], 0, 0, [], []⟩) []
  have hfold2 : (diffs ++ [(DTag.eqT, [])]).foldl cm1Step ⟨[], 0, 0, [], []⟩ =
      cm1Step (diffs.foldl cm1Step ⟨[], 0, 0, [], []⟩) (DTag.eqT, []) := by
    rw [List.foldl_append]
    rfl
  obtain ⟨hD, hI⟩ := hfold
  rw [hfold2] at hD hI
  rw [hfold2]
  rw [(cm1Step_eq_resets _ _).1] at hD
  rw [(cm1Step_eq_resets _ _).2.1] at hI
  rw [List.append_nil] at hD hI
  rw [dmpDel_append] at hD
  rw [dmpIns_append] at hI
  rw [show dmpDel [((DTag.eqT, []) : DmpDiff)] = [] from rfl] at hD
  rw [show dmpIns [((DTag.eqT, []) : DmpDiff)] = [] from rfl] at hI
  rw [List.append_nil] at hD hI
  rw [show dmpDel ([] : List DmpDiff) = [] from rfl, List.nil_append,
    List.append_nil] at hD
  rw [show dmpIns ([] : List DmpDiff) = [] from rfl, List.nil_append,
    List.append_nil] at hI
  cases hlast : (cm1Step (diffs.foldl cm1Step ⟨[], 0, 0, [], []⟩)
      (DTag.eqT, [])).out.getLast? with
  | none =>
    dsimp only
    exact ⟨hD, hI⟩
  | some d0 =>
    dsimp only
    by_cases hempty : d0.2 = []
    · rw [if_pos hempty]
      have hdec := getLast?_decomp2 hlast
      constructor
      · rw [← hD]
        conv_rhs => rw [hdec]
        rw [dmpDel_append]
        rw [show dmpDel [d0] = (if d0.1 = DTag.insT then [] else d0.2) from by
          simp [dmpDel]]
        rw [hempty]
        simp
      · rw [← hI]
        conv_rhs => rw [hdec]
        rw [dmpIns_append]
        rw [show dmpIns [d0] = (if d0.1 = DTag.delT then [] else d0.2) from by
          simp [dmpIns]]
        rw [hempty]
        simp
    · rw [if_neg hempty]
      exact ⟨hD, hI⟩

theorem shiftGo_pres (fuel : Nat) : ∀ out l ch,
    dmpDel (shiftGo fuel out l ch).1 = dmpDel out ++ dmpDel l ∧
    dmpIns (shiftGo fuel out l ch).1 = dmpIns out ++ dmpIns l := by
  induction fuel with
  | zero =>
    intro out l ch
    exact ⟨by rw [shiftGo, dmpDel_append], by rw [shiftGo, dmpIns_append]⟩
  | succ fuel ih =>
    intro out l ch
    match l with
    | [] =>
      refine ⟨?_, ?_⟩
      · show dmpDel ((out ++ [], ch).1) = _
        rw [dmpDel_append]
      · show dmpIns ((out ++ [], ch).1) = _
        rw [dmpIns_append]
    | [a] =>
      refine ⟨?_, ?_⟩
      · show dmpDel ((out ++ [a], ch).1) = _
        rw [dmpDel_append]
      · show dmpIns ((out ++ [a], ch).1) = _
        rw [dmpIns_append]
    | [a, x] =>
      refine ⟨?_, ?_⟩
      · show dmpDel ((out ++ [a, x], ch).1) = _
        rw [dmpDel_append]
      · show dmpIns ((out ++ [a, x], ch).1) = _
        rw [dmpIns_append]
    | a :: x :: b :: rest =>
      rw [shiftGo]
      by_cases hab : a.1 = DTag.eqT ∧ b.1 = DTag.eqT
      · rw [if_pos hab]
        obtain ⟨ha, hb⟩ := hab
        by_cases h1 : x.2.drop (x.2.length - a.2.length) = a.2
        · rw [if_pos h1]
          obtain ⟨ihD, ihI⟩ := ih (out ++ [(x.1, a.2 ++ x.2.take (x.2.length - a.2.length))])
            ((DTag.eqT, a.2 ++ b.2) :: rest) true
          have hx2 : x.2.take (x.2.length - a.2.length) ++ a.2 = x.2 := by
            conv_rhs => rw [← List.take_append_drop (x.2.length - a.2.length) x.2]
            rw [h1]
          constructor
          · rw [ihD]
            by_cases hx : x.1 = DTag.insT
            · simp [dmpDel, ha, hb, hx, List.append_assoc]
            · simp only [dmpDel, List.flatMap_append, List.flatMap_cons,
                List.flatMap_nil, ha, hb, if_neg hx, List.append_assoc,
                List.append_nil, List.nil_append]
              conv_rhs => rw [← hx2]
              simp [List.append_assoc]
          · rw [ihI]
            by_cases hx : x.1 = DTag.delT
            · simp [dmpIns, ha, hb, hx, List.append_assoc]
            · simp only [dmpIns, List.flatMap_append, List.flatMap_cons,
                List.flatMap_nil, ha, hb, if_neg hx, List.append_assoc,
                List.append_nil, List.nil_append]
              conv_rhs => rw [← hx2]
              simp [List.append_assoc]
        · rw [if_neg h1]
          by_cases h2 : x.2.take b.2.length = b.2
          · rw [if_pos h2]
            obtain ⟨ihD, ihI⟩ := ih (out ++ [(DTag.eqT, a.2 ++ b.2)])
              ((x.1, x.2.drop b.2.length ++ b.2) :: rest) true
            have hx2 : b.2 ++ x.2.drop b.2.length = x.2 := by
              conv_rhs => rw [← List.take_append_drop b.2.length x.2]
              rw [h2]
            constructor
            · rw [ihD]
              by_cases hx : x.1 = DTag.insT
              · simp [dmpDel, ha, hb, hx, List.append_assoc]
              · simp only [dmpDel, List.flatMap_append, List.flatMap_cons,
                  List.flatMap_nil, ha, hb, if_neg hx, List.append_assoc,
                  List.append_nil, List.nil_append]
                conv_rhs => rw [← hx2]
                simp [List.append_assoc]
            · rw [ihI]
              by_cases hx : x.1 = DTag.delT
              · simp [dmpIns, ha, hb, hx, List.append_assoc]
              · simp only [dmpIns, List.flatMap_append, List.flatMap_cons,
                  List.flatMap_nil, ha, hb, if_neg hx, List.append_assoc,
                  List.append_nil, List.nil_append]
                conv_rhs => rw [← hx2]
                simp [List.append_assoc]
          · rw [if_neg h2]
            obtain ⟨ihD, ihI⟩ := ih (out ++ [a]) (x :: b :: rest) ch
            constructor
            · rw [ihD, dmpDel_append, dmpDel_cons]
              simp [List.append_assoc, dmpDel_cons, dmpDel]
            · rw [ihI, dmpIns_append, dmpIns_cons]
              simp [List.append_assoc, dmpIns_cons, dmpIns]
      · rw [if_neg hab]
        obtain ⟨ihD, ihI⟩ := ih (out ++ [a]) (x :: b :: rest) ch
        constructor
        · rw [ihD, dmpDel_append, dmpDel_cons]
          simp [List.append_assoc, dmpDel_cons, dmpDel]
        · rw [ihI, dmpIns_append, dmpIns_cons]
          simp [List.append_assoc, dmpIns_cons, dmpIns]

theorem cleanupMergeF_pres (fuel : Nat) : ∀ diffs,
    dmpDel (cleanupMergeF fuel diffs) = dmpDel diffs ∧
    dmpIns (cleanupMergeF fuel diffs) = dmpIns diffs := by
  induction fuel with
  | zero => intro diffs; exact ⟨rfl, rfl⟩
  | succ fuel ih =>
    intro diffs
    rw [cleanupMergeF]
    have h1 := cm1_pres diffs
    have h2 := shiftGo_pres (diff_cleanupMerge1 diffs).length []
      (diff_cleanupMerge1 diffs) false
    by_cases hr : (shiftGo (diff_cleanupMerge1 diffs).length []
        (diff_cleanupMerge1 diffs) false).2
    · rw [if_pos hr]
      obtain ⟨ihD, ihI⟩ := ih (shiftGo (diff_cleanupMerge1 diffs).length []
        (diff_cleanupMerge1 diffs) false).1
      constructor
      · rw [ihD, h2.1, show dmpDel ([] : List DmpDiff) = [] from rfl,
          List.nil_append, h1.1]
      · rw [ihI, h2.2, show dmpIns ([] : List DmpDiff) = [] from rfl,
          List.nil_append, h1.2]
    · rw [if_neg hr]
      constructor
      · rw [h2.1, show dmpDel ([] : List DmpDiff) = [] from rfl,
          List.nil_append, h1.1]
      · rw [h2.2, show dmpIns ([] : List DmpDiff) = [] from rfl,
          List.nil_append, h1.2]

theorem diff_cleanupMerge_pres (diffs : List DmpDiff) :
    dmpDel (diff_cleanupMerge diffs) = dmpDel diffs ∧
    dmpIns (diff_cleanupMerge diffs) = dmpIns diffs :=
  cleanupMergeF_pres _ diffs

theorem app_inv3 (T D T2 q E1 E2 : Str) (h1 : T ++ D = E1) (h2 : T2 ++ D = E2) :
    T ++ ((D ++ T2) ++ (D ++ q)) = E1 ++ (E2 ++ q) := by
  rw [← h1, ← h2]
  simp [List.append_assoc]

theorem app_inv2 (T D q E1 : Str) (h1 : T ++ D = E1) :
    T ++ (D ++ q) = E1 ++ q := by
  rw [← h1]
  simp [List.append_assoc]

theorem head?_decomp {ed : Str} {q0 : Nat} (h : ed.head? = some q0) :
    ed = q0 :: ed.drop 1 := by
  cases ed with
  | nil => cases h
  | cons a rest =>
    simp only [List.head?_cons, Option.some.injEq] at h
    rw [h]
    rfl

theorem slideGo_inv (E F : Str) : ∀ (e2 e1 ed : Str) (sc : Nat)
    (best : Str × Str × Str),
    e1 ++ (ed ++ e2) = E → e1 ++ e2 = F →
    best.1 ++ (best.2.1 ++ best.2.2) = E → best.1 ++ best.2.2 = F →
    (slideGo e1 ed e2 sc best).1 ++ ((slideGo e1 ed e2 sc best).2.1 ++
      (slideGo e1 ed e2 sc best).2.2) = E ∧
    (slideGo e1 ed e2 sc best).1 ++ (slideGo e1 ed e2 sc best).2.2 = F := by
  intro e2
  induction e2 with
  | nil =>
    intro e1 ed sc best _ _ h3 h4
    exact ⟨h3, h4⟩
  | cons q0 rest ih =>
    intro e1 ed sc best h1 h2 h3 h4
    rw [slideGo]
    by_cases hh : ed.head? = some q0
    · rw [if_pos hh]
      have hed := head?_decomp hh
      have hn1 : (e1 ++ [q0]) ++ ((ed.drop 1 ++ [q0]) ++ rest) = E := by
        rw [← h1, hed]
        simp [List.append_assoc]
      have hn2 : (e1 ++ [q0]) ++ rest = F := by
        rw [← h2]
        simp [List.append_assoc]
      by_cases hsc : sc ≤ semScore (e1 ++ [q0]) (ed.drop 1 ++ [q0]) +
          semScore (ed.drop 1 ++ [q0]) rest
      · rw [if_pos hsc]
        exact ih (e1 ++ [q0]) (ed.drop 1 ++ [q0]) _ _ hn1 hn2 hn1 hn2
      · rw [if_neg hsc]
        exact ih (e1 ++ [q0]) (ed.drop 1 ++ [q0]) _ _ hn1 hn2 h3 h4
    · rw [if_neg hh]
      exact ⟨h3, h4⟩

theorem slideBest_inv (eq1 edit eq2 : Str) :
    (slideBest eq1 edit eq2).1 ++ ((slideBest eq1 edit eq2).2.1 ++
      (slideBest eq1 edit eq2).2.2) = eq1 ++ (edit ++ eq2) ∧
    (slideBest eq1 edit eq2).1 ++ (slideBest eq1 edit eq2).2.2 = eq1 ++ eq2 := by
  unfold slideBest
  dsimp only
  by_cases hco : diff_commonSuffix eq1 edit ≠ 0
  · rw [if_pos hco]
    have hcs := commonSuffix_drop eq1 edit
    have hTD : eq1.take (eq1.length - diff_commonSuffix eq1 edit) ++
        edit.drop (edit.length - diff_commonSuffix eq1 edit) = eq1 := by
      rw [← hcs, List.take_append_drop]
    have hT2 : edit.take (edit.length - diff_commonSuffix eq1 edit) ++
        edit.drop (edit.length - diff_commonSuffix eq1 edit) = edit := by
      rw [List.take_append_drop]
    have h1 := app_inv3 (eq1.take (eq1.length - diff_commonSuffix eq1 edit))
      (edit.drop (edit.length - diff_commonSuffix eq1 edit))
      (edit.take (edit.length - diff_commonSuffix eq1 edit)) eq2 eq1 edit hTD hT2
    have h2 := app_inv2 (eq1.take (eq1.length - diff_commonSuffix eq1 edit))
      (edit.drop (edit.length - diff_commonSuffix eq1 edit)) eq2 eq1 hTD
    exact slideGo_inv (eq1 ++ (edit ++ eq2)) (eq1 ++ eq2) _ _ _ _ _
      h1 h2 h1 h2
  · rw [if_neg hco]
    exact slideGo_inv (eq1 ++ (edit ++ eq2)) (eq1 ++ eq2) _ _ _ _ _
      rfl rfl rfl rfl

theorem app_pair_r (A C A' C' r : Str) (h : A ++ C = A' ++ C') :
    A ++ (C ++ r) = A' ++ (C' ++ r) := by
  rw [← List.append_assoc, ← List.append_assoc, h]

theorem app_trip_r (A B C A' B' C' r : Str)
    (h : A ++ (B ++ C) = A' ++ (B' ++ C')) :
    A ++ (B ++ (C ++ r)) = A' ++ (B' ++ (C' ++ r)) := by
  have h2 := congrArg (fun t => t ++ r) h
  simpa [List.append_assoc] using h2

theorem dmpDel_empty_op (t : DTag) (l : List DmpDiff) :
    dmpDel ((t, []) :: l) = dmpDel l := by
  simp [dmpDel_cons]

theorem dmpIns_empty_op (t : DTag) (l : List DmpDiff) :
    dmpIns ((t, []) :: l) = dmpIns l := by
  simp [dmpIns_cons]

theorem dmpDel_skip1 (c : DmpDiff) (t : DTag) (l : List DmpDiff) :
    dmpDel (c :: (t, []) :: l) = dmpDel (c :: l) := by
  simp [dmpDel]

theorem dmpIns_skip1 (c : DmpDiff) (t : DTag) (l : List DmpDiff) :
    dmpIns (c :: (t, []) :: l) = dmpIns (c :: l) := by
  simp [dmpIns]

theorem dmpDel_skip2 (c d : DmpDiff) (t : DTag) (l : List DmpDiff) :
    dmpDel (c :: d :: (t, []) :: l) = dmpDel (c :: d :: l) := by
  simp [dmpDel]

theorem dmpIns_skip2 (c d : DmpDiff) (t : DTag) (l : List DmpDiff) :
    dmpIns (c :: d :: (t, []) :: l) = dmpIns (c :: d :: l) := by
  simp [dmpIns]

theorem lossless_del_eq (a x b : DmpDiff) (rest : List DmpDiff)
    (ha : a.1 = DTag.eqT) (hb : b.1 = DTag.eqT) (B1 B2 B3 : Str)
    (h1 : B1 ++ (B2 ++ B3) = a.2 ++ (x.2 ++ b.2))
    (h2 : B1 ++ B3 = a.2 ++ b.2) :
    dmpDel ((DTag.eqT, B1) :: (x.1, B2) :: (DTag.eqT, B3) :: rest) =
      dmpDel (a :: x :: b :: rest) := by
  rw [dmpDel_cons, dmpDel_cons, dmpDel_cons, dmpDel_cons, dmpDel_cons,
    dmpDel_cons]
  dsimp only
  rw [ha, hb]
  by_cases hx : x.1 = DTag.insT
  · rw [if_pos hx, if_pos hx]
    simpa using app_pair_r B1 B3 a.2 b.2 (dmpDel rest) h2
  · rw [if_neg hx, if_neg hx]
    simpa using app_trip_r B1 B2 B3 a.2 x.2 b.2 (dmpDel rest) h1

theorem lossless_ins_eq (a x b : DmpDiff) (rest : List DmpDiff)
    (ha : a.1 = DTag.eqT) (hb : b.1 = DTag.eqT) (B1 B2 B3 : Str)
    (h1 : B1 ++ (B2 ++ B3) = a.2 ++ (x.2 ++ b.2))
    (h2 : B1 ++ B3 = a.2 ++ b.2) :
    dmpIns ((DTag.eqT, B1) :: (x.1, B2) :: (DTag.eqT, B3) :: rest) =
      dmpIns (a :: x :: b :: rest) := by
  rw [dmpIns_cons, dmpIns_cons, dmpIns_cons, dmpIns_cons, dmpIns_cons,
    dmpIns_cons]
  dsimp only
  rw [ha, hb]
  by_cases hx : x.1 = DTag.delT
  · rw [if_pos hx, if_pos hx]
    simpa using app_pair_r B1 B3 a.2 b.2 (dmpIns rest) h2
  · rw [if_neg hx, if_neg hx]
    simpa using app_trip_r B1 B2 B3 a.2 x.2 b.2 (dmpIns rest) h1

theorem losslessGo_pres (fuel : Nat) : ∀ acc l,
    dmpDel (losslessGo fuel acc l) = dmpDel acc ++ dmpDel l ∧
    dmpIns (losslessGo fuel acc l) = dmpIns acc ++ dmpIns l := by
  induction fuel with
  | zero =>
    intro acc l
    exact ⟨by rw [losslessGo, dmpDel_append], by rw [losslessGo, dmpIns_append]⟩
  | succ fuel ih =>
    intro acc l
    match l with
    | [] =>
      refine ⟨?_, ?_⟩
      · show dmpDel (acc ++ []) = _
        rw [dmpDel_append]
      · show dmpIns (acc ++ []) = _
        rw [dmpIns_append]
    | [a] =>
      refine ⟨?_, ?_⟩
      · show dmpDel (acc ++ [a]) = _
        rw [dmpDel_append]
      · show dmpIns (acc ++ [a]) = _
        rw [dmpIns_append]
    | [a, x] =>
      refine ⟨?_, ?_⟩
      · show dmpDel (acc ++ [a, x]) = _
        rw [dmpDel_append]
      · show dmpIns (acc ++ [a, x]) = _
        rw [dmpIns_append]
    | a :: x :: b :: rest =>
      rw [losslessGo]
      dsimp only
      by_cases hab : a.1 = DTag.eqT ∧ b.1 = DTag.eqT
      · rw [if_pos hab]
        obtain ⟨ha, hb⟩ := hab
        obtain ⟨hinv1, hinv2⟩ := slideBest_inv a.2 x.2 b.2
        by_cases heq : a.2 = (slideBest a.2 x.2 b.2).1
        · rw [if_pos heq]
          obtain ⟨ihD, ihI⟩ := ih (acc ++ [a]) (x :: b :: rest)
          constructor
          · rw [ihD, dmpDel_append, dmpDel_cons]
            simp [List.append_assoc, dmpDel_cons, dmpDel]
          · rw [ihI, dmpIns_append, dmpIns_cons]
            simp [List.append_assoc, dmpIns_cons, dmpIns]
        · rw [if_neg heq]
          by_cases hb1 : (slideBest a.2 x.2 b.2).1 ≠ []
          · rw [if_pos hb1]
            by_cases hb3 : (slideBest a.2 x.2 b.2).2.2 ≠ []
            · rw [if_pos hb3]
              obtain ⟨ihD, ihI⟩ := ih (acc ++ [(DTag.eqT, (slideBest a.2 x.2 b.2).1)])
                ((x.1, (slideBest a.2 x.2 b.2).2.1) ::
                  (DTag.eqT, (slideBest a.2 x.2 b.2).2.2) :: rest)
              constructor
              · rw [ihD, dmpDel_append, List.append_assoc]
                rw [show dmpDel [((DTag.eqT, (slideBest a.2 x.2 b.2).1) : DmpDiff)] ++
                    dmpDel ((x.1, (slideBest a.2 x.2 b.2).2.1) ::
                      (DTag.eqT, (slideBest a.2 x.2 b.2).2.2) :: rest) =
                    dmpDel (((DTag.eqT, (slideBest a.2 x.2 b.2).1) : DmpDiff) ::
                      (x.1, (slideBest a.2 x.2 b.2).2.1) ::
                      (DTag.eqT, (slideBest a.2 x.2 b.2).2.2) :: rest) from
                  (dmpDel_append [_] _).symm]
                rw [lossless_del_eq a x b rest ha hb _ _ _ hinv1 hinv2]
              · rw [ihI, dmpIns_append, List.append_assoc]
                rw [show dmpIns [((DTag.eqT, (slideBest a.2 x.2 b.2).1) : DmpDiff)] ++
                    dmpIns ((x.1, (slideBest a.2 x.2 b.2).2.1) ::
                      (DTag.eqT, (slideBest a.2 x.2 b.2).2.2) :: rest) =
                    dmpIns (((DTag.eqT, (slideBest a.2 x.2 b.2).1) : DmpDiff) ::
                      (x.1, (slideBest a.2 x.2 b.2).2.1) ::
                      (DTag.eqT, (slideBest a.2 x.2 b.2).2.2) :: rest) from
                  (dmpIns_append [_] _).symm]
                rw [lossless_ins_eq a x b rest ha hb _ _ _ hinv1 hinv2]
            · rw [if_neg hb3]
              rw [not_not] at hb3
              obtain ⟨ihD, ihI⟩ := ih acc
                ((DTag.eqT, (slideBest a.2 x.2 b.2).1) ::
                  (x.1, (slideBest a.2 x.2 b.2).2.1) :: rest)
              have he3 : ((DTag.eqT, (slideBest a.2 x.2 b.2).2.2) : DmpDiff) =
                  (DTag.eqT, []) := by rw [hb3]
              constructor
              · rw [ihD]
                congr 1
                rw [show dmpDel ((DTag.eqT, (slideBest a.2 x.2 b.2).1) ::
                      (x.1, (slideBest a.2 x.2 b.2).2.1) :: rest) =
                    dmpDel ((DTag.eqT, (slideBest a.2 x.2 b.2).1) ::
                      (x.1, (slideBest a.2 x.2 b.2).2.1) ::
                      (DTag.eqT, (slideBest a.2 x.2 b.2).2.2) :: rest) from by
                  rw [he3, dmpDel_skip2]]
                rw [lossless_del_eq a x b rest ha hb _ _ _ hinv1 hinv2]
              · rw [ihI]
                congr 1
                rw [show dmpIns ((DTag.eqT, (slideBest a.2 x.2 b.2).1) ::
                      (x.1, (slideBest a.2 x.2 b.2).2.1) :: rest) =
                    dmpIns ((DTag.eqT, (slideBest a.2 x.2 b.2).1) ::
                      (x.1, (slideBest a.2 x.2 b.2).2.1) ::
                      (DTag.eqT, (slideBest a.2 x.2 b.2).2.2) :: rest) from by
                  rw [he3, dmpIns_skip2]]
                rw [lossless_ins_eq a x b rest ha hb _ _ _ hinv1 hinv2]
          · rw [if_neg hb1]
            rw [not_not] at hb1
            by_cases hb3 : (slideBest a.2 x.2 b.2).2.2 ≠ []
            · rw [if_pos hb3]
              obtain ⟨ihD, ihI⟩ := ih acc
                ((x.1, (slideBest a.2 x.2 b.2).2.1) ::
                  (DTag.eqT, (slideBest a.2 x.2 b.2).2.2) :: rest)
              have he1 : dmpDel ((x.1, (slideBest a.2 x.2 b.2).2.1) ::
                    (DTag.eqT, (slideBest a.2 x.2 b.2).2.2) :: rest) =
                  dmpDel ((DTag.eqT, (slideBest a.2 x.2 b.2).1) ::
                    (x.1, (slideBest a.2 x.2 b.2).2.1) ::
                    (DTag.eqT, (slideBest a.2 x.2 b.2).2.2) :: rest) := by
                rw [show ((DTag.eqT, (slideBest a.2 x.2 b.2).1) : DmpDiff) =
                    (DTag.eqT, []) from by rw [hb1]]
                rw [dmpDel_empty_op]
              have he2 : dmpIns ((x.1, (slideBest a.2 x.2 b.2).2.1) ::
                    (DTag.eqT, (slideBest a.2 x.2 b.2).2.2) :: rest) =
                  dmpIns ((DTag.eqT, (slideBest a.2 x.2 b.2).1) ::
                    (x.1, (slideBest a.2 x.2 b.2).2.1) ::
                    (DTag.eqT, (slideBest a.2 x.2 b.2).2.2) :: rest) := by
                rw [show ((DTag.eqT, (slideBest a.2 x.2 b.2).1) : DmpDiff) =
                    (DTag.eqT, []) from by rw [hb1]]
                rw [dmpIns_empty_op]
              constructor
              · rw [ihD, he1, lossless_del_eq a x b rest ha hb _ _ _ hinv1 hinv2]
              · rw [ihI, he2, lossless_ins_eq a x b rest ha hb _ _ _ hinv1 hinv2]
            · rw [if_neg hb3]
              rw [not_not] at hb3
              have he1 : dmpDel ((x.1, (slideBest a.2 x.2 b.2).2.1) :: rest) =
                  dmpDel ((DTag.eqT, (slideBest a.2 x.2 b.2).1) ::
                    (x.1, (slideBest a.2 x.2 b.2).2.1) ::
                    (DTag.eqT, (slideBest a.2 x.2 b.2).2.2) :: rest) := by
                rw [show ((DTag.eqT, (slideBest a.2 x.2 b.2).1) : DmpDiff) =
                    (DTag.eqT, []) from by rw [hb1]]
                rw [show ((DTag.eqT, (slideBest a.2 x.2 b.2).2.2) : DmpDiff) =
                    (DTag.eqT, []) from by rw [hb3]]
                rw [dmpDel_empty_op, dmpDel_skip1]
              have he2 : dmpIns ((x.1, (slideBest a.2 x.2 b.2).2.1) :: rest) =
                  dmpIns ((DTag.eqT, (slideBest a.2 x.2 b.2).1) ::
                    (x.1, (slideBest a.2 x.2 b.2).2.1) ::
                    (DTag.eqT, (slideBest a.2 x.2 b.2).2.2) :: rest) := by
                rw [show ((DTag.eqT, (slideBest a.2 x.2 b.2).1) : DmpDiff) =
                    (DTag.eqT, []) from by rw [hb1]]
                rw [show ((DTag.eqT, (slideBest a.2 x.2 b.2).2.2) : DmpDiff) =
                    (DTag.eqT, []) from by rw [hb3]]
                rw [dmpIns_empty_op, dmpIns_skip1]
              cases hacc : acc.getLast? with
              | some a0 =>
                obtain ⟨ihD, ihI⟩ := ih acc.dropLast
                  (a0 :: (x.1, (slideBest a.2 x.2 b.2).2.1) :: rest)
                have hdec := getLast?_decomp2 hacc
                constructor
                · rw [ihD]
                  conv_rhs => rw [hdec]
                  rw [dmpDel_append, dmpDel_cons, List.append_assoc]
                  congr 1
                  rw [show dmpDel [a0] = (if a0.1 = DTag.insT then [] else a0.2) from by
                    rw [dmpDel_cons]; simp [dmpDel]]
                  congr 1
                  rw [he1, lossless_del_eq a x b rest ha hb _ _ _ hinv1 hinv2]
                · rw [ihI]
                  conv_rhs => rw [hdec]
                  rw [dmpIns_append, dmpIns_cons, List.append_assoc]
                  congr 1
                  rw [show dmpIns [a0] = (if a0.1 = DTag.delT then [] else a0.2) from by
                    rw [dmpIns_cons]; simp [dmpIns]]
                  congr 1
                  rw [he2, lossless_ins_eq a x b rest ha hb _ _ _ hinv1 hinv2]
              | none =>
                have haccnil : acc = [] := by
                  cases acc with
                  | nil => rfl
                  | cons c cs => simp [List.getLast?_concat] at hacc
                subst haccnil
                obtain ⟨ihD, ihI⟩ := ih []
                  ((x.1, (slideBest a.2 x.2 b.2).2.1) :: rest)
                constructor
                · rw [ihD, he1, lossless_del_eq a x b rest ha hb _ _ _ hinv1 hinv2]
                · rw [ihI, he2, lossless_ins_eq a x b rest ha hb _ _ _ hinv1 hinv2]
      · rw [if_neg hab]
        obtain ⟨ihD, ihI⟩ := ih (acc ++ [a]) (x :: b :: rest)
        constructor
        · rw [ihD, dmpDel_append, dmpDel_cons]
          simp [List.append_assoc, dmpDel_cons, dmpDel]
        · rw [ihI, dmpIns_append, dmpIns_cons]
          simp [List.append_assoc, dmpIns_cons, dmpIns]

theorem lossless_pres (diffs : List DmpDiff) :
    dmpDel (diff_cleanupSemanticLossless diffs) = dmpDel diffs ∧
    dmpIns (diff_cleanupSemanticLossless diffs) = dmpIns diffs := by
  unfold diff_cleanupSemanticLossless
  obtain ⟨h1, h2⟩ := losslessGo_pres (diffs.length + 1) [] diffs
  constructor
  · rw [h1, show dmpDel ([] : List DmpDiff) = [] from rfl, List.nil_append]
  · rw [h2, show dmpIns ([] : List DmpDiff) = [] from rfl, List.nil_append]

theorem dd_get_split : ∀ (l : List DmpDiff) (i : Nat) (a : DmpDiff),
    l.get? i = some a → l = l.take i ++ a :: l.drop (i + 1) := by
  intro l
  induction l with
  | nil => intro i a h; cases h
  | cons c rest ih =>
    intro i a h
    cases i with
    | zero =>
      simp only [List.get?_cons_zero, Option.some.injEq] at h
      rw [h]
      simp
    | succ i2 =>
      simp only [List.get?_cons_succ] at h
      simp only [List.take_succ_cons, List.drop_succ_cons, List.cons_append]
      exact congrArg (c :: ·) (ih i2 a h)

theorem dd_get_lt {l : List DmpDiff} {i : Nat} {a : DmpDiff}
    (h : l.get? i = some a) : i < l.length :=
  List.get?_eq_some.mp h |>.choose

theorem dd_insertIdx_app : ∀ (pre post : List DmpDiff) (v : DmpDiff),
    (pre ++ post).insertIdx pre.length v = pre ++ v :: post := by
  intro pre
  induction pre with
  | nil => intro post v; rfl
  | cons c cs ih =>
    intro post v
    simp only [List.cons_append, List.length_cons, List.insertIdx_succ_cons]
    exact congrArg (c :: ·) (ih post v)

theorem dd_get_app2 : ∀ (pre post : List DmpDiff) (v x : DmpDiff),
    (pre ++ v :: x :: post).get? (pre.length + 1) = some x := by
  intro pre
  induction pre with
  | nil => intro post v x; rfl
  | cons c cs ih =>
    intro post v x
    simpa using ih post v x

theorem dd_set_app2 : ∀ (pre post : List DmpDiff) (v x y : DmpDiff),
    (pre ++ v :: x :: post).set (pre.length + 1) y = pre ++ v :: y :: post := by
  intro pre
  induction pre with
  | nil => intro post v x y; rfl
  | cons c cs ih =>
    intro post v x y
    simp only [List.cons_append, List.length_cons, List.set_cons_succ]
    exact congrArg (c :: ·) (ih post v x y)

theorem dd_insertIdx_app2 (pre post : List DmpDiff) (v : DmpDiff) (n : Nat)
    (hn : n = pre.length) :
    (pre ++ post).insertIdx n v = pre ++ v :: post := by
  rw [hn]
  exact dd_insertIdx_app pre post v

theorem dd_get_app3 (pre post : List DmpDiff) (v x : DmpDiff) (n : Nat)
    (hn : n = pre.length) :
    (pre ++ v :: x :: post).get? (n + 1) = some x := by
  rw [hn]
  exact dd_get_app2 pre post v x

theorem dd_set_app3 (pre post : List DmpDiff) (v x y : DmpDiff) (n : Nat)
    (hn : n = pre.length) :
    (pre ++ v :: x :: post).set (n + 1) y = pre ++ v :: y :: post := by
  rw [hn]
  exact dd_set_app2 pre post v x y

theorem dd_get_getD : ∀ (l : List DmpDiff) (i : Nat), i < l.length →
    l.get? i = some (l.getD i (DTag.eqT, [])) := by
  intro l
  induction l with
  | nil => intro i h; simp at h
  | cons c rest ih =>
    intro i h
    cases i with
    | zero => rfl
    | succ i2 =>
      simp only [List.get?_cons_succ, List.getD_cons_succ]
      exact ih i2 (by simpa using h)

/-- Invariant of the first diff_cleanupSemantic loop: when a last equality
is pending, the top of the equalities stack indexes an equal op in the
working list carrying exactly that text. -/
def cs1Inv (st : CS1) : Prop :=
  ∀ le, st.lastEq = some le →
    ∃ idx, eqTop st.eqArr st.depth = some idx ∧
      st.diffs.get? idx = some (DTag.eqT, le)

theorem cs1Go_pres (fuel : Nat) : ∀ (st : CS1) (ptr : Nat),
    cs1Inv st →
    dmpDel (cs1Go fuel st ptr).diffs = dmpDel st.diffs ∧
    dmpIns (cs1Go fuel st ptr).diffs = dmpIns st.diffs := by
  induction fuel with
  | zero => intro st ptr _; exact ⟨rfl, rfl⟩
  | succ fuel ih =>
    intro st ptr hinv
    rw [cs1Go]
    by_cases hlen : st.diffs.length ≤ ptr
    · rw [if_pos hlen]
      exact ⟨rfl, rfl⟩
    · rw [if_neg hlen]
      dsimp only
      by_cases htag : (st.diffs.getD ptr (DTag.eqT, [])).1 = DTag.eqT
      · rw [if_pos htag]
        refine ih _ (ptr + 1) ?_
        intro le hle
        dsimp only at hle
        refine ⟨ptr, ?_, ?_⟩
        · show ((((st.depth, ptr) :: st.eqArr).find?
            (fun p => decide (p.1 = st.depth + 1 - 1))).map Prod.snd) = some ptr
          rw [List.find?_cons_of_pos]
          · rfl
          · simp only [decide_eq_true_eq]
            omega
        · dsimp only
          have hg := dd_get_getD st.diffs ptr (by omega)
          rw [hg]
          have hle2 : (st.diffs.getD ptr (DTag.eqT, [])).2 = le := by
            injection hle
          exact congrArg some (Prod.ext htag hle2)
      · rw [if_neg htag]
        by_cases hins : (st.diffs.getD ptr (DTag.eqT, [])).1 = DTag.insT
        · rw [if_pos hins]
          dsimp only
          cases hle : st.lastEq with
          | none =>
            exact ih _ (ptr + 1) (fun le h2 => hinv le (by rw [← h2]; exact hle.symm ▸ rfl))
          | some le =>
            dsimp only
            by_cases hcond : le ≠ [] ∧
                le.length ≤ max (st.li1) (st.ld1) ∧
                le.length ≤ max (st.li2 + (st.diffs.getD ptr (DTag.eqT, [])).2.length) (st.ld2)
            · rw [if_pos hcond]
              obtain ⟨idx, htop, hgidx⟩ := hinv le hle
              have hsplit := dd_get_split st.diffs idx _ hgidx
              have hlt := dd_get_lt hgidx
              have hlenpre : (st.diffs.take idx).length = idx := by
                simp [List.length_take]
                omega
              have hins1 : st.diffs.insertIdx idx (DTag.delT, le) =
                  st.diffs.take idx ++ (DTag.delT, le) :: (DTag.eqT, le) ::
                    st.diffs.drop (idx + 1) := by
                conv_lhs => rw [hsplit]
                exact dd_insertIdx_app2 _ _ _ _ hlenpre.symm
              have hget2 : (st.diffs.insertIdx idx (DTag.delT, le)).get? (idx + 1) =
                  some (DTag.eqT, le) := by
                rw [hins1]
                exact dd_get_app3 _ _ _ _ _ hlenpre.symm
              have hset2 : (st.diffs.insertIdx idx (DTag.delT, le)).set (idx + 1)
                  (DTag.insT, le) =
                  st.diffs.take idx ++ (DTag.delT, le) :: (DTag.insT, le) ::
                    st.diffs.drop (idx + 1) := by
                rw [hins1]
                exact dd_set_app3 _ _ _ _ _ _ hlenpre.symm
              rw [htop]
              simp only [Option.getD_some]
              rw [hget2]
              have hrec := ih
                { diffs := (st.diffs.insertIdx idx (DTag.delT, le)).set (idx + 1)
                    (DTag.insT, le),
                  eqArr := st.eqArr, depth := st.depth - 2,
                  lastEq := none, li1 := 0, ld1 := 0, li2 := 0, ld2 := 0,
                  changes := true }
                (if 0 < st.depth - 2 then (eqTop st.eqArr (st.depth - 2)).getD 0 + 1
                  else 0)
                (fun le2 h2 => by cases h2)
              refine ⟨?_, ?_⟩
              · rw [hrec.1]
                dsimp only
                rw [hset2]
                conv_rhs => rw [hsplit]
                simp [dmpDel]
              · rw [hrec.2]
                dsimp only
                rw [hset2]
                conv_rhs => rw [hsplit]
                simp [dmpIns]
            · rw [if_neg hcond]
              refine ih _ (ptr + 1) ?_
              intro le2 h2
              exact hinv le2 (hle.trans h2)
        · rw [if_neg hins]
          dsimp only
          cases hle : st.lastEq with
          | none =>
            exact ih _ (ptr + 1) (fun le h2 => hinv le (by rw [← h2]; exact hle.symm ▸ rfl))
          | some le =>
            dsimp only
            by_cases hcond : le ≠ [] ∧
                le.length ≤ max (st.li1) (st.ld1) ∧
                le.length ≤ max (st.li2) (st.ld2 + (st.diffs.getD ptr (DTag.eqT, [])).2.length)
            · rw [if_pos hcond]
              obtain ⟨idx, htop, hgidx⟩ := hinv le hle
              have hsplit := dd_get_split st.diffs idx _ hgidx
              have hlt := dd_get_lt hgidx
              have hlenpre : (st.diffs.take idx).length = idx := by
                simp [List.length_take]
                omega
              have hins1 : st.diffs.insertIdx idx (DTag.delT, le) =
                  st.diffs.take idx ++ (DTag.delT, le) :: (DTag.eqT, le) ::
                    st.diffs.drop (idx + 1) := by
                conv_lhs => rw [hsplit]
                exact dd_insertIdx_app2 _ _ _ _ hlenpre.symm
              have hget2 : (st.diffs.insertIdx idx (DTag.delT, le)).get? (idx + 1) =
                  some (DTag.eqT, le) := by
                rw [hins1]
                exact dd_get_app3 _ _ _ _ _ hlenpre.symm
              have hset2 : (st.diffs.insertIdx idx (DTag.delT, le)).set (idx + 1)
                  (DTag.insT, le) =
                  st.diffs.take idx ++ (DTag.delT, le) :: (DTag.insT, le) ::
                    st.diffs.drop (idx + 1) := by
                rw [hins1]
                exact dd_set_app3 _ _ _ _ _ _ hlenpre.symm
              rw [htop]
              simp only [Option.getD_some]
              rw [hget2]
              have hrec := ih
                { diffs := (st.diffs.insertIdx idx (DTag.delT, le)).set (idx + 1)
                    (DTag.insT, le),
                  eqArr := st.eqArr, depth := st.depth - 2,
                  lastEq := none, li1 := 0, ld1 := 0, li2 := 0, ld2 := 0,
                  changes := true }
                (if 0 < st.depth - 2 then (eqTop st.eqArr (st.depth - 2)).getD 0 + 1
                  else 0)
                (fun le2 h2 => by cases h2)
              refine ⟨?_, ?_⟩
              · rw [hrec.1]
                dsimp only
                rw [hset2]
                conv_rhs => rw [hsplit]
                simp [dmpDel]
              · rw [hrec.2]
                dsimp only
                rw [hset2]
                conv_rhs => rw [hsplit]
                simp [dmpIns]
            · rw [if_neg hcond]
              refine ih _ (ptr + 1) ?_
              intro le2 h2
              exact hinv le2 (hle.trans h2)

theorem overlapGo_spec (t1 t2 : Str) : ∀ n : Nat,
    overlapGo t1 t2 n ≤ n ∧
    t1.drop (t1.length - overlapGo t1 t2 n) = t2.take (overlapGo t1 t2 n) := by
  intro n
  induction n with
  | zero =>
    refine ⟨Nat.le_refl 0, ?_⟩
    rw [overlapGo]
    simp
  | succ k ih =>
    rw [overlapGo]
    by_cases h : t1.drop (t1.length - (k + 1)) = t2.take (k + 1)
    · rw [if_pos h]
      exact ⟨Nat.le_refl _, h⟩
    · rw [if_neg h]
      exact ⟨ih.1.trans (Nat.le_succ k), ih.2⟩

theorem commonOverlap_spec (t1 t2 : Str) :
    t1.drop (t1.length - diff_commonOverlap t1 t2) =
      t2.take (diff_commonOverlap t1 t2) :=
  (overlapGo_spec t1 t2 (min t1.length t2.length)).2

theorem semOverlapGo_pres (fuel : Nat) : ∀ acc l,
    dmpDel (semOverlapGo fuel acc l) = dmpDel acc ++ dmpDel l ∧
    dmpIns (semOverlapGo fuel acc l) = dmpIns acc ++ dmpIns l := by
  induction fuel with
  | zero =>
    intro acc l
    exact ⟨by rw [semOverlapGo, dmpDel_append], by rw [semOverlapGo, dmpIns_append]⟩
  | succ fuel ih =>
    intro acc l
    match l with
    | [] =>
      refine ⟨?_, ?_⟩
      · show dmpDel (acc ++ []) = _
        rw [dmpDel_append]
      · show dmpIns (acc ++ []) = _
        rw [dmpIns_append]
    | [d1] =>
      refine ⟨?_, ?_⟩
      · show dmpDel (acc ++ [d1]) = _
        rw [dmpDel_append]
      · show dmpIns (acc ++ [d1]) = _
        rw [dmpIns_append]
    | d1 :: d2 :: rest =>
      rw [semOverlapGo]
      dsimp only
      by_cases hdi : d1.1 = DTag.delT ∧ d2.1 = DTag.insT
      · rw [if_pos hdi]
        obtain ⟨hd, hi⟩ := hdi
        by_cases ho : diff_commonOverlap d2.2 d1.2 ≤ diff_commonOverlap d1.2 d2.2
        · rw [if_pos ho]
          by_cases hth : d1.2.length ≤ 2 * diff_commonOverlap d1.2 d2.2 ∨
              d2.2.length ≤ 2 * diff_commonOverlap d1.2 d2.2
          · rw [if_pos hth]
            obtain ⟨ihD, ihI⟩ := ih (acc ++
              [(DTag.delT, d1.2.take (d1.2.length - diff_commonOverlap d1.2 d2.2)),
               (DTag.eqT, d2.2.take (diff_commonOverlap d1.2 d2.2)),
               (DTag.insT, d2.2.drop (diff_commonOverlap d1.2 d2.2))]) rest
            have hsp := commonOverlap_spec d1.2 d2.2
            constructor
            · rw [ihD, dmpDel_append, List.append_assoc]
              congr 1
              rw [show ((DTag.eqT, d2.2.take (diff_commonOverlap d1.2 d2.2)) : DmpDiff) =
                  (DTag.eqT, d1.2.drop (d1.2.length - diff_commonOverlap d1.2 d2.2)) from by
                rw [hsp]]
              simp [dmpDel, hd, hi, List.append_assoc, take_drop_mid]
            · rw [ihI, dmpIns_append, List.append_assoc]
              congr 1
              simp [dmpIns, hd, hi, List.append_assoc, take_drop_mid]
          · rw [if_neg hth]
            obtain ⟨ihD, ihI⟩ := ih (acc ++ [d1, d2]) rest
            constructor
            · rw [ihD, dmpDel_append, List.append_assoc]
              congr 1
              exact (dmpDel_append [d1, d2] rest).symm
            · rw [ihI, dmpIns_append, List.append_assoc]
              congr 1
              exact (dmpIns_append [d1, d2] rest).symm
        · rw [if_neg ho]
          by_cases hth : d1.2.length ≤ 2 * diff_commonOverlap d2.2 d1.2 ∨
              d2.2.length ≤ 2 * diff_commonOverlap d2.2 d1.2
          · rw [if_pos hth]
            obtain ⟨ihD, ihI⟩ := ih (acc ++
              [(DTag.insT, d2.2.take (d2.2.length - diff_commonOverlap d2.2 d1.2)),
               (DTag.eqT, d1.2.take (diff_commonOverlap d2.2 d1.2)),
               (DTag.delT, d1.2.drop (diff_commonOverlap d2.2 d1.2))]) rest
            have hsp := commonOverlap_spec d2.2 d1.2
            constructor
            · rw [ihD, dmpDel_append, List.append_assoc]
              congr 1
              simp [dmpDel, hd, hi, List.append_assoc, take_drop_mid]
            · rw [ihI, dmpIns_append, List.append_assoc]
              congr 1
              rw [show ((DTag.eqT, d1.2.take (diff_commonOverlap d2.2 d1.2)) : DmpDiff) =
                  (DTag.eqT, d2.2.drop (d2.2.length - diff_commonOverlap d2.2 d1.2)) from by
                rw [hsp]]
              simp [dmpIns, hd, hi, List.append_assoc, take_drop_mid]
          · rw [if_neg hth]
            obtain ⟨ihD, ihI⟩ := ih (acc ++ [d1, d2]) rest
            constructor
            · rw [ihD, dmpDel_append, List.append_assoc]
              congr 1
              exact (dmpDel_append [d1, d2] rest).symm
            · rw [ihI, dmpIns_append, List.append_assoc]
              congr 1
              exact (dmpIns_append [d1, d2] rest).symm
      · rw [if_neg hdi]
        obtain ⟨ihD, ihI⟩ := ih (acc ++ [d1]) (d2 :: rest)
        constructor
        · rw [ihD, dmpDel_append, dmpDel_cons]
          simp [List.append_assoc, dmpDel_cons, dmpDel]
        · rw [ihI, dmpIns_append, dmpIns_cons]
          simp [List.append_assoc, dmpIns_cons, dmpIns]

theorem cleanupSemantic_pres (diffs : List DmpDiff) :
    dmpDel (diff_cleanupSemantic diffs) = dmpDel diffs ∧
    dmpIns (diff_cleanupSemantic diffs) = dmpIns diffs := by
  unfold diff_cleanupSemantic
  dsimp only
  have h1 := cs1Go_pres ((diffs.length + 2) * (diffs.length + 2))
    ⟨diffs, [], 0, none, 0, 0, 0, 0, false⟩ 0 (fun le h => by cases h)
  have hm := diff_cleanupMerge_pres
    (cs1Go ((diffs.length + 2) * (diffs.length + 2))
      ⟨diffs, [], 0, none, 0, 0, 0, 0, false⟩ 0).diffs
  by_cases hc : (cs1Go ((diffs.length + 2) * (diffs.length + 2))
      ⟨diffs, [], 0, none, 0, 0, 0, 0, false⟩ 0).changes
  · rw [if_pos hc]
    have h2 := lossless_pres (diff_cleanupMerge
      (cs1Go ((diffs.length + 2) * (diffs.length + 2))
        ⟨diffs, [], 0, none, 0, 0, 0, 0, false⟩ 0).diffs)
    have h3 := semOverlapGo_pres
      ((diff_cleanupSemanticLossless (diff_cleanupMerge
        (cs1Go ((diffs.length + 2) * (diffs.length + 2))
          ⟨diffs, [], 0, none, 0, 0, 0, 0, false⟩ 0).diffs)).length + 1) []
      (diff_cleanupSemanticLossless (diff_cleanupMerge
        (cs1Go ((diffs.length + 2) * (diffs.length + 2))
          ⟨diffs, [], 0, none, 0, 0, 0, 0, false⟩ 0).diffs))
    constructor
    · rw [h3.1, show dmpDel ([] : List DmpDiff) = [] from rfl, List.nil_append,
        h2.1, hm.1, h1.1]
    · rw [h3.2, show dmpIns ([] : List DmpDiff) = [] from rfl, List.nil_append,
        h2.2, hm.2, h1.2]
  · rw [if_neg hc]
    have h2 := lossless_pres
      (cs1Go ((diffs.length + 2) * (diffs.length + 2))
        ⟨diffs, [], 0, none, 0, 0, 0, 0, false⟩ 0).diffs
    have h3 := semOverlapGo_pres
      ((diff_cleanupSemanticLossless
        (cs1Go ((diffs.length + 2) * (diffs.length + 2))
          ⟨diffs, [], 0, none, 0, 0, 0, 0, false⟩ 0).diffs).length + 1) []
      (diff_cleanupSemanticLossless
        (cs1Go ((diffs.length + 2) * (diffs.length + 2))
          ⟨diffs, [], 0, none, 0, 0, 0, 0, false⟩ 0).diffs)
    constructor
    · rw [h3.1, show dmpDel ([] : List DmpDiff) = [] from rfl, List.nil_append,
        h2.1, h1.1]
    · rw [h3.2, show dmpIns ([] : List DmpDiff) = [] from rfl, List.nil_append,
        h2.2, h1.2]

theorem indexOfGo_le (hay needle : Str) : ∀ (fuel i j : Nat),
    indexOfGo hay needle i fuel = some j →
    j + needle.length ≤ hay.length ∧ (hay.drop j).take needle.length = needle := by
  intro fuel
  induction fuel with
  | zero => intro i j h; cases h
  | succ fuel ih =>
    intro i j h
    rw [indexOfGo] at h
    by_cases hc : i + needle.length ≤ hay.length ∧
        (hay.drop i).take needle.length = needle
    · rw [if_pos hc] at h
      injection h with h
      rw [← h]
      exact hc
    · rw [if_neg hc] at h
      by_cases hlt : i < hay.length
      · rw [if_pos hlt] at h
        exact ih (i + 1) j h
      · rw [if_neg hlt] at h
        cases h

theorem indexOfFrom_le (hay needle : Str) (start j : Nat)
    (h : indexOfFrom hay needle start = some j) :
    j + needle.length ≤ hay.length ∧ (hay.drop j).take needle.length = needle := by
  unfold indexOfFrom at h
  by_cases hn : needle = []
  · rw [if_pos hn] at h
    injection h with h
    subst hn
    constructor
    · simp [← h]
    · simp
  · rw [if_neg hn] at h
    exact indexOfGo_le hay needle _ _ j h

theorem commonSuffix_le (t1 t2 : Str) :
    diff_commonSuffix t1 t2 ≤ t1.length ∧ diff_commonSuffix t1 t2 ≤ t2.length := by
  unfold diff_commonSuffix
  have := commonPrefix_le t1.reverse t2.reverse
  simpa using this

theorem seed_decomp (t : Str) (k suf pre : Nat) (hsk : suf ≤ k) :
    t = t.take (k - suf) ++
      (((t.drop (k - suf)).take suf ++ (t.drop k).take pre) ++ t.drop (k + pre)) := by
  have h1 : t.take (k - suf) ++ (t.drop (k - suf)).take suf = t.take k := by
    conv_rhs => rw [show k = (k - suf) + suf from by omega, List.take_add]
  have h2 : (t.drop k).take pre ++ t.drop (k + pre) = t.drop k := by
    rw [show t.drop (k + pre) = (t.drop k).drop pre from by rw [List.drop_drop]]
    exact List.take_append_drop pre (t.drop k)
  conv_lhs => rw [← List.take_append_drop k t, ← h1, ← h2]
  simp [List.append_assoc]

theorem suffix_swap {lt st_ : Str} {i j suf : Nat} (hi : i ≤ lt.length)
    (hj : j ≤ st_.length) (hsi : suf ≤ i) (hsj : suf ≤ j)
    (hsuf : (lt.take i).drop ((lt.take i).length - suf) =
      (st_.take j).drop ((st_.take j).length - suf)) :
    (lt.drop (i - suf)).take suf = (st_.drop (j - suf)).take suf := by
  rw [List.length_take, List.length_take] at hsuf
  rw [Nat.min_eq_left hi, Nat.min_eq_left hj] at hsuf
  rw [List.drop_take, List.drop_take] at hsuf
  rw [show i - (i - suf) = suf from by omega, show j - (j - suf) = suf from by omega]
    at hsuf
  exact hsuf

/-- The best tuple carried by the half-match seed loop decomposes both
texts around the common middle. -/
def hmOk (lt st_ : Str) (b : HalfMatch) : Prop :=
  lt = b.lta ++ ((b.mid ++ []) ++ b.ltb) ∧ st_ = b.sta ++ ((b.mid ++ []) ++ b.stb)

theorem hm_new_ok (lt st_ : Str) (i j : Nat) (hi : i ≤ lt.length)
    (hj : j ≤ st_.length) :
    hmOk lt st_
      { lta := lt.take (i - diff_commonSuffix (lt.take i) (st_.take j)),
        ltb := lt.drop (i + diff_commonPrefix (lt.drop i) (st_.drop j)),
        sta := st_.take (j - diff_commonSuffix (lt.take i) (st_.take j)),
        stb := st_.drop (j + diff_commonPrefix (lt.drop i) (st_.drop j)),
        mid := (st_.drop (j - diff_commonSuffix (lt.take i) (st_.take j))).take
            (diff_commonSuffix (lt.take i) (st_.take j)) ++
          (st_.drop j).take (diff_commonPrefix (lt.drop i) (st_.drop j)) } := by
  have hsufle := commonSuffix_le (lt.take i) (st_.take j)
  rw [List.length_take, List.length_take, Nat.min_eq_left hi,
    Nat.min_eq_left hj] at hsufle
  have hsi : diff_commonSuffix (lt.take i) (st_.take j) ≤ i := hsufle.1
  have hsj : diff_commonSuffix (lt.take i) (st_.take j) ≤ j := hsufle.2
  have hpre := commonPrefix_take (lt.drop i) (st_.drop j)
  have hsuf := suffix_swap hi hj hsi hsj
    (commonSuffix_drop (lt.take i) (st_.take j))
  constructor
  · show lt = lt.take (i - diff_commonSuffix (lt.take i) (st_.take j)) ++
      ((((st_.drop (j - diff_commonSuffix (lt.take i) (st_.take j))).take
          (diff_commonSuffix (lt.take i) (st_.take j)) ++
        (st_.drop j).take (diff_commonPrefix (lt.drop i) (st_.drop j))) ++ []) ++
       lt.drop (i + diff_commonPrefix (lt.drop i) (st_.drop j)))
    rw [← hsuf, ← hpre, List.append_nil]
    exact seed_decomp lt i _ _ hsi
  · show st_ = st_.take (j - diff_commonSuffix (lt.take i) (st_.take j)) ++
      ((((st_.drop (j - diff_commonSuffix (lt.take i) (st_.take j))).take
          (diff_commonSuffix (lt.take i) (st_.take j)) ++
        (st_.drop j).take (diff_commonPrefix (lt.drop i) (st_.drop j))) ++ []) ++
       st_.drop (j + diff_commonPrefix (lt.drop i) (st_.drop j)))
    rw [List.append_nil]
    exact seed_decomp st_ j _ _ hsj

theorem halfMatchIGo_inv (lt st_ : Str) (i : Nat) (seed : Str)
    (hi : i ≤ lt.length) : ∀ (fuel start : Nat) (best : Option HalfMatch),
    (∀ b, best = some b → hmOk lt st_ b) →
    ∀ b, halfMatchIGo lt st_ i seed fuel start best = some b → hmOk lt st_ b := by
  intro fuel
  induction fuel with
  | zero =>
    intro start best hbest b h
    exact hbest b h
  | succ fuel ih =>
    intro start best hbest b h
    rw [halfMatchIGo.eq_def] at h
    dsimp only at h
    cases hio : indexOfFrom st_ seed start with
    | none =>
      rw [hio] at h
      exact hbest b h
    | some j =>
      rw [hio] at h
      dsimp only at h
      have hj : j ≤ st_.length := by
        have := indexOfFrom_le st_ seed start j hio
        omega
      refine ih (j + 1) _ ?_ b h
      intro b2 hb2
      cases best with
      | none =>
        dsimp only at hb2
        by_cases himp : 0 < diff_commonSuffix (lt.take i) (st_.take j) +
            diff_commonPrefix (lt.drop i) (st_.drop j)
        · rw [if_pos himp] at hb2
          injection hb2 with hb2
          subst hb2
          exact hm_new_ok lt st_ i j hi hj
        · rw [if_neg himp] at hb2
          cases hb2
      | some b0 =>
        dsimp only at hb2
        by_cases himp : b0.mid.length <
            diff_commonSuffix (lt.take i) (st_.take j) +
            diff_commonPrefix (lt.drop i) (st_.drop j)
        · rw [if_pos himp] at hb2
          injection hb2 with hb2
          subst hb2
          exact hm_new_ok lt st_ i j hi hj
        · rw [if_neg himp] at hb2
          injection hb2 with hb2
          subst hb2
          exact hbest b0 rfl

theorem halfMatchI_decomp (lt st_ : Str) (i : Nat) (hi : i ≤ lt.length)
    (b : HalfMatch) (h : diff_halfMatchI lt st_ i = some b) :
    lt = b.lta ++ (b.mid ++ b.ltb) ∧ st_ = b.sta ++ (b.mid ++ b.stb) := by
  unfold diff_halfMatchI at h
  dsimp only at h
  cases hgo : halfMatchIGo lt st_ i ((lt.drop i).take (lt.length / 4))
      (st_.length + 2) 0 none with
  | none => rw [hgo] at h; cases h
  | some b0 =>
    rw [hgo] at h
    dsimp only at h
    by_cases hbig : lt.length ≤ 2 * b0.mid.length
    · rw [if_pos hbig] at h
      injection h with h
      subst h
      have := halfMatchIGo_inv lt st_ i _ hi (st_.length + 2) 0 none
        (fun b2 hb2 => by cases hb2) b0 hgo
      obtain ⟨h1, h2⟩ := this
      rw [List.append_nil] at h1 h2
      exact ⟨h1, h2⟩
    · rw [if_neg hbig] at h
      cases h

theorem hm_tuple_eq {T1 T2 p q r s m a1 b1 a2 b2 mid : Str}
    (h : (p, q, r, s, m) = (a1, b1, a2, b2, mid))
    (hx : T1 = p ++ (m ++ q)) (hy : T2 = r ++ (m ++ s)) :
    T1 = a1 ++ (mid ++ b1) ∧ T2 = a2 ++ (mid ++ b2) := by
  simp only [Prod.mk.injEq] at h
  obtain ⟨e1, e2, e3, e4, e5⟩ := h
  subst e1
  subst e2
  subst e3
  subst e4
  subst e5
  exact ⟨hx, hy⟩

theorem halfMatch_decomp (t1 t2 : Str) (a1 b1 a2 b2 mid : Str)
    (h : diff_halfMatch t1 t2 = some (a1, b1, a2, b2, mid)) :
    t1 = a1 ++ (mid ++ b1) ∧ t2 = a2 ++ (mid ++ b2) := by
  unfold diff_halfMatch at h
  dsimp only at h
  by_cases hsz : (if t2.length < t1.length then t1 else t2).length < 4 ∨
      (if t2.length < t1.length then t2 else t1).length * 2 <
        (if t2.length < t1.length then t1 else t2).length
  · rw [if_pos hsz] at h
    cases h
  · rw [if_neg hsz] at h
    by_cases hlong : t2.length < t1.length
    · simp only [if_pos hlong] at h
      have hi1 : (t1.length + 3) / 4 ≤ t1.length := by omega
      have hi2 : (t1.length + 1) / 2 ≤ t1.length := by omega
      cases h1 : diff_halfMatchI t1 t2 ((t1.length + 3) / 4) with
      | none =>
        rw [h1] at h
        cases h2 : diff_halfMatchI t1 t2 ((t1.length + 1) / 2) with
        | none => rw [h2] at h; cases h
        | some hm2 =>
          rw [h2] at h
          dsimp only at h
          injection h with h
          obtain ⟨hd1, hd2⟩ := halfMatchI_decomp t1 t2 _ hi2 hm2 h2
          exact hm_tuple_eq h hd1 hd2
      | some hm1 =>
        rw [h1] at h
        cases h2 : diff_halfMatchI t1 t2 ((t1.length + 1) / 2) with
        | none =>
          rw [h2] at h
          dsimp only at h
          injection h with h
          obtain ⟨hd1, hd2⟩ := halfMatchI_decomp t1 t2 _ hi1 hm1 h1
          exact hm_tuple_eq h hd1 hd2
        | some hm2 =>
          rw [h2] at h
          dsimp only at h
          by_cases hc : hm2.mid.length < hm1.mid.length
          · rw [if_pos hc] at h
            injection h with h
            obtain ⟨hd1, hd2⟩ := halfMatchI_decomp t1 t2 _ hi1 hm1 h1
            exact hm_tuple_eq h hd1 hd2
          · rw [if_neg hc] at h
            injection h with h
            obtain ⟨hd1, hd2⟩ := halfMatchI_decomp t1 t2 _ hi2 hm2 h2
            exact hm_tuple_eq h hd1 hd2
    · simp only [if_neg hlong] at h
      have hi1 : (t2.length + 3) / 4 ≤ t2.length := by omega
      have hi2 : (t2.length + 1) / 2 ≤ t2.length := by omega
      cases h1 : diff_halfMatchI t2 t1 ((t2.length + 3) / 4) with
      | none =>
        rw [h1] at h
        cases h2 : diff_halfMatchI t2 t1 ((t2.length + 1) / 2) with
        | none => rw [h2] at h; cases h
        | some hm2 =>
          rw [h2] at h
          dsimp only at h
          injection h with h
          obtain ⟨hd1, hd2⟩ := halfMatchI_decomp t2 t1 _ hi2 hm2 h2
          exact hm_tuple_eq h hd2 hd1
      | some hm1 =>
        rw [h1] at h
        cases h2 : diff_halfMatchI t2 t1 ((t2.length + 1) / 2) with
        | none =>
          rw [h2] at h
          dsimp only at h
          injection h with h
          obtain ⟨hd1, hd2⟩ := halfMatchI_decomp t2 t1 _ hi1 hm1 h1
          exact hm_tuple_eq h hd2 hd1
        | some hm2 =>
          rw [h2] at h
          dsimp only at h
          by_cases hc : hm2.mid.length < hm1.mid.length
          · rw [if_pos hc] at h
            injection h with h
            obtain ⟨hd1, hd2⟩ := halfMatchI_decomp t2 t1 _ hi1 hm1 h1
            exact hm_tuple_eq h hd2 hd1
          · rw [if_neg hc] at h
            injection h with h
            obtain ⟨hd1, hd2⟩ := halfMatchI_decomp t2 t1 _ hi2 hm2 h2
            exact hm_tuple_eq h hd2 hd1

theorem decodeStr_append (la : List Str) (a b : Str) :
    decodeStr la (a ++ b) = decodeStr la a ++ decodeStr la b := by
  unfold decodeStr
  rw [List.flatMap_append]

theorem decodeStr_mono (la la2 : List Str) (s : Str) (hpre : la.IsPrefix la2)
    (hc : ∀ c ∈ s, c < la.length) : decodeStr la2 s = decodeStr la s := by
  unfold decodeStr
  apply List.flatMap_congr  
  intro c hcs
  obtain ⟨t, ht⟩ := hpre
  rw [← ht, List.get?_append (hc c hcs)]

theorem lineIdxGo_spec : ∀ (la : List Str) (x : Str) (i k : Nat),
    lineIdxGo la x i = some k → ∃ k0, k = i + k0 ∧ la.get? k0 = some x := by
  intro la
  induction la with
  | nil => intro x i k h; cases h
  | cons l rest ih =>
    intro x i k h
    rw [lineIdxGo] at h
    by_cases hl : l = x
    · rw [if_pos hl] at h
      injection h with h
      exact ⟨0, by omega, by rw [hl]; rfl⟩
    · rw [if_neg hl] at h
      obtain ⟨k0, hk0, hg⟩ := ih x (i + 1) k h
      exact ⟨k0 + 1, by omega, by simpa using hg⟩

theorem lineIdxOf_spec (la : List Str) (x : Str) (k : Nat)
    (h : lineIdxOf la x = some k) : la.get? k = some x := by
  obtain ⟨k0, hk0, hg⟩ := lineIdxGo_spec la x 0 k h
  rw [show k = k0 from by omega]
  exact hg

theorem lineIdxOf_lt (la : List Str) (x : Str) (k : Nat)
    (h : lineIdxOf la x = some k) : k < la.length := by
  have := lineIdxOf_spec la x k h
  exact List.get?_eq_some.mp this |>.choose

theorem indexOfGo_ge (hay needle : Str) : ∀ (fuel i j : Nat),
    indexOfGo hay needle i fuel = some j → i ≤ j := by
  intro fuel
  induction fuel with
  | zero => intro i j h; cases h
  | succ fuel ih =>
    intro i j h
    rw [indexOfGo] at h
    by_cases hc : i + needle.length ≤ hay.length ∧
        (hay.drop i).take needle.length = needle
    · rw [if_pos hc] at h
      injection h with h
      omega
    · rw [if_neg hc] at h
      by_cases hlt : i < hay.length
      · rw [if_pos hlt] at h
        have := ih (i + 1) j h
        omega
      · rw [if_neg hlt] at h
        cases h

theorem mungeGo_decode (maxLines : Nat) : ∀ (fuel : Nat) (text : Str)
    (lineStart : Nat) (la : List Str) (chars : Str),
    lineStart ≤ text.length →
    text.length + 1 ≤ fuel + lineStart →
    (∀ c ∈ chars, c < la.length) →
    la.IsPrefix (mungeGo maxLines fuel text lineStart la chars).1 ∧
    (∀ c ∈ (mungeGo maxLines fuel text lineStart la chars).2,
      c < (mungeGo maxLines fuel text lineStart la chars).1.length) ∧
    decodeStr (mungeGo maxLines fuel text lineStart la chars).1
        (mungeGo maxLines fuel text lineStart la chars).2 =
      decodeStr la chars ++ text.drop lineStart := by
  intro fuel
  induction fuel with
  | zero =>
    intro text lineStart la chars hls hfuel hc
    omega
  | succ fuel ih =>
    intro text lineStart la chars hls hfuel hc
    rw [mungeGo]
    by_cases hlt : lineStart < text.length
    · rw [if_pos hlt]
      dsimp only
      have hle : lineStart ≤
          (match indexOfFrom text [10] lineStart with
           | some e => e
           | none => text.length - 1) ∧
          (match indexOfFrom text [10] lineStart with
           | some e => e
           | none => text.length - 1) + 1 ≤ text.length := by
        cases hio : indexOfFrom text [10] lineStart with
        | some e =>
          dsimp only
          have h1 := indexOfFrom_le text [10] lineStart e hio
          have h2 : lineStart ≤ e := by
            unfold indexOfFrom at hio
            rw [if_neg (by simp : ¬([10] : Str) = [])] at hio
            exact indexOfGo_ge text [10] _ lineStart e hio
          constructor
          · exact h2
          · simp at h1
            omega
        | none =>
          dsimp only
          constructor
          · exact Nat.le_pred_of_lt hlt
          · rw [Nat.sub_add_cancel (by omega : 1 ≤ text.length)]
      obtain ⟨hle1, hle2⟩ := hle
      have hsplit : (text.drop lineStart).take
            ((match indexOfFrom text [10] lineStart with
              | some e => e
              | none => text.length - 1) + 1 - lineStart) ++
          text.drop ((match indexOfFrom text [10] lineStart with
            | some e => e
            | none => text.length - 1) + 1) = text.drop lineStart := by
        rw [show text.drop ((match indexOfFrom text [10] lineStart with
            | some e => e
            | none => text.length - 1) + 1) =
          (text.drop lineStart).drop
            ((match indexOfFrom text [10] lineStart with
              | some e => e
              | none => text.length - 1) + 1 - lineStart) from by
          rw [List.drop_drop]
          congr 1
          omega]
        exact List.take_append_drop _ _
      cases hli : lineIdxOf la ((text.drop lineStart).take
          ((match indexOfFrom text [10] lineStart with
            | some e => e
            | none => text.length - 1) + 1 - lineStart)) with
      | some code =>
        have hcode := lineIdxOf_lt la _ code hli
        have hget := lineIdxOf_spec la _ code hli
        obtain ⟨hpre, hcodes, hdec⟩ := ih text
          ((match indexOfFrom text [10] lineStart with
            | some e => e
            | none => text.length - 1) + 1) la (chars ++ [code])
          (by omega) (by omega)
          (by
            intro c hcmem
            rcases List.mem_append.mp hcmem with hx | hx
            · exact hc c hx
            · simp only [List.mem_singleton] at hx
              subst hx
              exact hcode)
        refine ⟨hpre, hcodes, ?_⟩
        rw [hdec, decodeStr_append]
        rw [show decodeStr la [code] = (text.drop lineStart).take
            ((match indexOfFrom text [10] lineStart with
              | some e => e
              | none => text.length - 1) + 1 - lineStart) from by
          simp only [decodeStr, List.flatMap_cons, List.flatMap_nil,
            List.append_nil, hget, Option.getD_some]]
        rw [List.append_assoc, hsplit]
      | none =>
        by_cases hmax : la.length = maxLines
        · rw [if_pos hmax]
          refine ⟨⟨[text.drop lineStart], rfl⟩, ?_, ?_⟩
          · intro c hcmem
            rcases List.mem_append.mp hcmem with hx | hx
            · have := hc c hx
              simp
              omega
            · simp at hx
              simp
              omega
          · rw [decodeStr_append]
            rw [decodeStr_mono la (la ++ [text.drop lineStart]) chars
              ⟨[text.drop lineStart], rfl⟩ hc]
            rw [show decodeStr (la ++ [text.drop lineStart]) [la.length] =
                text.drop lineStart from by
              simp only [decodeStr, List.flatMap_cons, List.flatMap_nil,
                List.append_nil, List.get?_concat_length, Option.getD_some]]
        · rw [if_neg hmax]
          obtain ⟨hpre, hcodes, hdec⟩ := ih text
            ((match indexOfFrom text [10] lineStart with
              | some e => e
              | none => text.length - 1) + 1)
            (la ++ [(text.drop lineStart).take
              ((match indexOfFrom text [10] lineStart with
                | some e => e
                | none => text.length - 1) + 1 - lineStart)])
            (chars ++ [la.length])
            (by omega) (by omega)
            (by
              intro c hcmem
              rcases List.mem_append.mp hcmem with hx | hx
              · have := hc c hx
                simp
                omega
              · simp at hx
                simp
                omega)
          refine ⟨?_, hcodes, ?_⟩
          · exact (List.prefix_append la _).trans hpre
          · rw [hdec, decodeStr_append]
            rw [decodeStr_mono la (la ++ [(text.drop lineStart).take
                ((match indexOfFrom text [10] lineStart with
                  | some e => e
                  | none => text.length - 1) + 1 - lineStart)]) chars
              ⟨[_], rfl⟩ hc]
            rw [show decodeStr (la ++ [(text.drop lineStart).take
                ((match indexOfFrom text [10] lineStart with
                  | some e => e
                  | none => text.length - 1) + 1 - lineStart)]) [la.length] =
                (text.drop lineStart).take
                  ((match indexOfFrom text [10] lineStart with
                    | some e => e
                    | none => text.length - 1) + 1 - lineStart) from by
              simp only [decodeStr, List.flatMap_cons, List.flatMap_nil,
                List.append_nil, List.get?_concat_length, Option.getD_some]]
            rw [List.append_assoc, hsplit]
    · rw [if_neg hlt]
      refine ⟨List.prefix_refl la, hc, ?_⟩
      rw [List.drop_eq_nil_of_le (by omega), List.append_nil]

theorem linesToChars_decode (t1 t2 : Str) :
    decodeStr (diff_linesToChars t1 t2).2.2 (diff_linesToChars t1 t2).1 = t1 ∧
    decodeStr (diff_linesToChars t1 t2).2.2 (diff_linesToChars t1 t2).2.1 = t2 := by
  unfold diff_linesToChars
  dsimp only
  obtain ⟨hpre1, hcodes1, hdec1⟩ := mungeGo_decode 40000 (t1.length + 1) t1 0
    [[]] [] (by omega) (by omega) (by intro c hc; cases hc)
  obtain ⟨hpre2, hcodes2, hdec2⟩ := mungeGo_decode 65535 (t2.length + 1) t2 0
    (mungeGo 40000 (t1.length + 1) t1 0 [[]] []).1 [] (by omega) (by omega)
    (by intro c hc; cases hc)
  rw [List.drop_zero] at hdec1 hdec2
  rw [show decodeStr ([[]] : List Str) ([] : Str) = [] from rfl,
    List.nil_append] at hdec1
  rw [show decodeStr (mungeGo 40000 (t1.length + 1) t1 0 [[]] []).1
      ([] : Str) = [] from rfl, List.nil_append] at hdec2
  constructor
  · rw [decodeStr_mono (mungeGo 40000 (t1.length + 1) t1 0 [[]] []).1 _ _
      hpre2 hcodes1]
    exact hdec1
  · exact hdec2

theorem charsToLines_del (diffs : List DmpDiff) (la : List Str) :
    dmpDel (diff_charsToLines diffs la) = decodeStr la (dmpDel diffs) := by
  induction diffs with
  | nil => rfl
  | cons d rest ih =>
    rw [show diff_charsToLines (d :: rest) la =
      (d.1, decodeStr la d.2) :: diff_charsToLines rest la from rfl]
    rw [dmpDel_cons, dmpDel_cons, decodeStr_append, ih]
    dsimp only
    by_cases hx : d.1 = DTag.insT
    · rw [if_pos hx, if_pos hx]
      rfl
    · rw [if_neg hx, if_neg hx]

theorem charsToLines_ins (diffs : List DmpDiff) (la : List Str) :
    dmpIns (diff_charsToLines diffs la) = decodeStr la (dmpIns diffs) := by
  induction diffs with
  | nil => rfl
  | cons d rest ih =>
    rw [show diff_charsToLines (d :: rest) la =
      (d.1, decodeStr la d.2) :: diff_charsToLines rest la from rfl]
    rw [dmpIns_cons, dmpIns_cons, decodeStr_append, ih]
    dsimp only
    by_cases hx : d.1 = DTag.delT
    · rw [if_pos hx, if_pos hx]
      rfl
    · rw [if_neg hx, if_neg hx]

theorem lmStep_measure (rediff : Str → Str → List DmpDiff)
    (hre : ∀ a b, dmpDel (rediff a b) = a ∧ dmpIns (rediff a b) = b)
    (st : LMState) (d : DmpDiff)
    (hd : dmpDel st.pend = st.td) (hi2 : dmpIns st.pend = st.ti) :
    (dmpDel (lmStep rediff st d).out ++ dmpDel (lmStep rediff st d).pend =
      (dmpDel st.out ++ dmpDel st.pend) ++ dmpDel [d]) ∧
    (dmpIns (lmStep rediff st d).out ++ dmpIns (lmStep rediff st d).pend =
      (dmpIns st.out ++ dmpIns st.pend) ++ dmpIns [d]) ∧
    dmpDel (lmStep rediff st d).pend = (lmStep rediff st d).td ∧
    dmpIns (lmStep rediff st d).pend = (lmStep rediff st d).ti := by
  obtain ⟨tag, txt⟩ := d
  cases tag with
  | insT =>
    refine ⟨?_, ?_, ?_, ?_⟩
    · show dmpDel st.out ++ dmpDel (st.pend ++ [(DTag.insT, txt)]) = _
      rw [dmpDel_append]
      simp [dmpDel, List.append_assoc]
    · show dmpIns st.out ++ dmpIns (st.pend ++ [(DTag.insT, txt)]) = _
      rw [dmpIns_append]
      simp [dmpIns, List.append_assoc]
    · show dmpDel (st.pend ++ [(DTag.insT, txt)]) = st.td
      rw [dmpDel_append, hd]
      simp [dmpDel]
    · show dmpIns (st.pend ++ [(DTag.insT, txt)]) = st.ti ++ txt
      rw [dmpIns_append, hi2]
      simp [dmpIns]
  | delT =>
    refine ⟨?_, ?_, ?_, ?_⟩
    · show dmpDel st.out ++ dmpDel (st.pend ++ [(DTag.delT, txt)]) = _
      rw [dmpDel_append]
      simp [dmpDel, List.append_assoc]
    · show dmpIns st.out ++ dmpIns (st.pend ++ [(DTag.delT, txt)]) = _
      rw [dmpIns_append]
      simp [dmpIns, List.append_assoc]
    · show dmpDel (st.pend ++ [(DTag.delT, txt)]) = st.td ++ txt
      rw [dmpDel_append, hd]
      simp [dmpDel]
    · show dmpIns (st.pend ++ [(DTag.delT, txt)]) = st.ti
      rw [dmpIns_append, hi2]
      simp [dmpIns]
  | eqT =>
    unfold lmStep
    dsimp only
    by_cases hcc : 1 ≤ st.cd ∧ 1 ≤ st.ci
    · rw [if_pos hcc]
      refine ⟨?_, ?_, rfl, rfl⟩
      · dsimp only
        rw [dmpDel_append, dmpDel_append, (hre st.td st.ti).1, ← hd]
        simp [dmpDel, List.append_assoc]
      · dsimp only
        rw [dmpIns_append, dmpIns_append, (hre st.td st.ti).2, ← hi2]
        simp [dmpIns, List.append_assoc]
    · rw [if_neg hcc]
      refine ⟨?_, ?_, rfl, rfl⟩
      · dsimp only
        rw [dmpDel_append, dmpDel_append]
        simp [dmpDel, List.append_assoc]
      · dsimp only
        rw [dmpIns_append, dmpIns_append]
        simp [dmpIns, List.append_assoc]

theorem lm_fold_inv (rediff : Str → Str → List DmpDiff)
    (hre : ∀ a b, dmpDel (rediff a b) = a ∧ dmpIns (rediff a b) = b) :
    ∀ (l : List DmpDiff) (st : LMState),
    dmpDel st.pend = st.td → dmpIns st.pend = st.ti →
    (dmpDel (l.foldl (lmStep rediff) st).out ++
        dmpDel (l.foldl (lmStep rediff) st).pend =
      (dmpDel st.out ++ dmpDel st.pend) ++ dmpDel l) ∧
    (dmpIns (l.foldl (lmStep rediff) st).out ++
        dmpIns (l.foldl (lmStep rediff) st).pend =
      (dmpIns st.out ++ dmpIns st.pend) ++ dmpIns l) := by
  intro l
  induction l with
  | nil =>
    intro st _ _
    simp [dmpDel, dmpIns]
  | cons d rest ih =>
    intro st hd hi2
    rw [List.foldl_cons]
    obtain ⟨m1, m2, m3, m4⟩ := lmStep_measure rediff hre st d hd hi2
    obtain ⟨r1, r2⟩ := ih (lmStep rediff st d) m3 m4
    constructor
    · rw [r1, m1, dmpDel_cons]
      simp [List.append_assoc, dmpDel]
    · rw [r2, m2, dmpIns_cons]
      simp [List.append_assoc, dmpIns]

theorem lmStep_eq_shape (rediff : Str → Str → List DmpDiff) (st : LMState)
    (t : Str) :
    ∃ Y, (lmStep rediff st (DTag.eqT, t)).out = Y ++ [(DTag.eqT, t)] ∧
      (lmStep rediff st (DTag.eqT, t)).pend = [] := by
  unfold lmStep
  dsimp only
  by_cases hcc : 1 ≤ st.cd ∧ 1 ≤ st.ci
  · rw [if_pos hcc]
    exact ⟨st.out ++ rediff st.td st.ti, by simp [List.append_assoc], rfl⟩
  · rw [if_neg hcc]
    exact ⟨st.out ++ st.pend, by simp [List.append_assoc], rfl⟩

theorem lmRediff_pres (rediff : Str → Str → List DmpDiff)
    (hre : ∀ a b, dmpDel (rediff a b) = a ∧ dmpIns (rediff a b) = b)
    (diffs : List DmpDiff) :
    dmpDel (lmRediff rediff diffs) = dmpDel diffs ∧
    dmpIns (lmRediff rediff diffs) = dmpIns diffs := by
  unfold lmRediff
  have hfold2 : (diffs ++ [(DTag.eqT, [])]).foldl (lmStep rediff)
      ⟨[], [], 0, 0, [], []⟩ =
      lmStep rediff (diffs.foldl (lmStep rediff) ⟨[], [], 0, 0, [], []⟩)
        (DTag.eqT, []) := by
    rw [List.foldl_append]
    rfl
  obtain ⟨h1, h2⟩ := lm_fold_inv rediff hre (diffs ++ [(DTag.eqT, [])])
    ⟨[], [], 0, 0, [], []⟩ rfl rfl
  rw [hfold2] at h1 h2
  obtain ⟨Y, hY, hpend⟩ := lmStep_eq_shape rediff
    (diffs.foldl (lmStep rediff) ⟨[], [], 0, 0, [], []⟩) []
  rw [hY, hpend] at h1 h2
  rw [hfold2, hY]
  dsimp only at h1 h2
  simp only [dmpDel_append, dmpIns_append,
    show dmpDel [((DTag.eqT, []) : DmpDiff)] = [] from rfl,
    show dmpIns [((DTag.eqT, []) : DmpDiff)] = [] from rfl,
    show dmpDel ([] : List DmpDiff) = [] from rfl,
    show dmpIns ([] : List DmpDiff) = [] from rfl,
    List.append_nil, List.nil_append] at h1 h2
  rw [List.dropLast_concat]
  exact ⟨h1, h2⟩

theorem triv_valid (t1 t2 : Str) :
    dmpDel [((DTag.delT, t1) : DmpDiff), (DTag.insT, t2)] = t1 ∧
    dmpIns [((DTag.delT, t1) : DmpDiff), (DTag.insT, t2)] = t2 := by
  constructor <;> simp [dmpDel, dmpIns]

theorem optEq_del (t : Str) : dmpDel (optEq t) = t := by
  unfold optEq
  by_cases h : t = []
  · rw [if_pos h, h]
    rfl
  · rw [if_neg h]
    exact dmpDel_single_eq t

theorem optEq_ins (t : Str) : dmpIns (optEq t) = t := by
  unfold optEq
  by_cases h : t = []
  · rw [if_pos h, h]
    rfl
  · rw [if_neg h]
    exact dmpIns_single_eq t

theorem dmp_valid : ∀ fuel : Nat,
    (∀ t1 t2 cl, dmpDel (diff_mainF fuel t1 t2 cl) = t1 ∧
      dmpIns (diff_mainF fuel t1 t2 cl) = t2) ∧
    (∀ t1 t2 cl, dmpDel (diff_computeF fuel t1 t2 cl) = t1 ∧
      dmpIns (diff_computeF fuel t1 t2 cl) = t2) ∧
    (∀ t1 t2, dmpDel (diff_lineModeF fuel t1 t2) = t1 ∧
      dmpIns (diff_lineModeF fuel t1 t2) = t2) ∧
    (∀ t1 t2, dmpDel (diff_bisectF fuel t1 t2) = t1 ∧
      dmpIns (diff_bisectF fuel t1 t2) = t2) := by
  intro fuel
  induction fuel with
  | zero =>
    exact ⟨fun t1 t2 _ => triv_valid t1 t2, fun t1 t2 _ => triv_valid t1 t2,
      fun t1 t2 => triv_valid t1 t2, fun t1 t2 => triv_valid t1 t2⟩
  | succ fuel ih =>
    obtain ⟨ihM, ihC, ihL, ihB⟩ := ih
    have hMain : ∀ t1 t2 cl, dmpDel (diff_mainF (fuel + 1) t1 t2 cl) = t1 ∧
        dmpIns (diff_mainF (fuel + 1) t1 t2 cl) = t2 := by
      intro t1 t2 cl
      rw [diff_mainF]
      by_cases heq : t1 = t2
      · rw [if_pos heq]
        by_cases ht : t1 = []
        · rw [if_pos ht]
          exact ⟨ht.symm, by rw [← heq]; exact ht.symm⟩
        · rw [if_neg ht]
          exact ⟨dmpDel_single_eq t1, by rw [← heq]; exact dmpIns_single_eq t1⟩
      · rw [if_neg heq]
        dsimp only
        have hcm := diff_cleanupMerge_pres
          (optEq (t1.take (diff_commonPrefix t1 t2)) ++
            diff_computeF fuel
              ((t1.drop (diff_commonPrefix t1 t2)).take
                ((t1.drop (diff_commonPrefix t1 t2)).length -
                  diff_commonSuffix (t1.drop (diff_commonPrefix t1 t2))
                    (t2.drop (diff_commonPrefix t1 t2))))
              ((t2.drop (diff_commonPrefix t1 t2)).take
                ((t2.drop (diff_commonPrefix t1 t2)).length -
                  diff_commonSuffix (t1.drop (diff_commonPrefix t1 t2))
                    (t2.drop (diff_commonPrefix t1 t2)))) cl ++
            optEq ((t1.drop (diff_commonPrefix t1 t2)).drop
              ((t1.drop (diff_commonPrefix t1 t2)).length -
                diff_commonSuffix (t1.drop (diff_commonPrefix t1 t2))
                  (t2.drop (diff_commonPrefix t1 t2)))))
        constructor
        · rw [hcm.1, dmpDel_append, dmpDel_append, optEq_del, optEq_del,
            (ihC _ _ _).1, List.append_assoc, List.take_append_drop,
            List.take_append_drop]
        · rw [hcm.2, dmpIns_append, dmpIns_append, optEq_ins, optEq_ins,
            (ihC _ _ _).2]
          rw [commonSuffix_drop (t1.drop (diff_commonPrefix t1 t2))
            (t2.drop (diff_commonPrefix t1 t2))]
          rw [commonPrefix_take t1 t2]
          rw [List.append_assoc, List.take_append_drop, List.take_append_drop]
    have hLine : ∀ t1 t2, dmpDel (diff_lineModeF (fuel + 1) t1 t2) = t1 ∧
        dmpIns (diff_lineModeF (fuel + 1) t1 t2) = t2 := by
      intro t1 t2
      rw [diff_lineModeF]
      have hre : ∀ a b, dmpDel (diff_mainF fuel a b false) = a ∧
          dmpIns (diff_mainF fuel a b false) = b := fun a b => ihM a b false
      have hlm := lmRediff_pres (fun a b => diff_mainF fuel a b false) hre
        (diff_cleanupSemantic (diff_charsToLines
          (diff_mainF fuel (diff_linesToChars t1 t2).1
            (diff_linesToChars t1 t2).2.1 false) (diff_linesToChars t1 t2).2.2))
      have hcs := cleanupSemantic_pres (diff_charsToLines
        (diff_mainF fuel (diff_linesToChars t1 t2).1
          (diff_linesToChars t1 t2).2.1 false) (diff_linesToChars t1 t2).2.2)
      have hdec := linesToChars_decode t1 t2
      constructor
      · rw [hlm.1, hcs.1, charsToLines_del,
          (ihM (diff_linesToChars t1 t2).1 (diff_linesToChars t1 t2).2.1 false).1]
        exact hdec.1
      · rw [hlm.2, hcs.2, charsToLines_ins,
          (ihM (diff_linesToChars t1 t2).1 (diff_linesToChars t1 t2).2.1 false).2]
        exact hdec.2
    have hBis : ∀ t1 t2, dmpDel (diff_bisectF (fuel + 1) t1 t2) = t1 ∧
        dmpIns (diff_bisectF (fuel + 1) t1 t2) = t2 := by
      intro t1 t2
      rw [diff_bisectF]
      cases hfind : diff_bisectFind t1 t2 with
      | none => exact triv_valid t1 t2
      | some p =>
        obtain ⟨x, y⟩ := p
        dsimp only
        constructor
        · rw [dmpDel_append, (ihM _ _ _).1, (ihM _ _ _).1,
            List.take_append_drop]
        · rw [dmpIns_append, (ihM _ _ _).2, (ihM _ _ _).2,
            List.take_append_drop]
    have hComp : ∀ t1 t2 cl, dmpDel (diff_computeF (fuel + 1) t1 t2 cl) = t1 ∧
        dmpIns (diff_computeF (fuel + 1) t1 t2 cl) = t2 := by
      intro t1 t2 cl
      rw [diff_computeF]
      by_cases h1 : t1 = []
      · rw [if_pos h1]
        constructor
        · rw [h1]
          rfl
        · simp [dmpIns]
      · rw [if_neg h1]
        by_cases h2 : t2 = []
        · rw [if_pos h2]
          constructor
          · simp [dmpDel]
          · rw [h2]
            rfl
        · rw [if_neg h2]
          dsimp only
          by_cases hlong : t2.length < t1.length
          · simp only [if_pos hlong]
            cases hio : indexOfStr t1 t2 with
            | some i =>
              dsimp only
              obtain ⟨hb, hsub⟩ := indexOfFrom_le t1 t2 0 i hio
              constructor
              · simp only [dmpDel, List.flatMap_cons, List.flatMap_nil,
                  List.append_nil, List.nil_append]
                rw [show (if DTag.delT = DTag.insT then ([] : Str)
                    else t1.take i) = t1.take i from rfl]
                rw [show (if DTag.eqT = DTag.insT then ([] : Str)
                    else t2) = t2 from rfl]
                rw [show (if DTag.delT = DTag.insT then ([] : Str)
                    else t1.drop (i + t2.length)) =
                    t1.drop (i + t2.length) from rfl]
                rw [← List.drop_drop]
                have hdecomp : t1 = t1.take i ++ ((t1.drop i).take t2.length ++
                    (t1.drop i).drop t2.length) := by
                  rw [List.take_append_drop, List.take_append_drop]
                rw [hsub] at hdecomp
                exact hdecomp.symm
              · simp [dmpIns]
            | none =>
              dsimp only
              by_cases hst : t2.length = 1
              · rw [if_pos hst]
                exact triv_valid t1 t2
              · rw [if_neg hst]
                cases hhm : diff_halfMatch t1 t2 with
                | some tup =>
                  obtain ⟨a1, b1, a2, b2, mid⟩ := tup
                  dsimp only
                  obtain ⟨hd1, hd2⟩ := halfMatch_decomp t1 t2 a1 b1 a2 b2 mid hhm
                  constructor
                  · rw [dmpDel_append, dmpDel_append, (ihM _ _ _).1,
                      (ihM _ _ _).1, dmpDel_single_eq, List.append_assoc]
                    exact hd1.symm
                  · rw [dmpIns_append, dmpIns_append, (ihM _ _ _).2,
                      (ihM _ _ _).2, dmpIns_single_eq, List.append_assoc]
                    exact hd2.symm
                | none =>
                  dsimp only
                  by_cases hcl : cl = true ∧ 100 < t1.length ∧ 100 < t2.length
                  · rw [if_pos hcl]
                    exact ihL t1 t2
                  · rw [if_neg hcl]
                    exact ihB t1 t2
          · simp only [if_neg hlong]
            cases hio : indexOfStr t2 t1 with
            | some i =>
              dsimp only
              obtain ⟨hb, hsub⟩ := indexOfFrom_le t2 t1 0 i hio
              constructor
              · simp [dmpDel]
              · simp only [dmpIns, List.flatMap_cons, List.flatMap_nil,
                  List.append_nil, List.nil_append]
                rw [show (if DTag.insT = DTag.delT then ([] : Str)
                    else t2.take i) = t2.take i from rfl]
                rw [show (if DTag.eqT = DTag.delT then ([] : Str)
                    else t1) = t1 from rfl]
                rw [show (if DTag.insT = DTag.delT then ([] : Str)
                    else t2.drop (i + t1.length)) =
                    t2.drop (i + t1.length) from rfl]
                rw [← List.drop_drop]
                have hdecomp : t2 = t2.take i ++ ((t2.drop i).take t1.length ++
                    (t2.drop i).drop t1.length) := by
                  rw [List.take_append_drop, List.take_append_drop]
                rw [hsub] at hdecomp
                exact hdecomp.symm
            | none =>
              dsimp only
              by_cases hst : t1.length = 1
              · rw [if_pos hst]
                exact triv_valid t1 t2
              · rw [if_neg hst]
                cases hhm : diff_halfMatch t1 t2 with
                | some tup =>
                  obtain ⟨a1, b1, a2, b2, mid⟩ := tup
                  dsimp only
                  obtain ⟨hd1, hd2⟩ := halfMatch_decomp t1 t2 a1 b1 a2 b2 mid hhm
                  constructor
                  · rw [dmpDel_append, dmpDel_append, (ihM _ _ _).1,
                      (ihM _ _ _).1, dmpDel_single_eq, List.append_assoc]
                    exact hd1.symm
                  · rw [dmpIns_append, dmpIns_append, (ihM _ _ _).2,
                      (ihM _ _ _).2, dmpIns_single_eq, List.append_assoc]
                    exact hd2.symm
                | none =>
                  dsimp only
                  by_cases hcl : cl = true ∧ 100 < t1.length ∧ 100 < t2.length
                  · rw [if_pos hcl]
                    exact ihL t1 t2
                  · rw [if_neg hcl]
                    exact ihB t1 t2
    exact ⟨hMain, hComp, hLine, hBis⟩

theorem diff_main_valid (t1 t2 : Str) :
    dmpDel (diff_main t1 t2) = t1 ∧ dmpIns (diff_main t1 t2) = t2 :=
  (dmp_valid (2 * (t1.length + t2.length) + 16)).1 t1 t2 true

theorem diffsToChanges_recon (D : List DmpDiff) (id : Str) :
    reconDel (diffsToChanges D id) = dmpDel D ∧
    reconIns (diffsToChanges D id) = dmpIns D := by
  induction D with
  | nil => exact ⟨rfl, rfl⟩
  | cons d rest ih =>
    obtain ⟨tag, txt⟩ := d
    cases tag with
    | eqT =>
      refine ⟨?_, ?_⟩
      · show txt ++ reconDel (diffsToChanges rest id) = dmpDel ((DTag.eqT, txt) :: rest)
        rw [ih.1, dmpDel_cons]
        rfl
      · show txt ++ reconIns (diffsToChanges rest id) = dmpIns ((DTag.eqT, txt) :: rest)
        rw [ih.2, dmpIns_cons]
        rfl
    | insT =>
      refine ⟨?_, ?_⟩
      · show reconDel (diffsToChanges rest id) = dmpDel ((DTag.insT, txt) :: rest)
        rw [ih.1, dmpDel_cons]
        rfl
      · show txt ++ reconIns (diffsToChanges rest id) = dmpIns ((DTag.insT, txt) :: rest)
        rw [ih.2, dmpIns_cons]
        rfl
    | delT =>
      refine ⟨?_, ?_⟩
      · show txt ++ reconDel (diffsToChanges rest id) = dmpDel ((DTag.delT, txt) :: rest)
        rw [ih.1, dmpDel_cons]
        rfl
      · show reconIns (diffsToChanges rest id) = dmpIns ((DTag.delT, txt) :: rest)
        rw [ih.2, dmpIns_cons]
        rfl

/-- C6: semanticDiff reconstructs its inputs: the Equal plus Delete texts
concatenate to oldText, the Equal plus Insert texts concatenate, after
removing range-marker characters, to newText with range-marker characters
removed; and the semantic-cleanup pass never changes either reconstructed
text of a diff. -/
theorem C6_semanticDiff_reconstruction :
    (∀ oldText newText id : Str,
      reconDel (semanticDiff oldText newText id) = oldText ∧
      stripMarkers (reconIns (semanticDiff oldText newText id)) =
        stripMarkers newText) ∧
    (∀ ds : List DmpDiff, dmpDel (diff_cleanupSemantic ds) = dmpDel ds ∧
      dmpIns (diff_cleanupSemantic ds) = dmpIns ds) := by
  constructor
  · intro oldText newText id
    unfold semanticDiff
    obtain ⟨hn1, hn2, hn3⟩ := normalizeRangeInDiff_preserves
      (diffsToChanges (diff_cleanupSemantic (diff_main oldText newText)) id)
    obtain ⟨hc1, hc2⟩ := diffsToChanges_recon
      (diff_cleanupSemantic (diff_main oldText newText)) id
    obtain ⟨hs1, hs2⟩ := cleanupSemantic_pres (diff_main oldText newText)
    obtain ⟨hv1, hv2⟩ := diff_main_valid oldText newText
    constructor
    · rw [hn1, hc1, hs1, hv1]
    · rw [hn3, hc2, hs2, hv2]
  · exact cleanupSemantic_pres

/-- C8: for the section-8 input, an existing diff with the single Delete
of "brown " inside "The quick brown fox.", layering target "The quick
fox." returns exactly the one-op sequence Equal "The quick brown fox.",
with no Insert or Delete ops. -/
theorem C8_layer_concrete :
    layerDiffs [Change.equal (strOf "The quick "),
        Change.del (strOf "brown ") (strOf "e1"),
        Change.equal (strOf "fox.")]
      (strOf "The quick fox.") (strOf "e1") =
    [Change.equal (strOf "The quick brown fox.")] := by
  decide

/-- C1 counterexample: for the existing diff Equal "ab", Delete "x",
Equal "c" and target "Z", layerDiffs returns Delete "abxc" followed by
Insert "xZ": the final semantic-cleanup pass re-deletes the originally
deleted character "x" (base position 2 is deleted in the input and again
deleted in the output), so a Delete of the existing diff does not always
reappear as Equal. -/
theorem C1_counterexample :
    layerDiffs [Change.equal (strOf "ab"), Change.del (strOf "x") (strOf "e"),
        Change.equal (strOf "c")] (strOf "Z") (strOf "n") =
      [Change.del (strOf "abxc") (strOf "n"),
       Change.ins (strOf "xZ") (strOf "n")] ∧
    (fullMask [Change.equal (strOf "ab"), Change.del (strOf "x") (strOf "e"),
        Change.equal (strOf "c")]).get? 2 = some true ∧
    (paintB (layerDiffs [Change.equal (strOf "ab"),
        Change.del (strOf "x") (strOf "e"), Change.equal (strOf "c")]
      (strOf "Z") (strOf "n"))).get? 2 = some true := by
  refine ⟨by decide, by decide, by decide⟩

/-- C9: orchestration with an empty edit list returns the existing diff
unchanged for both entry points, and whenever the merge over the layered
diffs returns the null failure signal, the whole operation returns null
with no partial result. -/
theorem C9_orchestration :
    (∀ existingDiff : List Change,
      mergeAndLayerDiffs existingDiff [] = .ok (some existingDiff) ∧
      applyAndMergeDiffs existingDiff [] = .ok (some existingDiff)) ∧
    (∀ (existingDiff : List Change) (edits : List (Str × Str)),
      mergeDiffs (edits.map fun e =>
        normalizeRangeInDiff (layerDiffs existingDiff e.1 e.2)) = .ok none →
      mergeAndLayerDiffs existingDiff edits = .ok none ∧
      applyAndMergeDiffs existingDiff edits = .ok none) := by
  constructor
  · intro existingDiff
    exact ⟨rfl, rfl⟩
  · intro existingDiff edits hm
    cases edits with
    | nil => simp [mergeDiffs] at hm
    | cons e rest =>
      unfold mergeAndLayerDiffs applyAndMergeDiffs
      rw [if_neg (by simp : ¬(e :: rest = [])), if_neg (by simp : ¬(e :: rest = []))]
      rw [hm]
      exact ⟨rfl, rfl⟩

/-- Witness for C9 at a concrete failing merge: both edits delete the same
base text, so the pairwise merge fails and both entry points return the
null signal. -/
theorem C9_orchestration_witness :
    mergeAndLayerDiffs [Change.equal (strOf "ab")]
      [(strOf "", strOf "i"), (strOf "", strOf "j")] = .ok none ∧
    applyAndMergeDiffs [Change.equal (strOf "ab")]
      [(strOf "", strOf "i"), (strOf "", strOf "j")] = .ok none :=
  C9_orchestration.2 [Change.equal (strOf "ab")]
    [(strOf "", strOf "i"), (strOf "", strOf "j")] (by decide)

theorem map_pair_fst (t : Str) (b : Bool) :
    (t.map fun ch => (ch, b)).map Prod.fst = t := by
  rw [List.map_map]
  exact List.map_id t

theorem map_pair_snd (t : Str) (b : Bool) :
    (t.map fun ch => (ch, b)).map Prod.snd = t.map fun _ => b := by
  rw [List.map_map]
  rfl

theorem delPairs_append (a b : List Change) :
    delPairs (a ++ b) = delPairs a ++ delPairs b := by
  unfold delPairs
  rw [List.flatMap_append]

theorem reconDel_eq_delPairs_fst (l : List Change) :
    reconDel l = (delPairs l).map Prod.fst := by
  induction l with
  | nil => rfl
  | cons c rest ih =>
    cases c with
    | equal t =>
      show t ++ reconDel rest = ((t.map fun ch => (ch, false)) ++ delPairs rest).map Prod.fst
      rw [List.map_append, map_pair_fst, ih]
    | ins t i =>
      show reconDel rest = (([] : List (Nat × Bool)) ++ delPairs rest).map Prod.fst
      rw [List.nil_append, ih]
    | del t i =>
      show t ++ reconDel rest = ((t.map fun ch => (ch, true)) ++ delPairs rest).map Prod.fst
      rw [List.map_append, map_pair_fst, ih]

theorem paintB_eq_delPairs_snd (l : List Change) :
    paintB l = (delPairs l).map Prod.snd := by
  induction l with
  | nil => rfl
  | cons c rest ih =>
    cases c with
    | equal t =>
      show ((t.map fun _ => (none : Option Str)) ++ paintSrc rest).map Option.isSome =
        ((t.map fun ch => (ch, false)) ++ delPairs rest).map Prod.snd
      rw [List.map_append, List.map_append, map_pair_snd, List.map_map,
        show List.map Option.isSome (paintSrc rest) =
          List.map Prod.snd (delPairs rest) from ih]
      rfl
    | ins t i =>
      show (paintSrc rest).map Option.isSome =
        (([] : List (Nat × Bool)) ++ delPairs rest).map Prod.snd
      rw [List.nil_append]
      exact ih
    | del t i =>
      show ((t.map fun _ => some i) ++ paintSrc rest).map Option.isSome =
        ((t.map fun ch => (ch, true)) ++ delPairs rest).map Prod.snd
      rw [List.map_append, List.map_append, map_pair_snd, List.map_map,
        show List.map Option.isSome (paintSrc rest) =
          List.map Prod.snd (delPairs rest) from ih]
      rfl

theorem substPairs_phfree_append (a2 : List (Nat × Bool)) (ds : List Str) :
    ∀ a1 : List (Nat × Bool), DELETE_PLACEHOLDER ∉ a1.map Prod.fst →
    substPairs (a1 ++ a2) ds = a1 ++ substPairs a2 ds := by
  intro a1
  induction a1 with
  | nil => intro _; rfl
  | cons p rest ih =>
    intro hph
    rw [List.cons_append, substPairs]
    rw [if_neg (by
      intro hc
      exact hph (by rw [List.map_cons, hc]; exact List.mem_cons_self _ _))]
    rw [ih (fun hm => hph (by rw [List.map_cons]; exact List.mem_cons_of_mem _ hm))]
    rfl

theorem map_fst_append_split : ∀ (a : Str) (ann : List (Nat × Bool)) (b : Str),
    ann.map Prod.fst = a ++ b →
    ∃ a1 a2, ann = a1 ++ a2 ∧ a1.map Prod.fst = a ∧ a2.map Prod.fst = b := by
  intro a
  induction a with
  | nil =>
    intro ann b h
    exact ⟨[], ann, rfl, rfl, by simpa using h⟩
  | cons x xs ih =>
    intro ann b h
    cases ann with
    | nil => cases h
    | cons p rest =>
      rw [List.map_cons, List.cons_append] at h
      injection h with h1 h2
      obtain ⟨a1, a2, he, hf1, hf2⟩ := ih rest b h2
      exact ⟨p :: a1, a2, by rw [he, List.cons_append],
        by rw [List.map_cons, h1, hf1], hf2⟩

theorem forall2_app {a : Type} {b : Type} {R : a → b → Prop} :
    ∀ (l1 : List a) (l2 : List b) (l3 : List a) (l4 : List b),
    List.Forall₂ R l1 l2 → List.Forall₂ R l3 l4 →
    List.Forall₂ R (l1 ++ l3) (l2 ++ l4) := by
  intro l1
  induction l1 with
  | nil =>
    intro l2 l3 l4 h1 h2
    cases h1
    exact h2
  | cons x xs ih =>
    intro l2 l3 l4 h1 h2
    cases h1 with
    | cons hx hxs => exact List.Forall₂.cons hx (ih _ _ _ hxs h2)

theorem forall2_true_false (t : Str) :
    List.Forall₂ (fun m p => m = true → p = false)
      (t.map fun _ => true) (t.map fun _ => false) := by
  induction t with
  | nil => exact List.Forall₂.nil
  | cons c rest ih => exact List.Forall₂.cons (fun _ => rfl) ih

theorem forall2_false_any : ∀ (t : Str) (l2 : List Bool), t.length = l2.length →
    List.Forall₂ (fun m p => m = true → p = false) (t.map fun _ => false) l2 := by
  intro t
  induction t with
  | nil =>
    intro l2 h
    cases l2 with
    | nil => exact List.Forall₂.nil
    | cons b r => cases h
  | cons c rest ih =>
    intro l2 h
    cases l2 with
    | nil => cases h
    | cons b r =>
      exact List.Forall₂.cons (fun hc => by cases hc) (ih r (by simpa using h))

theorem skel_subst (d : List Change)
    (hph : ∀ c ∈ d, DELETE_PLACEHOLDER ∉ c.text) :
    ∀ ann : List (Nat × Bool), ann.map Prod.fst = (layerSkel d).1 →
    (substPairs ann (layerSkel d).2).map Prod.fst = fullText d ∧
    List.Forall₂ (fun m p => m = true → p = false) (fullMask d)
      ((substPairs ann (layerSkel d).2).map Prod.snd) := by
  induction d with
  | nil =>
    intro ann h
    rw [show (layerSkel []).1 = [] from rfl] at h
    rw [List.map_eq_nil] at h
    subst h
    exact ⟨rfl, List.Forall₂.nil⟩
  | cons c rest ih =>
    intro ann h
    have ihrest := ih (fun c2 hc2 => hph c2 (List.mem_cons_of_mem _ hc2))
    cases c with
    | del t i =>
      rw [show (layerSkel (Change.del t i :: rest)).1 =
        [DELETE_PLACEHOLDER] ++ (layerSkel rest).1 from rfl] at h
      cases ann with
      | nil => cases h
      | cons p rest2 =>
        rw [List.map_cons] at h
        injection h with h1 h2
        obtain ⟨hf, hm⟩ := ihrest rest2 h2
        rw [show (layerSkel (Change.del t i :: rest)).2 =
          t :: (layerSkel rest).2 from rfl]
        rw [show substPairs (p :: rest2) (t :: (layerSkel rest).2) =
            (t.map fun ch => (ch, false)) ++
              substPairs rest2 (layerSkel rest).2 from by
          rw [substPairs, if_pos h1]
          rfl]
        constructor
        · rw [List.map_append, map_pair_fst, hf]
          rfl
        · rw [List.map_append, map_pair_snd]
          show List.Forall₂ _ ((t.map fun _ => true) ++ fullMask rest) _
          exact forall2_app _ _ _ _ (forall2_true_false t) hm
    | equal t =>
      rw [show (layerSkel (Change.equal t :: rest)).1 =
        t ++ (layerSkel rest).1 from rfl] at h
      obtain ⟨a1, a2, he, hf1, hf2⟩ := map_fst_append_split t ann _ h
      subst he
      obtain ⟨hf, hm⟩ := ihrest a2 hf2
      rw [show (layerSkel (Change.equal t :: rest)).2 =
        (layerSkel rest).2 from rfl]
      rw [substPairs_phfree_append a2 _ a1
        (by rw [hf1]; exact hph (Change.equal t) (List.mem_cons_self _ _))]
      constructor
      · rw [List.map_append, hf1, hf]
        rfl
      · rw [List.map_append]
        show List.Forall₂ _ ((t.map fun _ => false) ++ fullMask rest) _
        refine forall2_app _ _ _ _ ?_ hm
        refine forall2_false_any t (a1.map Prod.snd) ?_
        rw [List.length_map, ← List.length_map a1 Prod.fst, hf1]
    | ins t i =>
      rw [show (layerSkel (Change.ins t i :: rest)).1 =
        t ++ (layerSkel rest).1 from rfl] at h
      obtain ⟨a1, a2, he, hf1, hf2⟩ := map_fst_append_split t ann _ h
      subst he
      obtain ⟨hf, hm⟩ := ihrest a2 hf2
      rw [show (layerSkel (Change.ins t i :: rest)).2 =
        (layerSkel rest).2 from rfl]
      rw [substPairs_phfree_append a2 _ a1
        (by rw [hf1]; exact hph (Change.ins t i) (List.mem_cons_self _ _))]
      constructor
      · rw [List.map_append, hf1, hf]
        rfl
      · rw [List.map_append]
        show List.Forall₂ _ ((t.map fun _ => false) ++ fullMask rest) _
        refine forall2_app _ _ _ _ ?_ hm
        refine forall2_false_any t (a1.map Prod.snd) ?_
        rw [List.length_map, ← List.length_map a1 Prod.fst, hf1]

theorem take1_drop (c : Nat) : ∀ (hay : Str) (k : Nat),
    ((hay.drop k).take 1 = [c]) ↔ hay.get? k = some c := by
  intro hay
  induction hay with
  | nil => intro k; simp
  | cons x xs ih =>
    intro k
    cases k with
    | zero =>
      show ([x] = [c]) ↔ some x = some c
      constructor
      · intro h
        injection h with h1 h2
        rw [h1]
      · intro h
        injection h with h1
        rw [h1]
    | succ n => exact ih n

theorem iog_first (hay : Str) (c : Nat) : ∀ (fuel i j : Nat),
    indexOfGo hay [c] i fuel = some j →
    i ≤ j ∧ j < hay.length ∧ hay.get? j = some c ∧
    ∀ k, i ≤ k → k < j → hay.get? k ≠ some c := by
  intro fuel
  induction fuel with
  | zero => intro i j h; cases h
  | succ f ih =>
    intro i j h
    rw [indexOfGo] at h
    by_cases hc : i + [c].length ≤ hay.length ∧ (hay.drop i).take [c].length = [c]
    · rw [if_pos hc] at h
      injection h with h1
      subst h1
      refine ⟨Nat.le_refl i, by
        have := hc.1
        simp only [List.length_cons, List.length_nil] at this
        omega, (take1_drop c hay i).mp hc.2, ?_⟩
      intro k hk1 hk2
      omega
    · rw [if_neg hc] at h
      by_cases hlt : i < hay.length
      · rw [if_pos hlt] at h
        obtain ⟨h1, h2, h3, h4⟩ := ih (i + 1) j h
        refine ⟨by omega, h2, h3, ?_⟩
        intro k hk1 hk2
        by_cases hki : k = i
        · subst hki
          intro hg
          exact hc ⟨by simp only [List.length_cons, List.length_nil]; omega,
            (take1_drop c hay k).mpr hg⟩
        · exact h4 k (by omega) hk2
      · rw [if_neg hlt] at h
        cases h

theorem iog_none (hay : Str) (c : Nat) : ∀ (fuel i : Nat),
    indexOfGo hay [c] i fuel = none → hay.length < i + fuel →
    ∀ k, i ≤ k → k < hay.length → hay.get? k ≠ some c := by
  intro fuel
  induction fuel with
  | zero =>
    intro i h hfu k hk1 hk2
    omega
  | succ f ih =>
    intro i h hfu k hk1 hk2
    rw [indexOfGo] at h
    by_cases hc : i + [c].length ≤ hay.length ∧ (hay.drop i).take [c].length = [c]
    · rw [if_pos hc] at h
      cases h
    · rw [if_neg hc] at h
      by_cases hlt : i < hay.length
      · rw [if_pos hlt] at h
        by_cases hki : k = i
        · subst hki
          intro hg
          exact hc ⟨by simp only [List.length_cons, List.length_nil]; omega,
            (take1_drop c hay k).mpr hg⟩
        · exact ih (i + 1) h (by omega) k (by omega) hk2
      · omega

theorem get_mem_of_get? {a : Type} : ∀ (l : List a) (n : Nat) (x : a),
    l.get? n = some x → x ∈ l := by
  intro l
  induction l with
  | nil => intro n x h; cases h
  | cons y ys ih =>
    intro n x h
    cases n with
    | zero =>
      injection h with h1
      rw [h1]
      exact List.mem_cons_self _ _
    | succ m => exact List.mem_cons_of_mem _ (ih m x h)

theorem mem_get? {a : Type} : ∀ (l : List a) (x : a), x ∈ l →
    ∃ n, l.get? n = some x := by
  intro l
  induction l with
  | nil => intro x h; cases h
  | cons y ys ih =>
    intro x h
    cases h with
    | head => exact ⟨0, rfl⟩
    | tail _ hm =>
      obtain ⟨n, hn⟩ := ih x hm
      exact ⟨n + 1, hn⟩

theorem indexOfStr_ph_none (remaining : Str) (c : Nat)
    (h : indexOfStr remaining [c] = none) : c ∉ remaining := by
  intro hm
  obtain ⟨n, hn⟩ := mem_get? remaining c hm
  have hlen : n < remaining.length := by
    by_contra hge
    rw [List.get?_eq_none.mpr (by omega)] at hn
    cases hn
  rw [indexOfStr, indexOfFrom, if_neg (by intro hx; cases hx)] at h
  exact iog_none remaining c (remaining.length + 1) 0 h (by omega) n
    (by omega) hlen hn

theorem indexOfStr_ph_some (remaining : Str) (c : Nat) (pi2 : Nat)
    (h : indexOfStr remaining [c] = some pi2) :
    pi2 < remaining.length ∧ remaining.get? pi2 = some c ∧
    c ∉ remaining.take pi2 := by
  rw [indexOfStr, indexOfFrom, if_neg (by intro hx; cases hx)] at h
  obtain ⟨h1, h2, h3, h4⟩ := iog_first remaining c (remaining.length + 1) 0 pi2 h
  refine ⟨h2, h3, ?_⟩
  intro hm
  obtain ⟨n, hn⟩ := mem_get? _ c hm
  have hnlt : n < pi2 := by
    by_contra hge
    rw [List.get?_eq_none.mpr (by rw [List.length_take]; omega)] at hn
    cases hn
  refine h4 n (by omega) hnlt ?_
  rw [← hn, List.get?_take hnlt]

theorem drop_cons_of_get {a : Type} : ∀ (l : List a) (j : Nat) (b : a),
    l.get? j = some b → l.drop j = b :: l.drop (j + 1) := by
  intro l
  induction l with
  | nil => intro j b h; cases h
  | cons x xs ih =>
    intro j b h
    cases j with
    | zero =>
      injection h with h1
      rw [h1]
      rfl
    | succ m => exact ih m b h

theorem getD_eq_headD_drop : ∀ (l : List Str) (n : Nat),
    l.getD n [] = (l.drop n).headD [] := by
  intro l
  induction l with
  | nil => intro n; cases n <;> rfl
  | cons x xs ih =>
    intro n
    cases n with
    | zero => rfl
    | succ m => exact ih m

theorem delPairs_cons (c : Change) (rest : List Change) :
    delPairs (c :: rest) = delPairs [c] ++ delPairs rest := by
  rw [show c :: rest = [c] ++ rest from rfl, delPairs_append]

theorem delPairs_pushOp (id : Str) (op : DTag) (t : Str) :
    delPairs [pushOp id op t] = tupleBase op t := by
  cases op with
  | insT => rfl
  | delT =>
    show (t.map fun ch => (ch, true)) ++ [] = t.map fun c => (c, true)
    rw [List.append_nil]
  | eqT =>
    show (t.map fun ch => (ch, false)) ++ [] = t.map fun c => (c, false)
    rw [List.append_nil]

theorem delPairs_equal_single (t : Str) :
    delPairs [Change.equal t] = t.map fun ch => (ch, false) := by
  show (t.map fun ch => (ch, false)) ++ [] = _
  rw [List.append_nil]

theorem tupleBase_append (op : DTag) (a b : Str) :
    tupleBase op (a ++ b) = tupleBase op a ++ tupleBase op b := by
  cases op with
  | insT => rfl
  | delT =>
    show (a ++ b).map _ = a.map _ ++ b.map _
    rw [List.map_append]
  | eqT =>
    show (a ++ b).map _ = a.map _ ++ b.map _
    rw [List.map_append]

theorem tupleBase_fst_ins (t : Str) :
    (tupleBase DTag.insT t).map Prod.fst = [] := rfl

theorem tupleBase_fst (op : DTag) (t : Str) (hop : ¬op = DTag.insT) :
    (tupleBase op t).map Prod.fst = t := by
  cases op with
  | insT => exact absurd rfl hop
  | delT => exact map_pair_fst t true
  | eqT => exact map_pair_fst t false

theorem substPairs_phfree_full (a : List (Nat × Bool)) (ds : List Str)
    (h : DELETE_PLACEHOLDER ∉ a.map Prod.fst) : substPairs a ds = a := by
  have := substPairs_phfree_append [] ds a h
  rw [List.append_nil] at this
  rw [this]
  show a ++ substPairs [] ds = a
  rw [show substPairs [] ds = [] from rfl, List.append_nil]

theorem tupleBase_phfree (op : DTag) (t : Str)
    (h : DELETE_PLACEHOLDER ∉ t) :
    DELETE_PLACEHOLDER ∉ (tupleBase op t).map Prod.fst := by
  cases op with
  | insT => intro hx; cases hx
  | delT => rw [tupleBase_fst _ _ (by intro hx; cases hx)]; exact h
  | eqT => rw [tupleBase_fst _ _ (by intro hx; cases hx)]; exact h

theorem tupleBase_nil (op : DTag) : tupleBase op [] = [] := by
  cases op <;> rfl

theorem countPH_append : ∀ a b : Str, countPH (a ++ b) = countPH a + countPH b := by
  intro a b
  induction a with
  | nil => rw [List.nil_append, countPH]; omega
  | cons c rest ih => rw [List.cons_append, countPH, countPH, ih]; omega

theorem countPH_eq_zero : ∀ t : Str, DELETE_PLACEHOLDER ∉ t → countPH t = 0 := by
  intro t
  induction t with
  | nil => intro _; rfl
  | cons c rest ih =>
    intro h
    rw [countPH, if_neg (fun hc => h (by rw [hc]; exact List.mem_cons_self _ _)),
      ih (fun hm => h (List.mem_cons_of_mem _ hm))]

theorem phSplitGo_pairs (id : Str) (dts : List Str) (op : DTag) :
    ∀ (fuel : Nat) (remaining : Str) (result : List Change) (dIdx : Nat)
      (phIdxs : List Nat),
    remaining.length < fuel →
    (op = DTag.insT → DELETE_PLACEHOLDER ∉ remaining) →
    delPairs (phSplitGo id dts op fuel remaining (result, dIdx, phIdxs)).1 =
      delPairs result ++ substPairs (tupleBase op remaining) (dts.drop dIdx) ∧
    (phSplitGo id dts op fuel remaining (result, dIdx, phIdxs)).2.1 =
      dIdx + countPH remaining := by
  intro fuel
  induction fuel with
  | zero => intro remaining _ _ _ hlen; omega
  | succ f ih =>
    intro remaining result dIdx phIdxs hlen hins
    rw [phSplitGo]
    by_cases h0 : remaining.length = 0
    · rw [if_pos h0]
      have hrem : remaining = [] := List.length_eq_zero.mp h0
      subst hrem
      refine ⟨?_, ?_⟩
      · show delPairs result = _
        rw [tupleBase_nil, show substPairs [] (dts.drop dIdx) = [] from rfl,
          List.append_nil]
      · show dIdx = dIdx + countPH []
        rw [show countPH [] = 0 from rfl]
        omega
    · rw [if_neg h0]
      cases hio : indexOfStr remaining [DELETE_PLACEHOLDER] with
      | none =>
        dsimp only
        have hnm := indexOfStr_ph_none remaining _ hio
        refine ⟨?_, ?_⟩
        · show delPairs (result ++ [pushOp id op remaining]) = _
          rw [delPairs_append, delPairs_pushOp,
            substPairs_phfree_full _ _ (tupleBase_phfree op remaining hnm)]
        · show dIdx = dIdx + countPH remaining
          rw [countPH_eq_zero remaining hnm]
          omega
      | some pi2 =>
        dsimp only
        obtain ⟨hlt, hget, hnp⟩ := indexOfStr_ph_some remaining _ pi2 hio
        by_cases hop : op = DTag.insT
        · exact absurd (get_mem_of_get? remaining pi2 _ hget) (hins hop)
        · have hdec : remaining = remaining.take pi2 ++
              DELETE_PLACEHOLDER :: remaining.drop (pi2 + 1) := by
            conv_lhs => rw [← List.take_append_drop pi2 remaining]
            rw [drop_cons_of_get remaining pi2 DELETE_PLACEHOLDER hget]
          have hlen2 : (remaining.drop (pi2 + 1)).length < f := by
            rw [List.length_drop]
            omega
          have hins2 : op = DTag.insT →
              DELETE_PLACEHOLDER ∉ remaining.drop (pi2 + 1) :=
            fun ho => absurd ho hop
          obtain ⟨ihf, ihd⟩ := ih (remaining.drop (pi2 + 1)) _ _ _ hlen2 hins2
          have hr1 : delPairs (if 0 < pi2 then
                result ++ [pushOp id op (remaining.take pi2)] else result) =
              delPairs result ++ tupleBase op (remaining.take pi2) := by
            by_cases hpi : 0 < pi2
            · rw [if_pos hpi, delPairs_append, delPairs_pushOp]
            · have hz : pi2 = 0 := by omega
              rw [if_neg hpi, hz, show remaining.take 0 = [] from rfl,
                tupleBase_nil, List.append_nil]
          have hsp : substPairs (tupleBase op remaining) (dts.drop dIdx) =
              tupleBase op (remaining.take pi2) ++
                ((dts.getD dIdx []).map fun ch => (ch, false)) ++
                substPairs (tupleBase op (remaining.drop (pi2 + 1)))
                  (dts.drop (dIdx + 1)) := by
            conv_lhs => rw [hdec]
            rw [tupleBase_append,
              substPairs_phfree_append _ _ _ (tupleBase_phfree op _ hnp),
              List.append_assoc]
            congr 1
            cases op with
            | insT => exact absurd rfl hop
            | delT =>
              show substPairs ((DELETE_PLACEHOLDER, true) ::
                (remaining.drop (pi2 + 1)).map fun c => (c, true))
                (dts.drop dIdx) = _
              rw [substPairs, if_pos rfl, ← getD_eq_headD_drop,
                List.drop_drop]
              rfl
            | eqT =>
              show substPairs ((DELETE_PLACEHOLDER, false) ::
                (remaining.drop (pi2 + 1)).map fun c => (c, false))
                (dts.drop dIdx) = _
              rw [substPairs, if_pos rfl, ← getD_eq_headD_drop,
                List.drop_drop]
              rfl

          have hcount : countPH remaining =
              countPH (remaining.drop (pi2 + 1)) + 1 := by
            conv_lhs => rw [hdec]
            rw [countPH_append, countPH_eq_zero _ hnp, countPH, if_pos rfl]
            omega
          refine ⟨?_, ?_⟩
          · rw [ihf]
            by_cases hdt : dts.getD dIdx [] = []
            · simp only [if_neg (fun hne : ¬dts.getD dIdx [] = [] => hne hdt)]
              rw [hr1, hsp, hdt]
              simp only [List.map_nil, List.append_nil, List.append_assoc]
            · simp only [if_pos hdt]
              rw [delPairs_append, hr1, delPairs_equal_single, hsp]
              simp only [List.append_assoc]
          · rw [ihd, hcount]
            omega

theorem substPairs_append_count :
    ∀ (a b : List (Nat × Bool)) (ds : List Str),
    substPairs (a ++ b) ds =
      substPairs a ds ++ substPairs b (ds.drop (countPH (a.map Prod.fst))) := by
  intro a
  induction a with
  | nil =>
    intro b ds
    rw [List.nil_append, show (([] : List (Nat × Bool)).map Prod.fst) = [] from rfl,
      show countPH [] = 0 from rfl, List.drop_zero]
    rfl
  | cons p rest ih =>
    intro b ds
    rw [List.cons_append, substPairs, substPairs, List.map_cons, countPH]
    by_cases hph : p.1 = DELETE_PLACEHOLDER
    · rw [if_pos hph, if_pos hph, if_pos hph, ih, List.append_assoc,
        List.drop_drop]
    · rw [if_neg hph, if_neg hph, if_neg hph, ih]
      have : 0 + countPH (rest.map Prod.fst) = countPH (rest.map Prod.fst) := by
        omega
      rw [this, List.cons_append]

theorem dmpBase_cons (d : DmpDiff) (rest : List DmpDiff) :
    dmpBase (d :: rest) = tupleBase d.1 d.2 ++ dmpBase rest := by
  obtain ⟨tag, text⟩ := d
  cases tag with
  | insT => rfl
  | delT => rfl
  | eqT => rfl

theorem tupleBase_fst_count (op : DTag) (t : Str)
    (hins : op = DTag.insT → DELETE_PLACEHOLDER ∉ t) :
    countPH ((tupleBase op t).map Prod.fst) = countPH t := by
  cases op with
  | insT =>
    rw [tupleBase_fst_ins, show countPH [] = 0 from rfl,
      countPH_eq_zero t (hins rfl)]
  | delT => rw [tupleBase_fst _ _ (fun hx => by cases hx)]
  | eqT => rw [tupleBase_fst _ _ (fun hx => by cases hx)]

theorem phWalk_go (id : Str) (dts : List Str) :
    ∀ (raw : List DmpDiff) (result : List Change) (dIdx : Nat)
      (phIdxs : List Nat),
    (∀ d ∈ raw, d.1 = DTag.insT → DELETE_PLACEHOLDER ∉ d.2) →
    delPairs (List.foldl
        (fun st d => phSplitGo id dts d.1 (d.2.length + 1) d.2 st)
        (result, dIdx, phIdxs) raw).1 =
      delPairs result ++ substPairs (dmpBase raw) (dts.drop dIdx) := by
  intro raw
  induction raw with
  | nil =>
    intro result dIdx phIdxs _
    rw [List.foldl_nil]
    show delPairs result = _
    rw [show dmpBase [] = [] from rfl,
      show substPairs [] (dts.drop dIdx) = [] from rfl, List.append_nil]
  | cons d rest ih =>
    intro result dIdx phIdxs hins
    rw [List.foldl_cons]
    have hd := phSplitGo_pairs id dts d.1 (d.2.length + 1) d.2 result dIdx phIdxs
      (by omega) (hins d (List.mem_cons_self _ _))
    have hst : phSplitGo id dts d.1 (d.2.length + 1) d.2 (result, dIdx, phIdxs) =
        ((phSplitGo id dts d.1 (d.2.length + 1) d.2 (result, dIdx, phIdxs)).1,
         (phSplitGo id dts d.1 (d.2.length + 1) d.2 (result, dIdx, phIdxs)).2.1,
         (phSplitGo id dts d.1 (d.2.length + 1) d.2 (result, dIdx, phIdxs)).2.2) :=
      rfl
    rw [hst, ih _ _ _ (fun d2 hd2 => hins d2 (List.mem_cons_of_mem _ hd2)),
      hd.1, hd.2, dmpBase_cons, substPairs_append_count,
      tupleBase_fst_count d.1 d.2 (fun hi => hins d (List.mem_cons_self _ _) hi),
      List.drop_drop, List.append_assoc]

theorem phWalk_pairs (id : Str) (dts : List Str) (raw : List DmpDiff)
    (hins : ∀ d ∈ raw, d.1 = DTag.insT → DELETE_PLACEHOLDER ∉ d.2) :
    delPairs (phWalk id dts raw).1 = substPairs (dmpBase raw) dts := by
  rw [phWalk, phWalk_go id dts raw [] 0 [] hins, List.drop_zero]
  rfl

theorem delPairs_cons1 (c : Change) (l : List Change) :
    delPairs (c :: l) = dp1 c ++ delPairs l := by
  cases c <;> rfl

theorem delPairs_ins_map (parts : List Str) (cid : Str) :
    delPairs (parts.map fun p => Change.ins p cid) = [] := by
  induction parts with
  | nil => rfl
  | cons p rest ih =>
    rw [List.map_cons, delPairs_cons1, ih]
    rfl

theorem step4_pairs (phIdxs : List Nat) :
    ∀ (l : List Change) (i : Nat) (sr : List Change) (up : List Nat),
    delPairs (step4Go phIdxs l i (sr, up)).1 = delPairs sr ++ delPairs l := by
  intro l
  induction l with
  | nil =>
    intro i sr up
    rw [step4Go]
    show delPairs sr = delPairs sr ++ delPairs []
    rw [show delPairs [] = [] from rfl, List.append_nil]
  | cons c rest ih =>
    intro i sr up
    cases c with
    | ins t cid =>
      rw [step4Go]
      by_cases hm : RANGE_START ∈ t ∨ RANGE_END ∈ t
      · rw [if_pos hm, ih, delPairs_append, delPairs_ins_map, List.append_nil,
          delPairs_cons1]
        rw [show dp1 (Change.ins t cid) = [] from rfl, List.nil_append]
      · rw [if_neg hm, ih, delPairs_append, delPairs_cons1,
          delPairs_cons1 (Change.ins t cid) rest]
        rw [show dp1 (Change.ins t cid) = [] from rfl,
          show delPairs ([] : List Change) = [] from rfl]
        simp only [List.nil_append, List.append_nil]
    | equal t =>
      show delPairs (step4Go phIdxs rest (i + 1)
        (sr ++ [Change.equal t],
         if i ∈ phIdxs then up ++ [sr.length] else up)).1 = _
      rw [ih, delPairs_append, delPairs_cons1, List.append_assoc,
        delPairs_cons1]
      rw [show delPairs ([] : List Change) = [] from rfl, List.append_nil]
    | del t cid =>
      show delPairs (step4Go phIdxs rest (i + 1)
        (sr ++ [Change.del t cid],
         if i ∈ phIdxs then up ++ [sr.length] else up)).1 = _
      rw [ih, delPairs_append, delPairs_cons1, List.append_assoc,
        delPairs_cons1]
      rw [show delPairs ([] : List Change) = [] from rfl, List.append_nil]

theorem get?_some_lt {a : Type} : ∀ (l : List a) (n : Nat) (x : a),
    l.get? n = some x → n < l.length := by
  intro l
  induction l with
  | nil => intro n x h; cases h
  | cons y ys ih =>
    intro n x h
    cases n with
    | zero => exact Nat.succ_pos _
    | succ m => exact Nat.succ_lt_succ (ih m x h)

theorem set_len_app {a : Type} : ∀ (pre : List a) (x : a) (post : List a)
    (v : a) (n : Nat), n = pre.length →
    (pre ++ x :: post).set n v = pre ++ v :: post := by
  intro pre
  induction pre with
  | nil =>
    intro x post v n hn
    subst hn
    rfl
  | cons y ys ih =>
    intro x post v n hn
    subst hn
    show (y :: (ys ++ x :: post)).set (ys.length + 1) v = _
    rw [List.set_cons_succ, ih x post v ys.length rfl]
    rfl

theorem isRangeStart_dp1 (c : Change) (h : isRangeStart c = true) :
    dp1 c = [] := by
  cases c with
  | ins t cid => rfl
  | equal t => cases h
  | del t cid => cases h

theorem swap_delPairs (sr : List Change) (i : Nat) (prev change : Change)
    (hp : sr.get? i = some prev) (hc : sr.get? (i + 1) = some change)
    (hst : isRangeStart change = true) :
    delPairs ((sr.set i change).set (i + 1) prev) = delPairs sr := by
  have hlt : i < sr.length := get?_some_lt sr i prev hp
  have h1 : sr.drop i = prev :: sr.drop (i + 1) := drop_cons_of_get sr i prev hp
  have h2 : sr.drop (i + 1) = change :: sr.drop (i + 2) :=
    drop_cons_of_get sr (i + 1) change hc
  have hdec : sr = sr.take i ++ prev :: change :: sr.drop (i + 2) := by
    conv_lhs => rw [← List.take_append_drop i sr]
    rw [h1, h2]
  have hlen : i = (sr.take i).length := by
    rw [List.length_take]
    omega
  have hs1 : sr.set i change = sr.take i ++ change :: change :: sr.drop (i + 2) := by
    conv_lhs => rw [hdec]
    exact set_len_app _ _ _ _ _ hlen
  have hs2 : (sr.set i change).set (i + 1) prev =
      sr.take i ++ change :: prev :: sr.drop (i + 2) := by
    rw [hs1, show sr.take i ++ change :: change :: sr.drop (i + 2) =
      (sr.take i ++ [change]) ++ change :: sr.drop (i + 2) from by
        rw [List.append_assoc]
        rfl]
    rw [set_len_app _ _ _ _ _ (by rw [List.length_append, ← hlen]; rfl)]
    rw [List.append_assoc]
    rfl
  rw [hs2]
  conv_rhs => rw [hdec]
  rw [delPairs_append, delPairs_append, delPairs_cons1, delPairs_cons1,
    delPairs_cons1 prev, delPairs_cons1 change, isRangeStart_dp1 change hst,
    List.nil_append, List.nil_append]

theorem step5_pairs : ∀ (i : Nat) (sr : List Change) (up : List Nat),
    delPairs (step5Go i sr up).1 = delPairs sr := by
  intro i
  induction i with
  | zero => intro sr up; rfl
  | succ i ih =>
    intro sr up
    rw [step5Go]
    cases hc1 : sr.get? (i + 1) with
    | none =>
      cases hc2 : sr.get? i with
      | none => exact ih sr up
      | some prev => exact ih sr up
    | some change =>
      cases hc2 : sr.get? i with
      | none => exact ih sr up
      | some prev =>
        dsimp only
        by_cases hrs : isRangeStart change = true
        · rw [if_pos hrs]
          cases hc3 : sr.get? (i + 2) with
          | none => exact ih sr up
          | some nextChange =>
            dsimp only
            by_cases hre : isRangeEnd nextChange = true
            · rw [if_pos hre]
              by_cases hup : i ∈ up
              · rw [if_pos hup]
                by_cases hpos : 0 < i
                · rw [if_pos hpos]
                  cases hc4 : sr.get? (i - 1) with
                  | none =>
                    dsimp only
                    rw [ih]
                    exact swap_delPairs sr i prev change hc2 hc1 hrs
                  | some beforePrev =>
                    dsimp only
                    by_cases hre2 : isRangeEnd beforePrev = true
                    · rw [if_pos hre2]
                      exact ih sr up
                    · rw [if_neg hre2, ih]
                      exact swap_delPairs sr i prev change hc2 hc1 hrs
                · rw [if_neg hpos, ih]
                  exact swap_delPairs sr i prev change hc2 hc1 hrs
              · rw [if_neg hup]
                exact ih sr up
            · rw [if_neg hre]
              exact ih sr up
        · rw [if_neg hrs]
          exact ih sr up

theorem mergeAdjacentSegments_cons (c : Change) (rest : List Change) :
    mergeAdjacentSegments (c :: rest) =
      match c, mergeAdjacentSegments rest with
      | Change.equal t1, Change.equal t2 :: tail =>
        Change.equal (t1 ++ t2) :: tail
      | Change.ins t1 i1, Change.ins t2 i2 :: tail =>
        if i1 = i2 then Change.ins (t1 ++ t2) i1 :: tail
        else Change.ins t1 i1 :: Change.ins t2 i2 :: tail
      | Change.del t1 i1, Change.del t2 i2 :: tail =>
        if i1 = i2 then Change.del (t1 ++ t2) i1 :: tail
        else Change.del t1 i1 :: Change.del t2 i2 :: tail
      | c, merged => c :: merged := rfl

theorem merge_pairs : ∀ l : List Change,
    delPairs (mergeAdjacentSegments l) = delPairs l := by
  intro l
  induction l with
  | nil => rfl
  | cons c rest ih =>
    rw [mergeAdjacentSegments_cons]
    cases hm : mergeAdjacentSegments rest with
    | nil =>
      rw [hm] at ih
      cases c <;>
        (dsimp only
         rw [delPairs_cons1, delPairs_cons1, ← ih])
    | cons m tail =>
      rw [hm] at ih
      cases c with
      | equal t1 =>
        cases m with
        | equal t2 =>
          dsimp only
          simp only [delPairs_cons1, ← ih, dp1, List.map_append,
            List.append_assoc]
        | ins t2 i2 =>
          dsimp only
          simp only [delPairs_cons1, ← ih]
        | del t2 i2 =>
          dsimp only
          simp only [delPairs_cons1, ← ih]
      | ins t1 i1 =>
        cases m with
        | equal t2 =>
          dsimp only
          simp only [delPairs_cons1, ← ih]
        | ins t2 i2 =>
          dsimp only
          by_cases hi : i1 = i2
          · rw [if_pos hi]
            simp only [delPairs_cons1, ← ih, dp1, List.nil_append]
          · rw [if_neg hi]
            simp only [delPairs_cons1, ← ih]
        | del t2 i2 =>
          dsimp only
          simp only [delPairs_cons1, ← ih]
      | del t1 i1 =>
        cases m with
        | equal t2 =>
          dsimp only
          simp only [delPairs_cons1, ← ih]
        | ins t2 i2 =>
          dsimp only
          simp only [delPairs_cons1, ← ih]
        | del t2 i2 =>
          dsimp only
          by_cases hi : i1 = i2
          · rw [if_pos hi]
            simp only [delPairs_cons1, ← ih, dp1, List.map_append,
              List.append_assoc]
          · rw [if_neg hi]
            simp only [delPairs_cons1, ← ih]

theorem dmpBase_fst : ∀ raw : List DmpDiff,
    (dmpBase raw).map Prod.fst = dmpDel raw := by
  intro raw
  induction raw with
  | nil => rfl
  | cons d rest ih =>
    rw [dmpBase_cons, List.map_append, ih]
    obtain ⟨tag, text⟩ := d
    cases tag with
    | insT =>
      show [] ++ dmpDel rest = ([] : Str) ++ dmpDel rest
      rfl
    | delT =>
      show (text.map (fun c => (c, true))).map Prod.fst ++ dmpDel rest =
        text ++ dmpDel rest
      rw [map_pair_fst]
    | eqT =>
      show (text.map (fun c => (c, false))).map Prod.fst ++ dmpDel rest =
        text ++ dmpDel rest
      rw [map_pair_fst]

theorem mem_ins_dmpIns : ∀ (raw : List DmpDiff) (d : DmpDiff) (c : Nat),
    d ∈ raw → d.1 = DTag.insT → c ∈ d.2 → c ∈ dmpIns raw := by
  intro raw
  induction raw with
  | nil => intro d c hd; cases hd
  | cons e rest ih =>
    intro d c hd hop hc
    have hsplit : dmpIns (e :: rest) =
        (if e.1 = DTag.delT then [] else e.2) ++ dmpIns rest := rfl
    rw [hsplit]
    cases hd with
    | head =>
      rw [if_neg (by rw [hop]; intro hx; cases hx)]
      exact List.mem_append_left _ hc
    | tail _ hm => exact List.mem_append_right _ (ih d c hm hop hc)

/-- C1: corrected. Through steps 1 to 6 of layerDiffs (layerPre: skeleton,
raw diff, placeholder restoration, marker isolation, empty-range
expansion, coalescing), for every placeholder-free existingDiff and
targetText the base side of the output reconstructs the full document
text of existingDiff, and no character deleted in existingDiff is covered
by a Delete op of the output (it reappears as Equal). The original claim
extended this to the full layerDiffs output; the final semantic-cleanup
pass breaks it (see the counterexample). -/
theorem C1_layer_pre_preserves_deletions (existingDiff : List Change)
    (targetText id : Str)
    (hph1 : ∀ c ∈ existingDiff, DELETE_PLACEHOLDER ∉ c.text)
    (hph2 : DELETE_PLACEHOLDER ∉ targetText) :
    reconDel (layerPre existingDiff targetText id) = fullText existingDiff ∧
    List.Forall₂ (fun m p => m = true → p = false) (fullMask existingDiff)
      (paintB (layerPre existingDiff targetText id)) := by
  have hvalid := diff_main_valid (layerSkel existingDiff).1 targetText
  have hins : ∀ d ∈ diff_main (layerSkel existingDiff).1 targetText,
      d.1 = DTag.insT → DELETE_PLACEHOLDER ∉ d.2 := by
    intro d hd hop hmem
    exact hph2 (hvalid.2 ▸
      mem_ins_dmpIns (diff_main (layerSkel existingDiff).1 targetText)
        d DELETE_PLACEHOLDER hd hop hmem)
  have hdp : delPairs (layerPre existingDiff targetText id) =
      substPairs (dmpBase (diff_main (layerSkel existingDiff).1 targetText))
        (layerSkel existingDiff).2 := by
    rw [layerPre]
    rw [merge_pairs, step5_pairs, step4_pairs,
      show delPairs ([] : List Change) = [] from rfl, List.nil_append,
      phWalk_pairs id (layerSkel existingDiff).2
        (diff_main (layerSkel existingDiff).1 targetText) hins]
  have hmain := skel_subst existingDiff hph1
    (dmpBase (diff_main (layerSkel existingDiff).1 targetText))
    (by rw [dmpBase_fst]; exact hvalid.1)
  constructor
  · rw [reconDel_eq_delPairs_fst, hdp]
    exact hmain.1
  · rw [paintB_eq_delPairs_snd, hdp]
    exact hmain.2

theorem C1_layer_pre_witness :
    (∀ c ∈ [Change.equal (strOf "ab"), Change.del (strOf "x") (strOf "e"),
        Change.equal (strOf "c")], DELETE_PLACEHOLDER ∉ c.text) ∧
    DELETE_PLACEHOLDER ∉ strOf "Z" ∧
    (reconDel (layerPre [Change.equal (strOf "ab"),
        Change.del (strOf "x") (strOf "e"), Change.equal (strOf "c")]
        (strOf "Z") (strOf "n")) =
      fullText [Change.equal (strOf "ab"), Change.del (strOf "x") (strOf "e"),
        Change.equal (strOf "c")] ∧
     List.Forall₂ (fun m p => m = true → p = false)
      (fullMask [Change.equal (strOf "ab"), Change.del (strOf "x") (strOf "e"),
        Change.equal (strOf "c")])
      (paintB (layerPre [Change.equal (strOf "ab"),
        Change.del (strOf "x") (strOf "e"), Change.equal (strOf "c")]
        (strOf "Z") (strOf "n")))) :=
  ⟨by decide, by decide,
   C1_layer_pre_preserves_deletions
     [Change.equal (strOf "ab"), Change.del (strOf "x") (strOf "e"),
      Change.equal (strOf "c")] (strOf "Z") (strOf "n")
     (by decide) (by decide)⟩
